import Mathlib

/-!
# MLLF scheduler simulation (`llf_scheduler.c`): embedding and verified properties

The C program is embedded shallowly.

* `Job*` pointers all point into the fixed array `jobs_arr`; a pointer is
  modelled by the index of the job it points to, `NULL` by `none`.
* The ready queue (`ready_queue[0 .. ready_queue_size-1]`) is the list of those
  indices, in array order.
* The four result counters reached through pointers in the C state are fields
  of the state.
* `int` values are modelled on `Int`; the sentinels `INT_MAX` and `INT_MIN`
  keep their 32-bit values.  Where a value leaves the range of `int` on input
  that the program accepts, the operation is the 32-bit one (`castInt`): the
  `(int)` conversions of `generate_jobs`, the numbers that `fscanf` stores
  (`scanInt`) and the subtraction `D_min - L_a` of `calculate_mllf_quantum`.
* The laxity `absolute_deadline - current_time - remaining_wcet` of
  `calculate_all_laxities` is taken exactly.  In every run on validated tasks
  both subtractions stay within `int` at every call (`laxity_in_range_of_run`),
  and the exact value is then the value of the 32-bit subtractions
  (`laxityNow_eq_int`); the theorems on the function and on the selection
  alone carry this range as the hypothesis `LaxityInRange`.
* `long long` values (`gcd`, `lcm`, `calculate_hyperperiod`) are modelled on
  `Int` as well; `LLONG_MAX` keeps its 64-bit value.
* `read_tasks` is embedded over the contents of a task file that could be
  opened: the sequence of the items that `fscanf` meets between white space
  (`Token`), a numeral with its value as written.
* `exit(EXIT_FAILURE)` and `return 0` failure paths are `none`.
* Text written to the trace file or the console is not modelled, except that
  the snapshot logged in step 5 of every tick is recorded as the state at that
  point, and that `read_tasks` returns whether it has written the warning
  `MAX_TASKS reached`.
* Properties that speak of every sub-step of a tick are stated over
  `run_boundaries`, the same loop with the state after every sub-step recorded;
  `boundaryLoop_spec` shows that it performs the run of `run_mllf_simulation`.
-/

namespace MLLF

/-! ## Constants -/

def INT_MAX : Int := 2147483647

def MAX_TASKS : Nat := 10

def MAX_JOBS : Nat := 1000

def NO_TASK_FOUND : Int := -1

def INT_MIN : Int := -2147483648

/-- The `int` that holds the value `x` of a wider computation: `x` itself when
it lies in `[INT_MIN, INT_MAX]`, and `x` reduced modulo 2^32 into that range
otherwise.  It is the `(int)` conversion of a `long long`, and the result of
an `int` subtraction whose exact value is `x` as the compiled program computes
it (two's complement wrap-around). -/
def castInt (x : Int) : Int := (x + 2147483648) % 4294967296 - 2147483648

/-! ## Data structures -/

inductive Status where
  | NOT_ARRIVED
  | READY
  | RUNNING
  | COMPLETED
  | MISSED
  deriving DecidableEq

open Status

structure Task where
  id : Int
  arrival_time : Int
  period : Int
  wcet : Int
  deadline : Int
  deriving DecidableEq

structure Job where
  job_id : Int
  task_id : Int
  instance_number : Int
  arrival_time : Int
  wcet : Int
  aet : Int
  remaining_wcet : Int
  remaining_aet : Int
  absolute_deadline : Int
  calculated_laxity : Int
  first_start_time : Int
  last_start_time : Int
  finish_time : Int
  status : Status
  response_time : Int
  turnaround_time : Int
  waiting_time : Int
  deriving DecidableEq

structure SimulationState where
  jobs : List Job
  ready_queue : List Nat
  running_job : Option Nat
  current_time : Int
  last_running_job_id : Int
  current_job_quantum_remaining : Int
  context_switches : Int
  deadline_misses : Int
  completed_jobs : Int
  idle_time : Int
  deriving DecidableEq

/-- Contents of a memory cell that no pointer of the program refers to. -/
def nullJob : Job :=
  { job_id := -1, task_id := -1, instance_number := 0, arrival_time := 0, wcet := 0, aet := -1,
    remaining_wcet := 0, remaining_aet := -1, absolute_deadline := 0, calculated_laxity := INT_MAX,
    first_start_time := -1, last_start_time := -1, finish_time := -1, status := NOT_ARRIVED,
    response_time := -1, turnaround_time := -1, waiting_time := -1 }

/-- Dereference of a job pointer: `jobs_arr[i]`. -/
def getJob (jobs : List Job) (i : Nat) : Job := jobs.getD i nullJob

/-- Store through a job pointer: `jobs_arr[i] = f (jobs_arr[i])`. -/
def updJob (jobs : List Job) (i : Nat) (f : Job → Job) : List Job :=
  jobs.set i (f (getJob jobs i))

/-- Store to the status field through a job pointer: `job->status = st`. -/
def setStatus (jobs : List Job) (i : Nat) (st : Status) : List Job :=
  updJob jobs i (fun j => { j with status := st })

/-! ## Ready queue -/

/-- The C function `add_job_to_ready_queue`; `none` is the abort on a full queue. -/
def add_job_to_ready_queue (s : SimulationState) (job : Nat) : Option SimulationState :=
  if (getJob s.jobs job).status ≠ READY then some s
  else if job ∈ s.ready_queue then some s
  else if s.ready_queue.length < MAX_JOBS then
    some { s with ready_queue := s.ready_queue ++ [job] }
  else none

/-- The C function `remove_job_from_ready_queue`: the first occurrence is taken
out and the later entries move one place down. -/
def remove_job_from_ready_queue (s : SimulationState) (job : Nat) : SimulationState :=
  { s with ready_queue := s.ready_queue.erase job }

/-! ## Laxity -/

/-- Body of the first loop of `calculate_all_laxities` for one queue entry.
The difference `absolute_deadline - current_time - remaining_wcet` is taken
exactly; it is the result of the two `int` subtractions of the program
wherever these do not overflow (`LaxityInRange`, `laxityNow_eq_int`). -/
def laxityStep (now : Int) (jobs : List Job) (i : Nat) : List Job :=
  if (getJob jobs i).status = READY then
    updJob jobs i (fun j =>
      { j with calculated_laxity := j.absolute_deadline - now - j.remaining_wcet })
  else
    updJob jobs i (fun j => { j with calculated_laxity := INT_MAX })

/-- The C function `calculate_all_laxities`, with the laxity of the running job
taken exactly as in `laxityStep`.  At every call of a run on validated tasks
the jobs concerned are not past their deadlines, so neither subtraction
overflows (`laxity_in_range_of_run`). -/
def calculate_all_laxities (s : SimulationState) : SimulationState :=
  let jobs1 := s.ready_queue.foldl (laxityStep s.current_time) s.jobs
  match s.running_job with
  | some r =>
    if (getJob jobs1 r).status = RUNNING then
      { s with jobs := updJob jobs1 r (fun j =>
          { j with calculated_laxity := j.absolute_deadline - s.current_time - j.remaining_wcet }) }
    else { s with jobs := jobs1 }
  | none => { s with jobs := jobs1 }

/-! ## Selection of Ta -/

/-- Body of the first loop of `select_mllf_task_Ta`: running minimum of the
laxities of the READY queue entries. -/
def minLaxityStep (jobs : List Job) (m : Int) (i : Nat) : Int :=
  if (getJob jobs i).status = READY then
    (if (getJob jobs i).calculated_laxity < m then (getJob jobs i).calculated_laxity else m)
  else m

/-- The tie-break block of `select_mllf_task_Ta`, shared by the running job and
the queue entries; the accumulator is
`(task_Ta, min_remaining_wcet_at_min_laxity)`. -/
def tieBreak (jobs : List Job) (acc : Option Nat × Int) (i : Nat) : Option Nat × Int :=
  if (getJob jobs i).remaining_wcet < acc.2 then (some i, (getJob jobs i).remaining_wcet)
  else if (getJob jobs i).remaining_wcet = acc.2 then
    match acc.1 with
    | none => (some i, acc.2)
    | some t => if (getJob jobs i).job_id < (getJob jobs t).job_id then (some i, acc.2) else acc
  else acc

/-- Body of the second loop of `select_mllf_task_Ta`. -/
def selectStep (jobs : List Job) (min_laxity : Int) (acc : Option Nat × Int) (i : Nat) :
    Option Nat × Int :=
  if (getJob jobs i).status = READY ∧ (getJob jobs i).calculated_laxity = min_laxity then
    tieBreak jobs acc i
  else acc

/-- The value of `min_laxity` after the queue loop and the running-job check. -/
def selectMinLaxity (s1 : SimulationState) : Int :=
  let m := s1.ready_queue.foldl (minLaxityStep s1.jobs) INT_MAX
  match s1.running_job with
  | some r =>
    if (getJob s1.jobs r).status = RUNNING then
      (if (getJob s1.jobs r).calculated_laxity < m then (getJob s1.jobs r).calculated_laxity else m)
    else m
  | none => m

/-- The C function `select_mllf_task_Ta`: the state after the call (laxities are
refreshed) and the returned pointer. -/
def select_mllf_task_Ta (s : SimulationState) : SimulationState × Option Nat :=
  if s.ready_queue.length = 0 ∧ s.running_job = none then (s, none)
  else
    let s1 := calculate_all_laxities s
    let min_laxity := selectMinLaxity s1
    let acc0 : Option Nat × Int := (none, INT_MAX)
    let acc1 :=
      match s1.running_job with
      | some r =>
        if (getJob s1.jobs r).status = RUNNING ∧ (getJob s1.jobs r).calculated_laxity = min_laxity
        then tieBreak s1.jobs acc0 r else acc0
      | none => acc0
    let acc2 := s1.ready_queue.foldl (selectStep s1.jobs min_laxity) acc1
    (s1, acc2.1)

/-! ## Quantum -/

/-- Body of the loop of `find_earliest_deadline_higher_laxity_job_deadline` for
the job at index `i`; the accumulator is `(earliest_deadline, Tmin_job)`. -/
def tminStep (jobs : List Job) (ta : Nat) (acc : Int × Option Nat) (i : Nat) : Int × Option Nat :=
  if i = ta then acc
  else if (getJob jobs i).status = COMPLETED ∨ (getJob jobs i).status = MISSED then acc
  else if (getJob jobs i).status = READY ∨ (getJob jobs i).status = RUNNING then
    (if (getJob jobs i).calculated_laxity > (getJob jobs ta).calculated_laxity then
      (if (getJob jobs i).absolute_deadline < acc.1 then
        ((getJob jobs i).absolute_deadline, some i)
       else acc)
     else acc)
  else if (getJob jobs i).status = NOT_ARRIVED then
    (if (getJob jobs i).absolute_deadline < acc.1 then ((getJob jobs i).absolute_deadline, some i)
     else acc)
  else
    (if INT_MAX > (getJob jobs ta).calculated_laxity then
      (if (getJob jobs i).absolute_deadline < acc.1 then
        ((getJob jobs i).absolute_deadline, some i)
       else acc)
     else acc)

/-- The C function `find_earliest_deadline_higher_laxity_job_deadline`, with
`jobs_arr` and `job_count` the job array of the state. -/
def find_earliest_deadline_higher_laxity_job_deadline (s : SimulationState)
    (task_Ta : Option Nat) : Int :=
  match task_Ta with
  | none => INT_MAX
  | some ta =>
    let acc := (List.range s.jobs.length).foldl (tminStep s.jobs ta) (INT_MAX, none)
    match acc.2 with
    | none => NO_TASK_FOUND
    | some _ => acc.1

/-- The C function `calculate_mllf_quantum`.  `D_min` and `L_a` are `int`
values whose difference can leave the range of `int` in a run (a job with a
large `remaining_wcet` has a laxity near `-INT_MAX`), so the subtraction
`D_min - L_a` is the 32-bit operation. -/
def calculate_mllf_quantum (s : SimulationState) (task_Ta : Option Nat) : Int :=
  match task_Ta with
  | none => 0
  | some ta =>
    if (getJob s.jobs ta).remaining_aet ≤ 0 then 0
    else
      let D_min := find_earliest_deadline_higher_laxity_job_deadline s (some ta)
      let D_a := (getJob s.jobs ta).absolute_deadline
      let L_a := (getJob s.jobs ta).calculated_laxity
      if D_min = NO_TASK_FOUND ∨ D_a ≤ D_min then (getJob s.jobs ta).remaining_aet
      else
        let q0 := castInt (D_min - L_a)
        let calculated_quantum :=
          if q0 ≤ 0 ∧ (getJob s.jobs ta).remaining_aet > 0 then 1
          else if q0 < 0 then 0
          else q0
        if calculated_quantum < (getJob s.jobs ta).remaining_aet then calculated_quantum
        else (getJob s.jobs ta).remaining_aet

/-! ## Completion, dispatch, execution, deadline check -/

/-- The C function `handle_completion`. -/
def handle_completion (s : SimulationState) : SimulationState :=
  match s.running_job with
  | some r =>
    if (getJob s.jobs r).remaining_aet ≤ 0 ∧ (getJob s.jobs r).status ≠ COMPLETED
        ∧ (getJob s.jobs r).status ≠ MISSED then
      { s with
        jobs := updJob s.jobs r (fun j =>
          { j with status := COMPLETED, finish_time := s.current_time })
        completed_jobs := s.completed_jobs + 1
        running_job := none
        current_job_quantum_remaining := 0 }
    else s
  | none => s

/-- The dispatch sequence that the idle branch and the preemption branch of
`make_mllf_scheduling_decision` both contain: make `ta` the occupant, mark it
RUNNING, take it out of the queue, compute its quantum, set its start times. -/
def startTa (s : SimulationState) (ta : Nat) : SimulationState :=
  let s1 := { s with running_job := some ta }
  let s2 := { s1 with jobs := setStatus s1.jobs ta RUNNING }
  let s3 := remove_job_from_ready_queue s2 ta
  let s4 := { s3 with current_job_quantum_remaining := calculate_mllf_quantum s3 (some ta) }
  let s5 := { s4 with jobs := updJob s4.jobs ta (fun j =>
    if j.first_start_time = -1 then { j with first_start_time := s4.current_time } else j) }
  { s5 with jobs := updJob s5.jobs ta (fun j => { j with last_start_time := s5.current_time }) }

/-- The closing block of `make_mllf_scheduling_decision`: context-switch check
and update of `last_running_job_id`. -/
def contextSwitchCheck (s : SimulationState) : SimulationState :=
  let current_running_job_id : Int :=
    match s.running_job with
    | none => -1
    | some r => (getJob s.jobs r).job_id
  let s1 :=
    if current_running_job_id ≠ s.last_running_job_id ∧ current_running_job_id ≠ -1
        ∧ s.last_running_job_id ≠ -1 then
      { s with context_switches := s.context_switches + 1 }
    else s
  { s1 with last_running_job_id := current_running_job_id }

/-- The branches of `make_mllf_scheduling_decision` before the context-switch
check. -/
def decisionBranches (s : SimulationState) (candidate_Ta : Option Nat) :
    Option SimulationState :=
  match s.running_job with
  | none =>
    match candidate_Ta with
    | some ta => some (startTa s ta)
    | none => some { s with idle_time := s.idle_time + 1, current_job_quantum_remaining := 0 }
  | some r =>
    match candidate_Ta with
    | none => some s
    | some ta =>
      if ta ≠ r then
        match add_job_to_ready_queue
            { s with jobs := setStatus s.jobs r READY } r with
        | none => none
        | some s2 => some (startTa s2 ta)
      else if s.current_job_quantum_remaining ≤ 0 ∧ (getJob s.jobs r).remaining_aet > 0 then
        some { s with current_job_quantum_remaining := calculate_mllf_quantum s (some r) }
      else some s

/-- The C function `make_mllf_scheduling_decision`; `none` is the abort inside
`add_job_to_ready_queue`. -/
def make_mllf_scheduling_decision (s : SimulationState) (candidate_Ta : Option Nat) :
    Option SimulationState :=
  match decisionBranches s candidate_Ta with
  | none => none
  | some s1 => some (contextSwitchCheck s1)

/-- The C function `execute_running_job`. -/
def execute_running_job (s : SimulationState) : SimulationState :=
  match s.running_job with
  | some r =>
    if (getJob s.jobs r).status = RUNNING then
      let jobs1 := updJob s.jobs r (fun j =>
        if j.remaining_aet > 0 then { j with remaining_aet := j.remaining_aet - 1 } else j)
      let jobs2 := updJob jobs1 r (fun j =>
        if j.remaining_wcet > 0 then { j with remaining_wcet := j.remaining_wcet - 1 } else j)
      { s with
        jobs := jobs2
        current_job_quantum_remaining :=
          if s.current_job_quantum_remaining > 0 then s.current_job_quantum_remaining - 1
          else s.current_job_quantum_remaining }
    else s
  | none => s

/-- The running-job part of `check_deadline_misses`. -/
def checkRunningMiss (next_time : Int) (s : SimulationState) : SimulationState :=
  match s.running_job with
  | some r =>
    if (getJob s.jobs r).status = RUNNING then
      if next_time > (getJob s.jobs r).absolute_deadline ∧ (getJob s.jobs r).remaining_aet > 0 then
        { s with
          jobs := setStatus s.jobs r MISSED
          deadline_misses := s.deadline_misses + 1
          running_job := none
          current_job_quantum_remaining := 0 }
      else s
    else s
  | none => s

/-- The backward loop of `check_deadline_misses` over the ready queue:
`checkQueueMisses next_time n s` runs the iterations `i = n-1, ..., 0`, each
reading `ready_queue[i]` of the queue as it is at that moment. -/
def checkQueueMisses (next_time : Int) : Nat → SimulationState → SimulationState
  | 0, s => s
  | i + 1, s =>
    match s.ready_queue[i]? with
    | some job =>
      if next_time > (getJob s.jobs job).absolute_deadline then
        checkQueueMisses next_time i
          (remove_job_from_ready_queue
            { s with
              jobs := setStatus s.jobs job MISSED
              deadline_misses := s.deadline_misses + 1 } job)
      else checkQueueMisses next_time i s
    | none => checkQueueMisses next_time i s

/-- The C function `check_deadline_misses`. -/
def check_deadline_misses (s : SimulationState) : SimulationState :=
  let next_time := s.current_time + 1
  let s1 := checkRunningMiss next_time s
  checkQueueMisses next_time s1.ready_queue.length s1

/-! ## The tick loop -/

/-- Step 1 of the tick loop (the same code as `handle_arrivals`), over the job
indices still to visit; the flag is `requires_reschedule`. -/
def arrivalsLoop : List Nat → SimulationState → Bool → Option (SimulationState × Bool)
  | [], s, req => some (s, req)
  | i :: rest, s, req =>
    if (getJob s.jobs i).status = NOT_ARRIVED ∧ (getJob s.jobs i).arrival_time = s.current_time then
      match add_job_to_ready_queue
          { s with jobs := setStatus s.jobs i READY } i with
      | none => none
      | some s1 => arrivalsLoop rest s1 true
    else arrivalsLoop rest s req

/-- Condition of step 2 of the tick loop. -/
def completionDue (s : SimulationState) : Bool :=
  match s.running_job with
  | some r =>
    decide ((getJob s.jobs r).remaining_aet ≤ 0 ∧ (getJob s.jobs r).status ≠ COMPLETED
      ∧ (getJob s.jobs r).status ≠ MISSED)
  | none => false

/-- Condition of step 3 of the tick loop. -/
def quantumExpired (s : SimulationState) : Bool :=
  match s.running_job with
  | some r => decide (s.current_job_quantum_remaining ≤ 0 ∧ (getJob s.jobs r).remaining_aet > 0)
  | none => false

/-- Step 4 of the tick loop. -/
def rescheduleStep (s : SimulationState) (requires_reschedule : Bool) : Option SimulationState :=
  if requires_reschedule = true ∨ s.running_job = none then
    make_mllf_scheduling_decision (select_mllf_task_Ta s).1 (select_mllf_task_Ta s).2
  else
    match s.running_job with
    | some _ => some (calculate_all_laxities s)
    | none => some { s with idle_time := s.idle_time + 1 }

/-- Steps 1 to 4 of one tick: the state at the point where step 5 logs it. -/
def tickSchedule (s : SimulationState) : Option SimulationState :=
  match arrivalsLoop (List.range s.jobs.length) s false with
  | none => none
  | some (s1, req1) =>
    let s2 := if completionDue s1 = true then handle_completion s1 else s1
    let req2 := req1 || completionDue s1
    let req3 := req2 || quantumExpired s2
    rescheduleStep s2 req3

/-- Steps 6 to 8 of one tick. -/
def tickExecute (s : SimulationState) : SimulationState :=
  let s7 := check_deadline_misses (execute_running_job s)
  { s7 with current_time := s7.current_time + 1 }

/-- The `while (state.current_time < hyperperiod)` loop, with the list of the
states logged so far. -/
def simLoop (hyperperiod : Int) :
    Nat → SimulationState → List SimulationState → Option (SimulationState × List SimulationState)
  | 0, s, tr => if s.current_time < hyperperiod then none else some (s, tr)
  | fuel + 1, s, tr =>
    if s.current_time < hyperperiod then
      match tickSchedule s with
      | none => none
      | some s5 => simLoop hyperperiod fuel (tickExecute s5) (tr ++ [s5])
    else some (s, tr)

/-- The state set up by `run_mllf_simulation` before its loop. -/
def initialState (jobs : List Job) : SimulationState :=
  { jobs := jobs, ready_queue := [], running_job := none, current_time := 0,
    last_running_job_id := -1, current_job_quantum_remaining := 0,
    context_switches := 0, deadline_misses := 0, completed_jobs := 0, idle_time := 0 }

/-- The C function `run_mllf_simulation`: the final state and the logged
per-tick states; `none` is the ready-queue abort.  The loop body adds one to
`current_time`, which starts at 0, so `hyperperiod` iterations are all there
are. -/
def run_mllf_simulation (hyperperiod : Int) (jobs : List Job) :
    Option (SimulationState × List SimulationState) :=
  simLoop hyperperiod hyperperiod.toNat (initialState jobs) []

/-! ## Job generation and actual execution times -/

/-- The job record that `generate_jobs` writes for instance `k` of a task. -/
def newJob (job_id : Int) (t : Task) (k : Int) (current_arrival_time : Int) : Job :=
  { job_id := job_id, task_id := t.id, instance_number := k,
    arrival_time := castInt current_arrival_time, wcet := t.wcet, aet := -1,
    remaining_wcet := t.wcet, remaining_aet := -1,
    absolute_deadline := castInt (current_arrival_time + t.deadline),
    calculated_laxity := INT_MAX, first_start_time := -1, last_start_time := -1,
    finish_time := -1, status := NOT_ARRIVED, response_time := -1, turnaround_time := -1,
    waiting_time := -1 }

/-- The inner `while` loop of `generate_jobs` for one task.  Every iteration that
goes on adds a job and the loop fails once `MAX_JOBS` jobs exist, so
`MAX_JOBS + 1` iterations are all there can be. -/
def generateTaskJobs (hyperperiod : Int) (t : Task) : Nat → Int → List Job → Option (List Job)
  | 0, _, _ => none
  | fuel + 1, k, jobs =>
    if t.arrival_time + k * t.period < hyperperiod then
      if jobs.length ≥ MAX_JOBS then none
      else if t.arrival_time + k * t.period + t.deadline > INT_MAX then none
      else if t.period ≤ 0 then none
      else
        generateTaskJobs hyperperiod t fuel (k + 1)
          (jobs ++ [newJob jobs.length t k (t.arrival_time + k * t.period)])
    else some jobs

/-- The outer `for` loop of `generate_jobs`. -/
def generateLoop (hyperperiod : Int) : List Task → List Job → Option (List Job)
  | [], jobs => some jobs
  | t :: rest, jobs =>
    match generateTaskJobs hyperperiod t (MAX_JOBS + 1) 0 jobs with
    | none => none
    | some jobs1 => generateLoop hyperperiod rest jobs1

/-- The C function `generate_jobs`; `none` is `return 0`. -/
def generate_jobs (hyperperiod : Int) (tasks : List Task) : Option (List Job) :=
  generateLoop hyperperiod tasks []

/-- The C function `read_actual_execution_times` on the integers that the AET
file holds; `none` is `return 0`. -/
def read_actual_execution_times : List Int → List Job → Option (List Job)
  | _, [] => some []
  | [], _ :: _ => none
  | a :: rest, j :: js =>
    if a ≤ 0 then none
    else
      match read_actual_execution_times rest js with
      | none => none
      | some js1 => some ({ j with aet := a, remaining_aet := a } :: js1)

/-! ## Specification-side definitions -/

/-- The quantum as the specification words it (section 4.3), with `Dmin` the
value returned by `find_earliest_deadline_higher_laxity_job_deadline`. -/
def quantum_reference (s : SimulationState) (ta : Nat) : Int :=
  let Dmin := find_earliest_deadline_higher_laxity_job_deadline s (some ta)
  if (getJob s.jobs ta).remaining_aet ≤ 0 then 0
  else if Dmin = NO_TASK_FOUND ∨ (getJob s.jobs ta).absolute_deadline ≤ Dmin then
    (getJob s.jobs ta).remaining_aet
  else min (max (Dmin - (getJob s.jobs ta).calculated_laxity) 1) (getJob s.jobs ta).remaining_aet

/-- Job `i` is a candidate constraint for `ta` (section 4.3): another job that
has not arrived yet, or is Ready or Running with laxity strictly above that of
`ta`. -/
def isTminCandidate (jobs : List Job) (ta i : Nat) : Prop :=
  i ≠ ta ∧ ((getJob jobs i).status = NOT_ARRIVED
    ∨ (((getJob jobs i).status = READY ∨ (getJob jobs i).status = RUNNING)
        ∧ (getJob jobs i).calculated_laxity > (getJob jobs ta).calculated_laxity))

/-- Job `i` takes part in the selection: it is an entry of the ready queue, or
it is the occupant of the running slot and has status RUNNING. -/
def isEligible (s : SimulationState) (i : Nat) : Prop :=
  i ∈ s.ready_queue ∨ (s.running_job = some i ∧ (getJob s.jobs i).status = RUNNING)

/-- The laxity of job `i` at the current time of the state:
`absolute_deadline - current_time - remaining_wcet`. -/
def laxityNow (s : SimulationState) (i : Nat) : Int :=
  (getJob s.jobs i).absolute_deadline - s.current_time - (getJob s.jobs i).remaining_wcet

/-- Strict lexicographic order on `(laxity, remaining_wcet, job_id)`. -/
def keyLt (s : SimulationState) (a b : Nat) : Prop :=
  laxityNow s a < laxityNow s b
  ∨ (laxityNow s a = laxityNow s b
      ∧ ((getJob s.jobs a).remaining_wcet < (getJob s.jobs b).remaining_wcet
          ∨ ((getJob s.jobs a).remaining_wcet = (getJob s.jobs b).remaining_wcet
              ∧ (getJob s.jobs a).job_id < (getJob s.jobs b).job_id)))

/-- The deadline test of `check_deadline_misses` for a queue entry. -/
def deadlinePassed (s : SimulationState) (i : Nat) : Prop :=
  s.current_time + 1 > (getJob s.jobs i).absolute_deadline

instance (s : SimulationState) (i : Nat) : Decidable (deadlinePassed s i) := by
  unfold deadlinePassed; infer_instance

/-- The running-job test of `check_deadline_misses`: job `i` is the occupant,
has status RUNNING, its deadline has passed and it has work left. -/
def runningMissed (s : SimulationState) (i : Nat) : Prop :=
  s.running_job = some i ∧ (getJob s.jobs i).status = RUNNING
  ∧ s.current_time + 1 > (getJob s.jobs i).absolute_deadline ∧ (getJob s.jobs i).remaining_aet > 0

instance (s : SimulationState) (i : Nat) : Decidable (runningMissed s i) := by
  unfold runningMissed; infer_instance

/-- Number of logged ticks at which the processor had an occupant. -/
def busyTicks (trace : List SimulationState) : Int :=
  ((trace.filter fun s => s.running_job.isSome).length : Int)

/-- The job_id of the occupant, or -1 when the processor is idle. -/
def occupantId (s : SimulationState) : Int :=
  match s.running_job with
  | none => -1
  | some r => (getJob s.jobs r).job_id

/-- Two consecutive logged ticks show a context switch: both have an occupant
and the occupants have different job_ids. -/
def switchAt (prev cur : SimulationState) : Prop :=
  prev.running_job ≠ none ∧ cur.running_job ≠ none ∧ occupantId prev ≠ occupantId cur

instance (prev cur : SimulationState) : Decidable (switchAt prev cur) := by
  unfold switchAt; infer_instance

/-- Number of ticks `t ≥ 1` of a trace at which ticks `t - 1` and `t` show a
context switch. -/
def countSwitches : List SimulationState → Int
  | [] => 0
  | [_] => 0
  | p :: c :: rest => (if switchAt p c then 1 else 0) + countSwitches (c :: rest)

/-! ## What one step does to one job record -/

/-- The job record `j` with `calculated_laxity` replaced by `v`. -/
def setLaxity (j : Job) (v : Int) : Job := { j with calculated_laxity := v }

/-- The laxity that one pass of the queue loop of `calculate_all_laxities`
stores in job record `j` at time `now`. -/
def queueLaxity (now : Int) (j : Job) : Int :=
  if j.status = READY then j.absolute_deadline - now - j.remaining_wcet else INT_MAX

/-- The value that `calculate_all_laxities` leaves in `calculated_laxity` of job `i`. -/
def laxityAfter (s : SimulationState) (i : Nat) : Int :=
  if s.running_job = some i ∧ (getJob s.jobs i).status = RUNNING then laxityNow s i
  else if i ∈ s.ready_queue then
    (if (getJob s.jobs i).status = READY then laxityNow s i else INT_MAX)
  else (getJob s.jobs i).calculated_laxity

/-- The effect of the arrival step at time `now` on one job record. -/
def arrive (now : Int) (j : Job) : Job :=
  if j.status = NOT_ARRIVED ∧ j.arrival_time = now then { j with status := READY } else j

/-- The record of the dispatched job after the dispatch sequence at time `now`. -/
def startRecord (now : Int) (j : Job) : Job :=
  { j with
    status := RUNNING
    first_start_time := if j.first_start_time = -1 then now else j.first_start_time
    last_start_time := now }

/-- The record of the occupant after one unit of execution. -/
def executeRecord (j : Job) : Job :=
  { j with
    remaining_aet := if j.remaining_aet > 0 then j.remaining_aet - 1 else j.remaining_aet
    remaining_wcet := if j.remaining_wcet > 0 then j.remaining_wcet - 1 else j.remaining_wcet }

/-! ## Invariants used in the proofs -/

/-- Loop invariant of `find_earliest_deadline_higher_laxity_job_deadline` after
the indices in `S` have been visited. -/
def TminInv (jobs : List Job) (ta : Nat) (S : Nat → Prop) (acc : Int × Option Nat) : Prop :=
  (acc.2 = none → acc.1 = INT_MAX)
  ∧ (∀ k, acc.2 = some k → S k ∧ isTminCandidate jobs ta k
      ∧ acc.1 = (getJob jobs k).absolute_deadline ∧ acc.1 < INT_MAX)
  ∧ (∀ i, S i → isTminCandidate jobs ta i → (getJob jobs i).absolute_deadline < INT_MAX →
      acc.1 ≤ (getJob jobs i).absolute_deadline)

/-- Loop invariant of the tie-break pass of `select_mllf_task_Ta`: `M` marks the
jobs at minimum laxity, `S` the jobs visited so far. -/
def SelInv (jobs : List Job) (M S : Nat → Prop) (acc : Option Nat × Int) : Prop :=
  (acc.1 = none → acc.2 = INT_MAX ∧ ∀ i, S i → ¬ M i)
  ∧ (∀ c, acc.1 = some c → S c ∧ M c ∧ acc.2 = (getJob jobs c).remaining_wcet
      ∧ ∀ i, S i → M i → i ≠ c →
          ((getJob jobs c).remaining_wcet < (getJob jobs i).remaining_wcet
            ∨ ((getJob jobs c).remaining_wcet = (getJob jobs i).remaining_wcet
                ∧ (getJob jobs c).job_id < (getJob jobs i).job_id)))

/-- Well-formed pointers: the ready queue holds no job twice, every queue entry
and the occupant point into the job array, and the array fits the static
capacity. -/
def WF (s : SimulationState) : Prop :=
  s.ready_queue.Nodup ∧ (∀ i ∈ s.ready_queue, i < s.jobs.length)
  ∧ (∀ r, s.running_job = some r → r < s.jobs.length) ∧ s.jobs.length ≤ MAX_JOBS

/-- Status and placement agree: the jobs with status READY are exactly the
entries of the ready queue, and a job has status RUNNING exactly when it is the
occupant of the running slot. -/
def StatusInv (s : SimulationState) : Prop :=
  (∀ i, (getJob s.jobs i).status = READY ↔ i ∈ s.ready_queue)
  ∧ (∀ i, (getJob s.jobs i).status = RUNNING ↔ s.running_job = some i)

/-- Every Ready or Running job carries the laxity of the current time. -/
def LaxityDefined (s : SimulationState) : Prop :=
  ∀ i, ((getJob s.jobs i).status = READY ∨ (getJob s.jobs i).status = RUNNING) →
    (getJob s.jobs i).calculated_laxity
      = (getJob s.jobs i).absolute_deadline - s.current_time - (getJob s.jobs i).remaining_wcet

/-- Invariant of the tick loop for the context-switch counter: `s` is the state
at the start of a tick and `tr` the ticks logged so far. -/
def SwitchInv (s : SimulationState) (tr : List SimulationState) : Prop :=
  WF s
  ∧ (∀ i, i < s.jobs.length → (getJob s.jobs i).job_id ≠ -1)
  ∧ (tr = [] → s.last_running_job_id = -1 ∧ s.context_switches = 0 ∧ s.running_job = none)
  ∧ (∀ p, tr.getLast? = some p →
      s.last_running_job_id = occupantId p ∧ s.context_switches = p.context_switches
      ∧ (occupantId p = -1 ↔ p.running_job = none)
      ∧ ∀ r, s.running_job = some r →
          p.running_job = some r ∧ (getJob p.jobs r).job_id = (getJob s.jobs r).job_id)
  ∧ List.Chain' (fun p c => c.context_switches
      = p.context_switches + (if switchAt p c then 1 else 0)) tr
  ∧ (∀ x, tr.head? = some x → x.context_switches = 0)
  ∧ (∀ x ∈ tr, x.last_running_job_id = occupantId x)
  ∧ s.context_switches = countSwitches tr

/-! ## Concrete inputs -/

/-- The task set of the scenario of section 8:
T0(arrival 0, period 4, wcet 2, deadline 4), T1(arrival 0, period 8, wcet 2, deadline 8). -/
def scenarioTasks : List Task :=
  [{ id := 0, arrival_time := 0, period := 4, wcet := 2, deadline := 4 },
   { id := 1, arrival_time := 0, period := 8, wcet := 2, deadline := 8 }]

/-- The jobs that `generate_jobs` produces for the scenario. -/
def scenarioGenerated : List Job := (generate_jobs 8 scenarioTasks).getD []

/-- The scenario jobs with AET 2 (their WCET) read for each of them. -/
def scenarioJobs : List Job :=
  (read_actual_execution_times [2, 2, 2] scenarioGenerated).getD []

/-- The run of the scenario: jobs generated for hyperperiod 8, every AET equal
to the WCET of its job, then `run_mllf_simulation`. -/
def scenarioRun : Option (SimulationState × List SimulationState) :=
  (generate_jobs 8 scenarioTasks).bind fun jobs =>
    (read_actual_execution_times (jobs.map fun j => j.wcet) jobs).bind (run_mllf_simulation 8)

/-- A job record with the given identity, timing and status; the fields that
the scheduler does not read are as `generate_jobs` leaves them. -/
def exampleJob (job_id wcet remaining_wcet remaining_aet absolute_deadline calculated_laxity : Int)
    (status : Status) : Job :=
  { job_id := job_id, task_id := 0, instance_number := 0, arrival_time := 0, wcet := wcet,
    aet := wcet, remaining_wcet := remaining_wcet, remaining_aet := remaining_aet,
    absolute_deadline := absolute_deadline, calculated_laxity := calculated_laxity,
    first_start_time := -1, last_start_time := -1, finish_time := -1, status := status,
    response_time := -1, turnaround_time := -1, waiting_time := -1 }

/-- Two Ready jobs with equal deadline and equal remaining_wcet, queued with the
higher job_id first, and an idle processor. -/
def tieState : SimulationState :=
  { jobs := [exampleJob 0 2 2 2 8 INT_MAX READY, exampleJob 1 2 2 2 8 INT_MAX READY],
    ready_queue := [1, 0], running_job := none, current_time := 0,
    last_running_job_id := -1, current_job_quantum_remaining := 0,
    context_switches := 0, deadline_misses := 0, completed_jobs := 0, idle_time := 0 }

/-- Job 0 is running with laxity 2 and deadline 4; job 1 has not arrived
(deadline 8); job 2 is Ready with laxity 6 and deadline 8. -/
def quantumState : SimulationState :=
  { jobs := [exampleJob 0 2 2 2 4 2 RUNNING, exampleJob 1 2 2 2 8 INT_MAX NOT_ARRIVED,
             exampleJob 2 2 2 2 8 6 READY],
    ready_queue := [2], running_job := some 0, current_time := 0,
    last_running_job_id := 0, current_job_quantum_remaining := 0,
    context_switches := 0, deadline_misses := 0, completed_jobs := 0, idle_time := 0 }

/-- An idle processor at time 1 and one queued Ready job whose deadline is 1
and whose `remaining_aet` is 0. -/
def finishedReadyState : SimulationState :=
  { jobs := [exampleJob 0 1 0 0 1 0 READY],
    ready_queue := [0], running_job := none, current_time := 1,
    last_running_job_id := -1, current_job_quantum_remaining := 0,
    context_switches := 0, deadline_misses := 0, completed_jobs := 0, idle_time := 0 }

/-! ## Specification-side description of job generation -/

/-- Number of instances `k = 0, 1, ...` of task `t` that arrive before `H`; for a
positive period these are the `k` with `arrival_time + k * period < H`. -/
def instanceCount (H : Int) (t : Task) : Nat :=
  ((H - t.arrival_time + t.period - 1) / t.period).toNat

/-- Total number of instances of all tasks before `H`. -/
def totalInstances (H : Int) (tasks : List Task) : Nat :=
  (tasks.map (instanceCount H)).sum

/-- The job record described for instance `k` of task `t` when it is stored at
array index `n`: identity and timing copied from the task, the actual execution
time not yet assigned, not arrived, laxity undefined, no times recorded. -/
def specJob (n : Nat) (t : Task) (k : Nat) : Job :=
  { job_id := (n : Int), task_id := t.id, instance_number := (k : Int),
    arrival_time := t.arrival_time + (k : Int) * t.period, wcet := t.wcet, aet := -1,
    remaining_wcet := t.wcet, remaining_aet := -1,
    absolute_deadline := t.arrival_time + (k : Int) * t.period + t.deadline,
    calculated_laxity := INT_MAX, first_start_time := -1, last_start_time := -1,
    finish_time := -1, status := NOT_ARRIVED, response_time := -1, turnaround_time := -1,
    waiting_time := -1 }

/-- The described job array for the tasks `tasks` when `n` jobs precede them:
task by task in task order, the instances `0, ..., instanceCount - 1` of each. -/
def expectedJobs (H : Int) : List Task → Nat → List Job
  | [], _ => []
  | t :: rest, n =>
    (List.range (instanceCount H t)).map (fun k => specJob (n + k) t k)
      ++ expectedJobs H rest (n + instanceCount H t)

/-- A task that `read_tasks` accepts and whose first absolute deadline,
`1 + INT_MAX`, does not fit an `int`. -/
def lateDeadlineTask : Task :=
  { id := 0, arrival_time := 1, period := 4, wcet := 1, deadline := INT_MAX }

/-- A task of arrival time 1, period `INT_MAX` and relative deadline -1: over
`H = 2^31 + 1` its second instance arrives at 2^31, beyond `INT_MAX`, while
its absolute deadline is `INT_MAX`. -/
def lateArrivalTask : Task :=
  { id := 0, arrival_time := 1, period := 2147483647, wcet := 1, deadline := -1 }

/-! ## Sub-step boundaries of a run -/

/-- The points of a run at which the state is observed: before the first tick,
and in every tick after the arrival step (step 1), after the completion step
(step 2), after the laxity and selection pass of step 4, after the scheduling
decision of step 4 (the state that step 5 logs), after the execution step
(step 6), after the deadline check (step 7) and after the time advance
(step 8).  Steps 3 and 5 do not change the state. -/
inductive SubStep where
  | start
  | arrival
  | completion
  | selection
  | decision
  | execution
  | deadlineCheck
  | advance
  deriving DecidableEq

open SubStep

/-- One iteration of the loop of `run_mllf_simulation` with the state at the
end of every sub-step, each labelled by the sub-step that produced it; the
first component is the state at the end of the tick.  On the path of step 4
that does not reschedule, `calculate_all_laxities` is the laxity pass and
there is no decision, so both boundaries carry the same state. -/
def tickBoundaries (s : SimulationState) :
    Option (SimulationState × List (SubStep × SimulationState)) :=
  match arrivalsLoop (List.range s.jobs.length) s false with
  | none => none
  | some (s1, req1) =>
    let s2 := if completionDue s1 = true then handle_completion s1 else s1
    let req2 := req1 || completionDue s1
    let req3 := req2 || quantumExpired s2
    match rescheduleStep s2 req3 with
    | none => none
    | some s5 =>
      let s3 := if req3 = true ∨ s2.running_job = none then (select_mllf_task_Ta s2).1 else s5
      let s6 := execute_running_job s5
      let s7 := check_deadline_misses s6
      let s8 := { s7 with current_time := s7.current_time + 1 }
      some (s8, [(arrival, s1), (completion, s2), (selection, s3), (decision, s5),
                 (execution, s6), (deadlineCheck, s7), (advance, s8)])

/-- The loop of `run_mllf_simulation` with the list of all sub-step boundaries
passed so far. -/
def boundaryLoop (hyperperiod : Int) :
    Nat → SimulationState → List (SubStep × SimulationState) →
      Option (List (SubStep × SimulationState))
  | 0, s, acc => if s.current_time < hyperperiod then none else some acc
  | fuel + 1, s, acc =>
    if s.current_time < hyperperiod then
      match tickBoundaries s with
      | none => none
      | some (s8, l) => boundaryLoop hyperperiod fuel s8 (acc ++ l)
    else some acc

/-- All sub-step boundaries of a run in the order in which they are passed,
starting with the initial state. -/
def run_boundaries (hyperperiod : Int) (jobs : List Job) :
    Option (List (SubStep × SimulationState)) :=
  boundaryLoop hyperperiod hyperperiod.toNat (initialState jobs) [(start, initialState jobs)]

/-- The states of a boundary list that follow the scheduling decision: the
states that step 5 logs. -/
def decisionStates (bs : List (SubStep × SimulationState)) : List SimulationState :=
  (bs.filter fun b => decide (b.1 = decision)).map Prod.snd

/-- Number of jobs of the array with status `st`. -/
def countStatus (st : Status) (jobs : List Job) : Nat :=
  jobs.countP fun j => decide (j.status = st)

/-- What a sub-step may do to the record of job `i` between the boundary states
`x` and `y`, where `lbl` is the sub-step that leads from `x` to `y`: nothing, or
the one change that belongs to that sub-step. -/
def JobStep (lbl : SubStep) (x y : SimulationState) (i : Nat) : Prop :=
  getJob y.jobs i = getJob x.jobs i
  ∨ (lbl = arrival ∧ (getJob x.jobs i).status = NOT_ARRIVED
      ∧ (getJob x.jobs i).arrival_time = x.current_time
      ∧ getJob y.jobs i = { getJob x.jobs i with status := READY })
  ∨ (lbl = completion ∧ (getJob x.jobs i).status = RUNNING ∧ x.running_job = some i
      ∧ (getJob x.jobs i).remaining_aet = 0
      ∧ getJob y.jobs i
          = { getJob x.jobs i with status := COMPLETED, finish_time := x.current_time })
  ∨ (lbl = selection
      ∧ ((getJob x.jobs i).status = READY ∨ (getJob x.jobs i).status = RUNNING)
      ∧ getJob y.jobs i = setLaxity (getJob x.jobs i) (laxityNow x i))
  ∨ (lbl = decision ∧ (getJob x.jobs i).status = READY ∧ y.running_job = some i
      ∧ getJob y.jobs i = startRecord x.current_time (getJob x.jobs i))
  ∨ (lbl = decision ∧ (getJob x.jobs i).status = RUNNING ∧ x.running_job = some i
      ∧ (∃ ta, ta ≠ i ∧ y.running_job = some ta)
      ∧ 0 < (getJob x.jobs i).remaining_aet
      ∧ getJob y.jobs i = { getJob x.jobs i with status := READY })
  ∨ (lbl = execution ∧ (getJob x.jobs i).status = RUNNING ∧ x.running_job = some i
      ∧ getJob y.jobs i = executeRecord (getJob x.jobs i))
  ∨ (lbl = deadlineCheck
      ∧ ((getJob x.jobs i).status = READY ∨ (getJob x.jobs i).status = RUNNING)
      ∧ x.current_time + 1 > (getJob x.jobs i).absolute_deadline
      ∧ 0 < (getJob x.jobs i).remaining_aet
      ∧ getJob y.jobs i = { getJob x.jobs i with status := MISSED })

/-- Job generation and the AET file leave every job not arrived, with the
undefined laxity and with a positive remaining actual execution time, in an
array within the static capacity. -/
def InitialJobs (jobs : List Job) : Prop :=
  jobs.length ≤ MAX_JOBS
  ∧ ∀ j ∈ jobs, j.status = NOT_ARRIVED ∧ j.calculated_laxity = INT_MAX ∧ 1 ≤ j.remaining_aet

/-- A job that has not arrived carries the undefined laxity. -/
def Sentinel (s : SimulationState) : Prop :=
  ∀ i, (getJob s.jobs i).status = NOT_ARRIVED → (getJob s.jobs i).calculated_laxity = INT_MAX

/-- No job has negative remaining actual execution time, and a job that has
not arrived or waits in the ready queue has some left. -/
def AetInv (s : SimulationState) : Prop :=
  ∀ i, i < s.jobs.length → 0 ≤ (getJob s.jobs i).remaining_aet
    ∧ (((getJob s.jobs i).status = NOT_ARRIVED ∨ (getJob s.jobs i).status = READY) →
        1 ≤ (getJob s.jobs i).remaining_aet)

/-- The two result counters agree with the statuses in the job array. -/
def CountInv (s : SimulationState) : Prop :=
  s.completed_jobs = (countStatus COMPLETED s.jobs : Int)
  ∧ s.deadline_misses = (countStatus MISSED s.jobs : Int)

/-- The occupant of the running slot has actual execution time left. -/
def OccPos (s : SimulationState) : Prop :=
  ∀ r, s.running_job = some r → 0 < (getJob s.jobs r).remaining_aet

/-- The invariant that holds at every sub-step boundary of a run. -/
def RunInv (s : SimulationState) : Prop :=
  WF s ∧ StatusInv s ∧ Sentinel s ∧ AetInv s ∧ CountInv s

/-- A job record in a terminal state. -/
def terminal (j : Job) : Prop := j.status = COMPLETED ∨ j.status = MISSED

/-- The status of job `i` does not change between the boundary states `x` and
`y`, or it changes by one of the legal transitions, made by the sub-step `lbl`
to which the transition belongs and under its condition: NOT_ARRIVED to READY in
the arrival step; READY to RUNNING in the decision, the job becoming the
occupant; RUNNING to READY in the decision, the job being the occupant before
and a different job after (preemption); RUNNING to COMPLETED in the completion
step with `remaining_aet = 0`; READY or RUNNING to MISSED in the deadline check
with `current_time + 1 > absolute_deadline` and `remaining_aet > 0`. -/
def legalChange (lbl : SubStep) (x y : SimulationState) (i : Nat) : Prop :=
  (getJob y.jobs i).status = (getJob x.jobs i).status
  ∨ (lbl = arrival ∧ (getJob x.jobs i).status = NOT_ARRIVED
      ∧ (getJob y.jobs i).status = READY)
  ∨ (lbl = decision ∧ (getJob x.jobs i).status = READY ∧ (getJob y.jobs i).status = RUNNING
      ∧ y.running_job = some i)
  ∨ (lbl = decision ∧ (getJob x.jobs i).status = RUNNING ∧ (getJob y.jobs i).status = READY
      ∧ x.running_job = some i ∧ ∃ ta, ta ≠ i ∧ y.running_job = some ta)
  ∨ (lbl = completion ∧ (getJob x.jobs i).status = RUNNING
      ∧ (getJob y.jobs i).status = COMPLETED ∧ (getJob x.jobs i).remaining_aet = 0)
  ∨ (lbl = deadlineCheck
      ∧ ((getJob x.jobs i).status = READY ∨ (getJob x.jobs i).status = RUNNING)
      ∧ (getJob y.jobs i).status = MISSED
      ∧ x.current_time + 1 > (getJob x.jobs i).absolute_deadline
      ∧ (getJob x.jobs i).remaining_aet > 0)

/-- The remaining work of job `i` does not grow between the boundary states `x`
and `y`, and it changes only in the execution step and only for the occupant. -/
def workStep (lbl : SubStep) (x y : SimulationState) (i : Nat) : Prop :=
  (getJob y.jobs i).remaining_wcet ≤ (getJob x.jobs i).remaining_wcet
  ∧ (getJob y.jobs i).remaining_aet ≤ (getJob x.jobs i).remaining_aet
  ∧ (((getJob y.jobs i).remaining_wcet ≠ (getJob x.jobs i).remaining_wcet
        ∨ (getJob y.jobs i).remaining_aet ≠ (getJob x.jobs i).remaining_aet) →
      lbl = execution ∧ x.running_job = some i)

/-- Two consecutive boundaries of a run: between them every job record is left
alone or changed in the one way that belongs to the sub-step leading to the
later boundary, and the job array keeps its size. -/
def BoundaryStep (a b : SubStep × SimulationState) : Prop :=
  (∀ i, JobStep b.1 a.2 b.2 i) ∧ b.2.jobs.length = a.2.jobs.length

/-- The job arrays `jobs` and `jobs1` agree on `remaining_wcet` and
`remaining_aet` of every job. -/
def sameWork (jobs jobs1 : List Job) : Prop :=
  ∀ i, (getJob jobs1 i).remaining_wcet = (getJob jobs i).remaining_wcet
    ∧ (getJob jobs1 i).remaining_aet = (getJob jobs i).remaining_aet

/-- The run over `H` of the job array `jobs` returns `r`, and `bs` is the list of
its sub-step boundaries: it starts with the initial state, ends with the final
state of the run and has the logged states as its decision boundaries. -/
def RunWithBoundaries (H : Int) (jobs : List Job) (r : SimulationState × List SimulationState)
    (bs : List (SubStep × SimulationState)) : Prop :=
  run_mllf_simulation H jobs = some r ∧ run_boundaries H jobs = some bs
  ∧ bs.head? = some (start, initialState jobs)
  ∧ bs.getLast?.map Prod.snd = some r.1 ∧ r.2 = decisionStates bs

/-! ## The single-task scenario -/

/-- The one job of a task `t` whose relative deadline equals its WCET and whose
AET equals its WCET, with the fields that change during a run as parameters:
status, remaining work (`remaining_wcet` and `remaining_aet` agree), laxity,
start times and finish time. -/
def singleJob (t : Task) (st : Status) (rem lax first last fin : Int) : Job :=
  { job_id := 0, task_id := t.id, instance_number := 0, arrival_time := t.arrival_time,
    wcet := t.wcet, aet := t.wcet, remaining_wcet := rem, remaining_aet := rem,
    absolute_deadline := t.arrival_time + t.wcet, calculated_laxity := lax,
    first_start_time := first, last_start_time := last, finish_time := fin, status := st,
    response_time := -1, turnaround_time := -1, waiting_time := -1 }

/-- A state of the single-task run: the one job, an empty ready queue, no
context switch and no deadline miss so far. -/
def singleState (j : Job) (running : Option Nat) (now last_id q cj idle : Int) :
    SimulationState :=
  { jobs := [j], ready_queue := [], running_job := running, current_time := now,
    last_running_job_id := last_id, current_job_quantum_remaining := q,
    context_switches := 0, deadline_misses := 0, completed_jobs := cj, idle_time := idle }

/-- The state of the single-task run at the start of tick `now`: the job has
not arrived up to its arrival time `a`, runs with `a + W - now` units left up
to `a + W`, and is completed after that. -/
def singleStart (t : Task) (now : Int) : SimulationState :=
  if now ≤ t.arrival_time then
    singleState (singleJob t NOT_ARRIVED t.wcet INT_MAX (-1) (-1) (-1)) none now (-1) 0 0 now
  else if now ≤ t.arrival_time + t.wcet then
    singleState (singleJob t RUNNING (t.arrival_time + t.wcet - now) 0 t.arrival_time
      t.arrival_time (-1)) (some 0) now 0 (t.arrival_time + t.wcet - now) 0 t.arrival_time
  else
    singleState (singleJob t COMPLETED 0 0 t.arrival_time t.arrival_time
      (t.arrival_time + t.wcet)) none now (-1) 0 1 (now - t.wcet)

/-- The state of the single-task run at the point where tick `now` is logged. -/
def singleLogged (t : Task) (now : Int) : SimulationState :=
  if now < t.arrival_time then
    singleState (singleJob t NOT_ARRIVED t.wcet INT_MAX (-1) (-1) (-1)) none now (-1) 0 0
      (now + 1)
  else if now < t.arrival_time + t.wcet then
    singleState (singleJob t RUNNING (t.arrival_time + t.wcet - now) 0 t.arrival_time
      t.arrival_time (-1)) (some 0) now 0 (t.arrival_time + t.wcet - now) 0 t.arrival_time
  else
    singleState (singleJob t COMPLETED 0 0 t.arrival_time t.arrival_time
      (t.arrival_time + t.wcet)) none now (-1) 0 1 (now - t.wcet + 1)

/-- A single task with deadline equal to WCET: arrival 1, period 4, WCET 2. -/
def soloTask : Task :=
  { id := 0, arrival_time := 1, period := 4, wcet := 2, deadline := 2 }

/-- The job that `generate_jobs` produces for `soloTask` over one period. -/
def soloGenerated : List Job := (generate_jobs 4 [soloTask]).getD []

/-- The job of `soloTask` with AET 2, its WCET. -/
def soloJobs : List Job := (read_actual_execution_times [2] soloGenerated).getD []

/-! ## The hyperperiod -/

def LLONG_MAX : Int := 9223372036854775807

/-- The `while (b)` loop of `gcd`.  The second argument is a remainder of a
division by the first one after every iteration, so it falls at every step and
`b + 1` iterations are all there can be. -/
def gcdLoop : Nat → Int → Int → Option Int
  | 0, a, b => if b ≠ 0 then none else some a
  | fuel + 1, a, b => if b ≠ 0 then gcdLoop fuel b (Int.tmod a b) else some a

/-- The C function `gcd`. -/
def gcd (a b : Int) : Option Int :=
  let a1 := if a < 0 then -a else a
  let b1 := if b < 0 then -b else b
  match gcdLoop (b1.toNat + 1) a1 b1 with
  | none => none
  | some g => some (if g = 0 then 1 else g)

/-- The C function `lcm`; the result -1 reports an overflow. -/
def lcm (a b : Int) : Option Int :=
  if a ≤ 0 ∨ b ≤ 0 then some 0
  else
    match gcd a b with
    | none => none
    | some common_divisor =>
      if b > 0 ∧ a > Int.tdiv LLONG_MAX (Int.tdiv b common_divisor) then some (-1)
      else some (Int.tdiv a common_divisor * b)

/-- The `for` loop of `calculate_hyperperiod` over the tasks after the first
one; the second argument is `result`. -/
def hyperperiodLoop : List Task → Int → Option Int
  | [], result => some result
  | t :: rest, result =>
    if t.period ≤ 0 then some 0
    else
      match lcm result t.period with
      | none => none
      | some result1 =>
        if result1 = -1 then some (-1)
        else if result1 ≤ 0 ∧ result1 ≠ -1 then some 0
        else hyperperiodLoop rest result1

/-- The C function `calculate_hyperperiod`. -/
def calculate_hyperperiod (tasks : List Task) : Option Int :=
  match tasks with
  | [] => some 0
  | [t] => some (if t.period > 0 then t.period else 0)
  | t :: rest =>
    if t.period ≤ 0 then some 0 else hyperperiodLoop rest t.period

/-- Specification side: the least common multiple of the periods of a task
list. -/
def periodsLcm (tasks : List Task) : Nat :=
  (tasks.map fun t => t.period.toNat).foldr Nat.lcm 1

/-- Two tasks with periods 4 and 8. -/
def periodTasks : List Task :=
  [{ id := 0, arrival_time := 0, period := 4, wcet := 1, deadline := 4 },
   { id := 1, arrival_time := 0, period := 8, wcet := 1, deadline := 8 }]

/-- Two tasks whose periods are the coprime numbers 2^31 - 1 and 2^31 - 2, and a
third one of period 2^31 - 3: the second least common multiple passes
`LLONG_MAX`. -/
def overflowTasks : List Task :=
  [{ id := 0, arrival_time := 0, period := 2147483647, wcet := 1, deadline := 1 },
   { id := 1, arrival_time := 0, period := 2147483646, wcet := 1, deadline := 1 },
   { id := 2, arrival_time := 0, period := 2147483645, wcet := 1, deadline := 1 }]

/-! ## Reading the task file -/

/-- What `fscanf` meets in the task file between white space: a decimal numeral,
with its value as written, or text that `%d` does not convert. -/
inductive Token where
  | num (v : Int)
  | other
  deriving DecidableEq

/-- The `int` that `%d` stores for a numeral of value `v`.  For a value of
`int` it is `v`.  For a numeral outside the range of `int` the C standard
leaves the result open; the model follows the GNU C library on a 64-bit
platform, where the conversion is that of `strtol`, which saturates at the
range of `long`, and the store through the `int*` keeps the low 32 bits. -/
def scanInt (v : Int) : Int := castInt (max (-LLONG_MAX - 1) (min v LLONG_MAX))

/-- The `while (*task_count < MAX_TASKS)` loop of `read_tasks` on the rest of
the file, with the tasks stored so far; the result is the stored tasks and
what the loop has left unread, and `none` is `return 0`.  A pass takes four
numbers (`read_result == 4`); the end of the file at the start of a pass
leaves the loop, and anything else in the place of the four numbers is the
format error. -/
def readTasksLoop : List Token → List Task → Option (List Task × List Token)
  | [], tasks => some (tasks, [])
  | Token.num a :: Token.num p :: Token.num w :: Token.num d :: rest, tasks =>
    if tasks.length < MAX_TASKS then
      if scanInt p ≤ 0 ∨ scanInt w ≤ 0 ∨ scanInt d ≤ 0 ∨ scanInt a < 0 then none
      else
        readTasksLoop rest
          (tasks ++ [{ id := tasks.length, arrival_time := scanInt a, period := scanInt p,
                       wcet := scanInt w, deadline := scanInt d }])
    else some (tasks, Token.num a :: Token.num p :: Token.num w :: Token.num d :: rest)
  | t :: rest, tasks => if tasks.length < MAX_TASKS then none else some (tasks, t :: rest)

/-- The C function `read_tasks` on the contents of an existing task file;
`none` is `return 0`.  The second component of the result tells whether the
check after the loop writes the warning `MAX_TASKS reached`: `MAX_TASKS` tasks
are stored and one more `fscanf` does not meet the end of the file. -/
def read_tasks (file : List Token) : Option (List Task × Bool) :=
  match readTasksLoop file [] with
  | none => none
  | some (tasks, rest) =>
    if tasks.length = 0 then none
    else some (tasks, decide (tasks.length = MAX_TASKS ∧ rest ≠ []))

/-- Specification side: the four numerals of a line of the task file. -/
def lineTokens (t : Task) : List Token :=
  [Token.num t.arrival_time, Token.num t.period, Token.num t.wcet, Token.num t.deadline]

/-- Specification side: a well-formed line that passes the validation of the
data model: four values of `int`, the arrival time not negative, the period,
the WCET and the deadline positive. -/
def validLine (t : Task) : Prop :=
  (0 ≤ t.arrival_time ∧ t.arrival_time ≤ INT_MAX) ∧ (0 < t.period ∧ t.period ≤ INT_MAX)
  ∧ (0 < t.wcet ∧ t.wcet ≤ INT_MAX) ∧ (0 < t.deadline ∧ t.deadline ≤ INT_MAX)

instance (t : Task) : Decidable (validLine t) := by
  unfold validLine; infer_instance

/-- Specification side: the tasks of a list of lines, numbered from `n` on in
file order. -/
def numberTasks : Nat → List Task → List Task
  | _, [] => []
  | n, t :: rest => { t with id := n } :: numberTasks (n + 1) rest

/-- Eleven valid lines: arrival 0, period 4, WCET 1, deadline 4 each. -/
def elevenLines : List Task :=
  List.replicate 11 { id := 0, arrival_time := 0, period := 4, wcet := 1, deadline := 4 }

/-! ## The branches of the decision, as the specification words them -/

/-- Specification side: the occupant `r` goes back to Ready: its status becomes
READY, it is appended at the end of the ready queue and the running slot is
emptied. -/
def requeueOccupant (s : SimulationState) (r : Nat) : SimulationState :=
  { s with
    jobs := setStatus s.jobs r READY
    ready_queue := s.ready_queue ++ [r]
    running_job := none }

/-- Job 0 is running with `remaining_wcet = -1` and a remaining quantum of -1;
nothing is queued. -/
def negativeWorkState : SimulationState :=
  { jobs := [exampleJob 0 2 (-1) 1 4 0 RUNNING],
    ready_queue := [], running_job := some 0, current_time := 0,
    last_running_job_id := 0, current_job_quantum_remaining := -1,
    context_switches := 0, deadline_misses := 0, completed_jobs := 0, idle_time := 0 }

/-! ## The sub-steps of a tick, named -/

/-- Step 2 of the tick loop. -/
def completionStep (s1 : SimulationState) : SimulationState :=
  if completionDue s1 = true then handle_completion s1 else s1

/-- The value of `requires_reschedule` when step 4 reads it: set by an arrival
(`req1`), by the completion of step 2, or by the quantum expiry of step 3. -/
def rescheduleFlag (s1 : SimulationState) (req1 : Bool) : Bool :=
  (req1 || completionDue s1) || quantumExpired (completionStep s1)

/-- The condition of step 4 under which the selector and the decision run. -/
def rescheduleTaken (s1 : SimulationState) (req1 : Bool) : Prop :=
  rescheduleFlag s1 req1 = true ∨ (completionStep s1).running_job = none

instance (s1 : SimulationState) (req1 : Bool) : Decidable (rescheduleTaken s1 req1) := by
  unfold rescheduleTaken; infer_instance

/-- The boundaries of one tick, from the state `s1` and the flag `req1` that the
arrival step leaves and the state `s5` that step 4 leaves. -/
def tickList (s1 : SimulationState) (req1 : Bool) (s5 : SimulationState) :
    List (SubStep × SimulationState) :=
  [(arrival, s1), (completion, completionStep s1),
   (selection, if rescheduleTaken s1 req1 then (select_mllf_task_Ta (completionStep s1)).1 else s5),
   (decision, s5), (execution, execute_running_job s5),
   (deadlineCheck, check_deadline_misses (execute_running_job s5)),
   (advance, tickExecute s5)]

/-! ## Fields that a run does not write -/

/-- The job_id of a job is its index in the job array, and its remaining
worst-case time and its absolute deadline are values of a non-negative `int`
and of an `int`. -/
def StaticInv (s : SimulationState) : Prop :=
  ∀ i, i < s.jobs.length →
    (getJob s.jobs i).job_id = (i : Int)
    ∧ 0 ≤ (getJob s.jobs i).remaining_wcet ∧ (getJob s.jobs i).remaining_wcet ≤ INT_MAX
    ∧ (getJob s.jobs i).absolute_deadline ≤ INT_MAX

/-! ## The facts of one tick -/

/-- The state after the laxity and selection pass of step 4, as `tickList`
has it. -/
def selectionState (s1 : SimulationState) (req1 : Bool) (s5 : SimulationState) :
    SimulationState :=
  if rescheduleTaken s1 req1 then (select_mllf_task_Ta (completionStep s1)).1 else s5

/-- What one tick started in the state `s` does, `s1` and `req1` being the
outcome of the arrival step and `s5` the state that step 4 leaves: the run
invariant at every boundary, the change of every job record between
consecutive boundaries, the clock, and the occupant having work left after the
completion step, the selection and the decision. -/
structure TickFacts (s s1 : SimulationState) (req1 : Bool) (s5 : SimulationState) : Prop where
  arr : arrivalsLoop (List.range s.jobs.length) s false = some (s1, req1)
  res : rescheduleStep (completionStep s1) (rescheduleFlag s1 req1) = some s5
  inv1 : RunInv s1
  step1 : ∀ i, JobStep arrival s s1 i
  time1 : s1.current_time = s.current_time
  inv2 : RunInv (completionStep s1)
  occ2 : OccPos (completionStep s1)
  step2 : ∀ i, JobStep completion s1 (completionStep s1) i
  time2 : (completionStep s1).current_time = s.current_time
  inv3 : RunInv (selectionState s1 req1 s5)
  occ3 : OccPos (selectionState s1 req1 s5)
  step3 : ∀ i, JobStep selection (completionStep s1) (selectionState s1 req1 s5) i
  time3 : (selectionState s1 req1 s5).current_time = s.current_time
  inv5 : RunInv s5
  occ5 : OccPos s5
  step5 : ∀ i, JobStep decision (selectionState s1 req1 s5) s5 i
  time5 : s5.current_time = s.current_time
  inv6 : RunInv (execute_running_job s5)
  step6 : ∀ i, JobStep execution s5 (execute_running_job s5) i
  inv7 : RunInv (check_deadline_misses (execute_running_job s5))
  step7 : ∀ i, JobStep deadlineCheck (execute_running_job s5)
    (check_deadline_misses (execute_running_job s5)) i
  inv8 : RunInv (tickExecute s5)
  time8 : (tickExecute s5).current_time = s.current_time + 1
  len : ∀ b ∈ tickList s1 req1 s5, b.2.jobs.length = s.jobs.length

/-! ## Deadlines and the clock -/

/-- At the boundary after the deadline check the clock still shows the time of
the tick, one less than the time that the check has compared with the
deadlines. -/
def checkSlack (lbl : SubStep) : Int := if lbl = deadlineCheck then 1 else 0

/-- Between the completion step and the execution step of a tick the occupant
has work left and has passed the deadline check of the tick before; elsewhere
it may have finished its work and be one tick past its deadline. -/
def lateSlack (lbl : SubStep) : Int :=
  if lbl = completion ∨ lbl = selection ∨ lbl = decision ∨ lbl = execution then 0 else 1

/-- The relation between the clock and the deadlines at the boundary `lbl`: no
job arrives after its deadline; a completed job has finished at most one tick
after its deadline; a Ready job is not past its deadline; a Running job with
work left is not past its deadline, and one without is at most one tick
past it. -/
def DeadlineInv (lbl : SubStep) (s : SimulationState) : Prop :=
  ∀ i, i < s.jobs.length →
    (getJob s.jobs i).arrival_time ≤ (getJob s.jobs i).absolute_deadline
    ∧ ((getJob s.jobs i).status = COMPLETED →
        (getJob s.jobs i).finish_time ≤ (getJob s.jobs i).absolute_deadline + 1)
    ∧ ((getJob s.jobs i).status = READY →
        s.current_time + checkSlack lbl ≤ (getJob s.jobs i).absolute_deadline)
    ∧ ((getJob s.jobs i).status = RUNNING →
        (0 < (getJob s.jobs i).remaining_aet →
          s.current_time + checkSlack lbl ≤ (getJob s.jobs i).absolute_deadline)
        ∧ s.current_time + checkSlack lbl ≤ (getJob s.jobs i).absolute_deadline + lateSlack lbl)

/-- Two tasks with deadline 2 that arrive together:
T0(arrival 0, period 4, wcet 2, deadline 2), T1(arrival 0, period 4, wcet 1, deadline 2). -/
def lateTasks : List Task :=
  [{ id := 0, arrival_time := 0, period := 4, wcet := 2, deadline := 2 },
   { id := 1, arrival_time := 0, period := 4, wcet := 1, deadline := 2 }]

/-- The jobs that `generate_jobs` returns for `lateTasks` over the hyperperiod 4. -/
def lateGenerated : List Job := (generate_jobs 4 lateTasks).getD []

/-- The jobs of `lateTasks` with each AET equal to the WCET. -/
def lateJobs : List Job := (read_actual_execution_times [2, 1] lateGenerated).getD []

/-! ## Ticks without a reschedule -/

/-- Some job arrives at the current time of the state: it has not arrived yet
and its arrival time is now. -/
def arrivalNow (s : SimulationState) : Prop :=
  ∃ i, i < s.jobs.length ∧ (getJob s.jobs i).status = NOT_ARRIVED
    ∧ (getJob s.jobs i).arrival_time = s.current_time

instance (s : SimulationState) : Decidable (arrivalNow s) := by
  unfold arrivalNow; infer_instance

/-- At time 1 job 0 runs with two units of work and a remaining quantum of 2,
and job 1 waits in the ready queue; no job arrives. -/
def steadyState : SimulationState :=
  { jobs := [exampleJob 0 3 2 2 4 0 RUNNING, exampleJob 1 2 2 2 8 4 READY],
    ready_queue := [1], running_job := some 0, current_time := 1,
    last_running_job_id := 0, current_job_quantum_remaining := 2,
    context_switches := 0, deadline_misses := 0, completed_jobs := 0, idle_time := 0 }

/-! ## The quantum of the occupant -/

/-- The least remaining quantum that an occupant may have at the boundary
`lbl`: 1 after the decision, where the execution step is about to run, and 0
elsewhere. -/
def quantumFloor (lbl : SubStep) : Int := if lbl = decision then 1 else 0

/-- The remaining quantum of the occupant at the boundary `lbl` lies between
`quantumFloor lbl` and the remaining actual execution time of the occupant. -/
def QuantumInv (lbl : SubStep) (s : SimulationState) : Prop :=
  ∀ r, s.running_job = some r →
    quantumFloor lbl ≤ s.current_job_quantum_remaining
    ∧ s.current_job_quantum_remaining ≤ (getJob s.jobs r).remaining_aet

/-! ## Actual work done -/

/-- Specification side: the sum over the jobs of the actual work done so far,
`aet - remaining_aet`. -/
def workDone (jobs : List Job) : Int :=
  (jobs.map fun j => j.aet - j.remaining_aet).sum

/-! ## Completion at the horizon -/

/-- A job that is not COMPLETED has `finish_time` unset (-1); a COMPLETED job
has a `finish_time` that is a time of the clock; a MISSED job has work left. -/
def HorizonInv (s : SimulationState) : Prop :=
  ∀ i, ((getJob s.jobs i).status ≠ COMPLETED → (getJob s.jobs i).finish_time = -1)
    ∧ ((getJob s.jobs i).status = COMPLETED → 0 ≤ (getJob s.jobs i).finish_time)
    ∧ ((getJob s.jobs i).status = MISSED → 1 ≤ (getJob s.jobs i).remaining_aet)

/-- A single task whose two units of work fill its period:
T0(arrival 0, period 2, wcet 2, deadline 2). -/
def horizonTask : Task :=
  { id := 0, arrival_time := 0, period := 2, wcet := 2, deadline := 2 }

/-- The job that `generate_jobs` returns for `horizonTask` over the hyperperiod 2. -/
def horizonGenerated : List Job := (generate_jobs 2 [horizonTask]).getD []

/-- The job of `horizonTask` with AET 2. -/
def horizonJobs : List Job := (read_actual_execution_times [2] horizonGenerated).getD []

/-! ## The range of the laxity computation -/

/-- Job `i` is one whose laxity `calculate_all_laxities` computes in the state:
an entry of the ready queue with status READY, or the occupant of the running
slot with status RUNNING. -/
def laxityComputed (s : SimulationState) (i : Nat) : Prop :=
  (i ∈ s.ready_queue ∧ (getJob s.jobs i).status = READY)
  ∨ (s.running_job = some i ∧ (getJob s.jobs i).status = RUNNING)

/-- Neither of the two `int` subtractions of
`absolute_deadline - current_time - remaining_wcet` overflows for a job whose
laxity is computed in the state. -/
def LaxityInRange (s : SimulationState) : Prop :=
  ∀ i, laxityComputed s i →
    INT_MIN ≤ (getJob s.jobs i).absolute_deadline - s.current_time
    ∧ (getJob s.jobs i).absolute_deadline - s.current_time ≤ INT_MAX
    ∧ INT_MIN ≤ laxityNow s i ∧ laxityNow s i ≤ INT_MAX

/-! ## A run in which `D_min - L_a` leaves the range of `int` -/

/-- A task file of two lines, `0 8 6 6` and `5 8 2147483647 2`: the second
task has the WCET `INT_MAX`, which `read_tasks` accepts (it warns that the
WCET exceeds the deadline). -/
def hugeWcetFile : List Token :=
  [Token.num 0, Token.num 8, Token.num 6, Token.num 6,
   Token.num 5, Token.num 8, Token.num 2147483647, Token.num 2]

/-- The tasks of `hugeWcetFile`. -/
def hugeWcetTasks : List Task :=
  [{ id := 0, arrival_time := 0, period := 8, wcet := 6, deadline := 6 },
   { id := 1, arrival_time := 5, period := 8, wcet := 2147483647, deadline := 2 }]

/-- The jobs that `generate_jobs` returns for `hugeWcetTasks` over the
hyperperiod 8. -/
def hugeWcetGenerated : List Job := (generate_jobs 8 hugeWcetTasks).getD []

/-- The jobs of `hugeWcetTasks` with the actual execution times 6 and 5. -/
def hugeWcetJobs : List Job := (read_actual_execution_times [6, 5] hugeWcetGenerated).getD []

/-! ## The deadline check, as the specification words it -/

/-- Specification side: the condition under which a job is to be marked
Missed: it is the Running job or a queued Ready job, `current_time + 1` exceeds
its absolute deadline, and it has `remaining_aet > 0`. -/
def missDue (s : SimulationState) (i : Nat) : Prop :=
  ((s.running_job = some i ∧ (getJob s.jobs i).status = RUNNING)
    ∨ (i ∈ s.ready_queue ∧ (getJob s.jobs i).status = READY))
  ∧ s.current_time + 1 > (getJob s.jobs i).absolute_deadline
  ∧ (getJob s.jobs i).remaining_aet > 0

instance (s : SimulationState) (i : Nat) : Decidable (missDue s i) := by
  unfold missDue; infer_instance

/-- Job `i` is marked Missed by the call of `check_deadline_misses` on `s`. -/
def markedMissed (s : SimulationState) (i : Nat) : Prop :=
  (getJob s.jobs i).status ≠ MISSED ∧ (getJob (check_deadline_misses s).jobs i).status = MISSED

instance (s : SimulationState) (i : Nat) : Decidable (markedMissed s i) := by
  unfold markedMissed; infer_instance

/-- At time 1 job 0 is running with deadline 1 and work left, job 1 is queued
with deadline 1, job 2 is queued with deadline 5. -/
def missState : SimulationState :=
  { jobs := [exampleJob 0 1 1 1 1 0 RUNNING, exampleJob 1 1 1 1 1 0 READY,
             exampleJob 2 1 1 1 5 3 READY],
    ready_queue := [1, 2], running_job := some 0, current_time := 1,
    last_running_job_id := 0, current_job_quantum_remaining := 1,
    context_switches := 0, deadline_misses := 0, completed_jobs := 0, idle_time := 1 }

/-! ## A job that misses its deadline -/

/-- One task whose WCET 4 exceeds its relative deadline 2:
T(arrival 0, period 4, wcet 4, deadline 2). -/
def overrunTask : Task := { id := 0, arrival_time := 0, period := 4, wcet := 4, deadline := 2 }

/-- The job that `generate_jobs` returns for `overrunTask` over the hyperperiod 4. -/
def overrunGenerated : List Job := (generate_jobs 4 [overrunTask]).getD []

/-- The job of `overrunTask` with the actual execution time 4. -/
def overrunJobs : List Job := (read_actual_execution_times [4] overrunGenerated).getD []

/-! # Theorems -/

/-! ## 32-bit arithmetic -/

theorem castInt_of_range (x : Int) (h1 : -2147483648 ≤ x) (h2 : x ≤ INT_MAX) : castInt x = x := by
  unfold castInt
  unfold INT_MAX at h2
  omega

/-- Where the laxity computation stays in range, the exact difference is the
value of the two 32-bit subtractions. -/
theorem laxityNow_eq_int (s : SimulationState) (h : LaxityInRange s) (i : Nat)
    (hi : laxityComputed s i) :
    laxityNow s i
      = castInt (castInt ((getJob s.jobs i).absolute_deadline - s.current_time)
          - (getJob s.jobs i).remaining_wcet) := by
  obtain ⟨h1, h2, h3, h4⟩ := h i hi
  have hI : INT_MIN = -2147483648 := rfl
  rw [castInt_of_range _ (by omega) h2]
  unfold laxityNow at h3 h4 ⊢
  rw [castInt_of_range _ (by omega) h4]


/-! ## Lemmas on the quantum -/

theorem TminInv_congr {jobs : List Job} {ta : Nat} {S T : Nat → Prop} {acc : Int × Option Nat}
    (h : ∀ x, S x ↔ T x) (hI : TminInv jobs ta S acc) : TminInv jobs ta T acc := by
  have hST : S = T := funext fun x => propext (h x)
  rw [← hST]; exact hI

theorem tminStep_cases (jobs : List Job) (ta : Nat) (acc : Int × Option Nat) (i : Nat) :
    (tminStep jobs ta acc i = acc
      ∧ (isTminCandidate jobs ta i → acc.1 ≤ (getJob jobs i).absolute_deadline))
    ∨ (tminStep jobs ta acc i = ((getJob jobs i).absolute_deadline, some i)
      ∧ isTminCandidate jobs ta i ∧ (getJob jobs i).absolute_deadline < acc.1) := by
  unfold tminStep isTminCandidate
  by_cases hia : i = ta
  · left; simp [hia]
  · by_cases hd : (getJob jobs i).absolute_deadline < acc.1 <;>
      by_cases hl : (getJob jobs i).calculated_laxity > (getJob jobs ta).calculated_laxity <;>
      cases hst : (getJob jobs i).status <;>
      simp [hia, hd, hl] <;> omega

theorem tminStep_inv {jobs : List Job} {ta : Nat} {S : Nat → Prop} {acc : Int × Option Nat}
    (i : Nat) (hI : TminInv jobs ta S acc) :
    TminInv jobs ta (fun x => S x ∨ x = i) (tminStep jobs ta acc i) := by
  obtain ⟨h1, h2, h3⟩ := hI
  rcases tminStep_cases jobs ta acc i with ⟨he, hc⟩ | ⟨he, hc, hlt⟩
  · rw [he]
    refine ⟨h1, ?_, ?_⟩
    · intro k hk
      obtain ⟨a, b, c, d⟩ := h2 k hk
      exact ⟨Or.inl a, b, c, d⟩
    · intro x hx hcx hdx
      rcases hx with hx | hx
      · exact h3 x hx hcx hdx
      · subst hx; exact hc hcx
  · rw [he]
    have hle : acc.1 ≤ INT_MAX := by
      cases hacc : acc.2 with
      | none => rw [h1 hacc]
      | some k => exact le_of_lt (h2 k hacc).2.2.2
    refine ⟨by simp, ?_, ?_⟩
    · intro k hk
      simp only [Option.some.injEq] at hk
      subst hk
      exact ⟨Or.inr rfl, hc, rfl, lt_of_lt_of_le hlt hle⟩
    · intro x hx hcx hdx
      rcases hx with hx | hx
      · exact le_trans (le_of_lt hlt) (h3 x hx hcx hdx)
      · subst hx; exact le_refl _

theorem tmin_fold_inv (jobs : List Job) (ta : Nat) (l : List Nat) :
    ∀ (S : Nat → Prop) (acc : Int × Option Nat), TminInv jobs ta S acc →
      TminInv jobs ta (fun x => S x ∨ x ∈ l) (l.foldl (tminStep jobs ta) acc) := by
  induction l with
  | nil => intro S acc hI; exact TminInv_congr (by simp) hI
  | cons i l ih =>
    intro S acc hI
    rw [List.foldl_cons]
    refine TminInv_congr ?_ (ih _ _ (tminStep_inv i hI))
    intro x
    simp only [List.mem_cons]
    tauto

theorem tmin_range_inv (jobs : List Job) (ta : Nat) :
    TminInv jobs ta (fun x => x < jobs.length)
      ((List.range jobs.length).foldl (tminStep jobs ta) (INT_MAX, none)) := by
  have h0 : TminInv jobs ta (fun _ => False) (INT_MAX, none) := by
    refine ⟨fun _ => rfl, ?_, ?_⟩
    · intro k hk; simp at hk
    · intro i hi; exact absurd hi id
  exact TminInv_congr (by simp) (tmin_fold_inv jobs ta (List.range jobs.length) _ _ h0)

theorem find_earliest_eq (s : SimulationState) (ta : Nat) :
    find_earliest_deadline_higher_laxity_job_deadline s (some ta)
      = match ((List.range s.jobs.length).foldl (tminStep s.jobs ta) (INT_MAX, none)).2 with
        | none => NO_TASK_FOUND
        | some _ => ((List.range s.jobs.length).foldl (tminStep s.jobs ta) (INT_MAX, none)).1 := rfl

/-! ## Quantum: the verified claims -/

/-- Where `Dmin - La` is a value of `int`, or the branch that computes it is
not reached, `calculate_mllf_quantum` equals the reference definition of the
specification: 0 when `remaining_aet ≤ 0`; otherwise `remaining_aet` when no
constraint deadline exists or Ta's absolute deadline is at most `Dmin`;
otherwise `min (max (Dmin - La) 1) remaining_aet`. -/
theorem calculate_mllf_quantum_eq_reference (s : SimulationState) (ta : Nat)
    (hrange : 0 < (getJob s.jobs ta).remaining_aet →
      find_earliest_deadline_higher_laxity_job_deadline s (some ta) ≠ NO_TASK_FOUND →
      find_earliest_deadline_higher_laxity_job_deadline s (some ta)
        < (getJob s.jobs ta).absolute_deadline →
      INT_MIN ≤ find_earliest_deadline_higher_laxity_job_deadline s (some ta)
          - (getJob s.jobs ta).calculated_laxity
      ∧ find_earliest_deadline_higher_laxity_job_deadline s (some ta)
          - (getJob s.jobs ta).calculated_laxity ≤ INT_MAX) :
    calculate_mllf_quantum s (some ta) = quantum_reference s ta := by
  unfold calculate_mllf_quantum quantum_reference
  simp only [min_def, max_def]
  by_cases h1 : (getJob s.jobs ta).remaining_aet ≤ 0
  · simp only [h1, if_true]
  by_cases h2 : find_earliest_deadline_higher_laxity_job_deadline s (some ta) = NO_TASK_FOUND
      ∨ (getJob s.jobs ta).absolute_deadline
          ≤ find_earliest_deadline_higher_laxity_job_deadline s (some ta)
  · simp only [h1, h2, if_true, if_false]
  have h3 := hrange (by omega) (fun h => h2 (Or.inl h)) (by
    by_contra hcon
    exact h2 (Or.inr (by omega)))
  have hc : castInt (find_earliest_deadline_higher_laxity_job_deadline s (some ta)
      - (getJob s.jobs ta).calculated_laxity)
      = find_earliest_deadline_higher_laxity_job_deadline s (some ta)
        - (getJob s.jobs ta).calculated_laxity := by
    have := h3.1
    have := h3.2
    unfold castInt
    unfold INT_MIN at *
    unfold INT_MAX at *
    omega
  simp only [h1, h2, if_false, hc]
  split_ifs <;> omega

/-- C3: with absolute deadlines in `[0, INT_MAX)`,
`find_earliest_deadline_higher_laxity_job_deadline` returns `NO_TASK_FOUND`
exactly when no job other than Ta is a candidate (NotArrived whatever its
laxity, or Ready/Running with laxity strictly above Ta's), and otherwise the
minimum absolute deadline over the candidates. -/
theorem find_earliest_deadline_is_min_over_candidates (s : SimulationState) (ta : Nat)
    (hd : ∀ i, i < s.jobs.length →
      0 ≤ (getJob s.jobs i).absolute_deadline ∧ (getJob s.jobs i).absolute_deadline < INT_MAX) :
    (find_earliest_deadline_higher_laxity_job_deadline s (some ta) = NO_TASK_FOUND
        ↔ ¬ ∃ i, i < s.jobs.length ∧ isTminCandidate s.jobs ta i)
    ∧ ((∃ i, i < s.jobs.length ∧ isTminCandidate s.jobs ta i) →
        (∃ k, k < s.jobs.length ∧ isTminCandidate s.jobs ta k
          ∧ find_earliest_deadline_higher_laxity_job_deadline s (some ta)
              = (getJob s.jobs k).absolute_deadline)
        ∧ ∀ i, i < s.jobs.length → isTminCandidate s.jobs ta i →
            find_earliest_deadline_higher_laxity_job_deadline s (some ta)
              ≤ (getJob s.jobs i).absolute_deadline) := by
  obtain ⟨h1, h2, h3⟩ := tmin_range_inv s.jobs ta
  rw [find_earliest_eq]
  cases hacc : ((List.range s.jobs.length).foldl (tminStep s.jobs ta) (INT_MAX, none)).2 with
  | none =>
    have hmax := h1 hacc
    have hno : ¬ ∃ i, i < s.jobs.length ∧ isTminCandidate s.jobs ta i := by
      rintro ⟨i, hi, hc⟩
      have := h3 i hi hc (hd i hi).2
      have := (hd i hi).2
      omega
    exact ⟨⟨fun _ => hno, fun _ => rfl⟩, fun h => absurd h hno⟩
  | some k =>
    obtain ⟨hk, hck, hek, _⟩ := h2 k hacc
    simp only
    refine ⟨⟨?_, ?_⟩, fun _ => ⟨⟨k, hk, hck, hek⟩, fun i hi hc => h3 i hi hc (hd i hi).2⟩⟩
    · intro h
      have := (hd k hk).1
      rw [hek] at h
      unfold NO_TASK_FOUND at h
      omega
    · intro h; exact absurd ⟨k, hk, hck⟩ h

/-- C4: quantum correctness.  If Ta has `remaining_aet ≥ 0` and no other job
that is NotArrived, Ready or Running has an absolute deadline strictly earlier
than Ta's, `calculate_mllf_quantum` returns exactly Ta's `remaining_aet`. -/
theorem quantum_is_remaining_aet_without_earlier_deadline (s : SimulationState) (ta : Nat)
    (hra : 0 ≤ (getJob s.jobs ta).remaining_aet)
    (h : ∀ i, i < s.jobs.length → i ≠ ta →
      ((getJob s.jobs i).status = NOT_ARRIVED ∨ (getJob s.jobs i).status = READY
        ∨ (getJob s.jobs i).status = RUNNING) →
      ¬ (getJob s.jobs i).absolute_deadline < (getJob s.jobs ta).absolute_deadline) :
    calculate_mllf_quantum s (some ta) = (getJob s.jobs ta).remaining_aet := by
  obtain ⟨h1, h2, h3⟩ := tmin_range_inv s.jobs ta
  have hD : find_earliest_deadline_higher_laxity_job_deadline s (some ta) = NO_TASK_FOUND
      ∨ (getJob s.jobs ta).absolute_deadline
          ≤ find_earliest_deadline_higher_laxity_job_deadline s (some ta) := by
    rw [find_earliest_eq]
    cases hacc : ((List.range s.jobs.length).foldl (tminStep s.jobs ta) (INT_MAX, none)).2 with
    | none => left; rfl
    | some k =>
      right
      obtain ⟨hk, hck, hek, _⟩ := h2 k hacc
      simp only
      rw [hek]
      have hst : (getJob s.jobs k).status = NOT_ARRIVED ∨ (getJob s.jobs k).status = READY
          ∨ (getJob s.jobs k).status = RUNNING := by
        rcases hck.2 with hna | ⟨hrr, _⟩
        · exact Or.inl hna
        · exact Or.inr hrr
      exact not_lt.mp (h k hk hck.1 hst)
  unfold calculate_mllf_quantum
  simp only
  by_cases hz : (getJob s.jobs ta).remaining_aet ≤ 0
  · rw [if_pos hz]; omega
  · rw [if_neg hz, if_pos hD]

/-! ## Memory lemmas -/

theorem getJob_of_ge {jobs : List Job} {i : Nat} (h : jobs.length ≤ i) : getJob jobs i = nullJob := by
  unfold getJob
  simp [List.getD_eq_getElem?_getD, List.getElem?_eq_none h]

theorem lt_of_status_ne {jobs : List Job} {i : Nat}
    (h : (getJob jobs i).status ≠ NOT_ARRIVED) : i < jobs.length := by
  by_contra hge
  rw [getJob_of_ge (not_lt.mp hge)] at h
  exact h rfl

theorem updJob_length (jobs : List Job) (k : Nat) (f : Job → Job) :
    (updJob jobs k f).length = jobs.length := by
  simp [updJob]

theorem getJob_updJob_ne {jobs : List Job} {k i : Nat} (f : Job → Job) (h : i ≠ k) :
    getJob (updJob jobs k f) i = getJob jobs i := by
  unfold getJob updJob
  simp [List.getD_eq_getElem?_getD, List.getElem?_set, Ne.symm h]

theorem getJob_updJob_self {jobs : List Job} {k : Nat} (f : Job → Job) (h : k < jobs.length) :
    getJob (updJob jobs k f) k = f (getJob jobs k) := by
  have hg : getJob jobs k = jobs[k] := by
    unfold getJob
    simp [List.getD_eq_getElem?_getD, List.getElem?_eq_getElem h]
  unfold updJob
  rw [hg]
  unfold getJob
  simp [List.getD_eq_getElem?_getD, List.getElem?_set, h]

theorem updJob_of_ge {jobs : List Job} {k : Nat} (f : Job → Job) (h : jobs.length ≤ k) :
    updJob jobs k f = jobs := by
  unfold updJob
  exact List.set_eq_of_length_le h

/-! ## Lemmas on `calculate_all_laxities` -/

theorem setLaxity_setLaxity (j : Job) (v w : Int) : setLaxity (setLaxity j v) w = setLaxity j w := rfl

theorem setLaxity_self (j : Job) : setLaxity j j.calculated_laxity = j := rfl

theorem queueLaxity_setLaxity (now : Int) (j : Job) (v : Int) :
    queueLaxity now (setLaxity j v) = queueLaxity now j := rfl

theorem getJob_laxityStep (now : Int) (jobs : List Job) (k i : Nat) :
    getJob (laxityStep now jobs k) i
      = if i = k then setLaxity (getJob jobs i) (queueLaxity now (getJob jobs i))
        else getJob jobs i := by
  by_cases hik : i = k
  · subst hik
    rw [if_pos rfl]
    by_cases hlt : i < jobs.length
    · unfold laxityStep queueLaxity
      by_cases hst : (getJob jobs i).status = READY
      · rw [if_pos hst, if_pos hst, getJob_updJob_self _ hlt]; rfl
      · rw [if_neg hst, if_neg hst, getJob_updJob_self _ hlt]; rfl
    · have hge := not_lt.mp hlt
      have h1 : laxityStep now jobs i = jobs := by
        unfold laxityStep
        split_ifs <;> exact updJob_of_ge _ hge
      rw [h1, getJob_of_ge hge]
      rfl
  · rw [if_neg hik]
    unfold laxityStep
    split_ifs <;> exact getJob_updJob_ne _ hik

theorem laxityStep_length (now : Int) (jobs : List Job) (k : Nat) :
    (laxityStep now jobs k).length = jobs.length := by
  unfold laxityStep
  split_ifs <;> exact updJob_length _ _ _

theorem getJob_laxity_fold (now : Int) (l : List Nat) :
    ∀ (jobs : List Job) (i : Nat),
      getJob (l.foldl (laxityStep now) jobs) i
        = if i ∈ l then setLaxity (getJob jobs i) (queueLaxity now (getJob jobs i))
          else getJob jobs i := by
  induction l with
  | nil => intro jobs i; simp
  | cons k l ih =>
    intro jobs i
    rw [List.foldl_cons, ih, getJob_laxityStep]
    by_cases hik : i = k
    · subst hik
      simp only [if_true, List.mem_cons, true_or, queueLaxity_setLaxity, setLaxity_setLaxity]
      split_ifs <;> rfl
    · simp [hik]

theorem laxity_fold_length (now : Int) (l : List Nat) :
    ∀ (jobs : List Job), (l.foldl (laxityStep now) jobs).length = jobs.length := by
  induction l with
  | nil => intro jobs; rfl
  | cons k l ih => intro jobs; rw [List.foldl_cons, ih, laxityStep_length]

theorem calculate_all_laxities_frame (s : SimulationState) :
    (calculate_all_laxities s).ready_queue = s.ready_queue
    ∧ (calculate_all_laxities s).running_job = s.running_job
    ∧ (calculate_all_laxities s).current_time = s.current_time
    ∧ (calculate_all_laxities s).last_running_job_id = s.last_running_job_id
    ∧ (calculate_all_laxities s).current_job_quantum_remaining = s.current_job_quantum_remaining
    ∧ (calculate_all_laxities s).context_switches = s.context_switches
    ∧ (calculate_all_laxities s).deadline_misses = s.deadline_misses
    ∧ (calculate_all_laxities s).completed_jobs = s.completed_jobs
    ∧ (calculate_all_laxities s).idle_time = s.idle_time
    ∧ (calculate_all_laxities s).jobs.length = s.jobs.length := by
  unfold calculate_all_laxities
  cases hr : s.running_job with
  | none => simp [laxity_fold_length]
  | some r =>
    simp only
    split_ifs <;> simp [laxity_fold_length, updJob_length]

theorem calculate_all_laxities_jobs (s : SimulationState) :
    (calculate_all_laxities s).jobs
      = match s.running_job with
        | some r =>
          if (getJob (s.ready_queue.foldl (laxityStep s.current_time) s.jobs) r).status = RUNNING
          then updJob (s.ready_queue.foldl (laxityStep s.current_time) s.jobs) r (fun j =>
            { j with calculated_laxity := j.absolute_deadline - s.current_time - j.remaining_wcet })
          else s.ready_queue.foldl (laxityStep s.current_time) s.jobs
        | none => s.ready_queue.foldl (laxityStep s.current_time) s.jobs := by
  unfold calculate_all_laxities
  cases s.running_job with
  | none => rfl
  | some r => simp only; split_ifs <;> rfl

theorem status_laxity_fold (now : Int) (l : List Nat) (jobs : List Job) (i : Nat) :
    (getJob (l.foldl (laxityStep now) jobs) i).status = (getJob jobs i).status := by
  rw [getJob_laxity_fold]
  split_ifs <;> rfl

theorem getJob_calculate_all_laxities (s : SimulationState) (i : Nat) :
    getJob (calculate_all_laxities s).jobs i = setLaxity (getJob s.jobs i) (laxityAfter s i) := by
  rw [calculate_all_laxities_jobs]
  unfold laxityAfter
  cases hr : s.running_job with
  | none =>
    simp only [getJob_laxity_fold, false_and, if_false, reduceCtorEq]
    split_ifs <;> first | rfl | (simp only [queueLaxity, laxityNow, *]; rfl)
  | some r =>
    simp only [status_laxity_fold, Option.some.injEq]
    by_cases hrun : (getJob s.jobs r).status = RUNNING
    · rw [if_pos hrun]
      have hlt : r < s.jobs.length := lt_of_status_ne (by rw [hrun]; simp)
      have hlt2 : r < (List.foldl (laxityStep s.current_time) s.jobs s.ready_queue).length := by
        rw [laxity_fold_length]; exact hlt
      by_cases hir : i = r
      · subst hir
        rw [getJob_updJob_self _ hlt2, getJob_laxity_fold]
        simp only [true_and, hrun, if_true]
        split_ifs <;> rfl
      · have hne : ¬ r = i := fun h => hir h.symm
        rw [getJob_updJob_ne _ hir, getJob_laxity_fold]
        simp only [hne, false_and, if_false]
        split_ifs <;> first | rfl | (simp only [queueLaxity, laxityNow, *]; rfl)
    · rw [if_neg hrun, getJob_laxity_fold]
      have hcond : ¬ (r = i ∧ (getJob s.jobs i).status = RUNNING) := by
        rintro ⟨h1, h2⟩; subst h1; exact hrun h2
      rw [if_neg hcond]
      split_ifs <;> first | rfl | (simp only [queueLaxity, laxityNow, *]; rfl)

/-! ## Lemmas on `select_mllf_task_Ta` -/

theorem minLaxity_fold (jobs : List Job) (l : List Nat) :
    ∀ m0 : Int,
      l.foldl (minLaxityStep jobs) m0 ≤ m0
      ∧ (∀ i ∈ l, (getJob jobs i).status = READY →
          l.foldl (minLaxityStep jobs) m0 ≤ (getJob jobs i).calculated_laxity)
      ∧ (l.foldl (minLaxityStep jobs) m0 = m0
          ∨ ∃ i ∈ l, (getJob jobs i).status = READY
              ∧ (getJob jobs i).calculated_laxity = l.foldl (minLaxityStep jobs) m0) := by
  induction l with
  | nil => intro m0; simp
  | cons k l ih =>
    intro m0
    rw [List.foldl_cons]
    obtain ⟨h1, h2, h3⟩ := ih (minLaxityStep jobs m0 k)
    have hstep : minLaxityStep jobs m0 k ≤ m0
        ∧ ((getJob jobs k).status = READY → minLaxityStep jobs m0 k ≤ (getJob jobs k).calculated_laxity)
        ∧ (minLaxityStep jobs m0 k = m0
            ∨ ((getJob jobs k).status = READY
                ∧ (getJob jobs k).calculated_laxity = minLaxityStep jobs m0 k)) := by
      unfold minLaxityStep
      split_ifs with ha hb
      · exact ⟨le_of_lt hb, fun _ => le_refl _, Or.inr ⟨ha, rfl⟩⟩
      · exact ⟨le_refl _, fun _ => not_lt.mp hb, Or.inl rfl⟩
      · exact ⟨le_refl _, fun h => absurd h ha, Or.inl rfl⟩
    obtain ⟨g1, g2, g3⟩ := hstep
    refine ⟨le_trans h1 g1, ?_, ?_⟩
    · intro i hi hst
      rcases List.mem_cons.mp hi with hik | hil
      · subst hik; exact le_trans h1 (g2 hst)
      · exact h2 i hil hst
    · rcases h3 with h3 | ⟨i, hi, hst, he⟩
      · rcases g3 with g3 | ⟨gst, ge⟩
        · left; rw [h3, g3]
        · right; exact ⟨k, List.mem_cons_self _ _, gst, by rw [h3]; exact ge⟩
      · right; exact ⟨i, List.mem_cons_of_mem _ hi, hst, he⟩

theorem SelInv_congr {jobs : List Job} {M S T : Nat → Prop} {acc : Option Nat × Int}
    (h : ∀ x, S x ↔ T x) (hI : SelInv jobs M S acc) : SelInv jobs M T acc := by
  have hST : S = T := funext fun x => propext (h x)
  rw [← hST]; exact hI

theorem SelInv_skip {jobs : List Job} {M S : Nat → Prop} {acc : Option Nat × Int} {i : Nat}
    (hI : SelInv jobs M S acc) (hM : ¬ M i) : SelInv jobs M (fun x => S x ∨ x = i) acc := by
  obtain ⟨h1, h2⟩ := hI
  refine ⟨fun hn => ⟨(h1 hn).1, ?_⟩, ?_⟩
  · rintro x (hx | hx) hMx
    · exact (h1 hn).2 x hx hMx
    · subst hx; exact hM hMx
  · intro c hc
    obtain ⟨a, b, d, e⟩ := h2 c hc
    refine ⟨Or.inl a, b, d, ?_⟩
    rintro x (hx | hx) hMx hxc
    · exact e x hx hMx hxc
    · subst hx; exact absurd hMx hM

theorem SelInv_tieBreak {jobs : List Job} {M S : Nat → Prop} {acc : Option Nat × Int} {i : Nat}
    (hI : SelInv jobs M S acc) (hM : M i) (hrw : (getJob jobs i).remaining_wcet ≤ INT_MAX)
    (hid : ∀ a b, M a → M b → a ≠ b → (getJob jobs a).job_id ≠ (getJob jobs b).job_id) :
    SelInv jobs M (fun x => S x ∨ x = i) (tieBreak jobs acc i) := by
  obtain ⟨h1, h2⟩ := hI
  obtain ⟨t, w⟩ := acc
  cases t with
  | none =>
    obtain ⟨hw, hno⟩ := h1 rfl
    simp only at hw hno
    have hres : (tieBreak jobs (none, w) i).1 = some i
        ∧ (tieBreak jobs (none, w) i).2 = (getJob jobs i).remaining_wcet := by
      unfold tieBreak
      simp only
      split_ifs with ha hb
      · exact ⟨rfl, rfl⟩
      · exact ⟨rfl, hb.symm⟩
      · exfalso; omega
    refine ⟨fun hn => (by rw [hres.1] at hn; cases hn), ?_⟩
    intro c hc
    rw [hres.1] at hc
    cases hc
    refine ⟨Or.inr rfl, hM, hres.2, ?_⟩
    rintro x (hx | hx) hMx hxc
    · exact absurd hMx (hno x hx)
    · exact absurd hx hxc
  | some c =>
    obtain ⟨hSc, hMc, hw, hmin⟩ := h2 c rfl
    simp only at hw hmin
    by_cases hic : i = c
    · -- the job is met again: the accumulator does not change
      subst hic
      have hres : tieBreak jobs (some i, w) i = (some i, w) := by
        unfold tieBreak
        simp only
        split_ifs <;> first | rfl | (exfalso; omega)
      rw [hres]
      refine ⟨fun hn => (by cases hn), ?_⟩
      intro c hc
      cases hc
      refine ⟨Or.inl hSc, hMc, hw, ?_⟩
      rintro x (hx | hx) hMx hxc
      · exact hmin x hx hMx hxc
      · exact absurd hx hxc
    · have hne := hid i c hM hMc hic
      unfold tieBreak
      simp only
      split_ifs with ha hb hd
      · refine ⟨fun hn => (by cases hn), ?_⟩
        intro c' hc'
        cases hc'
        refine ⟨Or.inr rfl, hM, rfl, ?_⟩
        rintro x (hx | hx) hMx hxc
        · by_cases hxc' : x = c
          · subst hxc'; left; omega
          · rcases hmin x hx hMx hxc' with h | ⟨h, _⟩ <;> (left; omega)
        · exact absurd hx hxc
      · refine ⟨fun hn => (by cases hn), ?_⟩
        intro c' hc'
        cases hc'
        refine ⟨Or.inr rfl, hM, by omega, ?_⟩
        rintro x (hx | hx) hMx hxc
        · by_cases hxc' : x = c
          · subst hxc'; right; exact ⟨by omega, hd⟩
          · rcases hmin x hx hMx hxc' with h | ⟨h, h'⟩
            · left; omega
            · right; exact ⟨by omega, lt_trans hd h'⟩
        · exact absurd hx hxc
      · refine ⟨fun hn => (by cases hn), ?_⟩
        intro c' hc'
        cases hc'
        refine ⟨Or.inl hSc, hMc, hw, ?_⟩
        rintro x (hx | hx) hMx hxc
        · exact hmin x hx hMx hxc
        · subst hx; right
          exact ⟨by omega, lt_of_le_of_ne (not_lt.mp hd) (Ne.symm hne)⟩
      · refine ⟨fun hn => (by cases hn), ?_⟩
        intro c' hc'
        cases hc'
        refine ⟨Or.inl hSc, hMc, hw, ?_⟩
        rintro x (hx | hx) hMx hxc
        · exact hmin x hx hMx hxc
        · subst hx; left; omega

theorem SelInv_fold (jobs : List Job) (m : Int) (M : Nat → Prop)
    (hid : ∀ a b, M a → M b → a ≠ b → (getJob jobs a).job_id ≠ (getJob jobs b).job_id)
    (l : List Nat)
    (hl : ∀ i ∈ l, (M i ↔ ((getJob jobs i).status = READY ∧ (getJob jobs i).calculated_laxity = m))
      ∧ (M i → (getJob jobs i).remaining_wcet ≤ INT_MAX)) :
    ∀ (S : Nat → Prop) (acc : Option Nat × Int), SelInv jobs M S acc →
      SelInv jobs M (fun x => S x ∨ x ∈ l) (l.foldl (selectStep jobs m) acc) := by
  induction l with
  | nil => intro S acc hI; exact SelInv_congr (by simp) hI
  | cons k l ih =>
    intro S acc hI
    rw [List.foldl_cons]
    have hk := hl k (List.mem_cons_self _ _)
    have hstep : SelInv jobs M (fun x => S x ∨ x = k) (selectStep jobs m acc k) := by
      unfold selectStep
      split_ifs with hg
      · exact SelInv_tieBreak hI (hk.1.mpr hg) (hk.2 (hk.1.mpr hg)) hid
      · exact SelInv_skip hI (fun hM => hg (hk.1.mp hM))
    refine SelInv_congr ?_ (ih (fun i hi => hl i (List.mem_cons_of_mem _ hi)) _ _ hstep)
    intro x
    simp only [List.mem_cons]
    tauto

theorem selectMinLaxity_spec (s1 : SimulationState) :
    (∀ i ∈ s1.ready_queue, (getJob s1.jobs i).status = READY →
        selectMinLaxity s1 ≤ (getJob s1.jobs i).calculated_laxity)
    ∧ (∀ r, s1.running_job = some r → (getJob s1.jobs r).status = RUNNING →
        selectMinLaxity s1 ≤ (getJob s1.jobs r).calculated_laxity)
    ∧ (selectMinLaxity s1 = INT_MAX
        ∨ (∃ i ∈ s1.ready_queue, (getJob s1.jobs i).status = READY
            ∧ (getJob s1.jobs i).calculated_laxity = selectMinLaxity s1)
        ∨ (∃ r, s1.running_job = some r ∧ (getJob s1.jobs r).status = RUNNING
            ∧ (getJob s1.jobs r).calculated_laxity = selectMinLaxity s1)) := by
  obtain ⟨a1, a2, a3⟩ := minLaxity_fold s1.jobs s1.ready_queue INT_MAX
  unfold selectMinLaxity
  cases hr : s1.running_job with
  | none =>
    simp only
    refine ⟨a2, fun r h => (by cases h), ?_⟩
    rcases a3 with a3 | a3
    · exact Or.inl a3
    · exact Or.inr (Or.inl a3)
  | some r =>
    simp only
    by_cases hrun : (getJob s1.jobs r).status = RUNNING
    · rw [if_pos hrun]
      by_cases hlt : (getJob s1.jobs r).calculated_laxity
          < List.foldl (minLaxityStep s1.jobs) INT_MAX s1.ready_queue
      · rw [if_pos hlt]
        refine ⟨fun i hi hst => le_trans (le_of_lt hlt) (a2 i hi hst), ?_, ?_⟩
        · intro r' h _; cases h; exact le_refl _
        · exact Or.inr (Or.inr ⟨r, rfl, hrun, rfl⟩)
      · rw [if_neg hlt]
        refine ⟨a2, ?_, ?_⟩
        · intro r' h _; cases h; exact not_lt.mp hlt
        · rcases a3 with a3 | a3
          · exact Or.inl a3
          · exact Or.inr (Or.inl a3)
    · rw [if_neg hrun]
      refine ⟨a2, ?_, ?_⟩
      · intro r' h h'; cases h; exact absurd h' hrun
      · rcases a3 with a3 | a3
        · exact Or.inl a3
        · exact Or.inr (Or.inl a3)

theorem select_result_eq (s : SimulationState)
    (he : ¬ (s.ready_queue.length = 0 ∧ s.running_job = none)) :
    (select_mllf_task_Ta s).1 = calculate_all_laxities s
    ∧ (select_mllf_task_Ta s).2
      = ((calculate_all_laxities s).ready_queue.foldl
          (selectStep (calculate_all_laxities s).jobs (selectMinLaxity (calculate_all_laxities s)))
          (match (calculate_all_laxities s).running_job with
            | some r =>
              if (getJob (calculate_all_laxities s).jobs r).status = RUNNING
                  ∧ (getJob (calculate_all_laxities s).jobs r).calculated_laxity
                      = selectMinLaxity (calculate_all_laxities s)
              then tieBreak (calculate_all_laxities s).jobs (none, INT_MAX) r else (none, INT_MAX)
            | none => (none, INT_MAX))).1 := by
  unfold select_mllf_task_Ta
  rw [if_neg he]
  exact ⟨rfl, rfl⟩

theorem select_early_return (s : SimulationState)
    (he : s.ready_queue.length = 0 ∧ s.running_job = none) :
    select_mllf_task_Ta s = (s, none) := by
  unfold select_mllf_task_Ta
  rw [if_pos he]

/-- What the tie-break pass of `select_mllf_task_Ta` establishes, on a state
whose queue entries are READY: the accumulator satisfies the invariant for the
set of eligible jobs. -/
theorem select_inv (s : SimulationState)
    (hq : ∀ i ∈ s.ready_queue, (getJob s.jobs i).status = READY)
    (hid : ∀ i j, i < s.jobs.length → j < s.jobs.length → i ≠ j →
      (getJob s.jobs i).job_id ≠ (getJob s.jobs j).job_id)
    (hrw : ∀ i, isEligible s i → (getJob s.jobs i).remaining_wcet ≤ INT_MAX)
    (he : ¬ (s.ready_queue.length = 0 ∧ s.running_job = none)) :
    ∃ (m : Int) (acc : Option Nat × Int),
      (select_mllf_task_Ta s).2 = acc.1
      ∧ (∀ i, isEligible s i → m ≤ laxityNow s i)
      ∧ (m = INT_MAX ∨ ∃ i, isEligible s i ∧ laxityNow s i = m)
      ∧ SelInv s.jobs (fun i => isEligible s i ∧ laxityNow s i = m) (isEligible s) acc := by
  have hg := getJob_calculate_all_laxities s
  obtain ⟨fq, fr, -⟩ := calculate_all_laxities_frame s
  have hst : ∀ i, (getJob (calculate_all_laxities s).jobs i).status = (getJob s.jobs i).status :=
    fun i => by rw [hg]; rfl
  have hrwe : ∀ i, (getJob (calculate_all_laxities s).jobs i).remaining_wcet
      = (getJob s.jobs i).remaining_wcet := fun i => by rw [hg]; rfl
  have hide : ∀ i, (getJob (calculate_all_laxities s).jobs i).job_id = (getJob s.jobs i).job_id :=
    fun i => by rw [hg]; rfl
  have hlaxe : ∀ i, isEligible s i →
      (getJob (calculate_all_laxities s).jobs i).calculated_laxity = laxityNow s i := by
    intro i hi
    rw [hg]
    show laxityAfter s i = laxityNow s i
    unfold laxityAfter
    by_cases h1 : s.running_job = some i ∧ (getJob s.jobs i).status = RUNNING
    · rw [if_pos h1]
    · rw [if_neg h1]
      rcases hi with hi | hi
      · rw [if_pos hi, if_pos (hq i hi)]
      · exact absurd hi h1
  have helt : ∀ i, isEligible s i → i < s.jobs.length := by
    intro i hi
    apply lt_of_status_ne
    rcases hi with hi | hi
    · rw [hq i hi]; simp
    · rw [hi.2]; simp
  obtain ⟨b1, b2, b3⟩ := selectMinLaxity_spec (calculate_all_laxities s)
  obtain ⟨-, hsel⟩ := select_result_eq s he
  generalize selectMinLaxity (calculate_all_laxities s) = m at *
  generalize calculate_all_laxities s = s1 at *
  -- the tie-break invariant is stated on the jobs of `s1`, then moved to `s`
  have hmove : ∀ acc, SelInv s1.jobs
        (fun i => isEligible s i ∧ (getJob s1.jobs i).calculated_laxity = m) (isEligible s) acc →
      SelInv s.jobs (fun i => isEligible s i ∧ laxityNow s i = m) (isEligible s) acc := by
    intro acc hI
    obtain ⟨h1, h2⟩ := hI
    refine ⟨fun hn => ⟨(h1 hn).1, ?_⟩, ?_⟩
    · rintro x hx ⟨_, hxm⟩
      exact (h1 hn).2 x hx ⟨hx, (by rw [hlaxe x hx]; exact hxm)⟩
    · intro c hc
      obtain ⟨a, b, d, e⟩ := h2 c hc
      refine ⟨a, ⟨b.1, (by rw [← hlaxe c b.1]; exact b.2)⟩, (by rw [d, hrwe]), ?_⟩
      intro x hx hMx hxc
      have := e x hx ⟨hx, (by rw [hlaxe x hx]; exact hMx.2)⟩ hxc
      rw [hrwe, hrwe, hide, hide] at this
      exact this
  refine ⟨m, _, hsel, ?_, ?_, hmove _ ?_⟩
  · rintro i (hi | hi)
    · have := b1 i (by rw [fq]; exact hi) (by rw [hst]; exact hq i hi)
      rw [hlaxe i (Or.inl hi)] at this; exact this
    · have := b2 i (by rw [fr]; exact hi.1) (by rw [hst]; exact hi.2)
      rw [hlaxe i (Or.inr hi)] at this; exact this
  · rcases b3 with b3 | ⟨i, hi, _, hm⟩ | ⟨r, hr, hrun, hm⟩
    · exact Or.inl b3
    · rw [fq] at hi
      exact Or.inr ⟨i, Or.inl hi, (by rw [← hlaxe i (Or.inl hi)]; exact hm)⟩
    · rw [fr] at hr; rw [hst] at hrun
      exact Or.inr ⟨r, Or.inr ⟨hr, hrun⟩, (by rw [← hlaxe r (Or.inr ⟨hr, hrun⟩)]; exact hm)⟩
  · have hidM : ∀ a b,
        (isEligible s a ∧ (getJob s1.jobs a).calculated_laxity = m) →
        (isEligible s b ∧ (getJob s1.jobs b).calculated_laxity = m) → a ≠ b →
        (getJob s1.jobs a).job_id ≠ (getJob s1.jobs b).job_id := by
      intro a b ha hb hab
      rw [hide, hide]
      exact hid a b (helt a ha.1) (helt b hb.1) hab
    have h0 : SelInv s1.jobs (fun i => isEligible s i ∧ (getJob s1.jobs i).calculated_laxity = m)
        (fun _ => False) (none, INT_MAX) :=
      ⟨fun _ => ⟨rfl, fun i hi => absurd hi id⟩, fun c hc => (by cases hc)⟩
    have h1 : SelInv s1.jobs (fun i => isEligible s i ∧ (getJob s1.jobs i).calculated_laxity = m)
        (fun x => s.running_job = some x ∧ (getJob s.jobs x).status = RUNNING)
        (match s1.running_job with
          | some r =>
            if (getJob s1.jobs r).status = RUNNING ∧ (getJob s1.jobs r).calculated_laxity = m
            then tieBreak s1.jobs (none, INT_MAX) r else (none, INT_MAX)
          | none => (none, INT_MAX)) := by
      rw [fr]
      cases hr : s.running_job with
      | none => exact SelInv_congr (by simp) h0
      | some r =>
        simp only
        by_cases hrun : (getJob s.jobs r).status = RUNNING
        · have hel : isEligible s r := Or.inr ⟨hr, hrun⟩
          have hS : ∀ x, (False ∨ x = r) ↔ (some r = some x ∧ (getJob s.jobs x).status = RUNNING) := by
            intro x
            constructor
            · rintro (h | h)
              · exact absurd h id
              · subst h; exact ⟨rfl, hrun⟩
            · rintro ⟨h, _⟩; cases h; exact Or.inr rfl
          split_ifs with hgd
          · exact SelInv_congr hS
              (SelInv_tieBreak h0 ⟨hel, hgd.2⟩ (by rw [hrwe]; exact hrw r hel) hidM)
          · exact SelInv_congr hS
              (SelInv_skip h0 (fun hM => hgd ⟨(by rw [hst]; exact hrun), hM.2⟩))
        · have hgd : ¬ ((getJob s1.jobs r).status = RUNNING
              ∧ (getJob s1.jobs r).calculated_laxity = m) := by
            rintro ⟨h, _⟩; rw [hst] at h; exact hrun h
          rw [if_neg hgd]
          refine SelInv_congr ?_ h0
          intro x
          constructor
          · intro h; exact absurd h id
          · rintro ⟨h, h'⟩; cases h; exact hrun h'
    have hl : ∀ i ∈ s1.ready_queue,
        ((isEligible s i ∧ (getJob s1.jobs i).calculated_laxity = m) ↔
          ((getJob s1.jobs i).status = READY ∧ (getJob s1.jobs i).calculated_laxity = m))
        ∧ ((isEligible s i ∧ (getJob s1.jobs i).calculated_laxity = m) →
            (getJob s1.jobs i).remaining_wcet ≤ INT_MAX) := by
      intro i hi
      rw [fq] at hi
      refine ⟨⟨fun h => ⟨(by rw [hst]; exact hq i hi), h.2⟩, fun h => ⟨Or.inl hi, h.2⟩⟩, ?_⟩
      intro h; rw [hrwe]; exact hrw i h.1
    refine SelInv_congr ?_ (SelInv_fold s1.jobs m _ hidM s1.ready_queue hl _ _ h1)
    intro x
    rw [fq]
    unfold isEligible
    tauto

/-- C1: on a state whose ready-queue entries all have status READY, whose
job_ids are distinct and whose laxities are values of `int` below `INT_MAX`
(neither subtraction of `absolute_deadline - current_time - remaining_wcet`
leaves the range of `int`, as in every state that a run hands to the
selection, `laxity_in_range_of_run`; `remaining_wcet` is an `int`, hence at
most `INT_MAX`), `select_mllf_task_Ta` returns none exactly when the ready
queue is empty and there is no Running job; otherwise it returns the unique
job, among the queued Ready jobs and the Running job, that is least in the
lexicographic order
`(absolute_deadline - current_time - remaining_wcet, remaining_wcet, job_id)`,
the laxity being the value that the `int` subtractions of the program give.
In particular a queued job with the same deadline and the same
`remaining_wcet` as the selected one has a higher job_id. -/
theorem select_mllf_task_Ta_is_least (s : SimulationState)
    (hq : ∀ i ∈ s.ready_queue, (getJob s.jobs i).status = READY)
    (hid : ∀ i j, i < s.jobs.length → j < s.jobs.length → i ≠ j →
      (getJob s.jobs i).job_id ≠ (getJob s.jobs j).job_id)
    (hint : LaxityInRange s)
    (hlax : ∀ i, isEligible s i → laxityNow s i < INT_MAX)
    (hrw : ∀ i, isEligible s i → (getJob s.jobs i).remaining_wcet ≤ INT_MAX) :
    ((select_mllf_task_Ta s).2 = none ↔
        (s.ready_queue = []
          ∧ ¬ ∃ r, s.running_job = some r ∧ (getJob s.jobs r).status = RUNNING))
    ∧ (∀ c, (select_mllf_task_Ta s).2 = some c →
        isEligible s c ∧ ∀ i, isEligible s i → i ≠ c → keyLt s c i)
    ∧ (∀ c i, (select_mllf_task_Ta s).2 = some c → i ∈ s.ready_queue → i ≠ c →
        (getJob s.jobs i).absolute_deadline = (getJob s.jobs c).absolute_deadline →
        (getJob s.jobs i).remaining_wcet = (getJob s.jobs c).remaining_wcet →
        (getJob s.jobs c).job_id < (getJob s.jobs i).job_id)
    ∧ (∀ i, isEligible s i →
        laxityNow s i
          = castInt (castInt ((getJob s.jobs i).absolute_deadline - s.current_time)
              - (getJob s.jobs i).remaining_wcet)) := by
  have hcomp : ∀ i, isEligible s i →
      laxityNow s i
        = castInt (castInt ((getJob s.jobs i).absolute_deadline - s.current_time)
            - (getJob s.jobs i).remaining_wcet) := by
    intro i hi
    apply laxityNow_eq_int s hint i
    rcases hi with hi | hi
    · exact Or.inl ⟨hi, hq i hi⟩
    · exact Or.inr hi
  by_cases he : s.ready_queue.length = 0 ∧ s.running_job = none
  · have hres : (select_mllf_task_Ta s).2 = none := by rw [select_early_return s he]
    have hnil : s.ready_queue = [] := List.length_eq_zero.mp he.1
    refine ⟨⟨fun _ => ⟨hnil, ?_⟩, fun _ => hres⟩, ?_, ?_, hcomp⟩
    · rintro ⟨r, hr, _⟩; rw [he.2] at hr; cases hr
    · intro c hc; rw [hres] at hc; cases hc
    · intro c i hc; rw [hres] at hc; cases hc
  · obtain ⟨m, acc, hsel, hmle, hmatt, hI1, hI2⟩ := select_inv s hq hid hrw he
    have hatt : (∃ i, isEligible s i) → ∃ i, isEligible s i ∧ laxityNow s i = m := by
      rintro ⟨i, hi⟩
      rcases hmatt with hmax | hex
      · have := hmle i hi
        have := hlax i hi
        omega
      · exact hex
    have hkey : ∀ c, (select_mllf_task_Ta s).2 = some c →
        isEligible s c ∧ ∀ i, isEligible s i → i ≠ c → keyLt s c i := by
      intro c hc
      rw [hsel] at hc
      obtain ⟨hSc, hMc, _, hmin⟩ := hI2 c hc
      refine ⟨hSc, ?_⟩
      intro i hi hic
      unfold keyLt
      by_cases hli : laxityNow s i = m
      · right
        exact ⟨by rw [hMc.2, hli], hmin i hi ⟨hi, hli⟩ hic⟩
      · left
        have := hmle i hi
        rw [hMc.2]
        omega
    refine ⟨⟨?_, ?_⟩, hkey, ?_, hcomp⟩
    · intro hn
      rw [hsel] at hn
      have hno := (hI1 hn).2
      have hnoel : ¬ ∃ i, isEligible s i := by
        intro hex
        obtain ⟨i, hi, hm⟩ := hatt hex
        exact hno i hi ⟨hi, hm⟩
      refine ⟨?_, ?_⟩
      · cases hrq : s.ready_queue with
        | nil => rfl
        | cons a l => exact absurd ⟨a, Or.inl (by rw [hrq]; exact List.mem_cons_self _ _)⟩ hnoel
      · rintro ⟨r, hr, hrun⟩
        exact hnoel ⟨r, Or.inr ⟨hr, hrun⟩⟩
    · rintro ⟨hnil, hnr⟩
      cases hacc : (select_mllf_task_Ta s).2 with
      | none => rfl
      | some c =>
        exfalso
        rcases (hkey c hacc).1 with h | h
        · rw [hnil] at h; cases h
        · exact hnr ⟨c, h⟩
    · intro c i hc hi hic hd hw
      have hk := (hkey c hc).2 i (Or.inl hi) hic
      unfold keyLt laxityNow at hk
      rcases hk with hk | ⟨_, hk | ⟨_, hk⟩⟩
      · omega
      · omega
      · exact hk

/-- Witness of C1 on `tieState`: both queued jobs have deadline 8 and
remaining_wcet 2, and job 0 is selected. -/
theorem select_mllf_task_Ta_is_least_witness :
    (select_mllf_task_Ta tieState).2 = some 0 ∧ isEligible tieState 0 ∧ keyLt tieState 0 1 := by
  have hel : ∀ i, isEligible tieState i → i = 1 ∨ i = 0 := by
    rintro i (hi | hi)
    · simpa [tieState] using hi
    · simp [tieState] at hi
  have h := select_mllf_task_Ta_is_least tieState (by decide)
    (by
      intro i j hi hj hij
      have hi2 : i < 2 := hi
      have hj2 : j < 2 := hj
      interval_cases i <;> interval_cases j <;> first | exact absurd rfl hij | decide)
    (by
      intro i hi
      have hi2 : isEligible tieState i := by
        rcases hi with ⟨hi, -⟩ | hi
        · exact Or.inl hi
        · exact Or.inr hi
      rcases hel i hi2 with h | h <;> subst h <;> decide)
    (by intro i hi; rcases hel i hi with h | h <;> subst h <;> decide)
    (by intro i hi; rcases hel i hi with h | h <;> subst h <;> decide)
  have h0 : (select_mllf_task_Ta tieState).2 = some 0 := by decide
  exact ⟨h0, (h.2.1 0 h0).1, (h.2.1 0 h0).2 1 (Or.inl (by decide)) (by decide)⟩

/-- Witness of C3 on `quantumState`: the candidates of job 0 are jobs 1 and 2 and
the result is their minimum deadline. -/
theorem find_earliest_deadline_is_min_over_candidates_witness :
    isTminCandidate quantumState.jobs 0 1
    ∧ find_earliest_deadline_higher_laxity_job_deadline quantumState (some 0)
        ≤ (getJob quantumState.jobs 1).absolute_deadline
    ∧ find_earliest_deadline_higher_laxity_job_deadline quantumState (some 0) ≠ NO_TASK_FOUND := by
  have h := find_earliest_deadline_is_min_over_candidates quantumState 0 (by decide)
  have hc : isTminCandidate quantumState.jobs 0 1 := ⟨by decide, Or.inl (by decide)⟩
  have hex : ∃ i, i < quantumState.jobs.length ∧ isTminCandidate quantumState.jobs 0 i :=
    ⟨1, by decide, hc⟩
  exact ⟨hc, (h.2 hex).2 1 (by decide) hc, fun hn => (h.1.mp hn) hex⟩

/-- Witness of C4 on `quantumState`: no other job has a deadline before 4, and
the quantum of job 0 is its remaining_aet. -/
theorem quantum_is_remaining_aet_without_earlier_deadline_witness :
    0 ≤ (getJob quantumState.jobs 0).remaining_aet
    ∧ calculate_mllf_quantum quantumState (some 0) = (getJob quantumState.jobs 0).remaining_aet :=
  ⟨by decide, quantum_is_remaining_aet_without_earlier_deadline quantumState 0 (by decide)
    (by decide)⟩

/-! ## The scenario of section 8 -/

/-- C8 (refutation): the scenario run does not end with `idle_time = 0`. -/
theorem scenario_idle_time_ne_zero :
    ¬ ∃ r, scenarioRun = some r ∧ r.1.idle_time = 0 := by
  have h : scenarioRun.map (fun r => r.1.idle_time) = some 2 := by decide
  rintro ⟨r, hr, h0⟩
  rw [hr] at h
  simp only [Option.map_some', Option.some.injEq] at h
  omega

/-- C8 (amended): the scenario run (T0, T1, AET = WCET, hyperperiod 8) ends with
`idle_time = 2`: the three jobs need 6 of the 8 ticks. -/
theorem scenario_idle_time :
    ∃ r, scenarioRun = some r ∧ r.1.idle_time = 2 := by
  decide

/-- C9: the scenario run (T0, T1, AET = WCET, hyperperiod 8) ends with
`deadline_misses = 0` and no job in status MISSED. -/
theorem scenario_no_deadline_miss :
    ∃ r, scenarioRun = some r ∧ r.1.deadline_misses = 0
      ∧ ∀ j ∈ r.1.jobs, j.status ≠ MISSED := by
  decide

/-! ## Well-formedness is kept by every step, and no step aborts -/

theorem nodup_length_le {l : List Nat} {n : Nat} (hnd : l.Nodup) (hlt : ∀ i ∈ l, i < n) :
    l.length ≤ n := by
  have hsub : l ⊆ List.range n := fun i hi => List.mem_range.mpr (hlt i hi)
  have := (List.subperm_of_subset hnd hsub).length_le
  simpa using this

theorem add_job_to_ready_queue_some (s : SimulationState) (job : Nat) (hwf : WF s)
    (hjob : job < s.jobs.length) :
    ∃ q, add_job_to_ready_queue s job = some { s with ready_queue := q }
      ∧ WF { s with ready_queue := q }
      ∧ (∀ i, i ∈ q ↔ (i ∈ s.ready_queue ∨ (i = job ∧ (getJob s.jobs job).status = READY))) := by
  obtain ⟨hnd, hval, hrun, hcap⟩ := hwf
  unfold add_job_to_ready_queue
  by_cases hst : (getJob s.jobs job).status = READY
  · rw [if_neg (not_not.mpr hst)]
    by_cases hmem : job ∈ s.ready_queue
    · rw [if_pos hmem]
      refine ⟨s.ready_queue, rfl, ⟨hnd, hval, hrun, hcap⟩, ?_⟩
      intro i
      constructor
      · exact Or.inl
      · rintro (h | ⟨h, _⟩)
        · exact h
        · rw [h]; exact hmem
    · rw [if_neg hmem]
      have hnd2 : (job :: s.ready_queue).Nodup := List.nodup_cons.mpr ⟨hmem, hnd⟩
      have hlen : (job :: s.ready_queue).length ≤ s.jobs.length :=
        nodup_length_le hnd2 (by
          intro i hi
          rcases List.mem_cons.mp hi with h | h
          · rw [h]; exact hjob
          · exact hval i h)
      have hlt : s.ready_queue.length < MAX_JOBS := by
        simp only [List.length_cons] at hlen
        omega
      rw [if_pos hlt]
      refine ⟨s.ready_queue ++ [job], rfl, ⟨?_, ?_, hrun, hcap⟩, ?_⟩
      · exact List.nodup_append.mpr ⟨hnd, List.nodup_singleton _, by
          intro a ha hb
          rw [List.mem_singleton] at hb
          subst hb
          exact hmem ha⟩
      · intro i hi
        rcases List.mem_append.mp hi with h | h
        · exact hval i h
        · rw [List.mem_singleton] at h; rw [h]; exact hjob
      · intro i
        simp only [List.mem_append, List.mem_singleton]
        constructor
        · rintro (h | h)
          · exact Or.inl h
          · exact Or.inr ⟨h, hst⟩
        · rintro (h | ⟨h, _⟩)
          · exact Or.inl h
          · exact Or.inr h
  · rw [if_pos hst]
    refine ⟨s.ready_queue, rfl, ⟨hnd, hval, hrun, hcap⟩, ?_⟩
    intro i
    constructor
    · exact Or.inl
    · rintro (h | ⟨_, h⟩)
      · exact h
      · exact absurd h hst

theorem WF_of_eq {s s' : SimulationState} (hwf : WF s) (hq : s'.ready_queue = s.ready_queue)
    (hr : s'.running_job = s.running_job) (hl : s'.jobs.length = s.jobs.length) : WF s' := by
  unfold WF at *
  rw [hq, hr, hl]
  exact hwf

theorem getJob_updJob (jobs : List Job) (k i : Nat) (f : Job → Job) :
    getJob (updJob jobs k f) i
      = if i = k ∧ k < jobs.length then f (getJob jobs k) else getJob jobs i := by
  by_cases hik : i = k
  · subst hik
    by_cases hlt : i < jobs.length
    · rw [if_pos ⟨rfl, hlt⟩, getJob_updJob_self _ hlt]
    · rw [if_neg (fun h => hlt h.2), updJob_of_ge _ (not_lt.mp hlt)]
  · rw [if_neg (fun h => hik h.1), getJob_updJob_ne _ hik]

theorem setStatus_length (jobs : List Job) (k : Nat) (st : Status) :
    (setStatus jobs k st).length = jobs.length := updJob_length _ _ _

theorem getJob_setStatus (jobs : List Job) (k i : Nat) (st : Status) :
    getJob (setStatus jobs k st) i
      = if i = k ∧ k < jobs.length then { getJob jobs k with status := st } else getJob jobs i :=
  getJob_updJob _ _ _ _

theorem arrive_arrive (now : Int) (j : Job) : arrive now (arrive now j) = arrive now j := by
  unfold arrive
  split_ifs <;> simp_all

theorem arrivalsLoop_spec (l : List Nat) :
    ∀ (s : SimulationState) (req : Bool), WF s → (∀ i ∈ l, i < s.jobs.length) →
      ∃ jobs1 q req1,
        arrivalsLoop l s req = some ({ s with jobs := jobs1, ready_queue := q }, req1)
        ∧ WF { s with jobs := jobs1, ready_queue := q }
        ∧ jobs1.length = s.jobs.length
        ∧ (∀ i, getJob jobs1 i
            = if i ∈ l then arrive s.current_time (getJob s.jobs i) else getJob s.jobs i)
        ∧ (∀ i, i ∈ q ↔ (i ∈ s.ready_queue
            ∨ (i ∈ l ∧ (getJob s.jobs i).status = NOT_ARRIVED
                ∧ (getJob s.jobs i).arrival_time = s.current_time))) := by
  induction l with
  | nil =>
    intro s req hwf _
    exact ⟨s.jobs, s.ready_queue, req, rfl, hwf, rfl, by simp, by simp⟩
  | cons k l ih =>
    intro s req hwf hl
    have hk : k < s.jobs.length := hl k (List.mem_cons_self _ _)
    have hl' : ∀ i ∈ l, i < s.jobs.length := fun i hi => hl i (List.mem_cons_of_mem _ hi)
    unfold arrivalsLoop
    by_cases harr : (getJob s.jobs k).status = NOT_ARRIVED
        ∧ (getJob s.jobs k).arrival_time = s.current_time
    · rw [if_pos harr]
      have hlen1 : ({ s with jobs := setStatus s.jobs k READY } : SimulationState).jobs.length
          = s.jobs.length := setStatus_length _ _ _
      have hwf1 : WF { s with jobs := setStatus s.jobs k READY } := WF_of_eq hwf rfl rfl hlen1
      have hk1 : k < ({ s with jobs := setStatus s.jobs k READY } : SimulationState).jobs.length := by
        rw [hlen1]; exact hk
      obtain ⟨q1, hadd, hwf2, hmem⟩ := add_job_to_ready_queue_some _ k hwf1 hk1
      rw [hadd]
      simp only
      have hlen2 :
          ({ s with jobs := setStatus s.jobs k READY, ready_queue := q1 } : SimulationState).jobs.length
            = s.jobs.length :=
        setStatus_length _ _ _
      obtain ⟨jobs1, q, req1, hres, hwf3, hlen3, hjobs, hq⟩ :=
        ih { s with jobs := setStatus s.jobs k READY, ready_queue := q1 } true hwf2
          (by rw [hlen2]; exact hl')
      refine ⟨jobs1, q, req1, hres, hwf3, by rw [hlen3, hlen2], ?_, ?_⟩
      · intro i
        rw [hjobs i]
        simp only [getJob_setStatus, List.mem_cons]
        by_cases hik : i = k
        · subst hik
          have harrive : arrive s.current_time (getJob s.jobs i)
              = { getJob s.jobs i with status := READY } := by
            unfold arrive; rw [if_pos harr]
          simp only [true_and, hk, if_true, true_or]
          rw [← harrive, arrive_arrive]
          split_ifs <;> rfl
        · simp only [hik, false_and, if_false, false_or]
      · intro i
        rw [hq i]
        simp only [getJob_setStatus, List.mem_cons]
        have hmem' := hmem i
        simp only [getJob_setStatus, true_and, hk, if_true] at hmem'
        rw [hmem']
        by_cases hik : i = k
        · subst hik
          simp only [true_and, hk, if_true, true_or, harr]
          simp
        · simp [hik]
    · rw [if_neg harr]
      obtain ⟨jobs1, q, req1, hres, hwf3, hlen3, hjobs, hq⟩ := ih s req hwf hl'
      refine ⟨jobs1, q, req1, hres, hwf3, hlen3, ?_, ?_⟩
      · intro i
        rw [hjobs i]
        by_cases hik : i = k
        · subst hik
          have harrive : arrive s.current_time (getJob s.jobs i) = getJob s.jobs i := by
            unfold arrive; rw [if_neg harr]
          simp only [List.mem_cons, true_or, if_true, harrive]
          split_ifs <;> rfl
        · simp only [List.mem_cons, hik, false_or]
      · intro i
        rw [hq i]
        by_cases hik : i = k
        · subst hik
          simp only [List.mem_cons, true_or, true_and]
          constructor
          · rintro (h | ⟨_, h⟩)
            · exact Or.inl h
            · exact Or.inr h
          · rintro (h | h)
            · exact Or.inl h
            · exact absurd h harr
        · simp only [List.mem_cons, hik, false_or]

/-! ## Selection returns a queued job or the occupant -/

theorem tieBreak_fst (jobs : List Job) (acc : Option Nat × Int) (i : Nat) :
    (tieBreak jobs acc i).1 = acc.1 ∨ (tieBreak jobs acc i).1 = some i := by
  unfold tieBreak
  split_ifs
  · exact Or.inr rfl
  · cases hacc : acc.1 with
    | none => exact Or.inr rfl
    | some t =>
      simp only
      split_ifs
      · exact Or.inr rfl
      · exact Or.inl hacc
  · exact Or.inl rfl

theorem selectStep_fst (jobs : List Job) (m : Int) (acc : Option Nat × Int) (i : Nat) :
    (selectStep jobs m acc i).1 = acc.1
    ∨ ((selectStep jobs m acc i).1 = some i ∧ (getJob jobs i).status = READY) := by
  unfold selectStep
  split_ifs with h
  · rcases tieBreak_fst jobs acc i with h1 | h1
    · exact Or.inl h1
    · exact Or.inr ⟨h1, h.1⟩
  · exact Or.inl rfl

theorem select_fold_fst (jobs : List Job) (m : Int) (l : List Nat) :
    ∀ acc : Option Nat × Int,
      (l.foldl (selectStep jobs m) acc).1 = acc.1
      ∨ ∃ i ∈ l, (l.foldl (selectStep jobs m) acc).1 = some i ∧ (getJob jobs i).status = READY := by
  induction l with
  | nil => intro acc; exact Or.inl rfl
  | cons k l ih =>
    intro acc
    rw [List.foldl_cons]
    rcases ih (selectStep jobs m acc k) with h | ⟨i, hi, h⟩
    · rcases selectStep_fst jobs m acc k with h1 | h1
      · left; rw [h, h1]
      · right; exact ⟨k, List.mem_cons_self _ _, by rw [h]; exact h1.1, h1.2⟩
    · right; exact ⟨i, List.mem_cons_of_mem _ hi, h⟩

/-- The state returned by `select_mllf_task_Ta` differs from the input only in
`calculated_laxity` fields, and the selected job is a READY queue entry or the
RUNNING occupant. -/
theorem select_mem (s : SimulationState) :
    ((select_mllf_task_Ta s).1 = s ∨ (select_mllf_task_Ta s).1 = calculate_all_laxities s)
    ∧ ∀ c, (select_mllf_task_Ta s).2 = some c →
        (select_mllf_task_Ta s).1 = calculate_all_laxities s
        ∧ ((c ∈ s.ready_queue ∧ (getJob s.jobs c).status = READY)
            ∨ (s.running_job = some c ∧ (getJob s.jobs c).status = RUNNING)) := by
  by_cases he : s.ready_queue.length = 0 ∧ s.running_job = none
  · rw [select_early_return s he]
    exact ⟨Or.inl rfl, fun c hc => by cases hc⟩
  · obtain ⟨h1, h2⟩ := select_result_eq s he
    refine ⟨Or.inr h1, ?_⟩
    intro c hc
    refine ⟨h1, ?_⟩
    rw [h2] at hc
    obtain ⟨fq, fr, -⟩ := calculate_all_laxities_frame s
    have hst : ∀ i, (getJob (calculate_all_laxities s).jobs i).status = (getJob s.jobs i).status :=
      fun i => by rw [getJob_calculate_all_laxities]; rfl
    rcases select_fold_fst _ _ _ _ with h | ⟨i, hi, h, hrd⟩
    · rw [h] at hc
      rw [fr] at hc
      cases hr : s.running_job with
      | none => rw [hr] at hc; cases hc
      | some r =>
        rw [hr] at hc
        simp only at hc
        split_ifs at hc with hg
        rcases tieBreak_fst (calculate_all_laxities s).jobs (none, INT_MAX) r with h' | h'
        · rw [h'] at hc; cases hc
        · rw [h'] at hc
          cases hc
          right
          exact ⟨rfl, by rw [← hst]; exact hg.1⟩
    · rw [h] at hc
      cases hc
      left
      exact ⟨by rw [← fq]; exact hi, by rw [← hst]; exact hrd⟩

/-! ## The dispatch sequence -/

theorem startTa_eq (s : SimulationState) (ta : Nat) :
    startTa s ta
      = { s with
          running_job := some ta
          ready_queue := s.ready_queue.erase ta
          current_job_quantum_remaining :=
            calculate_mllf_quantum
              { s with running_job := some ta, jobs := setStatus s.jobs ta RUNNING,
                       ready_queue := s.ready_queue.erase ta } (some ta)
          jobs := (startTa s ta).jobs } := rfl

theorem startTa_length (s : SimulationState) (ta : Nat) :
    (startTa s ta).jobs.length = s.jobs.length := by
  simp [startTa, remove_job_from_ready_queue, updJob_length, setStatus_length]

theorem getJob_startTa (s : SimulationState) (ta i : Nat) :
    getJob (startTa s ta).jobs i
      = if i = ta ∧ ta < s.jobs.length then startRecord s.current_time (getJob s.jobs ta)
        else getJob s.jobs i := by
  simp only [startTa, remove_job_from_ready_queue, getJob_updJob, getJob_setStatus, updJob_length,
    setStatus_length]
  by_cases h : i = ta ∧ ta < s.jobs.length
  · simp only [h, and_self, if_true, true_and]
    by_cases hf : (getJob s.jobs ta).first_start_time = -1 <;> simp [startRecord, hf]
  · simp only [h, if_false]

/-! ## The branches of the scheduling decision -/

theorem decisionBranches_idle_start (s : SimulationState) (ta : Nat) (h : s.running_job = none) :
    decisionBranches s (some ta) = some (startTa s ta) := by
  unfold decisionBranches; rw [h]

theorem decisionBranches_idle_none (s : SimulationState) (h : s.running_job = none) :
    decisionBranches s none
      = some { s with idle_time := s.idle_time + 1, current_job_quantum_remaining := 0 } := by
  unfold decisionBranches; rw [h]

theorem decisionBranches_busy_none (s : SimulationState) (r : Nat) (h : s.running_job = some r) :
    decisionBranches s none = some s := by
  unfold decisionBranches; rw [h]

theorem decisionBranches_preempt (s : SimulationState) (r ta : Nat) (h : s.running_job = some r)
    (htr : ta ≠ r) :
    decisionBranches s (some ta)
      = (add_job_to_ready_queue { s with jobs := setStatus s.jobs r READY } r).map
          (fun s2 => startTa s2 ta) := by
  unfold decisionBranches
  simp only [h, ne_eq, htr, not_false_eq_true, if_true]
  cases add_job_to_ready_queue _ r <;> rfl

theorem decisionBranches_continue (s : SimulationState) (r : Nat) (h : s.running_job = some r) :
    decisionBranches s (some r)
      = if s.current_job_quantum_remaining ≤ 0 ∧ (getJob s.jobs r).remaining_aet > 0 then
          some { s with current_job_quantum_remaining := calculate_mllf_quantum s (some r) }
        else some s := by
  conv_lhs => unfold decisionBranches
  rw [h]
  simp only [ne_eq, not_true_eq_false, if_false]

/-- The five branches of `make_mllf_scheduling_decision` on a well-formed state,
with the state each one produces before the context-switch check. -/
theorem decisionBranches_cases (s : SimulationState) (cand : Option Nat) (hwf : WF s) :
    (s.running_job = none ∧ ∃ ta, cand = some ta
        ∧ decisionBranches s cand = some (startTa s ta))
    ∨ (s.running_job = none ∧ cand = none
        ∧ decisionBranches s cand
            = some { s with idle_time := s.idle_time + 1, current_job_quantum_remaining := 0 })
    ∨ (∃ r, s.running_job = some r ∧ cand = none ∧ decisionBranches s cand = some s)
    ∨ (∃ r ta q, s.running_job = some r ∧ cand = some ta ∧ ta ≠ r
        ∧ decisionBranches s cand
            = some (startTa { s with jobs := setStatus s.jobs r READY, ready_queue := q } ta)
        ∧ WF { s with jobs := setStatus s.jobs r READY, ready_queue := q }
        ∧ (∀ i, i ∈ q ↔ (i ∈ s.ready_queue ∨ i = r)))
    ∨ (∃ r qr, s.running_job = some r ∧ cand = some r
        ∧ decisionBranches s cand = some { s with current_job_quantum_remaining := qr }
        ∧ (qr = s.current_job_quantum_remaining ∨ qr = calculate_mllf_quantum s (some r))) := by
  rcases Option.eq_none_or_eq_some s.running_job with hr | ⟨r, hr⟩
  · cases cand with
    | none => right; left; exact ⟨hr, rfl, decisionBranches_idle_none s hr⟩
    | some ta => left; exact ⟨hr, ta, rfl, decisionBranches_idle_start s ta hr⟩
  · right; right
    cases cand with
    | none => left; exact ⟨r, hr, rfl, decisionBranches_busy_none s r hr⟩
    | some ta =>
      right
      by_cases htr : ta = r
      · right
        subst htr
        rw [decisionBranches_continue s ta hr]
        split_ifs
        · exact ⟨ta, _, hr, rfl, rfl, Or.inr rfl⟩
        · exact ⟨ta, s.current_job_quantum_remaining, hr, rfl, rfl, Or.inl rfl⟩
      · left
        have hrlt : r < s.jobs.length := hwf.2.2.1 r hr
        have hlen1 : ({ s with jobs := setStatus s.jobs r READY } : SimulationState).jobs.length
            = s.jobs.length := setStatus_length _ _ _
        have hwf1 : WF { s with jobs := setStatus s.jobs r READY } := WF_of_eq hwf rfl rfl hlen1
        obtain ⟨q, hadd, hwf2, hmem⟩ :=
          add_job_to_ready_queue_some _ r hwf1 (by rw [hlen1]; exact hrlt)
        rw [decisionBranches_preempt s r ta hr htr, hadd]
        refine ⟨r, ta, q, hr, rfl, htr, rfl, hwf2, ?_⟩
        intro i
        rw [hmem i]
        simp only [getJob_setStatus, hrlt, and_self, if_true, and_true]

theorem startTa_wf (s : SimulationState) (ta : Nat) (hwf : WF s) (hta : ta < s.jobs.length) :
    WF (startTa s ta) := by
  obtain ⟨hnd, hval, _, hcap⟩ := hwf
  refine ⟨?_, ?_, ?_, ?_⟩
  · show (s.ready_queue.erase ta).Nodup
    exact hnd.erase ta
  · intro i hi
    rw [startTa_length]
    exact hval i (List.mem_of_mem_erase hi)
  · intro r hr
    rw [startTa_length]
    have : some ta = some r := hr
    cases this
    exact hta
  · rw [startTa_length]; exact hcap

theorem contextSwitchCheck_eq (s : SimulationState) :
    contextSwitchCheck s
      = { s with
          context_switches :=
            if occupantId s ≠ s.last_running_job_id ∧ occupantId s ≠ -1
                ∧ s.last_running_job_id ≠ -1
            then s.context_switches + 1 else s.context_switches
          last_running_job_id := occupantId s } := by
  unfold contextSwitchCheck occupantId
  simp only
  split_ifs <;> rfl

theorem contextSwitchCheck_wf (s : SimulationState) (hwf : WF s) : WF (contextSwitchCheck s) := by
  rw [contextSwitchCheck_eq]; exact WF_of_eq hwf rfl rfl rfl

theorem make_decision_eq (s : SimulationState) (cand : Option Nat) :
    make_mllf_scheduling_decision s cand = (decisionBranches s cand).map contextSwitchCheck := by
  unfold make_mllf_scheduling_decision
  cases decisionBranches s cand <;> rfl

/-- On a well-formed state with a valid candidate the decision does not abort;
it keeps the state well-formed, leaves the clock alone and counts one idle
tick exactly when it leaves the processor idle. -/
theorem decisionBranches_idle (s : SimulationState) (cand : Option Nat) (hwf : WF s)
    (hc : ∀ c, cand = some c → c < s.jobs.length) :
    ∃ s1, decisionBranches s cand = some s1 ∧ WF s1
      ∧ s1.current_time = s.current_time
      ∧ s1.idle_time = s.idle_time + (if s1.running_job = none then 1 else 0) := by
  rcases decisionBranches_cases s cand hwf with
    ⟨hr, ta, hcand, he⟩ | ⟨hr, hcand, he⟩ | ⟨r, hr, hcand, he⟩
    | ⟨r, ta, q, hr, hcand, htr, he, hwf2, hq⟩ | ⟨r, qr, hr, hcand, he, _⟩
  · refine ⟨_, he, startTa_wf s ta hwf (hc ta hcand), rfl, ?_⟩
    show s.idle_time = s.idle_time + (if some ta = none then 1 else 0)
    simp
  · refine ⟨_, he, WF_of_eq hwf rfl rfl rfl, rfl, ?_⟩
    show s.idle_time + 1 = s.idle_time + (if s.running_job = none then 1 else 0)
    rw [if_pos hr]
  · refine ⟨_, he, hwf, rfl, ?_⟩
    rw [hr]; simp
  · refine ⟨_, he, startTa_wf _ ta hwf2 ?_, rfl, ?_⟩
    · show ta < (setStatus s.jobs r READY).length
      rw [setStatus_length]; exact hc ta hcand
    · show s.idle_time = s.idle_time + (if some ta = none then 1 else 0)
      simp
  · refine ⟨_, he, WF_of_eq hwf rfl rfl rfl, rfl, ?_⟩
    show s.idle_time = s.idle_time + (if s.running_job = none then 1 else 0)
    rw [hr]; simp

theorem select_wf (s : SimulationState) (hwf : WF s) :
    WF (select_mllf_task_Ta s).1
    ∧ (select_mllf_task_Ta s).1.ready_queue = s.ready_queue
    ∧ (select_mllf_task_Ta s).1.running_job = s.running_job
    ∧ (select_mllf_task_Ta s).1.current_time = s.current_time
    ∧ (select_mllf_task_Ta s).1.last_running_job_id = s.last_running_job_id
    ∧ (select_mllf_task_Ta s).1.current_job_quantum_remaining = s.current_job_quantum_remaining
    ∧ (select_mllf_task_Ta s).1.context_switches = s.context_switches
    ∧ (select_mllf_task_Ta s).1.deadline_misses = s.deadline_misses
    ∧ (select_mllf_task_Ta s).1.completed_jobs = s.completed_jobs
    ∧ (select_mllf_task_Ta s).1.idle_time = s.idle_time
    ∧ (select_mllf_task_Ta s).1.jobs.length = s.jobs.length
    ∧ ∀ c, (select_mllf_task_Ta s).2 = some c → c < s.jobs.length := by
  obtain ⟨h1, h2⟩ := select_mem s
  obtain ⟨f1, f2, f3, f4, f5, f6, f7, f8, f9, f10⟩ := calculate_all_laxities_frame s
  have hc : ∀ c, (select_mllf_task_Ta s).2 = some c → c < s.jobs.length := by
    intro c hc
    rcases (h2 c hc).2 with ⟨h, _⟩ | ⟨h, _⟩
    · exact hwf.2.1 c h
    · exact hwf.2.2.1 c h
  rcases h1 with h1 | h1
  · rw [h1]; exact ⟨hwf, rfl, rfl, rfl, rfl, rfl, rfl, rfl, rfl, rfl, rfl, hc⟩
  · rw [h1]; exact ⟨WF_of_eq hwf f1 f2 f10, f1, f2, f3, f4, f5, f6, f7, f8, f9, f10, hc⟩

theorem rescheduleStep_idle (s : SimulationState) (req : Bool) (hwf : WF s) :
    ∃ s5, rescheduleStep s req = some s5 ∧ WF s5
      ∧ s5.current_time = s.current_time
      ∧ s5.idle_time = s.idle_time + (if s5.running_job = none then 1 else 0) := by
  unfold rescheduleStep
  by_cases hcond : req = true ∨ s.running_job = none
  · rw [if_pos hcond, make_decision_eq]
    obtain ⟨w, _, _, g3, _, _, _, _, _, g9, g10, gc⟩ := select_wf s hwf
    obtain ⟨s1, he, hwf1, ht, hi⟩ := decisionBranches_idle _ _ w (by rw [g10]; exact gc)
    rw [he]
    refine ⟨contextSwitchCheck s1, rfl, contextSwitchCheck_wf s1 hwf1, ?_, ?_⟩
    · rw [contextSwitchCheck_eq]; show s1.current_time = _; rw [ht, g3]
    · rw [contextSwitchCheck_eq]; show s1.idle_time = _ + (if s1.running_job = none then 1 else 0)
      rw [hi, g9]
  · rw [if_neg hcond]
    have hne : s.running_job ≠ none := fun h => hcond (Or.inr h)
    obtain ⟨f1, f2, f3, f4, f5, f6, f7, f8, f9, f10⟩ := calculate_all_laxities_frame s
    cases hr : s.running_job with
    | none => exact absurd hr hne
    | some r =>
      refine ⟨calculate_all_laxities s, rfl, WF_of_eq hwf f1 f2 f10, f3, ?_⟩
      rw [f9, f2, hr]; simp

/-! ## Completion, execution and the deadline check, step by step -/

theorem completionDue_iff (s : SimulationState) :
    completionDue s = true ↔ ∃ r, s.running_job = some r ∧ (getJob s.jobs r).remaining_aet ≤ 0
      ∧ (getJob s.jobs r).status ≠ COMPLETED ∧ (getJob s.jobs r).status ≠ MISSED := by
  unfold completionDue
  rcases Option.eq_none_or_eq_some s.running_job with hr | ⟨r, hr⟩
  · simp [hr]
  · simp [hr]

theorem handle_completion_due (s : SimulationState) (r : Nat) (hr : s.running_job = some r)
    (h : (getJob s.jobs r).remaining_aet ≤ 0 ∧ (getJob s.jobs r).status ≠ COMPLETED
      ∧ (getJob s.jobs r).status ≠ MISSED) :
    handle_completion s
      = { s with
          jobs := updJob s.jobs r (fun j =>
            { j with status := COMPLETED, finish_time := s.current_time })
          completed_jobs := s.completed_jobs + 1
          running_job := none
          current_job_quantum_remaining := 0 } := by
  unfold handle_completion
  simp only [hr, h, ne_eq, not_false_eq_true, and_self, if_true]

theorem execute_running_job_eq (s : SimulationState) :
    execute_running_job s
      = { s with
          jobs := (execute_running_job s).jobs
          current_job_quantum_remaining := (execute_running_job s).current_job_quantum_remaining } := by
  obtain ⟨jobs, rq, rj, t, last, q, cs, dm, cj, idle⟩ := s
  cases rj with
  | none => rfl
  | some r =>
    simp only [execute_running_job]
    split_ifs <;> rfl

theorem execute_running_job_length (s : SimulationState) :
    (execute_running_job s).jobs.length = s.jobs.length := by
  obtain ⟨jobs, rq, rj, t, last, q, cs, dm, cj, idle⟩ := s
  cases rj with
  | none => rfl
  | some r =>
    simp only [execute_running_job]
    split_ifs <;> simp only [updJob_length]

theorem getJob_execute_running_job (s : SimulationState) (i : Nat) :
    getJob (execute_running_job s).jobs i
      = if s.running_job = some i ∧ (getJob s.jobs i).status = RUNNING
        then executeRecord (getJob s.jobs i) else getJob s.jobs i := by
  unfold execute_running_job
  rcases Option.eq_none_or_eq_some s.running_job with hr | ⟨r, hr⟩
  · simp only [hr, false_and, if_false, reduceCtorEq]
  · simp only [hr, Option.some.injEq]
    by_cases hrun : (getJob s.jobs r).status = RUNNING
    · have hlt : r < s.jobs.length := lt_of_status_ne (by rw [hrun]; simp)
      rw [if_pos hrun]
      simp only [getJob_updJob, updJob_length, hlt, and_true]
      by_cases hir : i = r
      · subst hir
        simp only [true_and, if_true]
        rw [if_pos hrun]
        unfold executeRecord
        by_cases ha : (getJob s.jobs i).remaining_aet > 0 <;>
          by_cases hw : (getJob s.jobs i).remaining_wcet > 0 <;> simp [ha, hw]
      · have hri : ¬ r = i := fun h => hir h.symm
        simp only [hir, hri, false_and, if_false]
    · rw [if_neg hrun]
      have hcond : ¬ (r = i ∧ (getJob s.jobs i).status = RUNNING) := by
        rintro ⟨h1, h2⟩; subst h1; exact hrun h2
      rw [if_neg hcond]

theorem checkRunningMiss_cases (nt : Int) (s : SimulationState) :
    checkRunningMiss nt s = s
    ∨ ∃ r, s.running_job = some r ∧ (getJob s.jobs r).status = RUNNING
        ∧ nt > (getJob s.jobs r).absolute_deadline ∧ (getJob s.jobs r).remaining_aet > 0
        ∧ checkRunningMiss nt s
            = { s with
                jobs := setStatus s.jobs r MISSED
                deadline_misses := s.deadline_misses + 1
                running_job := none
                current_job_quantum_remaining := 0 } := by
  obtain ⟨jobs, rq, rj, t, last, q, cs, dm, cj, idle⟩ := s
  cases rj with
  | none => left; rfl
  | some r =>
    simp only [checkRunningMiss]
    by_cases h1 : (getJob jobs r).status = RUNNING
    · by_cases h2 : nt > (getJob jobs r).absolute_deadline ∧ (getJob jobs r).remaining_aet > 0
      · right
        refine ⟨r, rfl, h1, h2.1, h2.2, ?_⟩
        simp only [h1, h2, and_self, if_true]
      · left; simp only [h1, h2, if_true, if_false]
    · left; simp only [h1, if_false]

theorem checkQueueMisses_succ (nt : Int) (i : Nat) (s : SimulationState) (job : Nat)
    (h : s.ready_queue[i]? = some job) :
    checkQueueMisses nt (i + 1) s
      = if nt > (getJob s.jobs job).absolute_deadline then
          checkQueueMisses nt i
            (remove_job_from_ready_queue
              { s with jobs := setStatus s.jobs job MISSED,
                       deadline_misses := s.deadline_misses + 1 } job)
        else checkQueueMisses nt i s := by
  conv_lhs => unfold checkQueueMisses
  rw [h]

/-- The backward queue loop of `check_deadline_misses` on a queue without
repetition, started at the end of the prefix `pre`: every entry of `pre` whose
deadline has passed is marked MISSED, counted and taken out; the other entries
keep their order. -/
theorem checkQueueMisses_spec (nt : Int) :
    ∀ (pre post : List Nat) (s : SimulationState),
      s.ready_queue = pre ++ post → (pre ++ post).Nodup → (∀ x ∈ pre, x < s.jobs.length) →
      ∃ jobs1,
        checkQueueMisses nt pre.length s
          = { s with
              jobs := jobs1
              ready_queue :=
                pre.filter (fun x => decide (¬ nt > (getJob s.jobs x).absolute_deadline)) ++ post
              deadline_misses := s.deadline_misses
                + ((pre.filter
                    (fun x => decide (nt > (getJob s.jobs x).absolute_deadline))).length : Int) }
        ∧ jobs1.length = s.jobs.length
        ∧ ∀ x, getJob jobs1 x
            = if x ∈ pre ∧ nt > (getJob s.jobs x).absolute_deadline
              then { getJob s.jobs x with status := MISSED } else getJob s.jobs x := by
  intro pre
  induction pre using List.reverseRecOn with
  | nil =>
    intro post s hq _ _
    refine ⟨s.jobs, ?_, rfl, by simp⟩
    obtain ⟨jobs, rq, rj, t, last, q, cs, dm, cj, idle⟩ := s
    simp only at hq
    subst hq
    simp [checkQueueMisses]
  | append_singleton l a ih =>
    intro post s hq hnd hval
    have hal : a ∉ l := by
      intro h
      have := (List.nodup_append.mp (List.nodup_append.mp hnd).1).2.2 h (List.mem_singleton_self a)
      exact this
    have ha : a < s.jobs.length := hval a (by simp)
    have hget : s.ready_queue[l.length]? = some a := by
      rw [hq, List.append_assoc, List.getElem?_append_right (le_refl _)]
      simp
    rw [List.length_append, List.length_singleton, checkQueueMisses_succ nt _ s a hget]
    by_cases hm : nt > (getJob s.jobs a).absolute_deadline
    · rw [if_pos hm]
      have hq' : (remove_job_from_ready_queue
          { s with jobs := setStatus s.jobs a MISSED,
                   deadline_misses := s.deadline_misses + 1 } a).ready_queue = l ++ post := by
        show s.ready_queue.erase a = l ++ post
        rw [hq, List.append_assoc, List.erase_append_right _ hal]
        simp
      have hnd' : (l ++ post).Nodup := by
        have : (l ++ post).Sublist (l ++ [a] ++ post) := by
          simp
        exact hnd.sublist this
      have hd : ∀ x, (getJob (setStatus s.jobs a MISSED) x).absolute_deadline
          = (getJob s.jobs x).absolute_deadline := by
        intro x; rw [getJob_setStatus]; split_ifs with h
        · rw [h.1]
        · rfl
      obtain ⟨jobs1, he, hlen, hjobs⟩ := ih post _ hq' hnd' (by
        intro x hx
        show x < (setStatus s.jobs a MISSED).length
        rw [setStatus_length]
        exact hval x (List.mem_append_left _ hx))
      refine ⟨jobs1, ?_, by rw [hlen]; exact setStatus_length _ _ _, ?_⟩
      · rw [he]
        simp only [remove_job_from_ready_queue, hd, List.filter_append, List.filter_cons,
          List.filter_nil, hm, decide_True, decide_False, not_true_eq_false, if_true, if_false,
          List.append_nil, List.length_append, List.length_singleton, Nat.cast_add, Nat.cast_one,
          Bool.false_eq_true, SimulationState.mk.injEq, true_and, and_true]
        omega
      · intro x
        rw [hjobs x]
        show (if x ∈ l ∧ nt > (getJob (setStatus s.jobs a MISSED) x).absolute_deadline
            then { getJob (setStatus s.jobs a MISSED) x with status := MISSED }
            else getJob (setStatus s.jobs a MISSED) x) = _
        rw [hd x]
        by_cases hxa : x = a
        · subst hxa
          simp only [hal, false_and, if_false, getJob_setStatus, ha, and_self, if_true,
            List.mem_append, List.mem_singleton, or_true, true_and, hm]
        · simp only [getJob_setStatus, hxa, false_and, if_false, List.mem_append,
            List.mem_singleton, or_false]
    · rw [if_neg hm]
      obtain ⟨jobs1, he, hlen, hjobs⟩ := ih ([a] ++ post) s (by rw [hq, List.append_assoc])
        (by rw [← List.append_assoc]; exact hnd)
        (fun x hx => hval x (List.mem_append_left _ hx))
      refine ⟨jobs1, ?_, hlen, ?_⟩
      · rw [he]
        simp only [List.filter_append, List.filter_cons, List.filter_nil, hm, decide_True,
          decide_False, not_false_eq_true, if_true, if_false, List.append_nil, List.append_assoc,
          List.length_append, List.length_nil, Nat.cast_add, Nat.cast_zero, add_zero,
          Bool.false_eq_true]
      · intro x
        rw [hjobs x]
        by_cases hxa : x = a
        · subst hxa
          simp only [hal, false_and, if_false, hm, and_false]
        · simp only [List.mem_append, List.mem_singleton, hxa, or_false]

/-- The effect of `check_deadline_misses` on a well-formed state: the queue
keeps, in order, the entries whose deadline has not passed; a job is marked
MISSED when it is a queue entry whose deadline has passed or the occupant that
fails the running-job test; nothing else changes in the job array. -/
theorem check_deadline_misses_spec (s : SimulationState) (hwf : WF s) :
    ∃ jobs1 rj q dm,
      check_deadline_misses s
        = { s with
            jobs := jobs1
            running_job := rj
            ready_queue := s.ready_queue.filter (fun x => decide (¬ deadlinePassed s x))
            current_job_quantum_remaining := q
            deadline_misses := dm }
      ∧ jobs1.length = s.jobs.length
      ∧ ((rj = s.running_job ∧ ¬ ∃ r, runningMissed s r) ∨ (rj = none ∧ ∃ r, runningMissed s r))
      ∧ ∀ x, getJob jobs1 x
          = if (x ∈ s.ready_queue ∧ deadlinePassed s x) ∨ runningMissed s x
            then { getJob s.jobs x with status := MISSED } else getJob s.jobs x := by
  have hdef : check_deadline_misses s
      = checkQueueMisses (s.current_time + 1)
          (checkRunningMiss (s.current_time + 1) s).ready_queue.length
          (checkRunningMiss (s.current_time + 1) s) := rfl
  rcases checkRunningMiss_cases (s.current_time + 1) s with h | ⟨r, hr, hrun, hd, ha, h⟩
  · rw [h] at hdef
    obtain ⟨jobs1, he, hlen, hjobs⟩ := checkQueueMisses_spec (s.current_time + 1) s.ready_queue [] s
      (by simp) (by simpa using hwf.1) hwf.2.1
    have hno : ¬ ∃ r, runningMissed s r := by
      rintro ⟨r, hr, hrun, hd, ha⟩
      have : checkRunningMiss (s.current_time + 1) s ≠ s := by
        unfold checkRunningMiss
        simp only [hr, hrun, hd, ha, and_self, if_true]
        intro hcon
        have := congrArg SimulationState.running_job hcon
        simp only at this
        rw [hr] at this
        cases this
      exact this h
    refine ⟨jobs1, s.running_job, s.current_job_quantum_remaining,
      (check_deadline_misses s).deadline_misses, ?_, hlen, Or.inl ⟨rfl, hno⟩, ?_⟩
    · rw [hdef, he]
      simp only [List.append_nil, deadlinePassed]
    · intro x
      rw [hjobs x]
      have : ¬ runningMissed s x := fun h => hno ⟨x, h⟩
      simp only [this, or_false, deadlinePassed]
  · rw [h] at hdef
    have hrlt : r < s.jobs.length := hwf.2.2.1 r hr
    have hdl : ∀ x, (getJob (setStatus s.jobs r MISSED) x).absolute_deadline
        = (getJob s.jobs x).absolute_deadline := by
      intro x; rw [getJob_setStatus]; split_ifs with h
      · rw [h.1]
      · rfl
    obtain ⟨jobs1, he, hlen, hjobs⟩ := checkQueueMisses_spec (s.current_time + 1) s.ready_queue []
      { s with jobs := setStatus s.jobs r MISSED, deadline_misses := s.deadline_misses + 1,
               running_job := none, current_job_quantum_remaining := 0 }
      (by simp) (by simpa using hwf.1)
      (by intro x hx
          show x < (setStatus s.jobs r MISSED).length
          rw [setStatus_length]; exact hwf.2.1 x hx)
    have hmiss : ∀ x, runningMissed s x ↔ x = r := by
      intro x
      constructor
      · rintro ⟨h1, _⟩
        rw [hr] at h1
        cases h1; rfl
      · intro h1; subst h1; exact ⟨hr, hrun, hd, ha⟩
    refine ⟨jobs1, none, 0, (check_deadline_misses s).deadline_misses, ?_,
      (by rw [hlen]; exact setStatus_length _ _ _), Or.inr ⟨rfl, r, (hmiss r).mpr rfl⟩, ?_⟩
    · rw [hdef, he]
      simp only [List.append_nil, deadlinePassed, hdl]
    · intro x
      rw [hjobs x]
      simp only [hdl, getJob_setStatus, hrlt, and_true, hmiss, deadlinePassed]
      by_cases hxr : x = r
      · subst hxr
        simp only [if_true, or_true]
        split_ifs <;> rfl
      · simp only [hxr, if_false, or_false]

theorem execute_running_job_wf (s : SimulationState) (hwf : WF s) : WF (execute_running_job s) := by
  rw [execute_running_job_eq]
  exact WF_of_eq hwf rfl rfl (execute_running_job_length s)

theorem execute_running_job_frame (s : SimulationState) :
    (execute_running_job s).ready_queue = s.ready_queue
    ∧ (execute_running_job s).running_job = s.running_job
    ∧ (execute_running_job s).current_time = s.current_time
    ∧ (execute_running_job s).last_running_job_id = s.last_running_job_id
    ∧ (execute_running_job s).context_switches = s.context_switches
    ∧ (execute_running_job s).deadline_misses = s.deadline_misses
    ∧ (execute_running_job s).completed_jobs = s.completed_jobs
    ∧ (execute_running_job s).idle_time = s.idle_time := by
  rw [execute_running_job_eq]
  exact ⟨rfl, rfl, rfl, rfl, rfl, rfl, rfl, rfl⟩

theorem check_deadline_misses_frame (s : SimulationState) (hwf : WF s) :
    WF (check_deadline_misses s)
    ∧ (check_deadline_misses s).current_time = s.current_time
    ∧ (check_deadline_misses s).last_running_job_id = s.last_running_job_id
    ∧ (check_deadline_misses s).context_switches = s.context_switches
    ∧ (check_deadline_misses s).completed_jobs = s.completed_jobs
    ∧ (check_deadline_misses s).idle_time = s.idle_time
    ∧ (check_deadline_misses s).jobs.length = s.jobs.length
    ∧ ((check_deadline_misses s).running_job = s.running_job
        ∨ (check_deadline_misses s).running_job = none) := by
  obtain ⟨jobs1, rj, q, dm, he, hlen, hrj, -⟩ := check_deadline_misses_spec s hwf
  rw [he]
  refine ⟨⟨?_, ?_, ?_, ?_⟩, rfl, rfl, rfl, rfl, rfl, hlen, ?_⟩
  · exact hwf.1.filter _
  · intro i hi
    show i < jobs1.length
    rw [hlen]
    exact hwf.2.1 i (List.mem_of_mem_filter hi)
  · intro r hr
    show r < jobs1.length
    rw [hlen]
    rcases hrj with ⟨h, _⟩ | ⟨h, _⟩
    · exact hwf.2.2.1 r (by rw [← h]; exact hr)
    · have : rj = some r := hr
      rw [h] at this; cases this
  · show jobs1.length ≤ MAX_JOBS
    rw [hlen]; exact hwf.2.2.2
  · rcases hrj with ⟨h, _⟩ | ⟨h, _⟩
    · exact Or.inl h
    · exact Or.inr h

/-- Steps 6 to 8 keep the state well-formed, advance the clock by one and leave
the idle-time and context-switch counters and `last_running_job_id` alone; the
occupant stays or is retired by a deadline miss. -/
theorem tickExecute_frame (s : SimulationState) (hwf : WF s) :
    WF (tickExecute s)
    ∧ (tickExecute s).current_time = s.current_time + 1
    ∧ (tickExecute s).last_running_job_id = s.last_running_job_id
    ∧ (tickExecute s).context_switches = s.context_switches
    ∧ (tickExecute s).completed_jobs = s.completed_jobs
    ∧ (tickExecute s).idle_time = s.idle_time
    ∧ (tickExecute s).jobs.length = s.jobs.length
    ∧ ((tickExecute s).running_job = s.running_job ∨ (tickExecute s).running_job = none) := by
  obtain ⟨e1, e2, e3, e4, e5, e6, e7, e8⟩ := execute_running_job_frame s
  obtain ⟨c0, c1, c2, c3, c4, c5, c6, c7⟩ :=
    check_deadline_misses_frame _ (execute_running_job_wf s hwf)
  unfold tickExecute
  simp only
  refine ⟨WF_of_eq c0 rfl rfl rfl, by rw [c1, e3], by rw [c2, e4], by rw [c3, e5], by rw [c4, e7],
    by rw [c5, e8], by rw [c6, execute_running_job_length], ?_⟩
  rcases c7 with h | h
  · left; rw [h, e2]
  · right; exact h

/-- Steps 1 to 4 of a tick on a well-formed state do not abort; they keep the
state well-formed and the clock unchanged, and they count one idle tick exactly
when the processor is idle at the execution step. -/
theorem tickSchedule_idle (s : SimulationState) (hwf : WF s) :
    ∃ s5, tickSchedule s = some s5 ∧ WF s5
      ∧ s5.current_time = s.current_time
      ∧ s5.idle_time = s.idle_time + (if s5.running_job = none then 1 else 0) := by
  obtain ⟨jobs1, q, req1, ha, hwf1, -, -, -⟩ :=
    arrivalsLoop_spec (List.range s.jobs.length) s false hwf (fun i hi => List.mem_range.mp hi)
  unfold tickSchedule
  rw [ha]
  simp only
  by_cases hdue : completionDue { s with jobs := jobs1, ready_queue := q } = true
  · obtain ⟨r, hr, hcond⟩ := (completionDue_iff _).mp hdue
    rw [if_pos hdue, handle_completion_due _ r hr hcond]
    have hwf2 : WF { s with jobs := updJob jobs1 r (fun j =>
                              { j with status := COMPLETED, finish_time := s.current_time }),
                            ready_queue := q, completed_jobs := s.completed_jobs + 1,
                            running_job := none, current_job_quantum_remaining := 0 } := by
      refine ⟨hwf1.1, ?_, ?_, ?_⟩
      · intro i hi
        simp only [updJob_length]
        exact hwf1.2.1 i hi
      · intro r' hr'; cases hr'
      · simp only [updJob_length]
        exact hwf1.2.2.2
    exact rescheduleStep_idle _ _ hwf2
  · rw [if_neg hdue]
    exact rescheduleStep_idle _ _ hwf1

/-! ## The tick loop -/

/-- Induction over the tick loop: a property of (state, logged states) that
holds at the start and that every tick below the horizon carries over, without
aborting, holds for the result, and the loop does return. -/
theorem simLoop_inv (H : Int) (P : SimulationState → List SimulationState → Prop)
    (hstep : ∀ s tr, P s tr → s.current_time < H →
      ∃ s5, tickSchedule s = some s5 ∧ P (tickExecute s5) (tr ++ [s5])
        ∧ (tickExecute s5).current_time = s.current_time + 1) :
    ∀ (fuel : Nat) (s : SimulationState) (tr : List SimulationState),
      P s tr → H - s.current_time ≤ fuel →
      ∃ r, simLoop H fuel s tr = some r ∧ P r.1 r.2 ∧ ¬ r.1.current_time < H := by
  intro fuel
  induction fuel with
  | zero =>
    intro s tr hP hf
    have hnot : ¬ s.current_time < H := by
      simp only [Nat.cast_zero] at hf
      omega
    refine ⟨(s, tr), ?_, hP, hnot⟩
    unfold simLoop
    rw [if_neg hnot]
  | succ n ih =>
    intro s tr hP hf
    unfold simLoop
    by_cases hlt : s.current_time < H
    · obtain ⟨s5, he, hP5, ht⟩ := hstep s tr hP hlt
      rw [if_pos hlt, he]
      simp only
      apply ih _ _ hP5
      rw [ht]
      push_cast at hf
      omega
    · rw [if_neg hlt]
      exact ⟨(s, tr), rfl, hP, hlt⟩

theorem busyTicks_append (tr : List SimulationState) (s5 : SimulationState) :
    busyTicks (tr ++ [s5]) = busyTicks tr + (if s5.running_job = none then 0 else 1) := by
  unfold busyTicks
  rw [List.filter_append, List.length_append]
  cases h : s5.running_job with
  | none => simp [h]
  | some r => simp [h]

theorem initialState_wf (jobs : List Job) (hn : jobs.length ≤ MAX_JOBS) : WF (initialState jobs) := by
  refine ⟨List.nodup_nil, ?_, ?_, hn⟩
  · intro i hi; cases hi
  · intro r hr; cases hr

/-- C7: tick conservation.  For every horizon `H ≥ 0` (and a job array within
the static capacity) the run terminates with `current_time = H`, it logs
exactly `H` ticks, tick `t` being logged at time `t`, and `idle_time` plus the
number of ticks with an occupant at the execution step equals `H`. -/
theorem tick_conservation (H : Int) (jobs : List Job) (hH : 0 ≤ H)
    (hn : jobs.length ≤ MAX_JOBS) :
    ∃ r, run_mllf_simulation H jobs = some r
      ∧ r.1.idle_time + busyTicks r.2 = H
      ∧ (r.2.length : Int) = H
      ∧ r.1.current_time = H
      ∧ ∀ (t : Nat) (x : SimulationState), r.2[t]? = some x → x.current_time = (t : Int) := by
  have hmain := simLoop_inv H
    (fun s tr => WF s ∧ s.idle_time + busyTicks tr = s.current_time
      ∧ (tr.length : Int) = s.current_time ∧ s.current_time ≤ H
      ∧ ∀ (t : Nat) (x : SimulationState), tr[t]? = some x → x.current_time = (t : Int))
    (by
      rintro s tr ⟨hwf, hidle, hlen, hle, htr⟩ hlt
      obtain ⟨s5, he, hwf5, ht5, hi5⟩ := tickSchedule_idle s hwf
      obtain ⟨g0, g1, -, -, -, g5, -, -⟩ := tickExecute_frame s5 hwf5
      refine ⟨s5, he, ⟨g0, ?_, ?_, ?_, ?_⟩, by rw [g1, ht5]⟩
      · rw [g5, g1, hi5, busyTicks_append, ht5]
        split_ifs <;> omega
      · rw [List.length_append, List.length_singleton, g1, ht5]
        push_cast
        omega
      · rw [g1, ht5]; omega
      · intro t x hx
        by_cases htl : t < tr.length
        · rw [List.getElem?_append_left htl] at hx
          exact htr t x hx
        · have hge : tr.length ≤ t := not_lt.mp htl
          rw [List.getElem?_append_right hge] at hx
          have ht0 : t - tr.length = 0 := by
            by_contra hne
            have hpos : 0 < t - tr.length := Nat.pos_of_ne_zero hne
            have hnone : [s5][t - tr.length]? = none :=
              List.getElem?_eq_none (by simp only [List.length_singleton]; omega)
            rw [hnone] at hx
            cases hx
          rw [ht0] at hx
          simp only [List.getElem?_cons_zero, Option.some.injEq] at hx
          subst hx
          rw [ht5, ← hlen]
          have : t = tr.length := by omega
          rw [this])
    H.toNat (initialState jobs) []
    ⟨initialState_wf jobs hn, by simp [initialState, busyTicks], by simp [initialState],
      by simpa [initialState] using hH, by intro t x hx; simp at hx⟩
    (by simp [initialState])
  obtain ⟨r, hr, ⟨_, hidle, hlen, hle, htr⟩, hnot⟩ := hmain
  have hcur : r.1.current_time = H := by omega
  exact ⟨r, hr, by rw [hidle, hcur], by rw [hlen, hcur], hcur, htr⟩

/-! ## job_id is never written, and the context-switch bookkeeping of a tick -/

theorem arrive_job_id (now : Int) (j : Job) : (arrive now j).job_id = j.job_id := by
  unfold arrive; split_ifs <;> rfl

theorem startTa_job_id (s : SimulationState) (ta i : Nat) :
    (getJob (startTa s ta).jobs i).job_id = (getJob s.jobs i).job_id := by
  rw [getJob_startTa]
  split_ifs with h
  · rw [h.1]; rfl
  · rfl

theorem setStatus_job_id (jobs : List Job) (k i : Nat) (st : Status) :
    (getJob (setStatus jobs k st) i).job_id = (getJob jobs i).job_id := by
  rw [getJob_setStatus]
  split_ifs with h
  · rw [h.1]
  · rfl

theorem calculate_all_laxities_job_id (s : SimulationState) (i : Nat) :
    (getJob (calculate_all_laxities s).jobs i).job_id = (getJob s.jobs i).job_id := by
  rw [getJob_calculate_all_laxities]; rfl

theorem select_job_id (s : SimulationState) (i : Nat) :
    (getJob (select_mllf_task_Ta s).1.jobs i).job_id = (getJob s.jobs i).job_id := by
  rcases (select_mem s).1 with h | h
  · rw [h]
  · rw [h, calculate_all_laxities_job_id]

theorem decisionBranches_switch (s : SimulationState) (cand : Option Nat) (hwf : WF s) :
    ∃ s1, decisionBranches s cand = some s1
      ∧ (∀ i, (getJob s1.jobs i).job_id = (getJob s.jobs i).job_id)
      ∧ s1.last_running_job_id = s.last_running_job_id
      ∧ s1.context_switches = s.context_switches
      ∧ s1.jobs.length = s.jobs.length := by
  rcases decisionBranches_cases s cand hwf with
    ⟨hr, ta, hcand, he⟩ | ⟨hr, hcand, he⟩ | ⟨r, hr, hcand, he⟩
    | ⟨r, ta, q, hr, hcand, htr, he, hwf2, hq⟩ | ⟨r, qr, hr, hcand, he, _⟩
  · exact ⟨_, he, startTa_job_id s ta, rfl, rfl, startTa_length s ta⟩
  · exact ⟨_, he, fun _ => rfl, rfl, rfl, rfl⟩
  · exact ⟨_, he, fun _ => rfl, rfl, rfl, rfl⟩
  · refine ⟨_, he, ?_, rfl, rfl, ?_⟩
    · intro i
      rw [startTa_job_id]
      exact setStatus_job_id s.jobs r i READY
    · rw [startTa_length]
      exact setStatus_length _ _ _
  · exact ⟨_, he, fun _ => rfl, rfl, rfl, rfl⟩

theorem occupantId_contextSwitchCheck (s : SimulationState) :
    occupantId (contextSwitchCheck s) = occupantId s := by
  rw [contextSwitchCheck_eq]; rfl

theorem rescheduleStep_switch (s : SimulationState) (req : Bool) (hwf : WF s) :
    ∃ s5, rescheduleStep s req = some s5
      ∧ s5.jobs.length = s.jobs.length
      ∧ (∀ i, (getJob s5.jobs i).job_id = (getJob s.jobs i).job_id)
      ∧ ((req = true ∨ s.running_job = none) →
          s5.last_running_job_id = occupantId s5
          ∧ s5.context_switches = s.context_switches
              + (if occupantId s5 ≠ s.last_running_job_id ∧ occupantId s5 ≠ -1
                    ∧ s.last_running_job_id ≠ -1 then 1 else 0))
      ∧ (¬ (req = true ∨ s.running_job = none) →
          s5.running_job = s.running_job ∧ s5.last_running_job_id = s.last_running_job_id
          ∧ s5.context_switches = s.context_switches) := by
  unfold rescheduleStep
  by_cases hcond : req = true ∨ s.running_job = none
  · rw [if_pos hcond, make_decision_eq]
    obtain ⟨w, _, _, _, g4, _, g6, _, _, _, g10, _⟩ := select_wf s hwf
    obtain ⟨s1, he, hid, hl, hc, hlen⟩ := decisionBranches_switch _ (select_mllf_task_Ta s).2 w
    rw [he]
    refine ⟨contextSwitchCheck s1, rfl, ?_, ?_, fun _ => ⟨?_, ?_⟩, fun h => absurd hcond h⟩
    · rw [contextSwitchCheck_eq]
      show s1.jobs.length = _
      rw [hlen, g10]
    · intro i
      rw [contextSwitchCheck_eq]
      show (getJob s1.jobs i).job_id = _
      rw [hid, select_job_id]
    · rw [occupantId_contextSwitchCheck, contextSwitchCheck_eq]
    · rw [occupantId_contextSwitchCheck, contextSwitchCheck_eq]
      show (if occupantId s1 ≠ s1.last_running_job_id ∧ occupantId s1 ≠ -1
          ∧ s1.last_running_job_id ≠ -1 then s1.context_switches + 1 else s1.context_switches) = _
      rw [hl, hc, g4, g6]
      split_ifs <;> omega
  · rw [if_neg hcond]
    have hne : s.running_job ≠ none := fun h => hcond (Or.inr h)
    obtain ⟨f1, f2, f3, f4, f5, f6, f7, f8, f9, f10⟩ := calculate_all_laxities_frame s
    rcases Option.eq_none_or_eq_some s.running_job with hr | ⟨r, hr⟩
    · exact absurd hr hne
    · rw [hr]
      rw [hr] at hcond
      simp only
      exact ⟨calculate_all_laxities s, rfl, f10, calculate_all_laxities_job_id s,
        fun h => absurd h hcond, fun _ => ⟨by rw [f2, hr], f4, f6⟩⟩

theorem quantumExpired_running (s : SimulationState) (h : quantumExpired s = true) :
    s.running_job ≠ none := by
  intro hn
  unfold quantumExpired at h
  rw [hn] at h
  cases h

/-- The context-switch bookkeeping of steps 1 to 4: either the tick reschedules,
and then `last_running_job_id` becomes the occupant's id and the counter grows
by one exactly when that id differs from the old `last_running_job_id` and
neither is -1; or the occupant simply continues and nothing is touched. -/
theorem tickSchedule_switch (s : SimulationState) (hwf : WF s) :
    ∃ s5, tickSchedule s = some s5
      ∧ s5.jobs.length = s.jobs.length
      ∧ (∀ i, (getJob s5.jobs i).job_id = (getJob s.jobs i).job_id)
      ∧ ((s5.last_running_job_id = occupantId s5
            ∧ s5.context_switches = s.context_switches
                + (if occupantId s5 ≠ s.last_running_job_id ∧ occupantId s5 ≠ -1
                      ∧ s.last_running_job_id ≠ -1 then 1 else 0))
          ∨ (s5.running_job = s.running_job ∧ s.running_job ≠ none
              ∧ s5.last_running_job_id = s.last_running_job_id
              ∧ s5.context_switches = s.context_switches)) := by
  obtain ⟨jobs1, q, req1, ha, hwf1, hlen1, hjobs, -⟩ :=
    arrivalsLoop_spec (List.range s.jobs.length) s false hwf (fun i hi => List.mem_range.mp hi)
  have hid1 : ∀ i, (getJob jobs1 i).job_id = (getJob s.jobs i).job_id := by
    intro i
    rw [hjobs i]
    split_ifs
    · exact arrive_job_id _ _
    · rfl
  unfold tickSchedule
  rw [ha]
  simp only
  by_cases hdue : completionDue { s with jobs := jobs1, ready_queue := q } = true
  · obtain ⟨r, hr, hcond⟩ := (completionDue_iff _).mp hdue
    rw [if_pos hdue, handle_completion_due _ r hr hcond]
    have hwf2 : WF { s with jobs := updJob jobs1 r (fun j =>
                              { j with status := COMPLETED, finish_time := s.current_time }),
                            ready_queue := q, completed_jobs := s.completed_jobs + 1,
                            running_job := none, current_job_quantum_remaining := 0 } := by
      refine ⟨hwf1.1, ?_, ?_, ?_⟩
      · intro i hi
        simp only [updJob_length]
        exact hwf1.2.1 i hi
      · intro r' hr'; cases hr'
      · simp only [updJob_length]
        exact hwf1.2.2.2
    obtain ⟨s5, he, hlen5, hid, hA, -⟩ := rescheduleStep_switch _
      (req1 || completionDue { s with jobs := jobs1, ready_queue := q } || quantumExpired _) hwf2
    refine ⟨s5, he, ?_, ?_, Or.inl (hA (Or.inr rfl))⟩
    · rw [hlen5]
      simp only [updJob_length]
      exact hlen1
    intro i
    rw [hid i]
    simp only [getJob_updJob]
    split_ifs with h
    · rw [← hid1, h.1]
    · exact hid1 i
  · rw [if_neg hdue]
    obtain ⟨s5, he, hlen5, hid, hA, hB⟩ := rescheduleStep_switch _
      (req1 || completionDue { s with jobs := jobs1, ready_queue := q }
        || quantumExpired { s with jobs := jobs1, ready_queue := q }) hwf1
    refine ⟨s5, he, by rw [hlen5]; exact hlen1, fun i => by rw [hid i]; exact hid1 i, ?_⟩
    by_cases hc : (req1 || completionDue { s with jobs := jobs1, ready_queue := q }
        || quantumExpired { s with jobs := jobs1, ready_queue := q }) = true
        ∨ s.running_job = none
    · exact Or.inl (hA hc)
    · obtain ⟨h1, h2, h3⟩ := hB hc
      exact Or.inr ⟨h1, fun h => hc (Or.inr h), h2, h3⟩

theorem executeRecord_job_id (j : Job) : (executeRecord j).job_id = j.job_id := rfl

theorem tickExecute_job_id (s : SimulationState) (hwf : WF s) (i : Nat) :
    (getJob (tickExecute s).jobs i).job_id = (getJob s.jobs i).job_id := by
  obtain ⟨jobs1, rj, q, dm, he, -, -, hjobs⟩ :=
    check_deadline_misses_spec _ (execute_running_job_wf s hwf)
  unfold tickExecute
  simp only
  rw [he]
  show (getJob jobs1 i).job_id = _
  rw [hjobs i]
  have hex : (getJob (execute_running_job s).jobs i).job_id = (getJob s.jobs i).job_id := by
    rw [getJob_execute_running_job]
    split_ifs <;> rfl
  split_ifs
  · exact hex
  · exact hex

theorem countSwitches_append (tr : List SimulationState) (c : SimulationState) :
    countSwitches (tr ++ [c])
      = countSwitches tr
        + (match tr.getLast? with
            | none => 0
            | some p => if switchAt p c then 1 else 0) := by
  induction tr with
  | nil => simp [countSwitches]
  | cons a l ih =>
    cases l with
    | nil => simp [countSwitches]
    | cons b l' =>
      have h1 : (a :: b :: l') ++ [c] = a :: b :: (l' ++ [c]) := rfl
      have h2 : (b :: l') ++ [c] = b :: (l' ++ [c]) := rfl
      rw [h1]
      simp only [countSwitches]
      rw [← h2, ih]
      simp only [List.getLast?_cons_cons]
      omega

theorem occupantId_eq_neg_one_iff (s : SimulationState) (hwf : WF s)
    (hid : ∀ i, i < s.jobs.length → (getJob s.jobs i).job_id ≠ -1) :
    occupantId s = -1 ↔ s.running_job = none := by
  unfold occupantId
  rcases Option.eq_none_or_eq_some s.running_job with hr | ⟨r, hr⟩
  · rw [hr]; simp
  · rw [hr]
    simp only [reduceCtorEq, iff_false]
    exact hid r (hwf.2.2.1 r hr)

theorem SwitchInv_step (s : SimulationState) (tr : List SimulationState)
    (hinv : SwitchInv s tr) :
    ∃ s5, tickSchedule s = some s5 ∧ SwitchInv (tickExecute s5) (tr ++ [s5])
      ∧ (tickExecute s5).current_time = s.current_time + 1 := by
  obtain ⟨hwf, hid, hnil, hlast, hchain, hhead, hall, hcount⟩ := hinv
  obtain ⟨s5, he, hwf5, ht5, -⟩ := tickSchedule_idle s hwf
  obtain ⟨s5', he', hlen5, hid5, hAB⟩ := tickSchedule_switch s hwf
  rw [he] at he'
  cases he'
  obtain ⟨g0, g1, g2, g3, -, -, g6, g7⟩ := tickExecute_frame s5 hwf5
  have hids5 : ∀ i, i < s5.jobs.length → (getJob s5.jobs i).job_id ≠ -1 := by
    intro i hi
    rw [hid5 i]
    exact hid i (by rw [← hlen5]; exact hi)
  have hocc5 := occupantId_eq_neg_one_iff s5 hwf5 hids5
  -- the two facts about the logged state
  have hF : s5.last_running_job_id = occupantId s5
      ∧ s5.context_switches = s.context_switches
          + (match tr.getLast? with
              | none => 0
              | some p => if switchAt p s5 then 1 else 0) := by
    rcases hAB with ⟨hA1, hA2⟩ | ⟨hB1, hB2, hB3, hB4⟩
    · refine ⟨hA1, ?_⟩
      rw [hA2]
      cases hgl : tr.getLast? with
      | none =>
        have htr : tr = [] := List.getLast?_eq_none_iff.mp hgl
        rw [(hnil htr).1]
        simp
      | some p =>
        obtain ⟨hl1, -, hl3, -⟩ := hlast p hgl
        simp only
        rw [hl1]
        have hiff : (occupantId s5 ≠ occupantId p ∧ occupantId s5 ≠ -1 ∧ occupantId p ≠ -1)
            ↔ switchAt p s5 := by
          unfold switchAt
          rw [ne_eq (occupantId s5) (-1), hocc5, ne_eq (occupantId p) (-1), hl3]
          constructor
          · rintro ⟨a, b, c⟩; exact ⟨c, b, fun h => a h.symm⟩
          · rintro ⟨a, b, c⟩; exact ⟨fun h => c h.symm, b, a⟩
        by_cases hsw : switchAt p s5
        · rw [if_pos hsw, if_pos (hiff.mpr hsw)]
        · rw [if_neg hsw, if_neg (fun h => hsw (hiff.mp h))]
    · obtain ⟨r, hr⟩ := Option.ne_none_iff_exists'.mp hB2
      cases hgl : tr.getLast? with
      | none =>
        have htr : tr = [] := List.getLast?_eq_none_iff.mp hgl
        exact absurd (hnil htr).2.2 hB2
      | some p =>
        obtain ⟨hl1, -, -, hl4⟩ := hlast p hgl
        obtain ⟨hp1, hp2⟩ := hl4 r hr
        have hoccp : occupantId p = occupantId s5 := by
          unfold occupantId
          rw [hp1, hB1, hr]
          simp only
          rw [hp2, hid5 r]
        refine ⟨by rw [hB3, hl1, hoccp], ?_⟩
        simp only
        have hsw : ¬ switchAt p s5 := fun h => h.2.2 hoccp
        rw [if_neg hsw, hB4]
        omega
  obtain ⟨hF1, hF2⟩ := hF
  refine ⟨s5, he, ⟨g0, ?_, ?_, ?_, ?_, ?_, ?_, ?_⟩, by rw [g1, ht5]⟩
  · intro i hi
    rw [tickExecute_job_id s5 hwf5 i]
    exact hids5 i (by rw [← g6]; exact hi)
  · intro h
    exact absurd h (by simp)
  · intro p hp
    have hgl : (tr ++ [s5]).getLast? = some s5 := by simp
    rw [hgl] at hp
    cases hp
    refine ⟨by rw [g2, hF1], g3, hocc5, ?_⟩
    intro r hr
    rcases g7 with h | h
    · exact ⟨by rw [← h]; exact hr, (tickExecute_job_id s5 hwf5 r).symm⟩
    · rw [h] at hr; cases hr
  · refine List.Chain'.append hchain (List.chain'_singleton _) ?_
    intro x hx y hy
    simp only [List.head?_cons, Option.mem_def, Option.some.injEq] at hy
    subst hy
    obtain ⟨-, hl2, -, -⟩ := hlast x hx
    rw [hF2]
    rw [show tr.getLast? = some x from hx]
    simp only
    rw [hl2]
  · intro x hx
    cases tr with
    | nil =>
      simp only [List.nil_append, List.head?_cons, Option.some.injEq] at hx
      subst hx
      rw [hF2, (hnil rfl).2.1]
      simp
    | cons a l =>
      simp only [List.cons_append, List.head?_cons, Option.some.injEq] at hx
      exact hhead x (by simp [hx])
  · intro x hx
    rcases List.mem_append.mp hx with h | h
    · exact hall x h
    · rw [List.mem_singleton] at h
      subst h
      exact hF1
  · rw [g3, hF2, countSwitches_append, hcount]

theorem initialState_SwitchInv (jobs : List Job) (hn : jobs.length ≤ MAX_JOBS)
    (hid : ∀ j ∈ jobs, j.job_id ≠ -1) : SwitchInv (initialState jobs) [] := by
  refine ⟨initialState_wf jobs hn, ?_, fun _ => ⟨rfl, rfl, rfl⟩, ?_, List.chain'_nil, ?_, ?_, rfl⟩
  · intro i hi
    have hi' : i < jobs.length := hi
    have hget : getJob (initialState jobs).jobs i = jobs[i] := by
      show getJob jobs i = jobs[i]
      unfold getJob
      simp [List.getD_eq_getElem?_getD, List.getElem?_eq_getElem hi']
    rw [hget]
    exact hid _ (List.getElem_mem _)
  · intro p hp; cases hp
  · intro x hx; cases hx
  · intro x hx; cases hx

/-- Witness of C7: the scenario of section 8 (three jobs, AET 2 each) over its
hyperperiod of 8 ticks. -/
theorem tick_conservation_witness :
    (0 : Int) ≤ 8 ∧ scenarioJobs.length ≤ MAX_JOBS
    ∧ ∃ r, run_mllf_simulation 8 scenarioJobs = some r
      ∧ r.1.idle_time + busyTicks r.2 = 8
      ∧ (r.2.length : Int) = 8
      ∧ r.1.current_time = 8
      ∧ ∀ (t : Nat) (x : SimulationState), r.2[t]? = some x → x.current_time = (t : Int) :=
  ⟨by decide, by decide, tick_conservation 8 scenarioJobs (by decide) (by decide)⟩

/-- C10: context-switch counting.  In every run (job array within the static
capacity, no job_id equal to the idle marker -1), with the logged ticks in
order: the counter is 0 after the decision of tick 0; between two consecutive
ticks it grows by one exactly when both have an occupant and the occupants'
job_ids differ, and not at all otherwise; so the final counter is the number of
such ticks; and at every logged tick `last_running_job_id` is the occupant's
id, or -1 when idle. -/
theorem context_switch_counting (H : Int) (jobs : List Job) (hn : jobs.length ≤ MAX_JOBS)
    (hid : ∀ j ∈ jobs, j.job_id ≠ -1) :
    ∃ r, run_mllf_simulation H jobs = some r
      ∧ List.Chain' (fun p c => c.context_switches
          = p.context_switches + (if switchAt p c then 1 else 0)) r.2
      ∧ (∀ x, r.2.head? = some x → x.context_switches = 0)
      ∧ r.1.context_switches = countSwitches r.2
      ∧ (∀ x ∈ r.2, x.last_running_job_id = occupantId x) := by
  obtain ⟨r, hr, ⟨_, _, _, _, hchain, hhead, hall, hcount⟩, _⟩ :=
    simLoop_inv H SwitchInv (fun s tr hinv _ => SwitchInv_step s tr hinv)
      H.toNat (initialState jobs) [] (initialState_SwitchInv jobs hn hid)
      (by simp only [initialState]; omega)
  exact ⟨r, hr, hchain, hhead, hcount, hall⟩

/-- Witness of C10: the scenario of section 8 (job_ids 0, 1, 2) over its
hyperperiod of 8 ticks. -/
theorem context_switch_counting_witness :
    scenarioJobs.length ≤ MAX_JOBS ∧ (∀ j ∈ scenarioJobs, j.job_id ≠ -1)
    ∧ ∃ r, run_mllf_simulation 8 scenarioJobs = some r
      ∧ List.Chain' (fun p c => c.context_switches
          = p.context_switches + (if switchAt p c then 1 else 0)) r.2
      ∧ (∀ x, r.2.head? = some x → x.context_switches = 0)
      ∧ r.1.context_switches = countSwitches r.2
      ∧ (∀ x ∈ r.2, x.last_running_job_id = occupantId x) :=
  ⟨by decide, by decide, context_switch_counting 8 scenarioJobs (by decide) (by decide)⟩

/-! ## Status and placement agree at every step -/

theorem arrive_status (now : Int) (j : Job) :
    (arrive now j).status
      = if j.status = NOT_ARRIVED ∧ j.arrival_time = now then READY else j.status := by
  unfold arrive; split_ifs <;> rfl

theorem arrivals_StatusInv (s : SimulationState) (hsi : StatusInv s) (jobs1 : List Job)
    (q : List Nat)
    (hjobs : ∀ i, getJob jobs1 i
      = if i ∈ List.range s.jobs.length then arrive s.current_time (getJob s.jobs i)
        else getJob s.jobs i)
    (hq : ∀ i, i ∈ q ↔ (i ∈ s.ready_queue
      ∨ (i ∈ List.range s.jobs.length ∧ (getJob s.jobs i).status = NOT_ARRIVED
          ∧ (getJob s.jobs i).arrival_time = s.current_time))) :
    StatusInv { s with jobs := jobs1, ready_queue := q } := by
  obtain ⟨h1, h2⟩ := hsi
  constructor
  · intro i
    show (getJob jobs1 i).status = READY ↔ i ∈ q
    rw [hjobs i, hq i, ← h1 i]
    by_cases hi : i ∈ List.range s.jobs.length
    · rw [if_pos hi, arrive_status]
      by_cases ha : (getJob s.jobs i).status = NOT_ARRIVED
          ∧ (getJob s.jobs i).arrival_time = s.current_time
      · rw [if_pos ha]
        constructor
        · intro _; exact Or.inr ⟨hi, ha⟩
        · intro _; rfl
      · rw [if_neg ha]
        constructor
        · exact Or.inl
        · rintro (h | ⟨_, h⟩)
          · exact h
          · exact absurd h ha
    · rw [if_neg hi]
      constructor
      · exact Or.inl
      · rintro (h | ⟨h, _⟩)
        · exact h
        · exact absurd h hi
  · intro i
    show (getJob jobs1 i).status = RUNNING ↔ s.running_job = some i
    rw [hjobs i, ← h2 i]
    by_cases hi : i ∈ List.range s.jobs.length
    · rw [if_pos hi, arrive_status]
      by_cases ha : (getJob s.jobs i).status = NOT_ARRIVED
          ∧ (getJob s.jobs i).arrival_time = s.current_time
      · rw [if_pos ha, ha.1]
        simp
      · rw [if_neg ha]
    · rw [if_neg hi]

theorem completion_StatusInv (s : SimulationState) (hwf : WF s) (hsi : StatusInv s) (r : Nat)
    (hr : s.running_job = some r) :
    StatusInv { s with jobs := updJob s.jobs r (fun j =>
                         { j with status := COMPLETED, finish_time := s.current_time }),
                       completed_jobs := s.completed_jobs + 1, running_job := none,
                       current_job_quantum_remaining := 0 } := by
  obtain ⟨h1, h2⟩ := hsi
  have hrlt : r < s.jobs.length := hwf.2.2.1 r hr
  have hrun : (getJob s.jobs r).status = RUNNING := (h2 r).mpr hr
  constructor
  · intro i
    simp only [getJob_updJob]
    rw [← h1 i]
    by_cases hir : i = r
    · subst hir
      simp only [hrlt, and_self, if_true, hrun]
      simp
    · simp only [hir, false_and, if_false]
  · intro i
    simp only [getJob_updJob]
    by_cases hir : i = r
    · subst hir
      simp only [hrlt, and_self, if_true]
      simp
    · simp only [hir, false_and, if_false, reduceCtorEq, iff_false]
      intro h
      have := (h2 i).mp h
      rw [hr] at this
      cases this
      exact hir rfl

theorem calculate_all_laxities_status (s : SimulationState) (i : Nat) :
    (getJob (calculate_all_laxities s).jobs i).status = (getJob s.jobs i).status := by
  rw [getJob_calculate_all_laxities]; rfl

theorem calculate_all_laxities_StatusInv (s : SimulationState) (hsi : StatusInv s) :
    StatusInv (calculate_all_laxities s) := by
  obtain ⟨f1, f2, -⟩ := calculate_all_laxities_frame s
  unfold StatusInv
  simp only [calculate_all_laxities_status, f1, f2]
  exact hsi

theorem calculate_all_laxities_LaxityDefined (s : SimulationState) (hsi : StatusInv s) :
    LaxityDefined (calculate_all_laxities s) := by
  obtain ⟨f1, f2, f3, -⟩ := calculate_all_laxities_frame s
  intro i hi
  rw [calculate_all_laxities_status] at hi
  rw [f3, getJob_calculate_all_laxities]
  show laxityAfter s i = _
  unfold laxityAfter laxityNow
  rcases hi with hi | hi
  · have hmem := (hsi.1 i).mp hi
    have hnr : ¬ (s.running_job = some i ∧ (getJob s.jobs i).status = RUNNING) := by
      rintro ⟨_, h⟩; rw [hi] at h; cases h
    rw [if_neg hnr, if_pos hmem, if_pos hi]
    rfl
  · rw [if_pos ⟨(hsi.2 i).mp hi, hi⟩]
    rfl

theorem startTa_fields (s : SimulationState) (ta : Nat) :
    (startTa s ta).ready_queue = s.ready_queue.erase ta
    ∧ (startTa s ta).running_job = some ta
    ∧ (startTa s ta).current_time = s.current_time :=
  ⟨rfl, rfl, rfl⟩

theorem startTa_status (s : SimulationState) (ta i : Nat) (hta : ta < s.jobs.length) :
    (getJob (startTa s ta).jobs i).status = if i = ta then RUNNING else (getJob s.jobs i).status := by
  rw [getJob_startTa]
  by_cases h : i = ta
  · rw [if_pos ⟨h, hta⟩, if_pos h]; rfl
  · rw [if_neg (fun h' => h h'.1), if_neg h]

theorem startTa_timing (s : SimulationState) (ta i : Nat) :
    (getJob (startTa s ta).jobs i).calculated_laxity = (getJob s.jobs i).calculated_laxity
    ∧ (getJob (startTa s ta).jobs i).absolute_deadline = (getJob s.jobs i).absolute_deadline
    ∧ (getJob (startTa s ta).jobs i).remaining_wcet = (getJob s.jobs i).remaining_wcet
    ∧ (getJob (startTa s ta).jobs i).remaining_aet = (getJob s.jobs i).remaining_aet := by
  rw [getJob_startTa]
  split_ifs with h
  · rw [h.1]; exact ⟨rfl, rfl, rfl, rfl⟩
  · exact ⟨rfl, rfl, rfl, rfl⟩

/-- The dispatch sequence started on a state in which the READY jobs are the
queue entries, `ta` is queued and no other job is RUNNING, produces a state in
which status and placement agree. -/
theorem startTa_StatusInv (s : SimulationState) (ta : Nat) (hwf : WF s)
    (hta : ta ∈ s.ready_queue)
    (h1 : ∀ i, (getJob s.jobs i).status = READY ↔ i ∈ s.ready_queue)
    (h2 : ∀ i, i ≠ ta → (getJob s.jobs i).status ≠ RUNNING) :
    StatusInv (startTa s ta) := by
  have hlt : ta < s.jobs.length := hwf.2.1 ta hta
  obtain ⟨f1, f2, -⟩ := startTa_fields s ta
  constructor
  · intro i
    rw [startTa_status s ta i hlt, f1]
    by_cases hi : i = ta
    · subst hi
      rw [if_pos rfl]
      constructor
      · intro h; cases h
      · intro h; exact absurd h (List.Nodup.not_mem_erase hwf.1)
    · rw [if_neg hi, h1 i]
      exact (List.mem_erase_of_ne hi).symm
  · intro i
    rw [startTa_status s ta i hlt, f2]
    by_cases hi : i = ta
    · subst hi
      rw [if_pos rfl]
      simp
    · rw [if_neg hi]
      constructor
      · intro h; exact absurd h (h2 i hi)
      · intro h
        simp only [Option.some.injEq] at h
        exact absurd h.symm hi

theorem startTa_LaxityDefined (s : SimulationState) (ta : Nat) (hlt : ta < s.jobs.length)
    (hta : (getJob s.jobs ta).status = READY ∨ (getJob s.jobs ta).status = RUNNING)
    (hlax : LaxityDefined s) : LaxityDefined (startTa s ta) := by
  intro i hi
  obtain ⟨t1, t2, t3, -⟩ := startTa_timing s ta i
  rw [t1, t2, t3, (startTa_fields s ta).2.2]
  rw [startTa_status s ta i hlt] at hi
  by_cases h : i = ta
  · subst h; exact hlax i hta
  · rw [if_neg h] at hi; exact hlax i hi

/-- The branches of the decision keep status and placement in agreement and
keep the laxities of the Ready and Running jobs, when the candidate is a queue
entry or the occupant. -/
theorem decisionBranches_StatusInv (s : SimulationState) (cand : Option Nat) (hwf : WF s)
    (hsi : StatusInv s) (hlax : LaxityDefined s)
    (hc : ∀ c, cand = some c → c ∈ s.ready_queue ∨ s.running_job = some c) :
    ∃ s1, decisionBranches s cand = some s1 ∧ StatusInv s1 ∧ LaxityDefined s1 := by
  obtain ⟨h1, h2⟩ := hsi
  rcases decisionBranches_cases s cand hwf with
    ⟨hr, ta, hcand, he⟩ | ⟨hr, hcand, he⟩ | ⟨r, hr, hcand, he⟩
    | ⟨r, ta, q, hr, hcand, htr, he, hwf2, hq⟩ | ⟨r, qr, hr, hcand, he, _⟩
  · have hta : ta ∈ s.ready_queue := by
      rcases hc ta hcand with h | h
      · exact h
      · rw [hr] at h; cases h
    refine ⟨_, he, startTa_StatusInv s ta hwf hta h1 ?_,
      startTa_LaxityDefined s ta (hwf.2.1 ta hta) (Or.inl ((h1 ta).mpr hta)) hlax⟩
    intro i _ h
    have := (h2 i).mp h
    rw [hr] at this; cases this
  · exact ⟨_, he, ⟨h1, h2⟩, hlax⟩
  · exact ⟨_, he, ⟨h1, h2⟩, hlax⟩
  · have hrlt : r < s.jobs.length := hwf.2.2.1 r hr
    have hrrun : (getJob s.jobs r).status = RUNNING := (h2 r).mpr hr
    have hta : ta ∈ s.ready_queue := by
      rcases hc ta hcand with h | h
      · exact h
      · rw [hr] at h
        simp only [Option.some.injEq] at h
        exact absurd h.symm htr
    have hst : ∀ i, (getJob (setStatus s.jobs r READY) i).status
        = if i = r then READY else (getJob s.jobs i).status := by
      intro i
      rw [getJob_setStatus]
      by_cases h : i = r
      · rw [if_pos ⟨h, hrlt⟩, if_pos h]
      · rw [if_neg (fun h' => h h'.1), if_neg h]
    refine ⟨_, he, startTa_StatusInv _ ta hwf2 ((hq ta).mpr (Or.inl hta)) ?_ ?_,
      startTa_LaxityDefined _ ta ?_ ?_ ?_⟩
    · intro i
      show (getJob (setStatus s.jobs r READY) i).status = READY ↔ i ∈ q
      rw [hst i, hq i]
      by_cases h : i = r
      · rw [if_pos h]; simp [h]
      · rw [if_neg h, h1 i]; simp [h]
    · intro i hi
      show (getJob (setStatus s.jobs r READY) i).status ≠ RUNNING
      rw [hst i]
      by_cases h : i = r
      · rw [if_pos h]; simp
      · rw [if_neg h]
        intro hrun
        have := (h2 i).mp hrun
        rw [hr] at this
        simp only [Option.some.injEq] at this
        exact h this.symm
    · show ta < (setStatus s.jobs r READY).length
      rw [setStatus_length]; exact hwf.2.1 ta hta
    · left
      show (getJob (setStatus s.jobs r READY) ta).status = READY
      rw [hst ta, if_neg htr]
      exact (h1 ta).mpr hta
    · intro i hi
      have hi' : (getJob (setStatus s.jobs r READY) i).status = READY
          ∨ (getJob (setStatus s.jobs r READY) i).status = RUNNING := hi
      show (getJob (setStatus s.jobs r READY) i).calculated_laxity
        = (getJob (setStatus s.jobs r READY) i).absolute_deadline - s.current_time
          - (getJob (setStatus s.jobs r READY) i).remaining_wcet
      rw [hst i] at hi'
      have hold : (getJob s.jobs i).status = READY ∨ (getJob s.jobs i).status = RUNNING := by
        by_cases h : i = r
        · subst h; exact Or.inr hrrun
        · rw [if_neg h] at hi'; exact hi'
      have := hlax i hold
      rw [getJob_setStatus]
      split_ifs with h
      · rw [h.1] at this; exact this
      · exact this
  · exact ⟨_, he, ⟨h1, h2⟩, hlax⟩

theorem select_StatusInv (s : SimulationState) (hsi : StatusInv s) :
    StatusInv (select_mllf_task_Ta s).1 ∧ LaxityDefined (select_mllf_task_Ta s).1
    ∧ ∀ c, (select_mllf_task_Ta s).2 = some c →
        c ∈ (select_mllf_task_Ta s).1.ready_queue
        ∨ (select_mllf_task_Ta s).1.running_job = some c := by
  by_cases he : s.ready_queue.length = 0 ∧ s.running_job = none
  · rw [select_early_return s he]
    refine ⟨hsi, ?_, fun c hc => by cases hc⟩
    intro i hi
    exfalso
    rcases hi with hi | hi
    · have := (hsi.1 i).mp hi
      rw [List.length_eq_zero.mp he.1] at this
      cases this
    · have := (hsi.2 i).mp hi
      rw [he.2] at this
      cases this
  · obtain ⟨h1, -⟩ := select_result_eq s he
    obtain ⟨f1, f2, -⟩ := calculate_all_laxities_frame s
    refine ⟨by rw [h1]; exact calculate_all_laxities_StatusInv s hsi,
      by rw [h1]; exact calculate_all_laxities_LaxityDefined s hsi, ?_⟩
    intro c hc
    rw [h1, f1, f2]
    rcases ((select_mem s).2 c hc).2 with ⟨h, _⟩ | ⟨h, _⟩
    · exact Or.inl h
    · exact Or.inr h

theorem contextSwitchCheck_StatusInv (s : SimulationState) (hsi : StatusInv s)
    (hlax : LaxityDefined s) :
    StatusInv (contextSwitchCheck s) ∧ LaxityDefined (contextSwitchCheck s) := by
  rw [contextSwitchCheck_eq]
  exact ⟨hsi, hlax⟩

theorem rescheduleStep_StatusInv (s : SimulationState) (req : Bool) (hwf : WF s)
    (hsi : StatusInv s) :
    ∃ s5, rescheduleStep s req = some s5 ∧ StatusInv s5 ∧ LaxityDefined s5 := by
  unfold rescheduleStep
  by_cases hcond : req = true ∨ s.running_job = none
  · rw [if_pos hcond, make_decision_eq]
    obtain ⟨w, -⟩ := select_wf s hwf
    obtain ⟨hsi1, hlax1, hc⟩ := select_StatusInv s hsi
    obtain ⟨s1, he, hsi2, hlax2⟩ := decisionBranches_StatusInv _ _ w hsi1 hlax1 hc
    rw [he]
    exact ⟨contextSwitchCheck s1, rfl, contextSwitchCheck_StatusInv s1 hsi2 hlax2⟩
  · rw [if_neg hcond]
    have hne : s.running_job ≠ none := fun h => hcond (Or.inr h)
    rcases Option.eq_none_or_eq_some s.running_job with hr | ⟨r, hr⟩
    · exact absurd hr hne
    · have hm : (match s.running_job with
          | some _ => some (calculate_all_laxities s)
          | none => some { s with idle_time := s.idle_time + 1 })
          = some (calculate_all_laxities s) := by rw [hr]
      exact ⟨calculate_all_laxities s, hm, calculate_all_laxities_StatusInv s hsi,
        calculate_all_laxities_LaxityDefined s hsi⟩

/-- Steps 1 to 4 of a tick keep status and placement in agreement, and at the
point where the tick is logged every Ready or Running job carries the laxity of
the current time. -/
theorem tickSchedule_StatusInv (s : SimulationState) (hwf : WF s) (hsi : StatusInv s) :
    ∃ s5, tickSchedule s = some s5 ∧ StatusInv s5 ∧ LaxityDefined s5 := by
  obtain ⟨jobs1, q, req1, ha, hwf1, -, hjobs, hq⟩ :=
    arrivalsLoop_spec (List.range s.jobs.length) s false hwf (fun i hi => List.mem_range.mp hi)
  have hsi1 := arrivals_StatusInv s hsi jobs1 q hjobs hq
  unfold tickSchedule
  rw [ha]
  simp only
  by_cases hdue : completionDue { s with jobs := jobs1, ready_queue := q } = true
  · obtain ⟨r, hr, hcond⟩ := (completionDue_iff _).mp hdue
    rw [if_pos hdue, handle_completion_due _ r hr hcond]
    have hsi2 := completion_StatusInv _ hwf1 hsi1 r hr
    have hwf2 : WF { s with jobs := updJob jobs1 r (fun j =>
                              { j with status := COMPLETED, finish_time := s.current_time }),
                            ready_queue := q, completed_jobs := s.completed_jobs + 1,
                            running_job := none, current_job_quantum_remaining := 0 } := by
      refine ⟨hwf1.1, ?_, ?_, ?_⟩
      · intro i hi
        simp only [updJob_length]
        exact hwf1.2.1 i hi
      · intro r' hr'; cases hr'
      · simp only [updJob_length]
        exact hwf1.2.2.2
    exact rescheduleStep_StatusInv _ _ hwf2 hsi2
  · rw [if_neg hdue]
    exact rescheduleStep_StatusInv _ _ hwf1 hsi1

theorem execute_running_job_StatusInv (s : SimulationState) (hsi : StatusInv s) :
    StatusInv (execute_running_job s) := by
  obtain ⟨e1, e2, -⟩ := execute_running_job_frame s
  have hst : ∀ i, (getJob (execute_running_job s).jobs i).status = (getJob s.jobs i).status := by
    intro i
    rw [getJob_execute_running_job]
    split_ifs <;> rfl
  unfold StatusInv
  simp only [hst, e1, e2]
  exact hsi

theorem check_deadline_misses_StatusInv (s : SimulationState) (hwf : WF s) (hsi : StatusInv s) :
    StatusInv (check_deadline_misses s) := by
  obtain ⟨h1, h2⟩ := hsi
  obtain ⟨jobs1, rj, q, dm, he, -, hrj, hjobs⟩ := check_deadline_misses_spec s hwf
  rw [he]
  have hst : ∀ x, (getJob jobs1 x).status
      = if (x ∈ s.ready_queue ∧ deadlinePassed s x) ∨ runningMissed s x then MISSED
        else (getJob s.jobs x).status := by
    intro x
    rw [hjobs x]
    split_ifs <;> rfl
  constructor
  · intro i
    show (getJob jobs1 i).status = READY
      ↔ i ∈ s.ready_queue.filter (fun x => decide (¬ deadlinePassed s x))
    rw [hst i, List.mem_filter]
    simp only [decide_eq_true_eq]
    by_cases hm : (i ∈ s.ready_queue ∧ deadlinePassed s i) ∨ runningMissed s i
    · rw [if_pos hm]
      constructor
      · intro h; cases h
      · rintro ⟨hmem, hnp⟩
        rcases hm with hm | hm
        · exact absurd hm.2 hnp
        · have hrd := (h1 i).mpr hmem
          rw [hm.2.1] at hrd
          cases hrd
    · rw [if_neg hm, h1 i]
      constructor
      · intro hmem
        exact ⟨hmem, fun hp => hm (Or.inl ⟨hmem, hp⟩)⟩
      · exact fun h => h.1
  · intro i
    show (getJob jobs1 i).status = RUNNING ↔ rj = some i
    rw [hst i]
    by_cases hm : (i ∈ s.ready_queue ∧ deadlinePassed s i) ∨ runningMissed s i
    · rw [if_pos hm]
      constructor
      · intro h; cases h
      · intro hrji
        exfalso
        rcases hrj with ⟨hrj1, hno⟩ | ⟨hrj1, _⟩
        · rcases hm with hm | hm
          · have hrd := (h1 i).mpr hm.1
            have hrn := (h2 i).mpr (by rw [← hrj1]; exact hrji)
            rw [hrd] at hrn
            cases hrn
          · exact hno ⟨i, hm⟩
        · rw [hrj1] at hrji; cases hrji
    · rw [if_neg hm, h2 i]
      rcases hrj with ⟨hrj1, _⟩ | ⟨hrj1, r, hr⟩
      · rw [hrj1]
      · rw [hrj1]
        constructor
        · intro h
          exfalso
          have : some i = some r := by rw [← h, ← hr.1]
          cases this
          exact hm (Or.inr hr)
        · intro h; cases h

theorem tickExecute_StatusInv (s : SimulationState) (hwf : WF s) (hsi : StatusInv s) :
    StatusInv (tickExecute s) := by
  have h := check_deadline_misses_StatusInv _ (execute_running_job_wf s hwf)
    (execute_running_job_StatusInv s hsi)
  unfold tickExecute
  exact h

/-! ## Generated jobs -/

theorem generateTaskJobs_inv (H : Int) (t : Task) :
    ∀ (fuel : Nat) (k : Int) (jobs res : List Job),
      generateTaskJobs H t fuel k jobs = some res →
      jobs.length ≤ MAX_JOBS → (∀ j ∈ jobs, j.status = NOT_ARRIVED ∧ 0 ≤ j.job_id) →
      res.length ≤ MAX_JOBS ∧ ∀ j ∈ res, j.status = NOT_ARRIVED ∧ 0 ≤ j.job_id := by
  intro fuel
  induction fuel with
  | zero => intro k jobs res h; simp [generateTaskJobs] at h
  | succ n ih =>
    intro k jobs res h hlen hall
    unfold generateTaskJobs at h
    split_ifs at h with h1 h2 h3 h4
    · refine ih _ _ _ h ?_ ?_
      · rw [List.length_append, List.length_singleton]
        omega
      · intro j hj
        rcases List.mem_append.mp hj with hj | hj
        · exact hall j hj
        · rw [List.mem_singleton] at hj
          subst hj
          exact ⟨rfl, (by simp [newJob])⟩
    · cases h
      exact ⟨hlen, hall⟩

theorem generateLoop_inv (H : Int) :
    ∀ (tasks : List Task) (jobs res : List Job),
      generateLoop H tasks jobs = some res →
      jobs.length ≤ MAX_JOBS → (∀ j ∈ jobs, j.status = NOT_ARRIVED ∧ 0 ≤ j.job_id) →
      res.length ≤ MAX_JOBS ∧ ∀ j ∈ res, j.status = NOT_ARRIVED ∧ 0 ≤ j.job_id := by
  intro tasks
  induction tasks with
  | nil =>
    intro jobs res h hlen hall
    simp only [generateLoop, Option.some.injEq] at h
    subst h
    exact ⟨hlen, hall⟩
  | cons t rest ih =>
    intro jobs res h hlen hall
    unfold generateLoop at h
    cases hg : generateTaskJobs H t (MAX_JOBS + 1) 0 jobs with
    | none => rw [hg] at h; cases h
    | some jobs1 =>
      rw [hg] at h
      obtain ⟨h1, h2⟩ := generateTaskJobs_inv H t _ _ _ _ hg hlen hall
      exact ih jobs1 res h h1 h2

/-- Every job that `generate_jobs` returns has status NOT_ARRIVED and a job_id
that is not negative, and there are at most `MAX_JOBS` of them. -/
theorem generate_jobs_inv (H : Int) (tasks : List Task) (jobs : List Job)
    (h : generate_jobs H tasks = some jobs) :
    jobs.length ≤ MAX_JOBS ∧ ∀ j ∈ jobs, j.status = NOT_ARRIVED ∧ 0 ≤ j.job_id :=
  generateLoop_inv H tasks [] jobs h (Nat.zero_le _) (fun j hj => by cases hj)

/-- Reading the actual execution times keeps the number of jobs, their status
and their job_id, and leaves every job with `remaining_aet ≥ 1`. -/
theorem read_actual_execution_times_inv :
    ∀ (aets : List Int) (jobs res : List Job),
      read_actual_execution_times aets jobs = some res →
      res.length = jobs.length
      ∧ (∀ j ∈ res, 1 ≤ j.remaining_aet ∧ j.aet = j.remaining_aet)
      ∧ ((∀ j ∈ jobs, j.status = NOT_ARRIVED ∧ 0 ≤ j.job_id) →
          ∀ j ∈ res, j.status = NOT_ARRIVED ∧ 0 ≤ j.job_id) := by
  intro aets jobs
  induction jobs generalizing aets with
  | nil =>
    intro res h
    cases aets <;>
      (simp only [read_actual_execution_times, Option.some.injEq] at h
       subst h
       exact ⟨rfl, fun j hj => (by cases hj), fun _ j hj => (by cases hj)⟩)
  | cons j0 js ih =>
    intro res h
    cases aets with
    | nil => simp [read_actual_execution_times] at h
    | cons a rest =>
      unfold read_actual_execution_times at h
      split_ifs at h with ha
      cases hr : read_actual_execution_times rest js with
      | none => rw [hr] at h; cases h
      | some js1 =>
        rw [hr] at h
        simp only [Option.some.injEq] at h
        subst h
        obtain ⟨h1, h2, h3⟩ := ih rest js1 hr
        refine ⟨(by simp [h1]), ?_, ?_⟩
        · intro j hj
          rcases List.mem_cons.mp hj with hj | hj
          · subst hj
            exact ⟨(by simp only; omega), rfl⟩
          · exact h2 j hj
        · intro hall j hj
          rcases List.mem_cons.mp hj with hj | hj
          · subst hj
            exact hall j0 (List.mem_cons_self _ _)
          · exact h3 (fun j' hj' => hall j' (List.mem_cons_of_mem _ hj')) j hj

/-! ## The laxity invariant of a run -/

theorem initialState_StatusInv (jobs : List Job) (hst : ∀ j ∈ jobs, j.status = NOT_ARRIVED) :
    StatusInv (initialState jobs) := by
  have hna : ∀ i, (getJob jobs i).status = NOT_ARRIVED := by
    intro i
    by_cases hi : i < jobs.length
    · have hget : getJob jobs i = jobs[i] := by
        unfold getJob
        simp [List.getD_eq_getElem?_getD, List.getElem?_eq_getElem hi]
      rw [hget]
      exact hst _ (List.getElem_mem _)
    · rw [getJob_of_ge (not_lt.mp hi)]; rfl
  constructor
  · intro i
    show (getJob jobs i).status = READY ↔ i ∈ []
    rw [hna i]; simp
  · intro i
    show (getJob jobs i).status = RUNNING ↔ none = some i
    rw [hna i]; simp

/-- The laxity invariant for any job array within the static capacity whose jobs
all start NOT_ARRIVED. -/
theorem laxity_invariant_of_not_arrived (H : Int) (jobs : List Job)
    (hn : jobs.length ≤ MAX_JOBS) (hst : ∀ j ∈ jobs, j.status = NOT_ARRIVED) :
    ∃ r, run_mllf_simulation H jobs = some r
      ∧ r.2.length = H.toNat
      ∧ ∀ (t : Nat) (x : SimulationState), r.2[t]? = some x →
          x.current_time = (t : Int)
          ∧ ∀ i, ((getJob x.jobs i).status = READY ∨ (getJob x.jobs i).status = RUNNING) →
              (getJob x.jobs i).calculated_laxity
                = (getJob x.jobs i).absolute_deadline - (t : Int)
                  - (getJob x.jobs i).remaining_wcet := by
  have hmain := simLoop_inv H
    (fun s tr => WF s ∧ StatusInv s ∧ (tr.length : Int) = s.current_time
      ∧ tr.length ≤ H.toNat
      ∧ ∀ (t : Nat) (x : SimulationState), tr[t]? = some x →
          x.current_time = (t : Int) ∧ LaxityDefined x)
    (by
      rintro s tr ⟨hwf, hsi, hlen, hle, htr⟩ hlt
      obtain ⟨s5, he, hwf5, ht5, -⟩ := tickSchedule_idle s hwf
      obtain ⟨s5', he', hsi5, hlax5⟩ := tickSchedule_StatusInv s hwf hsi
      rw [he] at he'
      cases he'
      obtain ⟨g0, g1, -⟩ := tickExecute_frame s5 hwf5
      refine ⟨s5, he, ⟨g0, tickExecute_StatusInv s5 hwf5 hsi5, ?_, ?_, ?_⟩, by rw [g1, ht5]⟩
      · rw [List.length_append, List.length_singleton, g1, ht5]
        push_cast
        omega
      · rw [List.length_append, List.length_singleton]
        omega
      · intro t x hx
        by_cases htl : t < tr.length
        · rw [List.getElem?_append_left htl] at hx
          exact htr t x hx
        · have hge : tr.length ≤ t := not_lt.mp htl
          rw [List.getElem?_append_right hge] at hx
          have ht0 : t - tr.length = 0 := by
            by_contra hne
            have hpos : 0 < t - tr.length := Nat.pos_of_ne_zero hne
            have hnone : [s5][t - tr.length]? = none :=
              List.getElem?_eq_none (by simp only [List.length_singleton]; omega)
            rw [hnone] at hx
            cases hx
          rw [ht0] at hx
          simp only [List.getElem?_cons_zero, Option.some.injEq] at hx
          subst hx
          refine ⟨?_, hlax5⟩
          rw [ht5, ← hlen]
          have : t = tr.length := by omega
          rw [this])
    H.toNat (initialState jobs) []
    ⟨initialState_wf jobs hn, initialState_StatusInv jobs hst, by simp [initialState],
      by simp, by intro t x hx; simp at hx⟩
    (by simp only [initialState]; omega)
  obtain ⟨r, hr, ⟨_, _, hlen, hle, htr⟩, hnot⟩ := hmain
  refine ⟨r, hr, by omega, ?_⟩
  intro t x hx
  obtain ⟨h1, h2⟩ := htr t x hx
  refine ⟨h1, ?_⟩
  intro i hi
  rw [← h1]
  exact h2 i hi

/-- C6: the laxity invariant of a run.  For jobs produced by `generate_jobs` and
given their actual execution times by `read_actual_execution_times` (which
accepts only AET ≥ 1), the run returns, it logs the ticks `0 .. H-1` in order,
and at the point where tick `t` is logged every job whose status is READY or
RUNNING has `calculated_laxity = absolute_deadline - t - remaining_wcet`. -/
theorem laxity_invariant_of_run (H : Int) (tasks : List Task) (aets : List Int)
    (jobs0 jobs : List Job) (hgen : generate_jobs H tasks = some jobs0)
    (haet : read_actual_execution_times aets jobs0 = some jobs) :
    ∃ r, run_mllf_simulation H jobs = some r
      ∧ r.2.length = H.toNat
      ∧ ∀ (t : Nat) (x : SimulationState), r.2[t]? = some x →
          x.current_time = (t : Int)
          ∧ ∀ i, ((getJob x.jobs i).status = READY ∨ (getJob x.jobs i).status = RUNNING) →
              (getJob x.jobs i).calculated_laxity
                = (getJob x.jobs i).absolute_deadline - (t : Int)
                  - (getJob x.jobs i).remaining_wcet := by
  obtain ⟨g1, g2⟩ := generate_jobs_inv H tasks jobs0 hgen
  obtain ⟨a1, -, a3⟩ := read_actual_execution_times_inv aets jobs0 jobs haet
  exact laxity_invariant_of_not_arrived H jobs (by rw [a1]; exact g1)
    (fun j hj => (a3 g2 j hj).1)

/-- Witness of C6: the scenario of section 8 (three generated jobs, AET 2 each,
hyperperiod 8). -/
theorem laxity_invariant_of_run_witness :
    generate_jobs 8 scenarioTasks = some scenarioGenerated
    ∧ read_actual_execution_times [2, 2, 2] scenarioGenerated = some scenarioJobs
    ∧ ∃ r, run_mllf_simulation 8 scenarioJobs = some r
      ∧ r.2.length = (8 : Int).toNat
      ∧ ∀ (t : Nat) (x : SimulationState), r.2[t]? = some x →
          x.current_time = (t : Int)
          ∧ ∀ i, ((getJob x.jobs i).status = READY ∨ (getJob x.jobs i).status = RUNNING) →
              (getJob x.jobs i).calculated_laxity
                = (getJob x.jobs i).absolute_deadline - (t : Int)
                  - (getJob x.jobs i).remaining_wcet :=
  ⟨by decide, by decide,
    laxity_invariant_of_run 8 scenarioTasks [2, 2, 2] scenarioGenerated scenarioJobs
      (by decide) (by decide)⟩


/-! ## The effect of `calculate_all_laxities` -/

/-- C18: for every state in which the laxity computation stays within `int`
(the states that a run hands to it, `laxity_in_range_of_run`),
`calculate_all_laxities` stores `absolute_deadline - current_time - remaining_wcet`,
which is there the value of the two `int` subtractions, in `calculated_laxity`
of every ready-queue job with status READY and of the running job when its
status is RUNNING, and changes nothing else: a job record differs from the old
one at most in `calculated_laxity`, a job that is neither in the ready queue
nor the running job keeps its whole record, and the ready queue, the running
slot, the time, the quantum and all counters are as before. -/
theorem calculate_all_laxities_effect (s : SimulationState) (hrange : LaxityInRange s) :
    (∀ i ∈ s.ready_queue, (getJob s.jobs i).status = READY →
        (getJob (calculate_all_laxities s).jobs i).calculated_laxity
          = (getJob s.jobs i).absolute_deadline - s.current_time
            - (getJob s.jobs i).remaining_wcet
        ∧ (getJob (calculate_all_laxities s).jobs i).calculated_laxity
          = castInt (castInt ((getJob s.jobs i).absolute_deadline - s.current_time)
              - (getJob s.jobs i).remaining_wcet))
    ∧ (∀ r, s.running_job = some r → (getJob s.jobs r).status = RUNNING →
        (getJob (calculate_all_laxities s).jobs r).calculated_laxity
          = (getJob s.jobs r).absolute_deadline - s.current_time
            - (getJob s.jobs r).remaining_wcet
        ∧ (getJob (calculate_all_laxities s).jobs r).calculated_laxity
          = castInt (castInt ((getJob s.jobs r).absolute_deadline - s.current_time)
              - (getJob s.jobs r).remaining_wcet))
    ∧ (∀ i, { getJob (calculate_all_laxities s).jobs i with
                calculated_laxity := (getJob s.jobs i).calculated_laxity } = getJob s.jobs i)
    ∧ (∀ i, i ∉ s.ready_queue → s.running_job ≠ some i →
        getJob (calculate_all_laxities s).jobs i = getJob s.jobs i)
    ∧ (calculate_all_laxities s).jobs.length = s.jobs.length
    ∧ calculate_all_laxities s = { s with jobs := (calculate_all_laxities s).jobs } := by
  refine ⟨?_, ?_, ?_, ?_, (calculate_all_laxities_frame s).2.2.2.2.2.2.2.2.2, ?_⟩
  · intro i hi hst
    have h1 : (getJob (calculate_all_laxities s).jobs i).calculated_laxity = laxityNow s i := by
      rw [getJob_calculate_all_laxities]
      simp [setLaxity, laxityAfter, hi, hst]
    exact ⟨h1, by rw [h1]; exact laxityNow_eq_int s hrange i (Or.inl ⟨hi, hst⟩)⟩
  · intro r hr hst
    have h1 : (getJob (calculate_all_laxities s).jobs r).calculated_laxity = laxityNow s r := by
      rw [getJob_calculate_all_laxities]
      simp [setLaxity, laxityAfter, hr, hst]
    exact ⟨h1, by rw [h1]; exact laxityNow_eq_int s hrange r (Or.inr ⟨hr, hst⟩)⟩
  · intro i
    rw [getJob_calculate_all_laxities]
    rfl
  · intro i hi hr
    rw [getJob_calculate_all_laxities]
    simp [setLaxity, laxityAfter, hi, hr]
  · obtain ⟨h1, h2, h3, h4, h5, h6, h7, h8, h9, _⟩ := calculate_all_laxities_frame s
    generalize calculate_all_laxities s = c at *
    obtain ⟨jobs, rq, rj, t, last, q, cs, dm, cj, idle⟩ := s
    obtain ⟨jobs', rq', rj', t', last', q', cs', dm', cj', idle'⟩ := c
    simp only at h1 h2 h3 h4 h5 h6 h7 h8 h9
    subst h1 h2 h3 h4 h5 h6 h7 h8 h9
    rfl

/-- Witness of C18 on `tieState`: two queued Ready jobs with deadline 8 and
`remaining_wcet` 2 at time 0; both laxities become 6. -/
theorem calculate_all_laxities_effect_witness :
    LaxityInRange tieState
    ∧ (getJob (calculate_all_laxities tieState).jobs 0).calculated_laxity
        = (getJob tieState.jobs 0).absolute_deadline - tieState.current_time
          - (getJob tieState.jobs 0).remaining_wcet
    ∧ (getJob (calculate_all_laxities tieState).jobs 0).calculated_laxity = 6
    ∧ (getJob (calculate_all_laxities tieState).jobs 1).calculated_laxity = 6 := by
  have hr : LaxityInRange tieState := by
    intro i hi
    have hel : i = 1 ∨ i = 0 := by
      rcases hi with ⟨hi, -⟩ | ⟨hi, -⟩
      · simpa [tieState] using hi
      · simp [tieState] at hi
    rcases hel with h | h <;> subst h <;> decide
  have h := calculate_all_laxities_effect tieState hr
  exact ⟨hr, (h.1 0 (by decide) (by decide)).1, by decide, by decide⟩

/-! ## Job generation -/

theorem instanceCount_lt (H : Int) (t : Task) (hP : 0 < t.period) (k : Nat) :
    k < instanceCount H t ↔ t.arrival_time + (k : Int) * t.period < H := by
  unfold instanceCount
  rw [Int.lt_toNat, Int.lt_iff_add_one_le, Int.le_ediv_iff_mul_le hP]
  have : ((k : Int) + 1) * t.period = (k : Int) * t.period + t.period := by ring
  rw [this]
  constructor <;> intro h <;> omega

theorem newJob_eq_specJob (t : Task) (n k : Nat) (ha : 0 ≤ t.arrival_time) (hP : 0 < t.period)
    (hD : -2147483648 ≤ t.deadline)
    (h1 : t.arrival_time + (k : Int) * t.period ≤ INT_MAX)
    (h2 : t.arrival_time + (k : Int) * t.period + t.deadline ≤ INT_MAX) :
    newJob (n : Int) t (k : Int) (t.arrival_time + (k : Int) * t.period) = specJob n t k := by
  have hk : 0 ≤ (k : Int) * t.period := by positivity
  unfold newJob specJob
  rw [castInt_of_range _ (by omega) h1, castInt_of_range _ (by omega) h2]

theorem generateTaskJobs_exact (H : Int) (t : Task) (hP : 0 < t.period) (ha : 0 ≤ t.arrival_time)
    (hD : -2147483648 ≤ t.deadline)
    (harr : ∀ k : Nat, t.arrival_time + (k : Int) * t.period < H →
      t.arrival_time + (k : Int) * t.period ≤ INT_MAX)
    (hdl : ∀ k : Nat, t.arrival_time + (k : Int) * t.period < H →
      t.arrival_time + (k : Int) * t.period + t.deadline ≤ INT_MAX) :
    ∀ (fuel k : Nat) (jobs : List Job), k ≤ instanceCount H t → instanceCount H t - k < fuel →
      jobs.length + (instanceCount H t - k) ≤ MAX_JOBS →
      generateTaskJobs H t fuel (k : Int) jobs
        = some (jobs ++ (List.range (instanceCount H t - k)).map
            (fun d => specJob (jobs.length + d) t (k + d))) := by
  intro fuel
  induction fuel with
  | zero => intro k jobs _ h; omega
  | succ fuel ih =>
    intro k jobs hk hfuel hcap
    by_cases hlt : k < instanceCount H t
    · have hcond := (instanceCount_lt H t hP k).1 hlt
      have hnew := newJob_eq_specJob t jobs.length k ha hP hD (harr k hcond) (hdl k hcond)
      have hih := ih (k + 1) (jobs ++ [specJob jobs.length t k]) (by omega) (by omega)
        (by simp only [List.length_append, List.length_singleton]; omega)
      have hsplit : instanceCount H t - k = (instanceCount H t - (k + 1)) + 1 := by omega
      unfold generateTaskJobs
      rw [if_pos hcond, if_neg (by omega), if_neg (by have := hdl k hcond; omega),
        if_neg (by omega), hnew]
      have hc : ((k : Int) + 1) = ((k + 1 : Nat) : Int) := by push_cast; rfl
      rw [hc, hih, hsplit, List.range_succ_eq_map, List.map_cons, List.map_map]
      simp only [List.length_append, List.length_singleton, List.append_assoc,
        List.singleton_append, Nat.add_zero]
      congr 3
      apply List.map_congr_left
      intro d _
      simp only [Function.comp, Nat.succ_eq_add_one]
      congr 1 <;> omega
    · have hk0 : instanceCount H t - k = 0 := by omega
      have hcond : ¬ t.arrival_time + (k : Int) * t.period < H := fun h =>
        hlt ((instanceCount_lt H t hP k).2 h)
      unfold generateTaskJobs
      rw [if_neg hcond, hk0]
      simp

theorem generateLoop_exact (H : Int) :
    ∀ (tasks : List Task) (jobs : List Job),
      (∀ t ∈ tasks, 0 < t.period ∧ 0 ≤ t.arrival_time) →
      (∀ t ∈ tasks, -2147483648 ≤ t.deadline) →
      (∀ t ∈ tasks, ∀ k : Nat, t.arrival_time + (k : Int) * t.period < H →
        t.arrival_time + (k : Int) * t.period ≤ INT_MAX) →
      (∀ t ∈ tasks, ∀ k : Nat, t.arrival_time + (k : Int) * t.period < H →
        t.arrival_time + (k : Int) * t.period + t.deadline ≤ INT_MAX) →
      jobs.length + totalInstances H tasks ≤ MAX_JOBS →
      generateLoop H tasks jobs = some (jobs ++ expectedJobs H tasks jobs.length) := by
  intro tasks
  induction tasks with
  | nil => intro jobs _ _ _ _ _; simp [generateLoop, expectedJobs]
  | cons t rest ih =>
    intro jobs hpos hD harr hdl hcap
    have hsum : totalInstances H (t :: rest) = instanceCount H t + totalInstances H rest := by
      simp [totalInstances]
    rw [hsum] at hcap
    have h1 := generateTaskJobs_exact H t (hpos t (List.mem_cons_self _ _)).1
      (hpos t (List.mem_cons_self _ _)).2 (hD t (List.mem_cons_self _ _))
      (harr t (List.mem_cons_self _ _))
      (hdl t (List.mem_cons_self _ _)) (MAX_JOBS + 1) 0 jobs (Nat.zero_le _) (by omega) (by omega)
    simp only [Nat.cast_zero, Nat.sub_zero, Nat.zero_add] at h1
    have h2 := ih (jobs ++ (List.range (instanceCount H t)).map
        (fun d => specJob (jobs.length + d) t d))
      (fun x hx => hpos x (List.mem_cons_of_mem _ hx))
      (fun x hx => hD x (List.mem_cons_of_mem _ hx))
      (fun x hx => harr x (List.mem_cons_of_mem _ hx))
      (fun x hx => hdl x (List.mem_cons_of_mem _ hx))
      (by simp only [List.length_append, List.length_map, List.length_range]; omega)
    unfold generateLoop
    rw [h1]
    simp only
    rw [h2]
    simp only [List.length_append, List.length_map, List.length_range, List.append_assoc,
      expectedJobs]

theorem expectedJobs_length (H : Int) :
    ∀ (tasks : List Task) (n : Nat), (expectedJobs H tasks n).length = totalInstances H tasks := by
  intro tasks
  induction tasks with
  | nil => intro n; simp [expectedJobs, totalInstances]
  | cons t rest ih =>
    intro n
    simp only [expectedJobs, List.length_append, List.length_map, List.length_range, ih]
    simp [totalInstances]

theorem expectedJobs_job_id (H : Int) :
    ∀ (tasks : List Task) (n i : Nat), i < totalInstances H tasks →
      (getJob (expectedJobs H tasks n) i).job_id = ((n + i : Nat) : Int) := by
  intro tasks
  induction tasks with
  | nil => intro n i hi; simp [totalInstances] at hi
  | cons t rest ih =>
    intro n i hi
    have hsum : totalInstances H (t :: rest) = instanceCount H t + totalInstances H rest := by
      simp [totalInstances]
    rw [hsum] at hi
    unfold getJob
    simp only [expectedJobs]
    by_cases hlt : i < instanceCount H t
    · rw [List.getD_append _ _ _ _ (by simpa using hlt)]
      rw [List.getD_eq_getElem _ _ (by simpa using hlt)]
      simp [specJob]
    · rw [List.getD_append_right _ _ _ _ (by simpa using hlt)]
      have := ih (n + instanceCount H t) (i - instanceCount H t) (by omega)
      unfold getJob at this
      simp only [List.length_map, List.length_range]
      rw [this]
      congr 1
      omega

/-- A successful inner loop of `generate_jobs` has met no instance whose
absolute deadline exceeds `INT_MAX`. -/
theorem generateTaskJobs_fits (H : Int) (t : Task) (hP : 0 < t.period) :
    ∀ (fuel : Nat) (k : Int) (jobs res : List Job),
      generateTaskJobs H t fuel k jobs = some res →
      ∀ m : Nat, t.arrival_time + (k + (m : Int)) * t.period < H →
        t.arrival_time + (k + (m : Int)) * t.period + t.deadline ≤ INT_MAX := by
  intro fuel
  induction fuel with
  | zero => intro k jobs res h; simp [generateTaskJobs] at h
  | succ n ih =>
    intro k jobs res h m hm
    have hmp : 0 ≤ (m : Int) * t.period := by positivity
    have e : (k + (m : Int)) * t.period = k * t.period + (m : Int) * t.period := by ring
    unfold generateTaskJobs at h
    split_ifs at h with h1 h2 h3 h4
    · cases m with
      | zero =>
        simp only [Nat.cast_zero, add_zero] at hm ⊢
        omega
      | succ m =>
        have := ih (k + 1) _ res h m (by
          have e2 : (k + 1 + (m : Int)) * t.period = (k + ((m + 1 : Nat) : Int)) * t.period := by
            push_cast; ring
          rw [e2]; exact hm)
        have e2 : (k + 1 + (m : Int)) * t.period = (k + ((m + 1 : Nat) : Int)) * t.period := by
          push_cast; ring
        rw [e2] at this
        exact this
    · rw [e] at hm
      omega

theorem generateLoop_fits (H : Int) :
    ∀ (tasks : List Task) (jobs res : List Job), (∀ t ∈ tasks, 0 < t.period) →
      generateLoop H tasks jobs = some res →
      ∀ t ∈ tasks, ∀ k : Nat, t.arrival_time + (k : Int) * t.period < H →
        t.arrival_time + (k : Int) * t.period + t.deadline ≤ INT_MAX := by
  intro tasks
  induction tasks with
  | nil => intro jobs res _ _ t ht; cases ht
  | cons u rest ih =>
    intro jobs res hpos h t ht k hk
    unfold generateLoop at h
    cases hg : generateTaskJobs H u (MAX_JOBS + 1) 0 jobs with
    | none => rw [hg] at h; cases h
    | some jobs1 =>
      rw [hg] at h
      rcases List.mem_cons.mp ht with rfl | ht
      · have := generateTaskJobs_fits H t (hpos t (List.mem_cons_self _ _)) _ _ _ _ hg k
          (by simpa using hk)
        simpa using this
      · exact ih jobs1 res (fun x hx => hpos x (List.mem_cons_of_mem _ hx)) h t ht k hk

/-- C20 (counterexample).  First, one task with a positive period, a
non-negative arrival and one instance before `H = 4`, so the instance count is
within `MAX_JOBS`: its absolute deadline `1 + INT_MAX` does not fit an `int`,
`generate_jobs` reports failure and no job array is produced.  Second, one
task of arrival time 1, period `INT_MAX` and relative deadline -1 with
`H = 2^31 + 1`: there are two instances, the second one arrives at 2^31, which
does not fit an `int`, and the generated job carries the converted value
`-2^31` as its `arrival_time`. -/
theorem generate_jobs_fails_on_late_deadline :
    ((∀ t ∈ [lateDeadlineTask], 0 < t.period ∧ 0 ≤ t.arrival_time)
      ∧ totalInstances 4 [lateDeadlineTask] = 1
      ∧ totalInstances 4 [lateDeadlineTask] ≤ MAX_JOBS
      ∧ generate_jobs 4 [lateDeadlineTask] = none)
    ∧ ((∀ t ∈ [lateArrivalTask], 0 < t.period ∧ 0 ≤ t.arrival_time)
      ∧ totalInstances 2147483649 [lateArrivalTask] = 2
      ∧ totalInstances 2147483649 [lateArrivalTask] ≤ MAX_JOBS
      ∧ lateArrivalTask.arrival_time + 1 * lateArrivalTask.period = 2147483648
      ∧ ∃ jobs, generate_jobs 2147483649 [lateArrivalTask] = some jobs
        ∧ (getJob jobs 1).instance_number = 1
        ∧ (getJob jobs 1).arrival_time = -2147483648
        ∧ (getJob jobs 1).arrival_time
            ≠ lateArrivalTask.arrival_time + 1 * lateArrivalTask.period) := by
  decide

/-- C20 (amended): for every task list with positive periods and non-negative
arrivals (the relative deadlines being values of `int`) and every `H`:
when the total instance count is at most `MAX_JOBS` and every instance
`k` with `arrival + k * period < H` has its arrival time `arrival + k * period`
and its absolute deadline `arrival + k * period + deadline` at most `INT_MAX`,
`generate_jobs` succeeds and the generated array is, task by task in task
order, exactly these instances; the job at array index `n` has `job_id = n`,
and its `instance_number`, `arrival_time`, `wcet`, `remaining_wcet`,
`absolute_deadline` and status NOT_ARRIVED are those of `specJob`.  When some
instance has an absolute deadline above `INT_MAX`, `generate_jobs` reports
failure.  For the scenario tasks and `H = 8` the array holds instances 0 and 1
of T0 and instance 0 of T1. -/
theorem generate_jobs_exact (H : Int) (tasks : List Task)
    (hpos : ∀ t ∈ tasks, 0 < t.period ∧ 0 ≤ t.arrival_time)
    (hD : ∀ t ∈ tasks, -2147483648 ≤ t.deadline) :
    (totalInstances H tasks ≤ MAX_JOBS →
      (∀ t ∈ tasks, ∀ k : Nat, t.arrival_time + (k : Int) * t.period < H →
        t.arrival_time + (k : Int) * t.period ≤ INT_MAX
        ∧ t.arrival_time + (k : Int) * t.period + t.deadline ≤ INT_MAX) →
      generate_jobs H tasks = some (expectedJobs H tasks 0))
    ∧ ((∃ t ∈ tasks, ∃ k : Nat, t.arrival_time + (k : Int) * t.period < H
          ∧ t.arrival_time + (k : Int) * t.period + t.deadline > INT_MAX) →
      generate_jobs H tasks = none)
    ∧ (∀ t ∈ tasks, ∀ k : Nat,
        k < instanceCount H t ↔ t.arrival_time + (k : Int) * t.period < H)
    ∧ (expectedJobs H tasks 0).length = totalInstances H tasks
    ∧ (∀ n, n < totalInstances H tasks → (getJob (expectedJobs H tasks 0) n).job_id = (n : Int))
    ∧ (generate_jobs 8 scenarioTasks).map (List.map fun j => (j.task_id, j.instance_number))
        = some [(0, 0), (0, 1), (1, 0)] := by
  refine ⟨?_, ?_, fun t ht k => instanceCount_lt H t (hpos t ht).1 k,
    expectedJobs_length H tasks 0, ?_, by decide⟩
  · intro hcount hfit
    have h := generateLoop_exact H tasks [] hpos hD (fun t ht k hk => (hfit t ht k hk).1)
      (fun t ht k hk => (hfit t ht k hk).2) (by simpa using hcount)
    simpa [generate_jobs] using h
  · rintro ⟨t, ht, k, hk, hlate⟩
    cases hg : generate_jobs H tasks with
    | none => rfl
    | some res =>
      have := generateLoop_fits H tasks [] res (fun t ht => (hpos t ht).1) hg t ht k hk
      omega
  · intro n hn
    have h := expectedJobs_job_id H tasks 0 n hn
    simpa using h

/-- Witness of C20: the scenario tasks T0 and T1 with hyperperiod 8; three jobs
are generated. -/
theorem generate_jobs_exact_witness :
    (∀ t ∈ scenarioTasks, 0 < t.period ∧ 0 ≤ t.arrival_time)
    ∧ (∀ t ∈ scenarioTasks, -2147483648 ≤ t.deadline)
    ∧ totalInstances 8 scenarioTasks ≤ MAX_JOBS
    ∧ generate_jobs 8 scenarioTasks = some (expectedJobs 8 scenarioTasks 0)
    ∧ (expectedJobs 8 scenarioTasks 0).length = 3 :=
  ⟨by decide, by decide, by decide,
    (generate_jobs_exact 8 scenarioTasks (by decide) (by decide)).1 (by decide)
      (by
        intro t ht k hk
        simp only [scenarioTasks, List.mem_cons, List.mem_singleton, List.not_mem_nil,
          or_false] at ht
        rcases ht with rfl | rfl <;> simp only [INT_MAX] at hk ⊢ <;> omega),
    by decide⟩

/-! ## Counting jobs by status -/

theorem getJob_cons_zero (a : Job) (l : List Job) : getJob (a :: l) 0 = a := rfl

theorem getJob_cons_succ (a : Job) (l : List Job) (i : Nat) :
    getJob (a :: l) (i + 1) = getJob l i := rfl

theorem getJob_mem {jobs : List Job} {i : Nat} (h : i < jobs.length) : getJob jobs i ∈ jobs := by
  unfold getJob
  rw [List.getD_eq_getElem _ _ h]
  exact List.getElem_mem h

theorem countStatus_idx (st : Status) (jobs : List Job) :
    countStatus st jobs
      = ((List.range jobs.length).filter
          (fun i => decide ((getJob jobs i).status = st))).length := by
  induction jobs with
  | nil => rfl
  | cons a l ih =>
    unfold countStatus at ih ⊢
    rw [List.countP_cons, ih, List.length_cons, List.range_succ_eq_map, List.filter_cons,
      List.filter_map]
    have hf : ((fun i => decide ((getJob (a :: l) i).status = st)) ∘ Nat.succ)
        = fun i => decide ((getJob l i).status = st) := by
      funext i; rfl
    rw [hf, getJob_cons_zero]
    by_cases h : a.status = st <;> simp [h]

theorem filter_or_length (l : List Nat) (p q : Nat → Bool)
    (h : ∀ x ∈ l, ¬ (p x = true ∧ q x = true)) :
    (l.filter (fun x => p x || q x)).length = (l.filter p).length + (l.filter q).length := by
  induction l with
  | nil => rfl
  | cons a l ih =>
    have ih1 := ih (fun x hx => h x (List.mem_cons_of_mem _ hx))
    have ha := h a (List.mem_cons_self _ _)
    simp only [List.filter_cons]
    cases hp : p a <;> cases hq : q a <;> simp_all <;> omega

theorem filter_mem_length (n : Nat) (L : List Nat) (hnd : L.Nodup) (hlt : ∀ x ∈ L, x < n) :
    ((List.range n).filter (fun i => decide (i ∈ L))).length = L.length := by
  apply List.Perm.length_eq
  apply (List.perm_ext_iff_of_nodup ((List.nodup_range n).filter _) hnd).2
  intro a
  simp only [List.mem_filter, List.mem_range, decide_eq_true_eq]
  exact ⟨fun h => h.2, fun h => ⟨hlt a h, h⟩⟩

/-- Marking the jobs of a duplicate-free index list `L`, none of which had
status `st`, with status `st` raises the number of jobs with that status by
the length of `L`. -/
theorem countStatus_mark (st : Status) (jobs jobs1 : List Job) (L : List Nat)
    (hlen : jobs1.length = jobs.length) (hnd : L.Nodup)
    (hL : ∀ x ∈ L, x < jobs.length ∧ (getJob jobs x).status ≠ st)
    (h : ∀ i, i < jobs.length →
      ((getJob jobs1 i).status = st ↔ ((getJob jobs i).status = st ∨ i ∈ L))) :
    countStatus st jobs1 = countStatus st jobs + L.length := by
  rw [countStatus_idx, countStatus_idx, hlen]
  have hf : (List.range jobs.length).filter (fun i => decide ((getJob jobs1 i).status = st))
      = (List.range jobs.length).filter
          (fun i => decide ((getJob jobs i).status = st) || decide (i ∈ L)) := by
    apply List.filter_congr
    intro x hx
    have := h x (List.mem_range.mp hx)
    by_cases h1 : (getJob jobs x).status = st <;> by_cases h2 : x ∈ L <;> simp_all
  rw [hf, filter_or_length _ _ _ ?_, filter_mem_length _ L hnd (fun x hx => (hL x hx).1)]
  intro x _ hx
  simp only [decide_eq_true_eq] at hx
  exact (hL x hx.2).2 hx.1

theorem countStatus_same (st : Status) (jobs jobs1 : List Job)
    (hlen : jobs1.length = jobs.length)
    (h : ∀ i, (getJob jobs1 i).status = st ↔ (getJob jobs i).status = st) :
    countStatus st jobs1 = countStatus st jobs := by
  have := countStatus_mark st jobs jobs1 [] hlen List.nodup_nil (by simp)
    (fun i _ => by simp [h i])
  simpa using this

/-- Every job has one of the five statuses. -/
theorem countStatus_total (jobs : List Job) :
    countStatus NOT_ARRIVED jobs + countStatus READY jobs + countStatus RUNNING jobs
      + countStatus COMPLETED jobs + countStatus MISSED jobs = jobs.length := by
  unfold countStatus
  induction jobs with
  | nil => rfl
  | cons a l ih =>
    simp only [List.countP_cons, List.length_cons]
    cases h : a.status <;> simp <;> omega

/-! ## What a sub-step may do to a job record -/

theorem JobStep_sentinel {lbl : SubStep} {x y : SimulationState}
    (h : ∀ i, JobStep lbl x y i) (hs : Sentinel x) : Sentinel y := by
  intro i hi
  rcases h i with h | ⟨-, -, -, h⟩ | ⟨-, -, -, -, h⟩ | ⟨-, hst, h⟩ | ⟨-, -, -, h⟩
    | ⟨-, -, -, -, -, h⟩ | ⟨-, hst, -, h⟩ | ⟨-, -, -, -, h⟩
  · rw [h] at hi ⊢; exact hs i hi
  · rw [h] at hi; cases hi
  · rw [h] at hi; cases hi
  · rw [h] at hi
    have hi' : (getJob x.jobs i).status = NOT_ARRIVED := hi
    rcases hst with h1 | h1 <;> rw [h1] at hi' <;> cases hi'
  · rw [h] at hi; cases hi
  · rw [h] at hi; cases hi
  · rw [h] at hi
    have hi' : (getJob x.jobs i).status = NOT_ARRIVED := hi
    rw [hst] at hi'; cases hi'
  · rw [h] at hi; cases hi

theorem JobStep_aet {lbl : SubStep} {x y : SimulationState}
    (h : ∀ i, JobStep lbl x y i) (hlen : y.jobs.length = x.jobs.length) (ha : AetInv x) :
    AetInv y := by
  intro i hi
  rw [hlen] at hi
  obtain ⟨a1, a2⟩ := ha i hi
  rcases h i with h | ⟨-, hst, -, h⟩ | ⟨-, -, -, h0, h⟩ | ⟨-, hst, h⟩ | ⟨-, -, -, h⟩
    | ⟨-, -, -, -, hp, h⟩ | ⟨-, hst, -, h⟩ | ⟨-, -, -, -, h⟩
  · rw [h]; exact ⟨a1, a2⟩
  · rw [h]; exact ⟨a1, fun _ => a2 (Or.inl hst)⟩
  · rw [h]
    refine ⟨a1, fun hc => ?_⟩
    rcases hc with hc | hc <;> cases hc
  · rw [h]; exact ⟨a1, a2⟩
  · rw [h]
    refine ⟨a1, fun hc => ?_⟩
    rcases hc with hc | hc <;> cases hc
  · rw [h]; exact ⟨a1, fun _ => hp⟩
  · rw [h]
    constructor
    · show 0 ≤ (if (getJob x.jobs i).remaining_aet > 0 then (getJob x.jobs i).remaining_aet - 1
        else (getJob x.jobs i).remaining_aet)
      split_ifs <;> omega
    · intro hc
      have hc' : (getJob x.jobs i).status = NOT_ARRIVED ∨ (getJob x.jobs i).status = READY := hc
      rw [hst] at hc'
      rcases hc' with hc' | hc' <;> cases hc'
  · rw [h]
    refine ⟨a1, fun hc => ?_⟩
    rcases hc with hc | hc <;> cases hc

theorem JobStep_completed_iff {lbl : SubStep} {x y : SimulationState} {i : Nat}
    (hl : lbl ≠ completion) (h : JobStep lbl x y i) :
    (getJob y.jobs i).status = COMPLETED ↔ (getJob x.jobs i).status = COMPLETED := by
  rcases h with h | ⟨-, hst, -, h⟩ | ⟨hc, -⟩ | ⟨-, hst, h⟩ | ⟨-, hst, -, h⟩
    | ⟨-, hst, -, -, -, h⟩ | ⟨-, hst, -, h⟩ | ⟨-, hst, -, -, h⟩
  · rw [h]
  · rw [h, hst]; constructor <;> intro hc <;> cases hc
  · exact absurd hc hl
  · rw [h]; exact Iff.rfl
  · rw [h, hst]; constructor <;> intro hc <;> cases hc
  · rw [h, hst]; constructor <;> intro hc <;> cases hc
  · rw [h]; exact Iff.rfl
  · rw [h]
    constructor
    · intro hc; cases hc
    · intro hc; rcases hst with h1 | h1 <;> rw [h1] at hc <;> cases hc

theorem JobStep_missed_iff {lbl : SubStep} {x y : SimulationState} {i : Nat}
    (hl : lbl ≠ deadlineCheck) (h : JobStep lbl x y i) :
    (getJob y.jobs i).status = MISSED ↔ (getJob x.jobs i).status = MISSED := by
  rcases h with h | ⟨-, hst, -, h⟩ | ⟨-, hst, -, -, h⟩ | ⟨-, hst, h⟩ | ⟨-, hst, -, h⟩
    | ⟨-, hst, -, -, -, h⟩ | ⟨-, hst, -, h⟩ | ⟨hc, -⟩
  · rw [h]
  · rw [h, hst]; constructor <;> intro hc <;> cases hc
  · rw [h, hst]; constructor <;> intro hc <;> cases hc
  · rw [h]; exact Iff.rfl
  · rw [h, hst]; constructor <;> intro hc <;> cases hc
  · rw [h, hst]; constructor <;> intro hc <;> cases hc
  · rw [h]; exact Iff.rfl
  · exact absurd hc hl

/-- Remaining work changes only through execution, only for the occupant, and
never grows. -/
theorem JobStep_work {lbl : SubStep} {x y : SimulationState} {i : Nat}
    (h : JobStep lbl x y i) : workStep lbl x y i := by
  unfold workStep
  rcases h with h | ⟨-, -, -, h⟩ | ⟨-, -, -, -, h⟩ | ⟨-, -, h⟩ | ⟨-, -, -, h⟩
    | ⟨-, -, -, -, -, h⟩ | ⟨hl, -, hr, h⟩ | ⟨-, -, -, -, h⟩
  case inr.inr.inr.inr.inr.inr.inl =>
    rw [h]
    refine ⟨?_, ?_, fun _ => ⟨hl, hr⟩⟩
    · show (if (getJob x.jobs i).remaining_wcet > 0 then (getJob x.jobs i).remaining_wcet - 1
        else (getJob x.jobs i).remaining_wcet) ≤ _
      split_ifs <;> omega
    · show (if (getJob x.jobs i).remaining_aet > 0 then (getJob x.jobs i).remaining_aet - 1
        else (getJob x.jobs i).remaining_aet) ≤ _
      split_ifs <;> omega
  all_goals
    rw [h]
    exact ⟨le_refl _, le_refl _, fun hc => by rcases hc with hc | hc <;> exact absurd rfl hc⟩

/-- A job in a terminal state keeps its whole record. -/
theorem JobStep_frozen {lbl : SubStep} {x y : SimulationState} {i : Nat}
    (h : JobStep lbl x y i) (ht : terminal (getJob x.jobs i)) :
    getJob y.jobs i = getJob x.jobs i := by
  unfold terminal at ht
  rcases h with h | ⟨-, hst, -, -⟩ | ⟨-, hst, -, -, -⟩ | ⟨-, hst, -⟩ | ⟨-, hst, -, -⟩
    | ⟨-, hst, -, -, -, -⟩ | ⟨-, hst, -, -⟩ | ⟨-, hst, -, -, -⟩
  · exact h
  all_goals
    exfalso
    first
      | (rw [hst] at ht; rcases ht with ht | ht <;> cases ht)
      | (rcases hst with hst | hst <;> rw [hst] at ht <;> rcases ht with ht | ht <;> cases ht)

/-- Every status change is one of the legal transitions. -/
theorem JobStep_legal {lbl : SubStep} {x y : SimulationState} {i : Nat}
    (h : JobStep lbl x y i) : legalChange lbl x y i := by
  unfold legalChange
  rcases h with h | ⟨hl, hst, -, h⟩ | ⟨hl, hst, -, h0, h⟩ | ⟨-, -, h⟩ | ⟨hl, hst, hr, h⟩
    | ⟨hl, hst, hr, hta, -, h⟩ | ⟨-, -, -, h⟩ | ⟨hl, hst, hd, hp, h⟩
  · left; rw [h]
  · right; left; exact ⟨hl, hst, by rw [h]⟩
  · right; right; right; right; left; exact ⟨hl, hst, by rw [h], h0⟩
  · left; rw [h]; rfl
  · right; right; left; exact ⟨hl, hst, by rw [h]; rfl, hr⟩
  · right; right; right; left; exact ⟨hl, hst, by rw [h], hr, hta⟩
  · left; rw [h]; rfl
  · right; right; right; right; right; exact ⟨hl, hst, by rw [h], hd, hp⟩

/-! ## The run invariant through the sub-steps -/

theorem CountInv_same {lbl : SubStep} {x y : SimulationState} (h : ∀ i, JobStep lbl x y i)
    (h1 : lbl ≠ completion) (h2 : lbl ≠ deadlineCheck) (hlen : y.jobs.length = x.jobs.length)
    (hc : y.completed_jobs = x.completed_jobs) (hm : y.deadline_misses = x.deadline_misses)
    (hx : CountInv x) : CountInv y := by
  unfold CountInv
  rw [hc, hm, countStatus_same COMPLETED x.jobs y.jobs hlen (fun i => JobStep_completed_iff h1 (h i)),
    countStatus_same MISSED x.jobs y.jobs hlen (fun i => JobStep_missed_iff h2 (h i))]
  exact hx

/-- A sub-step that is neither the completion step nor the deadline check keeps
the run invariant when it keeps the pointers well formed, keeps status and
placement in agreement, and leaves the two counters alone. -/
theorem RunInv_step {lbl : SubStep} {x y : SimulationState} (hx : RunInv x) (hwf : WF y)
    (hsi : StatusInv y) (h : ∀ i, JobStep lbl x y i)
    (h1 : lbl ≠ completion) (h2 : lbl ≠ deadlineCheck) (hlen : y.jobs.length = x.jobs.length)
    (hc : y.completed_jobs = x.completed_jobs) (hm : y.deadline_misses = x.deadline_misses) :
    RunInv y :=
  ⟨hwf, hsi, JobStep_sentinel h hx.2.2.1, JobStep_aet h hlen hx.2.2.2.1,
    CountInv_same h h1 h2 hlen hc hm hx.2.2.2.2⟩

theorem initialState_RunInv (jobs : List Job) (hinit : InitialJobs jobs) :
    RunInv (initialState jobs) := by
  obtain ⟨hn, hj⟩ := hinit
  refine ⟨initialState_wf jobs hn, initialState_StatusInv jobs (fun j hjm => (hj j hjm).1),
    ?_, ?_, ?_, ?_⟩
  · intro i _
    show (getJob jobs i).calculated_laxity = INT_MAX
    by_cases hi : i < jobs.length
    · exact (hj _ (getJob_mem hi)).2.1
    · rw [getJob_of_ge (not_lt.mp hi)]; rfl
  · intro i hi
    have := (hj _ (@getJob_mem jobs i hi)).2.2
    exact ⟨by show 0 ≤ (getJob jobs i).remaining_aet; omega, fun _ => this⟩
  · show (0 : Int) = (countStatus COMPLETED jobs : Int)
    have : countStatus COMPLETED jobs = 0 := by
      unfold countStatus
      rw [List.countP_eq_zero]
      intro j hjm
      rw [(hj j hjm).1]
      decide
    rw [this]; rfl
  · show (0 : Int) = (countStatus MISSED jobs : Int)
    have : countStatus MISSED jobs = 0 := by
      unfold countStatus
      rw [List.countP_eq_zero]
      intro j hjm
      rw [(hj j hjm).1]
      decide
    rw [this]; rfl

/-- The arrival step. -/
theorem arrival_step (s : SimulationState) (h : RunInv s) :
    ∃ s1 req1, arrivalsLoop (List.range s.jobs.length) s false = some (s1, req1)
      ∧ RunInv s1 ∧ (∀ i, JobStep arrival s s1 i)
      ∧ s1.current_time = s.current_time ∧ s1.jobs.length = s.jobs.length := by
  obtain ⟨jobs1, q, req1, he, hwf1, hlen, hjobs, hq⟩ :=
    arrivalsLoop_spec (List.range s.jobs.length) s false h.1 (fun i hi => List.mem_range.mp hi)
  have hstep : ∀ i, JobStep arrival s { s with jobs := jobs1, ready_queue := q } i := by
    intro i
    unfold JobStep
    show getJob jobs1 i = getJob s.jobs i ∨ _
    rw [hjobs i]
    by_cases hi : i ∈ List.range s.jobs.length
    · rw [if_pos hi]
      unfold arrive
      by_cases ha : (getJob s.jobs i).status = NOT_ARRIVED
          ∧ (getJob s.jobs i).arrival_time = s.current_time
      · rw [if_pos ha]
        right; left
        exact ⟨rfl, ha.1, ha.2, rfl⟩
      · rw [if_neg ha]; left; rfl
    · rw [if_neg hi]; left; rfl
  exact ⟨_, req1, he,
    RunInv_step h hwf1 (arrivals_StatusInv s h.2.1 jobs1 q hjobs hq) hstep (by decide) (by decide)
      hlen rfl rfl, hstep, rfl, hlen⟩
/-- The completion step; after it the occupant, if any, has work left. -/
theorem completion_step (s1 : SimulationState) (h : RunInv s1) :
    RunInv (if completionDue s1 = true then handle_completion s1 else s1)
    ∧ (∀ i, JobStep completion s1 (if completionDue s1 = true then handle_completion s1 else s1) i)
    ∧ OccPos (if completionDue s1 = true then handle_completion s1 else s1)
    ∧ (if completionDue s1 = true then handle_completion s1 else s1).current_time
        = s1.current_time
    ∧ (if completionDue s1 = true then handle_completion s1 else s1).jobs.length
        = s1.jobs.length := by
  obtain ⟨hwf, hsi, hsen, haet, hcnt⟩ := h
  by_cases hdue : completionDue s1 = true
  · rw [if_pos hdue]
    obtain ⟨r, hr, hle, hnc, hnm⟩ := (completionDue_iff s1).1 hdue
    rw [handle_completion_due s1 r hr ⟨hle, hnc, hnm⟩]
    have hrlt : r < s1.jobs.length := hwf.2.2.1 r hr
    have hrun : (getJob s1.jobs r).status = RUNNING := (hsi.2 r).mpr hr
    have h0 : (getJob s1.jobs r).remaining_aet = 0 := by
      have := (haet r hrlt).1
      omega
    have hget : ∀ i, getJob (updJob s1.jobs r (fun j =>
          { j with status := COMPLETED, finish_time := s1.current_time })) i
        = if i = r then { getJob s1.jobs r with status := COMPLETED, finish_time := s1.current_time }
          else getJob s1.jobs i := by
      intro i
      rw [getJob_updJob]
      by_cases hi : i = r
      · rw [if_pos ⟨hi, hrlt⟩, if_pos hi]
      · rw [if_neg (fun hc => hi hc.1), if_neg hi]
    have hlen : (updJob s1.jobs r (fun j =>
          { j with status := COMPLETED, finish_time := s1.current_time })).length
        = s1.jobs.length := updJob_length _ _ _
    have hstep : ∀ i, JobStep completion s1
        { s1 with jobs := updJob s1.jobs r (fun j =>
                    { j with status := COMPLETED, finish_time := s1.current_time }),
                  completed_jobs := s1.completed_jobs + 1, running_job := none,
                  current_job_quantum_remaining := 0 } i := by
      intro i
      have hg := hget i
      by_cases hi : i = r
      · subst hi
        rw [if_pos rfl] at hg
        exact Or.inr (Or.inr (Or.inl ⟨rfl, hrun, hr, h0, hg⟩))
      · rw [if_neg hi] at hg
        exact Or.inl hg
    have hwf2 : WF
        { s1 with jobs := updJob s1.jobs r (fun j =>
                    { j with status := COMPLETED, finish_time := s1.current_time }),
                  completed_jobs := s1.completed_jobs + 1, running_job := none,
                  current_job_quantum_remaining := 0 } := by
      refine ⟨hwf.1, ?_, ?_, ?_⟩
      · intro i hi
        simp only [updJob_length]
        exact hwf.2.1 i hi
      · intro r' hr'
        cases hr'
      · simp only [updJob_length]
        exact hwf.2.2.2
    refine ⟨⟨hwf2, completion_StatusInv s1 hwf hsi r hr, JobStep_sentinel hstep hsen,
      JobStep_aet hstep hlen haet, ?_, ?_⟩, hstep, ?_, rfl, hlen⟩
    · show s1.completed_jobs + 1 = ((countStatus COMPLETED (updJob s1.jobs r (fun j =>
          { j with status := COMPLETED, finish_time := s1.current_time })) : Nat) : Int)
      rw [countStatus_mark COMPLETED s1.jobs _ [r] hlen (List.nodup_singleton r)
        (by
          intro x hx
          rw [List.mem_singleton] at hx
          subst hx
          exact ⟨hrlt, hnc⟩)
        (by
          intro i _
          rw [hget i, List.mem_singleton]
          by_cases hi : i = r
          · rw [if_pos hi]; simp [hi]
          · rw [if_neg hi]; simp [hi])]
      rw [hcnt.1]
      simp
    · show s1.deadline_misses = ((countStatus MISSED (updJob s1.jobs r (fun j =>
          { j with status := COMPLETED, finish_time := s1.current_time })) : Nat) : Int)
      rw [countStatus_same MISSED s1.jobs _ hlen
        (fun i => JobStep_missed_iff (by decide) (hstep i))]
      exact hcnt.2
    · intro r' hr'
      cases hr'
  · rw [if_neg hdue]
    refine ⟨⟨hwf, hsi, hsen, haet, hcnt⟩, fun i => Or.inl rfl, ?_, rfl, rfl⟩
    intro r hr
    by_contra hle
    apply hdue
    rw [completionDue_iff]
    have hrun : (getJob s1.jobs r).status = RUNNING := (hsi.2 r).mpr hr
    exact ⟨r, hr, by omega, by rw [hrun]; decide, by rw [hrun]; decide⟩
/-- The deadline counter after `check_deadline_misses`: one more for a missed
occupant and one more for every queue entry whose deadline has passed. -/
theorem check_deadline_misses_count (s : SimulationState) (hwf : WF s) :
    ((¬ ∃ r, runningMissed s r)
      ∧ (check_deadline_misses s).deadline_misses = s.deadline_misses
          + (((s.ready_queue.filter (fun x => decide (deadlinePassed s x))).length : Nat) : Int))
    ∨ ((∃ r, runningMissed s r)
      ∧ (check_deadline_misses s).deadline_misses = s.deadline_misses + 1
          + (((s.ready_queue.filter (fun x => decide (deadlinePassed s x))).length : Nat) : Int)) := by
  have hdef : check_deadline_misses s
      = checkQueueMisses (s.current_time + 1)
          (checkRunningMiss (s.current_time + 1) s).ready_queue.length
          (checkRunningMiss (s.current_time + 1) s) := rfl
  rcases checkRunningMiss_cases (s.current_time + 1) s with h | ⟨r, hr, hrun, hd, ha, h⟩
  · rw [h] at hdef
    obtain ⟨jobs1, he, -, -⟩ := checkQueueMisses_spec (s.current_time + 1) s.ready_queue [] s
      (by simp) (by simpa using hwf.1) hwf.2.1
    have hno : ¬ ∃ r, runningMissed s r := by
      rintro ⟨r, hr, hrun, hd, ha⟩
      have : checkRunningMiss (s.current_time + 1) s ≠ s := by
        unfold checkRunningMiss
        simp only [hr, hrun, hd, ha, and_self, if_true]
        intro hcon
        have := congrArg SimulationState.running_job hcon
        simp only at this
        rw [hr] at this
        cases this
      exact this h
    left
    refine ⟨hno, ?_⟩
    rw [hdef, he]
    simp only [deadlinePassed]
  · rw [h] at hdef
    have hdl : ∀ x, (getJob (setStatus s.jobs r MISSED) x).absolute_deadline
        = (getJob s.jobs x).absolute_deadline := by
      intro x; rw [getJob_setStatus]; split_ifs with h
      · rw [h.1]
      · rfl
    obtain ⟨jobs1, he, -, -⟩ := checkQueueMisses_spec (s.current_time + 1) s.ready_queue []
      { s with jobs := setStatus s.jobs r MISSED, deadline_misses := s.deadline_misses + 1,
               running_job := none, current_job_quantum_remaining := 0 }
      (by simp) (by simpa using hwf.1)
      (by intro x hx
          show x < (setStatus s.jobs r MISSED).length
          rw [setStatus_length]; exact hwf.2.1 x hx)
    right
    refine ⟨⟨r, hr, hrun, hd, ha⟩, ?_⟩
    rw [hdef, he]
    simp only [deadlinePassed, hdl]

theorem RunInv_contextSwitchCheck (s : SimulationState) (h : RunInv s) :
    RunInv (contextSwitchCheck s) := by
  rw [contextSwitchCheck_eq]
  exact h

theorem JobStep_contextSwitchCheck (lbl : SubStep) (x s : SimulationState) (i : Nat)
    (h : JobStep lbl x s i) : JobStep lbl x (contextSwitchCheck s) i := by
  rw [contextSwitchCheck_eq]
  exact h

/-- The laxity pass. -/
theorem laxity_step (s : SimulationState) (h : RunInv s) :
    RunInv (calculate_all_laxities s)
    ∧ (∀ i, JobStep selection s (calculate_all_laxities s) i)
    ∧ (OccPos s → OccPos (calculate_all_laxities s)) := by
  obtain ⟨f1, f2, f3, f4, f5, f6, f7, f8, f9, flen⟩ := calculate_all_laxities_frame s
  have hstep : ∀ i, JobStep selection s (calculate_all_laxities s) i := by
    intro i
    have hg := getJob_calculate_all_laxities s i
    unfold laxityAfter at hg
    by_cases h1 : s.running_job = some i ∧ (getJob s.jobs i).status = RUNNING
    · rw [if_pos h1] at hg
      exact Or.inr (Or.inr (Or.inr (Or.inl ⟨rfl, Or.inr h1.2, hg⟩)))
    · rw [if_neg h1] at hg
      by_cases h2 : i ∈ s.ready_queue
      · have hrd : (getJob s.jobs i).status = READY := (h.2.1.1 i).mpr h2
        rw [if_pos h2, if_pos hrd] at hg
        exact Or.inr (Or.inr (Or.inr (Or.inl ⟨rfl, Or.inl hrd, hg⟩)))
      · rw [if_neg h2, setLaxity_self] at hg
        exact Or.inl hg
  refine ⟨RunInv_step h (WF_of_eq h.1 f1 f2 flen) (calculate_all_laxities_StatusInv s h.2.1) hstep
    (by decide) (by decide) flen f8 f7, hstep, ?_⟩
  intro ho r hr
  rw [f2] at hr
  rw [getJob_calculate_all_laxities]
  exact ho r hr

/-- The laxity and selection pass of step 4. -/
theorem select_step (s : SimulationState) (h : RunInv s) (ho : OccPos s) :
    RunInv (select_mllf_task_Ta s).1
    ∧ (∀ i, JobStep selection s (select_mllf_task_Ta s).1 i)
    ∧ OccPos (select_mllf_task_Ta s).1 := by
  rcases (select_mem s).1 with he | he
  · rw [he]
    exact ⟨h, fun i => Or.inl rfl, ho⟩
  · rw [he]
    obtain ⟨a, b, c⟩ := laxity_step s h
    exact ⟨a, b, c ho⟩
theorem startTa_counters (s : SimulationState) (ta : Nat) :
    (startTa s ta).completed_jobs = s.completed_jobs
    ∧ (startTa s ta).deadline_misses = s.deadline_misses := by
  rw [startTa_eq]
  exact ⟨rfl, rfl⟩

/-- What the branches of the decision do to the job records and the counters. -/
theorem decisionBranches_JobStep (s : SimulationState) (cand : Option Nat) (hwf : WF s)
    (hsi : StatusInv s) (ho : OccPos s)
    (hc : ∀ c, cand = some c → c ∈ s.ready_queue ∨ s.running_job = some c)
    (s1 : SimulationState) (he : decisionBranches s cand = some s1) :
    (∀ i, JobStep decision s s1 i)
    ∧ s1.completed_jobs = s.completed_jobs ∧ s1.deadline_misses = s.deadline_misses := by
  rcases decisionBranches_cases s cand hwf with
    ⟨hr, ta, hcand, he1⟩ | ⟨hr, hcand, he1⟩ | ⟨r, hr, hcand, he1⟩
    | ⟨r, ta, q, hr, hcand, htr, he1, hwf2, hq⟩ | ⟨r, qr, hr, hcand, he1, _⟩
  · rw [he1] at he
    cases he
    have hta : ta ∈ s.ready_queue := by
      rcases hc ta hcand with h | h
      · exact h
      · rw [hr] at h; cases h
    refine ⟨?_, startTa_counters s ta⟩
    intro i
    have hg := getJob_startTa s ta i
    by_cases hi : i = ta
    · subst hi
      rw [if_pos ⟨rfl, hwf.2.1 i hta⟩] at hg
      exact Or.inr (Or.inr (Or.inr (Or.inr (Or.inl
        ⟨rfl, (hsi.1 i).mpr hta, (startTa_fields s i).2.1, hg⟩))))
    · rw [if_neg (fun hcon => hi hcon.1)] at hg
      exact Or.inl hg
  · rw [he1] at he
    cases he
    exact ⟨fun i => Or.inl rfl, rfl, rfl⟩
  · rw [he1] at he
    cases he
    exact ⟨fun i => Or.inl rfl, rfl, rfl⟩
  · rw [he1] at he
    cases he
    have hrlt : r < s.jobs.length := hwf.2.2.1 r hr
    have hrrun : (getJob s.jobs r).status = RUNNING := (hsi.2 r).mpr hr
    have hta : ta ∈ s.ready_queue := by
      rcases hc ta hcand with h | h
      · exact h
      · rw [hr] at h
        simp only [Option.some.injEq] at h
        exact absurd h.symm htr
    have htalt : ta < s.jobs.length := hwf.2.1 ta hta
    refine ⟨?_, startTa_counters _ ta⟩
    intro i
    have hg := getJob_startTa { s with jobs := setStatus s.jobs r READY, ready_queue := q } ta i
    simp only [setStatus_length, getJob_setStatus] at hg
    by_cases hi : i = ta
    · subst hi
      rw [if_pos ⟨rfl, htalt⟩, if_neg (fun hcon => htr hcon.1)] at hg
      exact Or.inr (Or.inr (Or.inr (Or.inr (Or.inl
        ⟨rfl, (hsi.1 i).mpr hta, (startTa_fields _ i).2.1, hg⟩))))
    · rw [if_neg (fun hcon => hi hcon.1)] at hg
      by_cases hir : i = r
      · subst hir
        rw [if_pos ⟨rfl, hrlt⟩] at hg
        exact Or.inr (Or.inr (Or.inr (Or.inr (Or.inr (Or.inl
          ⟨rfl, hrrun, hr, ⟨ta, htr, (startTa_fields _ ta).2.1⟩, ho i hr, hg⟩)))))
      · rw [if_neg (fun hcon => hir hcon.1)] at hg
        exact Or.inl hg
  · rw [he1] at he
    cases he
    exact ⟨fun i => Or.inl rfl, rfl, rfl⟩

/-- The scheduling decision of step 4. -/
theorem decision_step (s : SimulationState) (cand : Option Nat) (h : RunInv s) (ho : OccPos s)
    (hlax : LaxityDefined s)
    (hc : ∀ c, cand = some c → c ∈ s.ready_queue ∨ s.running_job = some c) :
    ∃ s5, make_mllf_scheduling_decision s cand = some s5 ∧ RunInv s5
      ∧ (∀ i, JobStep decision s s5 i) ∧ s5.current_time = s.current_time := by
  have hcl : ∀ c, cand = some c → c < s.jobs.length := by
    intro c hcc
    rcases hc c hcc with h1 | h1
    · exact h.1.2.1 c h1
    · exact h.1.2.2.1 c h1
  obtain ⟨s1, he, hsi1, -⟩ := decisionBranches_StatusInv s cand h.1 h.2.1 hlax hc
  obtain ⟨s1a, hea, hwf1, htime, -⟩ := decisionBranches_idle s cand h.1 hcl
  obtain ⟨s1b, heb, -, -, -, hlen⟩ := decisionBranches_switch s cand h.1
  rw [he] at hea heb
  cases hea
  cases heb
  obtain ⟨hstep, hcj, hdm⟩ := decisionBranches_JobStep s cand h.1 h.2.1 ho hc s1 he
  have hinv : RunInv s1 := RunInv_step h hwf1 hsi1 hstep (by decide) (by decide) hlen hcj hdm
  refine ⟨contextSwitchCheck s1, by rw [make_decision_eq, he]; rfl,
    RunInv_contextSwitchCheck s1 hinv,
    fun i => JobStep_contextSwitchCheck decision s s1 i (hstep i), ?_⟩
  rw [contextSwitchCheck_eq]
  exact htime
/-- The execution step. -/
theorem execution_step (s : SimulationState) (h : RunInv s) :
    RunInv (execute_running_job s) ∧ (∀ i, JobStep execution s (execute_running_job s) i) := by
  obtain ⟨-, -, -, -, -, fdm, fcj, -⟩ := execute_running_job_frame s
  have hstep : ∀ i, JobStep execution s (execute_running_job s) i := by
    intro i
    have hg := getJob_execute_running_job s i
    by_cases hi : s.running_job = some i ∧ (getJob s.jobs i).status = RUNNING
    · rw [if_pos hi] at hg
      exact Or.inr (Or.inr (Or.inr (Or.inr (Or.inr (Or.inr (Or.inl ⟨rfl, hi.2, hi.1, hg⟩))))))
    · rw [if_neg hi] at hg
      exact Or.inl hg
  exact ⟨RunInv_step h (execute_running_job_wf s h.1) (execute_running_job_StatusInv s h.2.1)
    hstep (by decide) (by decide) (execute_running_job_length s) fcj fdm, hstep⟩

/-- The deadline check. -/
theorem deadline_step (s : SimulationState) (h : RunInv s) :
    RunInv (check_deadline_misses s)
    ∧ (∀ i, JobStep deadlineCheck s (check_deadline_misses s) i) := by
  obtain ⟨hwf, hsi, hsen, haet, hcnt⟩ := h
  obtain ⟨jobs1, rj, q, dm, he, hlen1, -, hjobs1⟩ := check_deadline_misses_spec s hwf
  obtain ⟨hwf7, -, -, -, fcj, -, flen, -⟩ := check_deadline_misses_frame s hwf
  have hjobs : ∀ i, getJob (check_deadline_misses s).jobs i
      = if (i ∈ s.ready_queue ∧ deadlinePassed s i) ∨ runningMissed s i
        then { getJob s.jobs i with status := MISSED } else getJob s.jobs i := by
    intro i
    rw [he]
    exact hjobs1 i
  have hstep : ∀ i, JobStep deadlineCheck s (check_deadline_misses s) i := by
    intro i
    have hg := hjobs i
    by_cases hi : (i ∈ s.ready_queue ∧ deadlinePassed s i) ∨ runningMissed s i
    · rw [if_pos hi] at hg
      refine Or.inr (Or.inr (Or.inr (Or.inr (Or.inr (Or.inr (Or.inr ⟨rfl, ?_, ?_, ?_, hg⟩))))))
      · rcases hi with ⟨hq, -⟩ | ⟨-, hrun, -, -⟩
        · exact Or.inl ((hsi.1 i).mpr hq)
        · exact Or.inr hrun
      · rcases hi with ⟨-, hp⟩ | ⟨-, -, hp, -⟩
        · exact hp
        · exact hp
      · rcases hi with ⟨hq, -⟩ | ⟨-, -, -, hp⟩
        · have := (haet i (hwf.2.1 i hq)).2 (Or.inr ((hsi.1 i).mpr hq))
          omega
        · exact hp
    · rw [if_neg hi] at hg
      exact Or.inl hg
  refine ⟨⟨hwf7, check_deadline_misses_StatusInv s hwf hsi, JobStep_sentinel hstep hsen,
    JobStep_aet hstep flen haet, ?_, ?_⟩, hstep⟩
  · rw [fcj, countStatus_same COMPLETED s.jobs _ flen
      (fun i => JobStep_completed_iff (by decide) (hstep i))]
    exact hcnt.1
  · have hqs : ∀ x ∈ s.ready_queue.filter (fun x => decide (deadlinePassed s x)),
        x ∈ s.ready_queue ∧ deadlinePassed s x := by
      intro x hx
      simpa using hx
    have hmiss_iff : ∀ (L : List Nat), (∀ i, i ∈ L ↔
          ((i ∈ s.ready_queue ∧ deadlinePassed s i) ∨ runningMissed s i)) →
        ∀ i, i < s.jobs.length → ((getJob (check_deadline_misses s).jobs i).status = MISSED
          ↔ ((getJob s.jobs i).status = MISSED ∨ i ∈ L)) := by
      intro L hL i _
      rw [hjobs i, hL i]
      by_cases hi : (i ∈ s.ready_queue ∧ deadlinePassed s i) ∨ runningMissed s i
      · rw [if_pos hi]; simp [hi]
      · rw [if_neg hi]; simp [hi]
    rcases check_deadline_misses_count s hwf with ⟨hno, hdm⟩ | ⟨⟨r, hrm⟩, hdm⟩
    · rw [hdm, countStatus_mark MISSED s.jobs _
        (s.ready_queue.filter (fun x => decide (deadlinePassed s x))) flen
        (hwf.1.filter _)
        (by
          intro x hx
          have hq := (hqs x hx).1
          refine ⟨hwf.2.1 x hq, ?_⟩
          rw [(hsi.1 x).mpr hq]; decide)
        (hmiss_iff _ (by
          intro i
          rw [List.mem_filter, decide_eq_true_eq]
          constructor
          · exact Or.inl
          · rintro (h1 | h1)
            · exact h1
            · exact absurd ⟨i, h1⟩ hno))]
      rw [hcnt.2]
      push_cast
      rfl
    · have hrun : ∀ i, runningMissed s i ↔ i = r := by
        intro i
        constructor
        · intro hi
          have h1 := hi.1
          rw [hrm.1] at h1
          cases h1; rfl
        · intro hi; subst hi; exact hrm
      have hrq : r ∉ s.ready_queue := by
        intro hq
        have h1 := (hsi.1 r).mpr hq
        rw [hrm.2.1] at h1
        cases h1
      rw [hdm, countStatus_mark MISSED s.jobs _
        (r :: s.ready_queue.filter (fun x => decide (deadlinePassed s x))) flen
        (List.nodup_cons.mpr ⟨fun hx => hrq (hqs r hx).1, hwf.1.filter _⟩)
        (by
          intro x hx
          rcases List.mem_cons.mp hx with hx | hx
          · subst hx
            refine ⟨hwf.2.2.1 x hrm.1, ?_⟩
            rw [hrm.2.1]; decide
          · have hq := (hqs x hx).1
            refine ⟨hwf.2.1 x hq, ?_⟩
            rw [(hsi.1 x).mpr hq]; decide)
        (hmiss_iff _ (by
          intro i
          rw [List.mem_cons, List.mem_filter, decide_eq_true_eq, hrun i]
          constructor
          · rintro (h1 | h1)
            · exact Or.inr h1
            · exact Or.inl h1
          · rintro (h1 | h1)
            · exact Or.inr h1
            · exact Or.inl h1))]
      rw [hcnt.2]
      simp only [List.length_cons]
      push_cast
      ring

/-- The time advance. -/
theorem advance_step (s : SimulationState) (h : RunInv s) :
    RunInv { s with current_time := s.current_time + 1 }
    ∧ (∀ i, JobStep advance s { s with current_time := s.current_time + 1 } i) :=
  ⟨h, fun _ => Or.inl rfl⟩

/-- Step 4 of a tick, with the state after the laxity and selection pass. -/
theorem reschedule_step (s2 : SimulationState) (req3 : Bool) (h : RunInv s2) (ho : OccPos s2) :
    ∃ s5, rescheduleStep s2 req3 = some s5
      ∧ RunInv (if req3 = true ∨ s2.running_job = none then (select_mllf_task_Ta s2).1 else s5)
      ∧ (∀ i, JobStep selection s2
          (if req3 = true ∨ s2.running_job = none then (select_mllf_task_Ta s2).1 else s5) i)
      ∧ RunInv s5
      ∧ (∀ i, JobStep decision
          (if req3 = true ∨ s2.running_job = none then (select_mllf_task_Ta s2).1 else s5) s5 i)
      ∧ (if req3 = true ∨ s2.running_job = none then (select_mllf_task_Ta s2).1 else s5).jobs.length
          = s2.jobs.length
      ∧ s5.jobs.length = s2.jobs.length := by
  obtain ⟨s5a, hea, hlen5, -⟩ := rescheduleStep_switch s2 req3 h.1
  by_cases hcond : req3 = true ∨ s2.running_job = none
  · obtain ⟨hinv3, hst3, ho3⟩ := select_step s2 h ho
    obtain ⟨-, hlax3, hc3⟩ := select_StatusInv s2 h.2.1
    obtain ⟨s5, he5, hinv5, hst5, -⟩ :=
      decision_step (select_mllf_task_Ta s2).1 (select_mllf_task_Ta s2).2 hinv3 ho3 hlax3 hc3
    have hres : rescheduleStep s2 req3 = some s5 := by
      unfold rescheduleStep
      rw [if_pos hcond]
      exact he5
    have hlen5b : s5.jobs.length = s2.jobs.length := by
      rw [hres] at hea
      rw [Option.some.inj hea]
      exact hlen5
    refine ⟨s5, hres, ?_, ?_, hinv5, ?_, ?_, hlen5b⟩
    · rw [if_pos hcond]; exact hinv3
    · rw [if_pos hcond]; exact hst3
    · rw [if_pos hcond]; exact hst5
    · rw [if_pos hcond]; exact (select_wf s2 h.1).2.2.2.2.2.2.2.2.2.2.1
  · have hne : s2.running_job ≠ none := fun h => hcond (Or.inr h)
    rcases Option.eq_none_or_eq_some s2.running_job with hr | ⟨r, hr⟩
    · exact absurd hr hne
    · have hm : (match s2.running_job with
          | some _ => some (calculate_all_laxities s2)
          | none => some { s2 with idle_time := s2.idle_time + 1 })
          = some (calculate_all_laxities s2) := by rw [hr]
      obtain ⟨hinv3, hst3, -⟩ := laxity_step s2 h
      have hlen := (calculate_all_laxities_frame s2).2.2.2.2.2.2.2.2.2
      refine ⟨calculate_all_laxities s2, ?_, ?_, ?_, hinv3, ?_, ?_, hlen⟩
      · unfold rescheduleStep
        rw [if_neg hcond]
        exact hm
      · rw [if_neg hcond]; exact hinv3
      · rw [if_neg hcond]; exact hst3
      · rw [if_neg hcond]; exact fun i => Or.inl rfl
      · rw [if_neg hcond]; exact hlen

/-- One tick: the boundaries exist, the invariant holds at each of them, and
consecutive boundaries are related by `BoundaryStep`. -/
theorem tickBoundaries_spec (s : SimulationState) (lbl : SubStep) (h : RunInv s) :
    ∃ s5 l, tickSchedule s = some s5 ∧ tickBoundaries s = some (tickExecute s5, l)
      ∧ (∀ b ∈ l, RunInv b.2)
      ∧ List.Chain BoundaryStep (lbl, s) l
      ∧ RunInv (tickExecute s5)
      ∧ (tickExecute s5).current_time = s.current_time + 1
      ∧ decisionStates l = [s5]
      ∧ l.getLast? = some (advance, tickExecute s5) := by
  obtain ⟨s1, req1, he1, hinv1, hst1, ht1, hl1⟩ := arrival_step s h
  obtain ⟨hinv2, hst2, ho2, ht2, hl2⟩ := completion_step s1 hinv1
  obtain ⟨s5, he5, hinv3, hst3, hinv5, hst5, hl3, hl5⟩ := reschedule_step
    (if completionDue s1 = true then handle_completion s1 else s1)
    ((req1 || completionDue s1)
      || quantumExpired (if completionDue s1 = true then handle_completion s1 else s1))
    hinv2 ho2
  obtain ⟨hinv6, hst6⟩ := execution_step s5 hinv5
  obtain ⟨hinv7, hst7⟩ := deadline_step (execute_running_job s5) hinv6
  obtain ⟨hinv8, hst8⟩ := advance_step (check_deadline_misses (execute_running_job s5)) hinv7
  have hsched : tickSchedule s = some s5 := by
    unfold tickSchedule
    rw [he1]
    exact he5
  have ht5 : s5.current_time = s.current_time := by
    obtain ⟨s5', he', -, ht', -⟩ := tickSchedule_idle s h.1
    rw [hsched] at he'
    cases he'
    exact ht'
  refine ⟨s5,
    [(arrival, s1), (completion, if completionDue s1 = true then handle_completion s1 else s1),
     (selection,
        if ((req1 || completionDue s1)
              || quantumExpired (if completionDue s1 = true then handle_completion s1 else s1))
              = true
            ∨ (if completionDue s1 = true then handle_completion s1 else s1).running_job = none
        then (select_mllf_task_Ta (if completionDue s1 = true then handle_completion s1 else s1)).1
        else s5),
     (decision, s5), (execution, execute_running_job s5),
     (deadlineCheck, check_deadline_misses (execute_running_job s5)),
     (advance, tickExecute s5)],
    hsched, ?_, ?_, ?_, hinv8, ?_, ?_, ?_⟩
  · unfold tickBoundaries
    rw [he1]
    simp only
    rw [he5]
    rfl
  · intro b hb
    simp only [List.mem_cons, List.mem_singleton, List.not_mem_nil, or_false] at hb
    rcases hb with rfl | rfl | rfl | rfl | rfl | rfl | rfl
    · exact hinv1
    · exact hinv2
    · exact hinv3
    · exact hinv5
    · exact hinv6
    · exact hinv7
    · exact hinv8
  · exact List.Chain.cons ⟨hst1, hl1⟩ (List.Chain.cons ⟨hst2, hl2⟩
      (List.Chain.cons ⟨hst3, hl3⟩ (List.Chain.cons ⟨hst5, hl5.trans hl3.symm⟩
      (List.Chain.cons ⟨hst6, execute_running_job_length s5⟩
      (List.Chain.cons ⟨hst7, (check_deadline_misses_frame _ hinv6.1).2.2.2.2.2.2.1⟩
      (List.Chain.cons ⟨hst8, rfl⟩ List.Chain.nil))))))
  · exact (tickExecute_frame s5 hinv5.1).2.1.trans (by rw [ht5])
  · simp [decisionStates]
  · rfl
theorem decisionStates_append (l1 l2 : List (SubStep × SimulationState)) :
    decisionStates (l1 ++ l2) = decisionStates l1 ++ decisionStates l2 := by
  simp [decisionStates]

/-- The loop with boundaries performs the same run as `simLoop`: it returns
whenever the fuel covers the ticks left, ends in the same final state and
passes the logged states as its decision boundaries; the invariant holds at
every boundary and consecutive boundaries are related by `BoundaryStep`. -/
theorem boundaryLoop_spec (H : Int) :
    ∀ (fuel : Nat) (s : SimulationState) (tr : List SimulationState)
      (acc : List (SubStep × SimulationState)) (lbl : SubStep),
      RunInv s → H - s.current_time ≤ fuel → acc.getLast? = some (lbl, s) →
      (∀ b ∈ acc, RunInv b.2) → List.Chain' BoundaryStep acc → tr = decisionStates acc →
      ∃ r bs, simLoop H fuel s tr = some r ∧ boundaryLoop H fuel s acc = some bs
        ∧ bs.getLast?.map Prod.snd = some r.1 ∧ r.2 = decisionStates bs
        ∧ (∀ b ∈ bs, RunInv b.2) ∧ List.Chain' BoundaryStep bs ∧ acc <+: bs := by
  intro fuel
  induction fuel with
  | zero =>
    intro s tr acc lbl _ hf hlast hall hchain htr
    have hnot : ¬ s.current_time < H := by
      simp only [Nat.cast_zero] at hf
      omega
    refine ⟨(s, tr), acc, ?_, ?_, ?_, htr, hall, hchain, List.prefix_refl _⟩
    · unfold simLoop; rw [if_neg hnot]
    · unfold boundaryLoop; rw [if_neg hnot]
    · rw [hlast]; rfl
  | succ n ih =>
    intro s tr acc lbl hinv hf hlast hall hchain htr
    by_cases hlt : s.current_time < H
    · obtain ⟨s5, l, hsched, htb, hall1, hchain1, hinv8, htime, hdec, hlast1⟩ :=
        tickBoundaries_spec s lbl hinv
      have hchain2 : List.Chain' BoundaryStep (acc ++ l) := by
        have hc' : List.Chain' BoundaryStep ((lbl, s) :: l) := hchain1
        refine List.Chain'.append hchain hc'.tail ?_
        intro x hx y hy
        rw [hlast] at hx
        cases hx
        exact hc'.rel_head? hy
      obtain ⟨r, bs, h1, h2, h3, h4, h5, h6, h7⟩ := ih (tickExecute s5) (tr ++ [s5]) (acc ++ l)
        advance hinv8 (by rw [htime]; push_cast at hf; omega)
        (by rw [List.getLast?_append, hlast1]; rfl)
        (by
          intro b hb
          rcases List.mem_append.mp hb with hb | hb
          · exact hall b hb
          · exact hall1 b hb)
        hchain2 (by rw [decisionStates_append, hdec, htr])
      refine ⟨r, bs, ?_, ?_, h3, h4, h5, h6, (List.prefix_append acc l).trans h7⟩
      · unfold simLoop
        rw [if_pos hlt, hsched]
        exact h1
      · unfold boundaryLoop
        rw [if_pos hlt, htb]
        exact h2
    · refine ⟨(s, tr), acc, ?_, ?_, ?_, htr, hall, hchain, List.prefix_refl _⟩
      · unfold simLoop; rw [if_neg hlt]
      · unfold boundaryLoop; rw [if_neg hlt]
      · rw [hlast]; rfl

/-- Every run from an initial job array returns, and so does its boundary
list; the list starts with the initial state, ends with the final state of the
run and has the logged states as its decision boundaries; the run invariant
holds at every boundary and consecutive boundaries are related by
`BoundaryStep`. -/
theorem run_boundaries_spec (H : Int) (jobs : List Job) (hinit : InitialJobs jobs) :
    ∃ r bs, run_mllf_simulation H jobs = some r ∧ run_boundaries H jobs = some bs
      ∧ bs.head? = some (start, initialState jobs)
      ∧ bs.getLast?.map Prod.snd = some r.1 ∧ r.2 = decisionStates bs
      ∧ (∀ b ∈ bs, RunInv b.2) ∧ List.Chain' BoundaryStep bs := by
  have hinv := initialState_RunInv jobs hinit
  obtain ⟨r, bs, h1, h2, h3, h4, h5, h6, h7⟩ := boundaryLoop_spec H H.toNat (initialState jobs) []
    [(start, initialState jobs)] start hinv
    (by
      show H - 0 ≤ (H.toNat : Int)
      have := Int.self_le_toNat H
      omega)
    rfl
    (by
      intro b hb
      rw [List.mem_singleton] at hb
      subst hb
      exact hinv)
    (List.chain'_singleton _) rfl
  refine ⟨r, bs, h1, h2, ?_, h3, h4, h5, h6⟩
  obtain ⟨t, ht⟩ := h7
  rw [← ht]
  rfl

theorem generateTaskJobs_forall (P : Job → Prop) (H : Int) (t : Task)
    (hnew : ∀ id k a, P (newJob id t k a)) :
    ∀ (fuel : Nat) (k : Int) (jobs res : List Job),
      generateTaskJobs H t fuel k jobs = some res → (∀ j ∈ jobs, P j) → ∀ j ∈ res, P j := by
  intro fuel
  induction fuel with
  | zero => intro k jobs res h; simp [generateTaskJobs] at h
  | succ n ih =>
    intro k jobs res h hall
    unfold generateTaskJobs at h
    split_ifs at h with h1 h2 h3 h4
    · refine ih _ _ _ h ?_
      intro j hj
      rcases List.mem_append.mp hj with hj | hj
      · exact hall j hj
      · rw [List.mem_singleton] at hj
        subst hj
        exact hnew _ _ _
    · cases h
      exact hall

theorem generateLoop_forall (P : Job → Prop) (H : Int)
    (hnew : ∀ id t k a, P (newJob id t k a)) :
    ∀ (tasks : List Task) (jobs res : List Job),
      generateLoop H tasks jobs = some res → (∀ j ∈ jobs, P j) → ∀ j ∈ res, P j := by
  intro tasks
  induction tasks with
  | nil =>
    intro jobs res h hall
    simp only [generateLoop, Option.some.injEq] at h
    subst h
    exact hall
  | cons t rest ih =>
    intro jobs res h hall
    unfold generateLoop at h
    cases hg : generateTaskJobs H t (MAX_JOBS + 1) 0 jobs with
    | none => rw [hg] at h; cases h
    | some jobs1 =>
      rw [hg] at h
      exact ih jobs1 res h (generateTaskJobs_forall P H t (fun id k a => hnew id t k a) _ _ _ _ hg hall)

theorem read_actual_execution_times_forall (P : Job → Prop)
    (hupd : ∀ j a, P j → P { j with aet := a, remaining_aet := a }) :
    ∀ (aets : List Int) (jobs res : List Job),
      read_actual_execution_times aets jobs = some res → (∀ j ∈ jobs, P j) → ∀ j ∈ res, P j := by
  intro aets jobs
  induction jobs generalizing aets with
  | nil =>
    intro res h _
    cases aets <;>
      (simp only [read_actual_execution_times, Option.some.injEq] at h
       subst h
       exact fun j hj => (by cases hj))
  | cons j0 js ih =>
    intro res h hall
    cases aets with
    | nil => simp [read_actual_execution_times] at h
    | cons a rest =>
      unfold read_actual_execution_times at h
      split_ifs at h with ha
      cases hr : read_actual_execution_times rest js with
      | none => rw [hr] at h; cases h
      | some js1 =>
        rw [hr] at h
        simp only [Option.some.injEq] at h
        subst h
        intro j hj
        rcases List.mem_cons.mp hj with hj | hj
        · subst hj
          exact hupd j0 a (hall j0 (List.mem_cons_self _ _))
        · exact ih rest js1 hr (fun j' hj' => hall j' (List.mem_cons_of_mem _ hj')) j hj

/-- The jobs that `generate_jobs` and `read_actual_execution_times` hand to the
simulation are initial jobs. -/
theorem pipeline_InitialJobs (H : Int) (tasks : List Task) (aets : List Int)
    (jobs0 jobs : List Job) (hgen : generate_jobs H tasks = some jobs0)
    (haet : read_actual_execution_times aets jobs0 = some jobs) : InitialJobs jobs := by
  obtain ⟨hn, -⟩ := generate_jobs_inv H tasks jobs0 hgen
  obtain ⟨hlen, hpos, -⟩ := read_actual_execution_times_inv aets jobs0 jobs haet
  have h0 : ∀ j ∈ jobs0, j.status = NOT_ARRIVED ∧ j.calculated_laxity = INT_MAX :=
    generateLoop_forall (fun j => j.status = NOT_ARRIVED ∧ j.calculated_laxity = INT_MAX) H
      (fun _ _ _ _ => ⟨rfl, rfl⟩) tasks [] jobs0 hgen (fun j hj => by cases hj)
  have h1 : ∀ j ∈ jobs, j.status = NOT_ARRIVED ∧ j.calculated_laxity = INT_MAX :=
    read_actual_execution_times_forall
      (fun j => j.status = NOT_ARRIVED ∧ j.calculated_laxity = INT_MAX)
      (fun _ _ h => h) aets jobs0 jobs haet h0
  exact ⟨by rw [hlen]; exact hn, fun j hj => ⟨(h1 j hj).1, (h1 j hj).2, (hpos j hj).1⟩⟩

/-! ## Remaining work changes only through execution -/

theorem sameWork_refl (jobs : List Job) : sameWork jobs jobs := fun _ => ⟨rfl, rfl⟩

theorem sameWork_trans {a b c : List Job} (h1 : sameWork a b) (h2 : sameWork b c) :
    sameWork a c :=
  fun i => ⟨(h2 i).1.trans (h1 i).1, (h2 i).2.trans (h1 i).2⟩

theorem sameWork_updJob (jobs : List Job) (k : Nat) (f : Job → Job)
    (hf : ∀ j, (f j).remaining_wcet = j.remaining_wcet ∧ (f j).remaining_aet = j.remaining_aet) :
    sameWork jobs (updJob jobs k f) := by
  intro i
  rw [getJob_updJob]
  split_ifs with h
  · rw [h.1]; exact hf _
  · exact ⟨rfl, rfl⟩

theorem sameWork_setStatus (jobs : List Job) (k : Nat) (st : Status) :
    sameWork jobs (setStatus jobs k st) :=
  sameWork_updJob jobs k _ (fun _ => ⟨rfl, rfl⟩)

theorem add_job_to_ready_queue_jobs (s s1 : SimulationState) (job : Nat)
    (h : add_job_to_ready_queue s job = some s1) : s1.jobs = s.jobs := by
  unfold add_job_to_ready_queue at h
  split_ifs at h <;> cases h <;> rfl

theorem arrivalsLoop_sameWork (l : List Nat) :
    ∀ (s : SimulationState) (req : Bool) (s1 : SimulationState) (req1 : Bool),
      arrivalsLoop l s req = some (s1, req1) → sameWork s.jobs s1.jobs := by
  induction l with
  | nil =>
    intro s req s1 req1 h
    simp only [arrivalsLoop, Option.some.injEq, Prod.mk.injEq] at h
    rw [← h.1]
    exact sameWork_refl _
  | cons i rest ih =>
    intro s req s1 req1 h
    unfold arrivalsLoop at h
    split_ifs at h with hc
    · cases ha : add_job_to_ready_queue { s with jobs := setStatus s.jobs i READY } i with
      | none => rw [ha] at h; cases h
      | some s2 =>
        rw [ha] at h
        have hj := add_job_to_ready_queue_jobs _ _ _ ha
        have h2 := ih s2 true s1 req1 h
        rw [hj] at h2
        exact sameWork_trans (sameWork_setStatus s.jobs i READY) h2
    · exact ih s req s1 req1 h

theorem handle_completion_sameWork (s : SimulationState) :
    sameWork s.jobs (handle_completion s).jobs := by
  unfold handle_completion
  rcases Option.eq_none_or_eq_some s.running_job with hr | ⟨r, hr⟩
  · rw [hr]; exact sameWork_refl _
  · rw [hr]
    simp only
    split_ifs
    · dsimp only
      apply sameWork_updJob
      intro j
      exact ⟨rfl, rfl⟩
    · exact sameWork_refl _

theorem calculate_all_laxities_sameWork (s : SimulationState) :
    sameWork s.jobs (calculate_all_laxities s).jobs := by
  intro i
  rw [getJob_calculate_all_laxities]
  exact ⟨rfl, rfl⟩

theorem select_sameWork (s : SimulationState) :
    sameWork s.jobs (select_mllf_task_Ta s).1.jobs := by
  rcases (select_mem s).1 with h | h
  · rw [h]; exact sameWork_refl _
  · rw [h]; exact calculate_all_laxities_sameWork s

theorem startTa_sameWork (s : SimulationState) (ta : Nat) :
    sameWork s.jobs (startTa s ta).jobs :=
  fun i => ⟨(startTa_timing s ta i).2.2.1, (startTa_timing s ta i).2.2.2⟩

theorem decisionBranches_sameWork (s : SimulationState) (cand : Option Nat)
    (s1 : SimulationState) (h : decisionBranches s cand = some s1) :
    sameWork s.jobs s1.jobs := by
  rcases Option.eq_none_or_eq_some s.running_job with hr | ⟨r, hr⟩
  · cases cand with
    | none =>
      rw [decisionBranches_idle_none s hr] at h
      cases h
      exact sameWork_refl _
    | some ta =>
      rw [decisionBranches_idle_start s ta hr] at h
      cases h
      exact startTa_sameWork s ta
  · cases cand with
    | none =>
      rw [decisionBranches_busy_none s r hr] at h
      cases h
      exact sameWork_refl _
    | some ta =>
      by_cases htr : ta = r
      · subst htr
        rw [decisionBranches_continue s ta hr] at h
        split_ifs at h <;> cases h <;> exact sameWork_refl _
      · rw [decisionBranches_preempt s r ta hr htr] at h
        cases ha : add_job_to_ready_queue { s with jobs := setStatus s.jobs r READY } r with
        | none => rw [ha] at h; cases h
        | some s2 =>
          rw [ha] at h
          simp only [Option.map_some', Option.some.injEq] at h
          rw [← h]
          have hj := add_job_to_ready_queue_jobs _ _ _ ha
          have h2 := startTa_sameWork s2 ta
          rw [hj] at h2
          exact sameWork_trans (sameWork_setStatus s.jobs r READY) h2

theorem make_decision_sameWork (s : SimulationState) (cand : Option Nat)
    (s1 : SimulationState) (h : make_mllf_scheduling_decision s cand = some s1) :
    sameWork s.jobs s1.jobs := by
  rw [make_decision_eq] at h
  cases hd : decisionBranches s cand with
  | none => rw [hd] at h; cases h
  | some s2 =>
    rw [hd] at h
    simp only [Option.map_some', Option.some.injEq] at h
    rw [← h, contextSwitchCheck_eq]
    exact decisionBranches_sameWork s cand s2 hd

theorem checkQueueMisses_sameWork (nt : Int) :
    ∀ (n : Nat) (s : SimulationState), sameWork s.jobs (checkQueueMisses nt n s).jobs := by
  intro n
  induction n with
  | zero => intro s; exact sameWork_refl _
  | succ n ih =>
    intro s
    unfold checkQueueMisses
    cases hq : s.ready_queue[n]? with
    | none => exact ih s
    | some job =>
      simp only
      split_ifs
      · exact sameWork_trans (sameWork_setStatus s.jobs job MISSED) (ih _)
      · exact ih s

theorem check_deadline_misses_sameWork (s : SimulationState) :
    sameWork s.jobs (check_deadline_misses s).jobs := by
  have hdef : check_deadline_misses s
      = checkQueueMisses (s.current_time + 1)
          (checkRunningMiss (s.current_time + 1) s).ready_queue.length
          (checkRunningMiss (s.current_time + 1) s) := rfl
  rw [hdef]
  refine sameWork_trans ?_ (checkQueueMisses_sameWork _ _ _)
  rcases checkRunningMiss_cases (s.current_time + 1) s with h | ⟨r, -, -, -, -, h⟩
  · rw [h]; exact sameWork_refl _
  · rw [h]; exact sameWork_setStatus s.jobs r MISSED

theorem execute_running_job_work (s : SimulationState) (i : Nat) :
    (getJob (execute_running_job s).jobs i).remaining_wcet ≤ (getJob s.jobs i).remaining_wcet
    ∧ (getJob (execute_running_job s).jobs i).remaining_aet ≤ (getJob s.jobs i).remaining_aet
    ∧ (((getJob (execute_running_job s).jobs i).remaining_wcet ≠ (getJob s.jobs i).remaining_wcet
          ∨ (getJob (execute_running_job s).jobs i).remaining_aet
              ≠ (getJob s.jobs i).remaining_aet) →
        s.running_job = some i ∧ (getJob s.jobs i).status = RUNNING) := by
  rw [getJob_execute_running_job]
  split_ifs with h
  · refine ⟨?_, ?_, fun _ => h⟩
    · show (if (getJob s.jobs i).remaining_wcet > 0 then (getJob s.jobs i).remaining_wcet - 1
        else (getJob s.jobs i).remaining_wcet) ≤ _
      split_ifs <;> omega
    · show (if (getJob s.jobs i).remaining_aet > 0 then (getJob s.jobs i).remaining_aet - 1
        else (getJob s.jobs i).remaining_aet) ≤ _
      split_ifs <;> omega
  · exact ⟨le_refl _, le_refl _, fun hc => by rcases hc with hc | hc <;> exact absurd rfl hc⟩
/-! ## Properties of every run -/

theorem chain_pairwise {α : Type} (R : α → α → Prop) (htrans : ∀ a b c, R a b → R b c → R a c)
    (l : List α) (hc : List.Chain' R l) : List.Pairwise R l :=
  (@List.chain'_iff_pairwise α R ⟨htrans⟩ l).mp hc

theorem chain_head_rel {α : Type} (R : α → α → Prop)
    (htrans : ∀ a b c, R a b → R b c → R a c) (l : List α) (a : α)
    (hc : List.Chain' R l) (hh : l.head? = some a) : ∀ b ∈ l, b = a ∨ R a b := by
  cases l with
  | nil => cases hh
  | cons x t =>
    cases hh
    have hp := chain_pairwise R htrans _ hc
    intro b hb
    rcases List.mem_cons.mp hb with hb | hb
    · exact Or.inl hb
    · exact Or.inr (List.rel_of_pairwise_cons hp hb)

theorem getLast_mem_of_map {bs : List (SubStep × SimulationState)} {x : SimulationState}
    (h : bs.getLast?.map Prod.snd = some x) : ∃ b ∈ bs, b.2 = x := by
  cases hl : bs.getLast? with
  | none => rw [hl] at h; cases h
  | some b =>
    rw [hl] at h
    exact ⟨b, List.mem_of_getLast?_eq_some hl, Option.some.inj h⟩

/-- The job array keeps its size over a run. -/
theorem boundaries_length (bs : List (SubStep × SimulationState)) (a : SubStep × SimulationState)
    (hc : List.Chain' BoundaryStep bs) (hh : bs.head? = some a) :
    ∀ b ∈ bs, b.2.jobs.length = a.2.jobs.length := by
  have hc' : List.Chain' (fun x y : SubStep × SimulationState =>
      y.2.jobs.length = x.2.jobs.length) bs := hc.imp (fun _ _ h => h.2)
  intro b hb
  rcases chain_head_rel _ (fun _ _ _ h1 h2 => h2.trans h1) bs a hc' hh b hb with h | h
  · rw [h]
  · exact h

/-- C11: at the end of every run `completed_jobs` is the number of jobs with
status COMPLETED and `deadline_misses` the number of jobs with status MISSED,
so these two counters and the number of jobs still NOT_ARRIVED, READY or
RUNNING add up to the number of jobs. -/
theorem job_count_conservation (H : Int) (tasks : List Task) (aets : List Int)
    (jobs0 jobs : List Job) (hgen : generate_jobs H tasks = some jobs0)
    (haet : read_actual_execution_times aets jobs0 = some jobs) :
    ∃ r, run_mllf_simulation H jobs = some r
      ∧ r.1.completed_jobs = (countStatus COMPLETED r.1.jobs : Int)
      ∧ r.1.deadline_misses = (countStatus MISSED r.1.jobs : Int)
      ∧ r.1.completed_jobs + r.1.deadline_misses
          + ((countStatus NOT_ARRIVED r.1.jobs + countStatus READY r.1.jobs
              + countStatus RUNNING r.1.jobs : Nat) : Int) = (jobs.length : Int)
      ∧ r.1.jobs.length = jobs.length := by
  obtain ⟨r, bs, hrun, -, hhead, hlast, -, hall, hchain⟩ :=
    run_boundaries_spec H jobs (pipeline_InitialJobs H tasks aets jobs0 jobs hgen haet)
  obtain ⟨b, hb, hbr⟩ := getLast_mem_of_map hlast
  have hinv := hall b hb
  have hlen := boundaries_length bs _ hchain hhead b hb
  rw [hbr] at hinv hlen
  have hlen' : r.1.jobs.length = jobs.length := hlen
  obtain ⟨hc, hm⟩ := hinv.2.2.2.2
  have htot := countStatus_total r.1.jobs
  refine ⟨r, hrun, hc, hm, ?_, hlen'⟩
  rw [hc, hm, ← hlen', ← htot]
  push_cast
  ring

/-- Witness of C11: the scenario of section 8 (three generated jobs, AET 2 each,
hyperperiod 8). -/
theorem job_count_conservation_witness :
    generate_jobs 8 scenarioTasks = some scenarioGenerated
    ∧ read_actual_execution_times [2, 2, 2] scenarioGenerated = some scenarioJobs
    ∧ ∃ r, run_mllf_simulation 8 scenarioJobs = some r
      ∧ r.1.completed_jobs = (countStatus COMPLETED r.1.jobs : Int)
      ∧ r.1.deadline_misses = (countStatus MISSED r.1.jobs : Int)
      ∧ r.1.completed_jobs + r.1.deadline_misses
          + ((countStatus NOT_ARRIVED r.1.jobs + countStatus READY r.1.jobs
              + countStatus RUNNING r.1.jobs : Nat) : Int) = (scenarioJobs.length : Int)
      ∧ r.1.jobs.length = scenarioJobs.length :=
  ⟨by decide, by decide,
    job_count_conservation 8 scenarioTasks [2, 2, 2] scenarioGenerated scenarioJobs
      (by decide) (by decide)⟩
theorem countStatus_le_one (st : Status) (jobs : List Job)
    (h : ∀ i k, (getJob jobs i).status = st → (getJob jobs k).status = st → i = k) :
    countStatus st jobs ≤ 1 := by
  rw [countStatus_idx]
  have hnd : ((List.range jobs.length).filter
      (fun i => decide ((getJob jobs i).status = st))).Nodup := (List.nodup_range _).filter _
  have hmem : ∀ x ∈ (List.range jobs.length).filter
      (fun i => decide ((getJob jobs i).status = st)), (getJob jobs x).status = st := by
    intro x hx
    simpa using (List.mem_filter.mp hx).2
  generalize (List.range jobs.length).filter
    (fun i => decide ((getJob jobs i).status = st)) = L at hnd hmem
  rcases L with _ | ⟨a, _ | ⟨b, t⟩⟩
  · simp
  · simp
  · exfalso
    have hab : a = b := h a b (hmem a (List.mem_cons_self _ _))
      (hmem b (List.mem_cons_of_mem _ (List.mem_cons_self _ _)))
    rw [hab] at hnd
    exact (List.nodup_cons.mp hnd).1 (List.mem_cons_self _ _)

theorem run_with_boundaries (H : Int) (tasks : List Task) (aets : List Int)
    (jobs0 jobs : List Job) (hgen : generate_jobs H tasks = some jobs0)
    (haet : read_actual_execution_times aets jobs0 = some jobs) :
    ∃ r bs, RunWithBoundaries H jobs r bs
      ∧ (∀ b ∈ bs, RunInv b.2) ∧ List.Chain' BoundaryStep bs := by
  obtain ⟨r, bs, h1, h2, h3, h4, h5, h6, h7⟩ :=
    run_boundaries_spec H jobs (pipeline_InitialJobs H tasks aets jobs0 jobs hgen haet)
  exact ⟨r, bs, ⟨h1, h2, h3, h4, h5⟩, h6, h7⟩

/-- C12: in every run, at every sub-step boundary of every tick, at most one job
has status RUNNING, and a job has status RUNNING exactly when it is the job that
the running slot refers to. -/
theorem single_running_job (H : Int) (tasks : List Task) (aets : List Int)
    (jobs0 jobs : List Job) (hgen : generate_jobs H tasks = some jobs0)
    (haet : read_actual_execution_times aets jobs0 = some jobs) :
    ∃ r bs, RunWithBoundaries H jobs r bs
      ∧ ∀ b ∈ bs, countStatus RUNNING b.2.jobs ≤ 1
          ∧ ∀ i, (getJob b.2.jobs i).status = RUNNING ↔ b.2.running_job = some i := by
  obtain ⟨r, bs, hrun, hall, -⟩ := run_with_boundaries H tasks aets jobs0 jobs hgen haet
  refine ⟨r, bs, hrun, fun b hb => ⟨?_, (hall b hb).2.1.2⟩⟩
  apply countStatus_le_one
  intro i k hi hk
  have h1 := ((hall b hb).2.1.2 i).mp hi
  have h2 := ((hall b hb).2.1.2 k).mp hk
  rw [h1] at h2
  exact Option.some.inj h2

/-- Witness of C12: the scenario of section 8 (three generated jobs, AET 2 each,
hyperperiod 8). -/
theorem single_running_job_witness :
    generate_jobs 8 scenarioTasks = some scenarioGenerated
    ∧ read_actual_execution_times [2, 2, 2] scenarioGenerated = some scenarioJobs
    ∧ ∃ r bs, RunWithBoundaries 8 scenarioJobs r bs
      ∧ ∀ b ∈ bs, countStatus RUNNING b.2.jobs ≤ 1
          ∧ ∀ i, (getJob b.2.jobs i).status = RUNNING ↔ b.2.running_job = some i :=
  ⟨by decide, by decide,
    single_running_job 8 scenarioTasks [2, 2, 2] scenarioGenerated scenarioJobs
      (by decide) (by decide)⟩

/-- C13: in every run, at every sub-step boundary, the ready queue holds no job
twice, its entries are exactly the jobs with status READY, and the occupant of
the running slot is not in the ready queue. -/
theorem ready_queue_exclusive (H : Int) (tasks : List Task) (aets : List Int)
    (jobs0 jobs : List Job) (hgen : generate_jobs H tasks = some jobs0)
    (haet : read_actual_execution_times aets jobs0 = some jobs) :
    ∃ r bs, RunWithBoundaries H jobs r bs
      ∧ ∀ b ∈ bs, b.2.ready_queue.Nodup
          ∧ (∀ i, i ∈ b.2.ready_queue ↔ (getJob b.2.jobs i).status = READY)
          ∧ ∀ o, b.2.running_job = some o → o ∉ b.2.ready_queue := by
  obtain ⟨r, bs, hrun, hall, -⟩ := run_with_boundaries H tasks aets jobs0 jobs hgen haet
  refine ⟨r, bs, hrun, fun b hb => ⟨(hall b hb).1.1, fun i => ((hall b hb).2.1.1 i).symm, ?_⟩⟩
  intro o ho hq
  have h1 := ((hall b hb).2.1.1 o).mpr hq
  have h2 := ((hall b hb).2.1.2 o).mpr ho
  rw [h1] at h2
  cases h2

/-- Witness of C13: the scenario of section 8 (three generated jobs, AET 2 each,
hyperperiod 8). -/
theorem ready_queue_exclusive_witness :
    generate_jobs 8 scenarioTasks = some scenarioGenerated
    ∧ read_actual_execution_times [2, 2, 2] scenarioGenerated = some scenarioJobs
    ∧ ∃ r bs, RunWithBoundaries 8 scenarioJobs r bs
      ∧ ∀ b ∈ bs, b.2.ready_queue.Nodup
          ∧ (∀ i, i ∈ b.2.ready_queue ↔ (getJob b.2.jobs i).status = READY)
          ∧ ∀ o, b.2.running_job = some o → o ∉ b.2.ready_queue :=
  ⟨by decide, by decide,
    ready_queue_exclusive 8 scenarioTasks [2, 2, 2] scenarioGenerated scenarioJobs
      (by decide) (by decide)⟩

/-- C14: `make_mllf_scheduling_decision` (so also its preemption branch), the
arrival step, `handle_completion`, `calculate_all_laxities`,
`select_mllf_task_Ta` and `check_deadline_misses` leave `remaining_wcet` and
`remaining_aet` of every job as they are, in every state; `execute_running_job`
changes them only for the occupant and never raises them; so in every run both
fields change only in the execution step, only for the occupant, and between
any earlier and any later boundary neither has grown. -/
theorem remaining_work_changes_only_by_execution (H : Int) (tasks : List Task)
    (aets : List Int) (jobs0 jobs : List Job) (hgen : generate_jobs H tasks = some jobs0)
    (haet : read_actual_execution_times aets jobs0 = some jobs) :
    (∀ s cand s1, make_mllf_scheduling_decision s cand = some s1 → sameWork s.jobs s1.jobs)
    ∧ (∀ l s req s1 req1, arrivalsLoop l s req = some (s1, req1) → sameWork s.jobs s1.jobs)
    ∧ (∀ s, sameWork s.jobs (handle_completion s).jobs)
    ∧ (∀ s, sameWork s.jobs (calculate_all_laxities s).jobs)
    ∧ (∀ s, sameWork s.jobs (select_mllf_task_Ta s).1.jobs)
    ∧ (∀ s, sameWork s.jobs (check_deadline_misses s).jobs)
    ∧ (∀ s i,
        (getJob (execute_running_job s).jobs i).remaining_wcet ≤ (getJob s.jobs i).remaining_wcet
        ∧ (getJob (execute_running_job s).jobs i).remaining_aet ≤ (getJob s.jobs i).remaining_aet
        ∧ (((getJob (execute_running_job s).jobs i).remaining_wcet
                ≠ (getJob s.jobs i).remaining_wcet
              ∨ (getJob (execute_running_job s).jobs i).remaining_aet
                ≠ (getJob s.jobs i).remaining_aet) →
            s.running_job = some i ∧ (getJob s.jobs i).status = RUNNING))
    ∧ ∃ r bs, RunWithBoundaries H jobs r bs
        ∧ List.Chain' (fun a b => ∀ i, workStep b.1 a.2 b.2 i) bs
        ∧ List.Pairwise (fun a b => ∀ i,
            (getJob b.2.jobs i).remaining_wcet ≤ (getJob a.2.jobs i).remaining_wcet
            ∧ (getJob b.2.jobs i).remaining_aet ≤ (getJob a.2.jobs i).remaining_aet) bs := by
  refine ⟨make_decision_sameWork, arrivalsLoop_sameWork, handle_completion_sameWork,
    calculate_all_laxities_sameWork, select_sameWork, check_deadline_misses_sameWork,
    execute_running_job_work, ?_⟩
  obtain ⟨r, bs, hrun, -, hchain⟩ := run_with_boundaries H tasks aets jobs0 jobs hgen haet
  have hw : List.Chain' (fun a b : SubStep × SimulationState =>
      ∀ i, workStep b.1 a.2 b.2 i) bs := hchain.imp (fun _ _ h i => JobStep_work (h.1 i))
  refine ⟨r, bs, hrun, hw, ?_⟩
  apply chain_pairwise _ _ _ (hw.imp (fun _ _ h i => ⟨(h i).1, (h i).2.1⟩))
  intro a b c h1 h2 i
  exact ⟨le_trans (h2 i).1 (h1 i).1, le_trans (h2 i).2 (h1 i).2⟩

/-- Witness of C14: the run part on the scenario of section 8 (three generated
jobs, AET 2 each, hyperperiod 8). -/
theorem remaining_work_changes_only_by_execution_witness :
    generate_jobs 8 scenarioTasks = some scenarioGenerated
    ∧ read_actual_execution_times [2, 2, 2] scenarioGenerated = some scenarioJobs
    ∧ ∃ r bs, RunWithBoundaries 8 scenarioJobs r bs
        ∧ List.Chain' (fun a b => ∀ i, workStep b.1 a.2 b.2 i) bs
        ∧ List.Pairwise (fun a b => ∀ i,
            (getJob b.2.jobs i).remaining_wcet ≤ (getJob a.2.jobs i).remaining_wcet
            ∧ (getJob b.2.jobs i).remaining_aet ≤ (getJob a.2.jobs i).remaining_aet) bs :=
  ⟨by decide, by decide,
    (remaining_work_changes_only_by_execution 8 scenarioTasks [2, 2, 2] scenarioGenerated
      scenarioJobs (by decide) (by decide)).2.2.2.2.2.2.2⟩

/-- C15: in every run a job that is COMPLETED or MISSED at some boundary has the
same record at every later boundary, so its status, `remaining_wcet`,
`remaining_aet`, `first_start_time`, `last_start_time` and `finish_time` stay as
they are; and a MISSED job is at no boundary in the ready queue or in the
running slot. -/
theorem terminal_states_frozen (H : Int) (tasks : List Task) (aets : List Int)
    (jobs0 jobs : List Job) (hgen : generate_jobs H tasks = some jobs0)
    (haet : read_actual_execution_times aets jobs0 = some jobs) :
    ∃ r bs, RunWithBoundaries H jobs r bs
      ∧ List.Pairwise (fun a b => ∀ i, terminal (getJob a.2.jobs i) →
          getJob b.2.jobs i = getJob a.2.jobs i) bs
      ∧ ∀ b ∈ bs, ∀ i, (getJob b.2.jobs i).status = MISSED →
          i ∉ b.2.ready_queue ∧ b.2.running_job ≠ some i := by
  obtain ⟨r, bs, hrun, hall, hchain⟩ := run_with_boundaries H tasks aets jobs0 jobs hgen haet
  refine ⟨r, bs, hrun, ?_, ?_⟩
  · apply chain_pairwise _ _ _ (hchain.imp (fun _ _ h i ht => JobStep_frozen (h.1 i) ht))
    intro a b c h1 h2 i ht
    have hb := h1 i ht
    have hc := h2 i (by rw [hb]; exact ht)
    rw [hc, hb]
  · intro b hb i hm
    constructor
    · intro hq
      have h1 := ((hall b hb).2.1.1 i).mpr hq
      rw [hm] at h1
      cases h1
    · intro ho
      have h1 := ((hall b hb).2.1.2 i).mpr ho
      rw [hm] at h1
      cases h1

/-- Witness of C15: the scenario of section 8 (three generated jobs, AET 2 each,
hyperperiod 8). -/
theorem terminal_states_frozen_witness :
    generate_jobs 8 scenarioTasks = some scenarioGenerated
    ∧ read_actual_execution_times [2, 2, 2] scenarioGenerated = some scenarioJobs
    ∧ ∃ r bs, RunWithBoundaries 8 scenarioJobs r bs
      ∧ List.Pairwise (fun a b => ∀ i, terminal (getJob a.2.jobs i) →
          getJob b.2.jobs i = getJob a.2.jobs i) bs
      ∧ ∀ b ∈ bs, ∀ i, (getJob b.2.jobs i).status = MISSED →
          i ∉ b.2.ready_queue ∧ b.2.running_job ≠ some i :=
  ⟨by decide, by decide,
    terminal_states_frozen 8 scenarioTasks [2, 2, 2] scenarioGenerated scenarioJobs
      (by decide) (by decide)⟩

/-- C16: in every run, between any two consecutive sub-step boundaries the
status of every job stays as it is or changes by one of the legal transitions,
in the sub-step and under the condition that `legalChange` lists for it. -/
theorem legal_status_transitions (H : Int) (tasks : List Task) (aets : List Int)
    (jobs0 jobs : List Job) (hgen : generate_jobs H tasks = some jobs0)
    (haet : read_actual_execution_times aets jobs0 = some jobs) :
    ∃ r bs, RunWithBoundaries H jobs r bs
      ∧ List.Chain' (fun a b => ∀ i, legalChange b.1 a.2 b.2 i) bs := by
  obtain ⟨r, bs, hrun, -, hchain⟩ := run_with_boundaries H tasks aets jobs0 jobs hgen haet
  exact ⟨r, bs, hrun, hchain.imp (fun _ _ h i => JobStep_legal (h.1 i))⟩

/-- Witness of C16: the scenario of section 8 (three generated jobs, AET 2 each,
hyperperiod 8). -/
theorem legal_status_transitions_witness :
    generate_jobs 8 scenarioTasks = some scenarioGenerated
    ∧ read_actual_execution_times [2, 2, 2] scenarioGenerated = some scenarioJobs
    ∧ ∃ r bs, RunWithBoundaries 8 scenarioJobs r bs
      ∧ List.Chain' (fun a b => ∀ i, legalChange b.1 a.2 b.2 i) bs :=
  ⟨by decide, by decide,
    legal_status_transitions 8 scenarioTasks [2, 2, 2] scenarioGenerated scenarioJobs
      (by decide) (by decide)⟩

/-! ## The single-task scenario -/

theorem single_execute_idle (j : Job) (now lid q cj idle : Int) :
    tickExecute (singleState j none now lid q cj idle)
      = singleState j none (now + 1) lid q cj idle := by
  simp [tickExecute, execute_running_job, check_deadline_misses, checkRunningMiss,
    checkQueueMisses, singleState]

theorem single_execute_running (t : Task) (rem lax f l fin now lid q cj idle : Int)
    (hrem : 0 < rem) (hq : 0 < q) (hnow : now + 1 ≤ t.arrival_time + t.wcet) :
    tickExecute (singleState (singleJob t RUNNING rem lax f l fin) (some 0) now lid q cj idle)
      = singleState (singleJob t RUNNING (rem - 1) lax f l fin) (some 0) (now + 1) lid (q - 1)
          cj idle := by
  have hno : ¬ (t.arrival_time + t.wcet < now + 1) := by omega
  simp [tickExecute, execute_running_job, check_deadline_misses, checkRunningMiss,
    checkQueueMisses, singleState, singleJob, getJob, updJob, hrem, hq, hno]

theorem single_schedule_running (t : Task) (rem f l fin now lid q cj idle : Int)
    (hrem : 0 < rem) (hq : 0 < q) (hlax : t.arrival_time + t.wcet - now - rem = 0) :
    tickSchedule (singleState (singleJob t RUNNING rem 0 f l fin) (some 0) now lid q cj idle)
      = some (singleState (singleJob t RUNNING rem 0 f l fin) (some 0) now lid q cj idle) := by
  have h1 : ¬ rem ≤ 0 := by omega
  have h2 : ¬ q ≤ 0 := by omega
  simp [tickSchedule, arrivalsLoop, singleState, singleJob, getJob, completionDue,
    quantumExpired, rescheduleStep, calculate_all_laxities, updJob, h1, h2, hlax]

theorem single_schedule_completion (t : Task) (f l fin now lid cj idle : Int) :
    tickSchedule (singleState (singleJob t RUNNING 0 0 f l fin) (some 0) now lid 0 cj idle)
      = some (singleState (singleJob t COMPLETED 0 0 f l now) none now (-1) 0 (cj + 1)
          (idle + 1)) := by
  simp [tickSchedule, arrivalsLoop, singleState, singleJob, getJob, completionDue,
    quantumExpired, rescheduleStep, handle_completion, updJob, select_mllf_task_Ta,
    make_mllf_scheduling_decision, decisionBranches, contextSwitchCheck]

theorem single_schedule_done (t : Task) (rem lax f l fin now lid q cj idle : Int) :
    tickSchedule (singleState (singleJob t COMPLETED rem lax f l fin) none now lid q cj idle)
      = some (singleState (singleJob t COMPLETED rem lax f l fin) none now (-1) 0 cj
          (idle + 1)) := by
  simp [tickSchedule, arrivalsLoop, singleState, singleJob, getJob, completionDue,
    quantumExpired, rescheduleStep, select_mllf_task_Ta,
    make_mllf_scheduling_decision, decisionBranches, contextSwitchCheck]

theorem single_schedule_waiting (t : Task) (rem lax f l fin now lid q cj idle : Int)
    (hne : t.arrival_time ≠ now) :
    tickSchedule (singleState (singleJob t NOT_ARRIVED rem lax f l fin) none now lid q cj idle)
      = some (singleState (singleJob t NOT_ARRIVED rem lax f l fin) none now (-1) 0 cj
          (idle + 1)) := by
  simp [tickSchedule, arrivalsLoop, singleState, singleJob, getJob, completionDue,
    quantumExpired, rescheduleStep, select_mllf_task_Ta,
    make_mllf_scheduling_decision, decisionBranches, contextSwitchCheck, hne]

theorem single_schedule_arrival (t : Task) (q cj idle : Int) (hW : 0 < t.wcet)
    (hWle : t.wcet ≤ 2147483647) :
    tickSchedule (singleState (singleJob t NOT_ARRIVED t.wcet INT_MAX (-1) (-1) (-1)) none
        t.arrival_time (-1) q cj idle)
      = some (singleState (singleJob t RUNNING t.wcet 0 t.arrival_time t.arrival_time (-1))
          (some 0) t.arrival_time 0 t.wcet cj idle) := by
  rcases lt_or_eq_of_le hWle with hlt | heq
  · simp [tickSchedule, arrivalsLoop, singleState, singleJob, getJob, completionDue,
      quantumExpired, rescheduleStep, select_mllf_task_Ta, make_mllf_scheduling_decision,
      decisionBranches, contextSwitchCheck, add_job_to_ready_queue, setStatus, updJob, MAX_JOBS,
      calculate_all_laxities, laxityStep, selectMinLaxity, minLaxityStep, selectStep, tieBreak,
      startTa, remove_job_from_ready_queue, calculate_mllf_quantum,
      find_earliest_deadline_higher_laxity_job_deadline, tminStep, INT_MAX, NO_TASK_FOUND, hlt,
      hW, not_le.mpr hW, List.range_succ, List.range_zero]
  · simp [tickSchedule, arrivalsLoop, singleState, singleJob, getJob, completionDue,
      quantumExpired, rescheduleStep, select_mllf_task_Ta, make_mllf_scheduling_decision,
      decisionBranches, contextSwitchCheck, add_job_to_ready_queue, setStatus, updJob, MAX_JOBS,
      calculate_all_laxities, laxityStep, selectMinLaxity, minLaxityStep, selectStep, tieBreak,
      startTa, remove_job_from_ready_queue, calculate_mllf_quantum,
      find_earliest_deadline_higher_laxity_job_deadline, tminStep, INT_MAX, NO_TASK_FOUND, heq,
      List.range_succ, List.range_zero]

/-- One tick of the single-task run, from the closed form of the state at its
start to the closed form of the state at the start of the next tick, through
the closed form of the logged state. -/
theorem single_tick (t : Task) (hW : 0 < t.wcet) (hmax : t.arrival_time + t.wcet ≤ INT_MAX)
    (ha : 0 ≤ t.arrival_time) (now : Int) :
    tickSchedule (singleStart t now) = some (singleLogged t now)
    ∧ tickExecute (singleLogged t now) = singleStart t (now + 1) := by
  have hWle : t.wcet ≤ 2147483647 := by unfold INT_MAX at hmax; omega
  unfold singleStart singleLogged
  by_cases h1 : now < t.arrival_time
  · rw [if_pos (le_of_lt h1), if_pos h1, if_pos (by omega : now + 1 ≤ t.arrival_time)]
    exact ⟨single_schedule_waiting t _ _ _ _ _ now _ _ _ _ (by omega),
      single_execute_idle _ _ _ _ _ _⟩
  · rw [if_neg h1, if_neg (by omega : ¬ now + 1 ≤ t.arrival_time)]
    by_cases h2 : now = t.arrival_time
    · subst h2
      rw [if_pos (le_refl _), if_pos (by omega : t.arrival_time < t.arrival_time + t.wcet),
        if_pos (by omega : t.arrival_time + 1 ≤ t.arrival_time + t.wcet)]
      have e1 : t.arrival_time + t.wcet - t.arrival_time = t.wcet := by ring
      have e2 : t.arrival_time + t.wcet - (t.arrival_time + 1) = t.wcet - 1 := by ring
      rw [e1, e2]
      exact ⟨single_schedule_arrival t 0 0 t.arrival_time hW hWle,
        single_execute_running t _ _ _ _ _ t.arrival_time _ _ _ _ hW hW (by omega)⟩
    · rw [if_neg (by omega : ¬ now ≤ t.arrival_time)]
      by_cases h3 : now < t.arrival_time + t.wcet
      · rw [if_pos (le_of_lt h3), if_pos h3, if_pos (by omega : now + 1 ≤ t.arrival_time + t.wcet)]
        have e2 : t.arrival_time + t.wcet - (now + 1) = t.arrival_time + t.wcet - now - 1 := by
          ring
        rw [e2]
        exact ⟨single_schedule_running t _ _ _ _ now _ _ _ _ (by omega) (by omega) (by ring),
          single_execute_running t _ _ _ _ _ now _ _ _ _ (by omega) (by omega) (by omega)⟩
      · rw [if_neg h3, if_neg (by omega : ¬ now + 1 ≤ t.arrival_time + t.wcet)]
        have e3 : now + 1 - t.wcet = now - t.wcet + 1 := by ring
        rw [e3]
        refine ⟨?_, single_execute_idle _ _ _ _ _ _⟩
        by_cases h4 : now = t.arrival_time + t.wcet
        · rw [if_pos (le_of_eq h4)]
          have e4 : t.arrival_time + t.wcet - now = 0 := by omega
          have e5 : now - t.wcet + 1 = t.arrival_time + 1 := by omega
          rw [e4, e5, single_schedule_completion, h4]
          rfl
        · rw [if_neg (by omega : ¬ now ≤ t.arrival_time + t.wcet)]
          exact single_schedule_done t _ _ _ _ _ now _ _ _ _

theorem singleStart_time (t : Task) (now : Int) : (singleStart t now).current_time = now := by
  unfold singleStart
  split_ifs <;> rfl

/-- The job array that the pipeline hands to the simulation for a single task
whose relative deadline equals its WCET, with the AET equal to the WCET: one
job, in the closed form `singleJob`. -/
theorem single_pipeline (t : Task) (jobs0 jobs : List Job) (hD : t.deadline = t.wcet)
    (ha : 0 ≤ t.arrival_time) (haP : t.arrival_time < t.period)
    (hgen : generate_jobs t.period [t] = some jobs0)
    (haet : read_actual_execution_times [t.wcet] jobs0 = some jobs) :
    0 < t.wcet ∧ t.arrival_time + t.wcet ≤ INT_MAX
    ∧ jobs = [singleJob t NOT_ARRIVED t.wcet INT_MAX (-1) (-1) (-1)] := by
  unfold generate_jobs generateLoop at hgen
  unfold generateTaskJobs at hgen
  have hm : MAX_JOBS = 999 + 1 := rfl
  rw [hm] at hgen
  unfold generateTaskJobs at hgen
  have c1 : t.arrival_time + 0 * t.period < t.period := by omega
  have c2 : ¬ ([] : List Job).length ≥ 999 + 1 := by simp
  have c3 : ¬ t.period ≤ 0 := by omega
  have c4 : ¬ t.arrival_time + (0 + 1) * t.period < t.period := by
    have : (0 + 1) * t.period = t.period := by ring
    rw [this]; omega
  rw [if_pos c1, if_neg c2] at hgen
  by_cases hdl : t.arrival_time + 0 * t.period + t.deadline > INT_MAX
  · rw [if_pos hdl] at hgen
    simp at hgen
  · rw [if_neg hdl, if_neg c3, if_neg c4] at hgen
    simp only [generateLoop, Option.some.injEq] at hgen
    subst hgen
    simp only [List.nil_append, read_actual_execution_times] at haet
    split_ifs at haet with hw
    simp only [Option.some.injEq] at haet
    subst haet
    have hle : t.arrival_time + t.wcet ≤ INT_MAX := by
      rw [hD] at hdl
      omega
    refine ⟨by omega, hle, ?_⟩
    have e0 : t.arrival_time + 0 * t.period = t.arrival_time := by ring
    unfold newJob singleJob
    rw [e0, hD, castInt_of_range _ (by omega) (by omega), castInt_of_range _ (by omega) hle]
    rfl

/-- C17: for every single task with deadline equal to WCET, arrival `a` in
`[0, period)` and the AET of its job equal to the WCET `W`, the run over one
period returns; the processor has no occupant before tick `a`; at every logged
tick from `a` up to `a + W - 1` the one job is the occupant, its first and last
start time are `a`, and the remaining quantum equals its `remaining_aet`, which
is `a + W` minus the tick; from tick `a + W` on the job is COMPLETED; and the
run ends with `context_switches = 0` and `deadline_misses = 0`. -/
theorem single_task_run (t : Task) (jobs0 jobs : List Job) (hD : t.deadline = t.wcet)
    (ha : 0 ≤ t.arrival_time) (haP : t.arrival_time < t.period)
    (hgen : generate_jobs t.period [t] = some jobs0)
    (haet : read_actual_execution_times [t.wcet] jobs0 = some jobs) :
    jobs.length = 1
    ∧ ∃ r, run_mllf_simulation t.period jobs = some r
      ∧ r.1.context_switches = 0 ∧ r.1.deadline_misses = 0
      ∧ (r.2.length : Int) = t.period
      ∧ ∀ (n : Nat) (x : SimulationState), r.2[n]? = some x →
          x.current_time = (n : Int)
          ∧ ((n : Int) < t.arrival_time → x.running_job = none)
          ∧ (t.arrival_time ≤ (n : Int) → (n : Int) < t.arrival_time + t.wcet →
              x.running_job = some 0 ∧ (getJob x.jobs 0).status = RUNNING
              ∧ (getJob x.jobs 0).first_start_time = t.arrival_time
              ∧ (getJob x.jobs 0).last_start_time = t.arrival_time
              ∧ x.current_job_quantum_remaining = (getJob x.jobs 0).remaining_aet
              ∧ (getJob x.jobs 0).remaining_aet = t.arrival_time + t.wcet - (n : Int))
          ∧ (t.arrival_time + t.wcet ≤ (n : Int) →
              x.running_job = none ∧ (getJob x.jobs 0).status = COMPLETED
              ∧ (getJob x.jobs 0).finish_time = t.arrival_time + t.wcet) := by
  obtain ⟨hW, hmax, hjobs⟩ := single_pipeline t jobs0 jobs hD ha haP hgen haet
  subst hjobs
  refine ⟨rfl, ?_⟩
  have hinit : initialState [singleJob t NOT_ARRIVED t.wcet INT_MAX (-1) (-1) (-1)]
      = singleStart t ((0 : Nat) : Int) := by
    unfold singleStart
    rw [if_pos (by simpa using ha)]
    rfl
  obtain ⟨r, hr, ⟨n, hn, hs, htr⟩, hfin⟩ := simLoop_inv t.period
    (fun s tr => ∃ n : Nat, (n : Int) ≤ t.period ∧ s = singleStart t (n : Int)
      ∧ tr = (List.range n).map (fun k : Nat => singleLogged t (k : Int)))
    (by
      rintro s tr ⟨n, hn, hs, htr⟩ hlt
      subst hs
      rw [singleStart_time] at hlt
      obtain ⟨h1, h2⟩ := single_tick t hW hmax ha (n : Int)
      refine ⟨singleLogged t (n : Int), h1, ⟨n + 1, by push_cast; omega, ?_, ?_⟩, ?_⟩
      · rw [h2]; push_cast; rfl
      · rw [htr, List.range_succ, List.map_append]
        rfl
      · rw [h2, singleStart_time, singleStart_time])
    t.period.toNat (initialState [singleJob t NOT_ARRIVED t.wcet INT_MAX (-1) (-1) (-1)]) []
    ⟨0, by simp only [Nat.cast_zero]; omega, hinit, rfl⟩
    (by
      show t.period - 0 ≤ (t.period.toNat : Int)
      have := Int.self_le_toNat t.period
      omega)
  rw [hs, singleStart_time] at hfin
  have hnP : (n : Int) = t.period := by omega
  refine ⟨r, hr, ?_, ?_, ?_, ?_⟩
  · rw [hs]; unfold singleStart; split_ifs <;> rfl
  · rw [hs]; unfold singleStart; split_ifs <;> rfl
  · rw [htr, List.length_map, List.length_range]; exact hnP
  · intro k x hx
    rw [htr, List.getElem?_map] at hx
    have hk : k < n := by
      by_contra hge
      rw [List.getElem?_eq_none (by simpa using hge)] at hx
      cases hx
    rw [List.getElem?_range hk] at hx
    simp only [Option.map_some', Option.some.injEq] at hx
    subst hx
    unfold singleLogged
    refine ⟨by split_ifs <;> rfl, ?_, ?_, ?_⟩
    · intro h
      rw [if_pos h]; rfl
    · intro h1 h2
      rw [if_neg (by omega), if_pos h2]
      exact ⟨rfl, rfl, rfl, rfl, rfl, rfl⟩
    · intro h
      rw [if_neg (by omega), if_neg (by omega)]
      exact ⟨rfl, rfl, rfl⟩

/-- Witness of C17: the task with arrival 1, period 4, WCET 2 and deadline 2,
whose job runs in ticks 1 and 2 and is completed at tick 3. -/
theorem single_task_run_witness :
    soloTask.deadline = soloTask.wcet ∧ 0 ≤ soloTask.arrival_time
    ∧ soloTask.arrival_time < soloTask.period
    ∧ generate_jobs soloTask.period [soloTask] = some soloGenerated
    ∧ read_actual_execution_times [soloTask.wcet] soloGenerated = some soloJobs
    ∧ soloJobs.length = 1
    ∧ ∃ r, run_mllf_simulation soloTask.period soloJobs = some r
      ∧ r.1.context_switches = 0 ∧ r.1.deadline_misses = 0
      ∧ (r.2.length : Int) = soloTask.period
      ∧ ∀ (n : Nat) (x : SimulationState), r.2[n]? = some x →
          x.current_time = (n : Int)
          ∧ ((n : Int) < soloTask.arrival_time → x.running_job = none)
          ∧ (soloTask.arrival_time ≤ (n : Int) →
              (n : Int) < soloTask.arrival_time + soloTask.wcet →
              x.running_job = some 0 ∧ (getJob x.jobs 0).status = RUNNING
              ∧ (getJob x.jobs 0).first_start_time = soloTask.arrival_time
              ∧ (getJob x.jobs 0).last_start_time = soloTask.arrival_time
              ∧ x.current_job_quantum_remaining = (getJob x.jobs 0).remaining_aet
              ∧ (getJob x.jobs 0).remaining_aet
                  = soloTask.arrival_time + soloTask.wcet - (n : Int))
          ∧ (soloTask.arrival_time + soloTask.wcet ≤ (n : Int) →
              x.running_job = none ∧ (getJob x.jobs 0).status = COMPLETED
              ∧ (getJob x.jobs 0).finish_time = soloTask.arrival_time + soloTask.wcet) :=
  ⟨by decide, by decide, by decide, by decide, by decide,
    single_task_run soloTask soloGenerated soloJobs (by decide) (by decide) (by decide)
      (by decide) (by decide)⟩

/-! ## The hyperperiod -/

theorem gcdLoop_eq (fuel : Nat) : ∀ x y : Nat, y ≤ fuel →
    gcdLoop (fuel + 1) (x : Int) (y : Int) = some ((Nat.gcd x y : Nat) : Int) := by
  induction fuel with
  | zero =>
    intro x y hy
    have : y = 0 := by omega
    subst this
    simp [gcdLoop]
  | succ n ih =>
    intro x y hy
    rw [gcdLoop]
    by_cases h0 : y = 0
    · subst h0
      simp
    · have hne : ((y : Nat) : Int) ≠ 0 := by exact_mod_cast h0
      rw [if_pos hne, ← Int.ofNat_tmod]
      have hlt : x % y < y := Nat.mod_lt _ (Nat.pos_of_ne_zero h0)
      rw [ih y (x % y) (by omega)]
      congr 2
      rw [Nat.gcd_comm y (x % y), ← Nat.gcd_rec, Nat.gcd_comm]

theorem gcd_eq (x y : Nat) : gcd (x : Int) (y : Int) =
    some (if Nat.gcd x y = 0 then 1 else ((Nat.gcd x y : Nat) : Int)) := by
  have hx : ¬ ((x : Nat) : Int) < 0 := by omega
  have hy : ¬ ((y : Nat) : Int) < 0 := by omega
  unfold gcd
  simp only [hx, hy, if_false, Int.toNat_ofNat, gcdLoop_eq y x y (le_refl _)]
  by_cases h : Nat.gcd x y = 0
  · simp [h]
  · have : ((Nat.gcd x y : Nat) : Int) ≠ 0 := by exact_mod_cast h
    simp [h, this]

theorem div_mul_swap {g x y : Nat} (hg : 0 < g) (hx : g ∣ x) (hy : g ∣ y) :
    x / g * y = x * (y / g) := by
  obtain ⟨k, rfl⟩ := hx
  obtain ⟨m, rfl⟩ := hy
  rw [Nat.mul_div_cancel_left k hg, Nat.mul_div_cancel_left m hg]
  ring

theorem lcm_eq (x y : Nat) (hx : 0 < x) (hy : 0 < y) :
    lcm (x : Int) (y : Int) =
      some (if LLONG_MAX < ((Nat.lcm x y : Nat) : Int) then -1 else ((Nat.lcm x y : Nat) : Int)) := by
  have hg : 0 < Nat.gcd x y := Nat.gcd_pos_of_pos_left y hx
  have hgx : Nat.gcd x y ∣ x := Nat.gcd_dvd_left x y
  have hgy : Nat.gcd x y ∣ y := Nat.gcd_dvd_right x y
  have hc : 0 < y / Nat.gcd x y := Nat.div_pos (Nat.le_of_dvd hy hgy) hg
  have h1 : ¬ (((x : Nat) : Int) ≤ 0 ∨ ((y : Nat) : Int) ≤ 0) := by omega
  have hl1 : x * (y / Nat.gcd x y) = Nat.lcm x y := by
    rw [Nat.lcm, Nat.mul_div_assoc x hgy]
  have hl2 : x / Nat.gcd x y * y = Nat.lcm x y := by
    rw [← hl1]
    exact div_mul_swap hg hgx hgy
  have hg0 : ¬ Nat.gcd x y = 0 := by omega
  have hy0 : ((y : Nat) : Int) > 0 := by omega
  have hM : (0 : Int) ≤ LLONG_MAX := by decide
  have hcI : (0 : Int) < ((y / Nat.gcd x y : Nat) : Int) := by exact_mod_cast hc
  unfold lcm
  rw [if_neg h1, gcd_eq]
  simp only [hg0, if_false]
  rw [← Int.ofNat_tdiv, ← Int.ofNat_tdiv,
    Int.tdiv_eq_ediv hM (le_of_lt hcI)]
  have hiff : ((x : Nat) : Int) > LLONG_MAX / ((y / Nat.gcd x y : Nat) : Int) ↔
      LLONG_MAX < ((Nat.lcm x y : Nat) : Int) := by
    rw [gt_iff_lt, Int.ediv_lt_iff_lt_mul hcI, ← hl1]
    push_cast
    exact Iff.rfl
  by_cases hov : LLONG_MAX < ((Nat.lcm x y : Nat) : Int)
  · rw [if_pos ⟨hy0, hiff.mpr hov⟩, if_pos hov]
  · rw [if_neg (fun h => hov (hiff.mp h.2)), if_neg hov, ← hl2]
    push_cast
    rfl

theorem periodsLcm_cons (t : Task) (rest : List Task) :
    periodsLcm (t :: rest) = Nat.lcm t.period.toNat (periodsLcm rest) := rfl

theorem periodsLcm_pos : ∀ tasks : List Task, (∀ t ∈ tasks, 0 < t.period) →
    0 < periodsLcm tasks := by
  intro tasks
  induction tasks with
  | nil => intro _; simp [periodsLcm]
  | cons t rest ih =>
    intro hpos
    have hp : 0 < t.period := hpos t (List.mem_cons_self _ _)
    rw [periodsLcm_cons]
    exact Nat.lcm_pos (by omega) (ih (fun u hu => hpos u (List.mem_cons_of_mem _ hu)))

/-- Every period divides `periodsLcm`. -/
theorem periodsLcm_dvd : ∀ tasks : List Task, (∀ t ∈ tasks, 0 < t.period) →
    ∀ t ∈ tasks, t.period ∣ ((periodsLcm tasks : Nat) : Int) := by
  intro tasks
  induction tasks with
  | nil => intro _ t ht; cases ht
  | cons u rest ih =>
    intro hpos t ht
    rw [periodsLcm_cons]
    rcases List.mem_cons.mp ht with h | h
    · subst h
      have hp : 0 < t.period := hpos t (List.mem_cons_self _ _)
      have hpe : t.period = ((t.period.toNat : Nat) : Int) := by omega
      conv_lhs => rw [hpe]
      exact Int.natCast_dvd_natCast.mpr (Nat.dvd_lcm_left _ _)
    · exact dvd_trans (ih (fun v hv => hpos v (List.mem_cons_of_mem _ hv)) t h)
        (Int.natCast_dvd_natCast.mpr (Nat.dvd_lcm_right _ _))

/-- The number `periodsLcm` divides every common multiple of the periods. -/
theorem periodsLcm_least : ∀ tasks : List Task, (∀ t ∈ tasks, 0 < t.period) →
    ∀ m : Int, (∀ t ∈ tasks, t.period ∣ m) → ((periodsLcm tasks : Nat) : Int) ∣ m := by
  intro tasks
  induction tasks with
  | nil => intro _ m _; simp [periodsLcm]
  | cons u rest ih =>
    intro hpos m hm
    rw [periodsLcm_cons]
    have hp : 0 < u.period := hpos u (List.mem_cons_self _ _)
    have hpe : u.period = ((u.period.toNat : Nat) : Int) := by omega
    have h1 : ((u.period.toNat : Nat) : Int) ∣ m := by
      rw [← hpe]; exact hm u (List.mem_cons_self _ _)
    have h2 := ih (fun v hv => hpos v (List.mem_cons_of_mem _ hv)) m
      (fun v hv => hm v (List.mem_cons_of_mem _ hv))
    rw [Int.natCast_dvd] at h1 h2 ⊢
    exact Nat.lcm_dvd h1 h2

/-- The least common multiple of a prefix of the list divides that of the whole
list. -/
theorem periodsLcm_take : ∀ (tasks : List Task) (k : Nat),
    periodsLcm (tasks.take k) ∣ periodsLcm tasks := by
  intro tasks
  induction tasks with
  | nil => intro k; simp
  | cons u rest ih =>
    intro k
    cases k with
    | zero => simp [periodsLcm]
    | succ k =>
      rw [List.take_succ_cons, periodsLcm_cons, periodsLcm_cons]
      exact Nat.lcm_dvd (Nat.dvd_lcm_left _ _) (dvd_trans (ih k) (Nat.dvd_lcm_right _ _))

theorem hyperperiodLoop_eq : ∀ (rest : List Task) (r : Nat), 0 < r → (r : Int) ≤ LLONG_MAX →
    (∀ t ∈ rest, 0 < t.period) →
    hyperperiodLoop rest (r : Int) =
      some (if LLONG_MAX < ((Nat.lcm r (periodsLcm rest) : Nat) : Int) then -1
        else ((Nat.lcm r (periodsLcm rest) : Nat) : Int)) := by
  intro rest
  induction rest with
  | nil =>
    intro r hr hM _
    have : ¬ LLONG_MAX < (r : Int) := not_lt.mpr hM
    simp [hyperperiodLoop, periodsLcm, this]
  | cons t rest ih =>
    intro r hr hM hpos
    have hp : 0 < t.period := hpos t (List.mem_cons_self _ _)
    have hpn : 0 < t.period.toNat := by omega
    have hpe : t.period = ((t.period.toNat : Nat) : Int) := by omega
    have hL : periodsLcm (t :: rest) = Nat.lcm t.period.toNat (periodsLcm rest) := rfl
    have hdvd : Nat.lcm r t.period.toNat ∣ Nat.lcm r (periodsLcm (t :: rest)) := by
      rw [hL, ← Nat.lcm_assoc]
      exact Nat.dvd_lcm_left _ _
    have hLpos : 0 < Nat.lcm r (periodsLcm (t :: rest)) := by
      rw [hL, ← Nat.lcm_assoc]
      exact Nat.lcm_pos (Nat.lcm_pos hr hpn)
        (periodsLcm_pos rest (fun u hu => hpos u (List.mem_cons_of_mem _ hu)))
    rw [hyperperiodLoop, if_neg (not_le.mpr hp)]
    conv_lhs => rw [hpe]
    rw [lcm_eq r t.period.toNat hr hpn]
    by_cases hov : LLONG_MAX < ((Nat.lcm r t.period.toNat : Nat) : Int)
    · have hle : Nat.lcm r t.period.toNat ≤ Nat.lcm r (periodsLcm (t :: rest)) :=
        Nat.le_of_dvd hLpos hdvd
      have hov2 : LLONG_MAX < ((Nat.lcm r (periodsLcm (t :: rest)) : Nat) : Int) := by
        have : ((Nat.lcm r t.period.toNat : Nat) : Int) ≤
            ((Nat.lcm r (periodsLcm (t :: rest)) : Nat) : Int) := by exact_mod_cast hle
        omega
      simp [hov, hov2]
    · have hl0 : 0 < Nat.lcm r t.period.toNat := Nat.lcm_pos hr hpn
      have h1 : ¬ ((Nat.lcm r t.period.toNat : Nat) : Int) = -1 := by omega
      have h2 : ¬ (((Nat.lcm r t.period.toNat : Nat) : Int) ≤ 0
          ∧ ((Nat.lcm r t.period.toNat : Nat) : Int) ≠ -1) := by omega
      simp only [hov, if_false, h1, h2]
      rw [ih _ hl0 (not_lt.mp hov) (fun u hu => hpos u (List.mem_cons_of_mem _ hu)), hL,
        Nat.lcm_assoc]

theorem calculate_hyperperiod_eq (t : Task) (rest : List Task)
    (hpos : ∀ u ∈ t :: rest, 0 < u.period) (hM : t.period ≤ LLONG_MAX) :
    calculate_hyperperiod (t :: rest) =
      some (if LLONG_MAX < ((periodsLcm (t :: rest) : Nat) : Int) then -1
        else ((periodsLcm (t :: rest) : Nat) : Int)) := by
  have hp : 0 < t.period := hpos t (List.mem_cons_self _ _)
  have hpe : t.period = ((t.period.toNat : Nat) : Int) := by omega
  have hloop : calculate_hyperperiod (t :: rest) = hyperperiodLoop rest t.period := by
    cases rest with
    | nil => simp [calculate_hyperperiod, hyperperiodLoop, hp]
    | cons u rest => simp [calculate_hyperperiod, not_le.mpr hp]
  rw [hloop, periodsLcm_cons]
  conv_lhs => rw [hpe]
  exact hyperperiodLoop_eq rest t.period.toNat (by omega) (by omega)
    (fun u hu => hpos u (List.mem_cons_of_mem _ hu))

/-- C21: for a non-empty task list with positive `int` periods,
`calculate_hyperperiod` returns the least common multiple of all periods when it
does not exceed `LLONG_MAX` (the least common multiples of the prefixes divide
it, so none of them exceeds `LLONG_MAX` either), and -1 as soon as one of them
does; `lcm` itself returns the least common multiple of two positive numbers,
or -1 when it exceeds `LLONG_MAX`.  `periodsLcm` is the least common multiple:
it is positive, every period divides it, and it divides every common multiple.
A single task gives its period, and the periods 4 and 8 give 8. -/
theorem calculate_hyperperiod_lcm (tasks : List Task) (hne : tasks ≠ [])
    (hpos : ∀ t ∈ tasks, 0 < t.period) (hint : ∀ t ∈ tasks, t.period ≤ INT_MAX) :
    (((periodsLcm tasks : Nat) : Int) ≤ LLONG_MAX →
        calculate_hyperperiod tasks = some ((periodsLcm tasks : Nat) : Int))
    ∧ (LLONG_MAX < ((periodsLcm tasks : Nat) : Int) → calculate_hyperperiod tasks = some (-1))
    ∧ 0 < periodsLcm tasks
    ∧ (∀ t ∈ tasks, t.period ∣ ((periodsLcm tasks : Nat) : Int))
    ∧ (∀ m : Int, (∀ t ∈ tasks, t.period ∣ m) → ((periodsLcm tasks : Nat) : Int) ∣ m)
    ∧ (∀ k, periodsLcm (tasks.take k) ∣ periodsLcm tasks)
    ∧ (∀ a b : Nat, 0 < a → 0 < b →
        lcm (a : Int) (b : Int) =
          some (if LLONG_MAX < ((Nat.lcm a b : Nat) : Int) then -1 else ((Nat.lcm a b : Nat) : Int)))
    ∧ (∀ t : Task, 0 < t.period → calculate_hyperperiod [t] = some t.period)
    ∧ calculate_hyperperiod periodTasks = some 8
    ∧ calculate_hyperperiod overflowTasks = some (-1) := by
  cases tasks with
  | nil => exact absurd rfl hne
  | cons t rest =>
    have hM : t.period ≤ LLONG_MAX := by
      have := hint t (List.mem_cons_self _ _)
      have h2 : INT_MAX ≤ LLONG_MAX := by decide
      exact le_trans this h2
    have hmain := calculate_hyperperiod_eq t rest hpos hM
    refine ⟨?_, ?_, periodsLcm_pos _ hpos, periodsLcm_dvd _ hpos, periodsLcm_least _ hpos,
      periodsLcm_take _, lcm_eq, ?_, by decide, by decide⟩
    · intro h
      rw [hmain, if_neg (not_lt.mpr h)]
    · intro h
      rw [hmain, if_pos h]
    · intro u hu
      simp [calculate_hyperperiod, hu]

/-- Witness of C21: the periods 4 and 8. -/
theorem calculate_hyperperiod_lcm_witness :
    periodTasks ≠ [] ∧ (∀ t ∈ periodTasks, 0 < t.period)
    ∧ (∀ t ∈ periodTasks, t.period ≤ INT_MAX)
    ∧ periodsLcm periodTasks = 8
    ∧ calculate_hyperperiod periodTasks = some ((periodsLcm periodTasks : Nat) : Int) :=
  ⟨by decide, by decide, by decide, by decide,
    (calculate_hyperperiod_lcm periodTasks (by decide) (by decide) (by decide)).1 (by decide)⟩

/-! ## Reading the task file -/

theorem scanInt_of_range (v : Int) (h1 : INT_MIN ≤ v) (h2 : v ≤ INT_MAX) : scanInt v = v := by
  unfold scanInt castInt LLONG_MAX
  unfold INT_MIN at h1
  unfold INT_MAX at h2
  rw [min_eq_left (by omega), max_eq_right (by omega)]
  omega

/-- A numeral beyond the range of `int` is stored reduced: the line
`0 4294967300 1 4` gives a task of period 4. -/
theorem read_tasks_reduces_wide_numeral :
    read_tasks [Token.num 0, Token.num 4294967300, Token.num 1, Token.num 4]
      = some ([{ id := 0, arrival_time := 0, period := 4, wcet := 1, deadline := 4 }], false) := by
  decide

theorem readTasksLoop_full (file : List Token) (tasks : List Task)
    (h : MAX_TASKS ≤ tasks.length) : readTasksLoop file tasks = some (tasks, file) := by
  have hn : ¬ tasks.length < MAX_TASKS := by omega
  unfold readTasksLoop
  split <;> simp [hn]

theorem numberTasks_length : ∀ (ls : List Task) (n : Nat), (numberTasks n ls).length = ls.length := by
  intro ls
  induction ls with
  | nil => intro n; rfl
  | cons t rest ih => intro n; simp [numberTasks, ih]

theorem readTasksLoop_lines : ∀ (ls : List Task) (more : List Token) (tasks : List Task),
    (∀ t ∈ ls, validLine t) → tasks.length + ls.length ≤ MAX_TASKS →
    readTasksLoop (ls.flatMap lineTokens ++ more) tasks =
      readTasksLoop more (tasks ++ numberTasks tasks.length ls) := by
  intro ls
  induction ls with
  | nil => intro more tasks _ _; simp [numberTasks]
  | cons t rest ih =>
    intro more tasks hv hlen
    have hvt : validLine t := hv t (List.mem_cons_self _ _)
    obtain ⟨⟨h1, g1⟩, ⟨h2, g2⟩, ⟨h3, g3⟩, ⟨h4, g4⟩⟩ := hvt
    have hI : INT_MIN = -2147483648 := rfl
    have e1 := scanInt_of_range t.arrival_time (by omega) g1
    have e2 := scanInt_of_range t.period (by omega) g2
    have e3 := scanInt_of_range t.wcet (by omega) g3
    have e4 := scanInt_of_range t.deadline (by omega) g4
    have hlt : tasks.length < MAX_TASKS := by simp at hlen; omega
    have hbad : ¬ (t.period ≤ 0 ∨ t.wcet ≤ 0 ∨ t.deadline ≤ 0 ∨ t.arrival_time < 0) := by omega
    have hsplit : (t :: rest).flatMap lineTokens ++ more =
        Token.num t.arrival_time :: Token.num t.period :: Token.num t.wcet ::
          Token.num t.deadline :: (rest.flatMap lineTokens ++ more) := by
      simp [List.flatMap_cons, lineTokens]
    have hih := ih more (tasks ++ [({ t with id := (tasks.length : Int) } : Task)])
      (fun u hu => hv u (List.mem_cons_of_mem _ hu)) (by simp at hlen ⊢; omega)
    rw [hsplit, readTasksLoop, if_pos hlt, e1, e2, e3, e4, if_neg hbad, hih]
    simp [numberTasks]

/-- C24, refuted: with eleven valid lines in the task file `read_tasks` does
not return 0; it succeeds with the first ten tasks and writes the warning. -/
theorem read_tasks_truncates :
    (∀ t ∈ elevenLines, validLine t) ∧ elevenLines.length = 11 ∧ MAX_TASKS = 10
    ∧ read_tasks (elevenLines.flatMap lineTokens) ≠ none
    ∧ read_tasks (elevenLines.flatMap lineTokens)
        = some (numberTasks 0 (elevenLines.take 10), true) := by
  decide

/-- C24, as the code has it.  When the task file consists of valid lines, more
than `MAX_TASKS` of them, `read_tasks` succeeds with exactly the first
`MAX_TASKS` tasks, numbered in file order, so `task_count = MAX_TASKS`, and
writes the warning `MAX_TASKS reached`; whatever follows `MAX_TASKS` valid
lines is ignored, the warning being written when anything follows.  With at
most `MAX_TASKS` valid lines (at least one) and nothing else, all of them are
read and there is no warning. -/
theorem read_tasks_capacity (ls : List Task) (hv : ∀ t ∈ ls, validLine t) (hne : ls ≠ []) :
    read_tasks (ls.flatMap lineTokens)
      = some (numberTasks 0 (ls.take MAX_TASKS), decide (MAX_TASKS < ls.length))
    ∧ (ls.length = MAX_TASKS → ∀ more : List Token,
        read_tasks (ls.flatMap lineTokens ++ more)
          = some (numberTasks 0 ls, decide (more ≠ [])))
    ∧ (MAX_TASKS < ls.length → (numberTasks 0 (ls.take MAX_TASKS)).length = MAX_TASKS)
    ∧ (ls.length ≤ MAX_TASKS →
        read_tasks (ls.flatMap lineTokens) = some (numberTasks 0 ls, false)) := by
  have hfull : ∀ (l : List Task) (more : List Token), (∀ t ∈ l, validLine t) → l ≠ [] →
      (l.length = MAX_TASKS ∨ more = []) → l.length ≤ MAX_TASKS →
      read_tasks (l.flatMap lineTokens ++ more)
        = some (numberTasks 0 l, decide (l.length = MAX_TASKS ∧ more ≠ [])) := by
    intro l more hl hl0 hcase hle
    have h1 := readTasksLoop_lines l more [] hl (by simpa using hle)
    have h2 : readTasksLoop more ([] ++ numberTasks ([] : List Task).length l) =
        some (numberTasks 0 l, more) := by
      rcases hcase with h | h
      · exact readTasksLoop_full _ _ (by simp [numberTasks_length, h])
      · subst h; simp [readTasksLoop]
    have h3 : (numberTasks 0 l).length ≠ 0 := by
      rw [numberTasks_length]
      intro h0
      exact hl0 (List.length_eq_zero.mp h0)
    unfold read_tasks
    rw [h1, h2]
    rw [numberTasks_length] at h3
    simp only [numberTasks_length, if_neg h3]
  have hfirst : ∀ l : List Task, (∀ t ∈ l, validLine t) → l ≠ [] → l.length ≤ MAX_TASKS →
      read_tasks (l.flatMap lineTokens) = some (numberTasks 0 l, false) := by
    intro l hl hl0 hle
    have := hfull l [] hl hl0 (Or.inr rfl) hle
    rw [List.append_nil] at this
    rw [this]
    simp
  refine ⟨?_, ?_, ?_, hfirst ls hv hne⟩
  · rcases Nat.lt_or_ge MAX_TASKS ls.length with hgt | hle
    · have hsplit : ls.flatMap lineTokens =
          (ls.take MAX_TASKS).flatMap lineTokens ++ (ls.drop MAX_TASKS).flatMap lineTokens := by
        rw [← List.flatMap_append, List.take_append_drop]
      have hlen : (ls.take MAX_TASKS).length = MAX_TASKS := by
        rw [List.length_take]; omega
      have hmore : (ls.drop MAX_TASKS).flatMap lineTokens ≠ [] := by
        cases hd : ls.drop MAX_TASKS with
        | nil =>
          have := congrArg List.length hd
          rw [List.length_drop] at this
          simp at this
          omega
        | cons t rest => simp [List.flatMap_cons, lineTokens]
      rw [hsplit, hfull _ _ (fun t ht => hv t (List.mem_of_mem_take ht)) ?_ (Or.inl hlen)
        (le_of_eq hlen)]
      · simp [hlen, hmore, hgt]
      · intro h0
        rw [h0] at hlen
        exact absurd hlen (by decide)
    · rw [hfirst ls hv hne hle, List.take_of_length_le hle]
      have : ¬ MAX_TASKS < ls.length := by omega
      simp [this]
  · intro hlen more
    rw [hfull ls more hv hne (Or.inl hlen) (le_of_eq hlen)]
    simp [hlen]
  · intro hgt
    rw [numberTasks_length, List.length_take]
    omega

/-- Witness of C24: eleven valid lines. -/
theorem read_tasks_capacity_witness :
    (∀ t ∈ elevenLines, validLine t) ∧ elevenLines ≠ [] ∧ MAX_TASKS < elevenLines.length
    ∧ read_tasks (elevenLines.flatMap lineTokens)
        = some (numberTasks 0 (elevenLines.take MAX_TASKS), decide (MAX_TASKS < elevenLines.length)) :=
  ⟨by decide, by decide, by decide,
    (read_tasks_capacity elevenLines (by decide) (by decide)).1⟩

/-! ## The branches of the decision, as the specification words them -/

/-- The quantum of `ta` reads, of the job array, only its length, the laxity,
deadline and remaining actual time of the jobs, and the status of the jobs
other than `ta`. -/
theorem calculate_mllf_quantum_congr (s s1 : SimulationState) (ta : Nat)
    (hlen : s1.jobs.length = s.jobs.length)
    (h : ∀ i, (getJob s1.jobs i).calculated_laxity = (getJob s.jobs i).calculated_laxity
      ∧ (getJob s1.jobs i).absolute_deadline = (getJob s.jobs i).absolute_deadline
      ∧ (getJob s1.jobs i).remaining_aet = (getJob s.jobs i).remaining_aet
      ∧ (i ≠ ta → (getJob s1.jobs i).status = (getJob s.jobs i).status)) :
    calculate_mllf_quantum s1 (some ta) = calculate_mllf_quantum s (some ta) := by
  have hstep : tminStep s1.jobs ta = tminStep s.jobs ta := by
    funext acc i
    unfold tminStep
    by_cases hi : i = ta
    · rw [if_pos hi, if_pos hi]
    · rw [if_neg hi, if_neg hi, (h i).1, (h i).2.1, (h i).2.2.2 hi, (h ta).1]
  have hfind : find_earliest_deadline_higher_laxity_job_deadline s1 (some ta)
      = find_earliest_deadline_higher_laxity_job_deadline s (some ta) := by
    simp only [find_earliest_deadline_higher_laxity_job_deadline, hstep, hlen]
  unfold calculate_mllf_quantum
  simp only [hfind, (h ta).1, (h ta).2.1, (h ta).2.2.1]

/-- The quantum computed inside the dispatch sequence is the quantum of `ta` in
the state the sequence starts from. -/
theorem startTa_quantum (s : SimulationState) (ta : Nat) :
    (startTa s ta).current_job_quantum_remaining = calculate_mllf_quantum s (some ta) := by
  rw [startTa_eq]
  apply calculate_mllf_quantum_congr
  · exact setStatus_length _ _ _
  · intro i
    refine ⟨?_, ?_, ?_, ?_⟩
    · show (getJob (setStatus s.jobs ta RUNNING) i).calculated_laxity = _
      rw [getJob_setStatus]; split_ifs <;> simp_all
    · show (getJob (setStatus s.jobs ta RUNNING) i).absolute_deadline = _
      rw [getJob_setStatus]; split_ifs <;> simp_all
    · show (getJob (setStatus s.jobs ta RUNNING) i).remaining_aet = _
      rw [getJob_setStatus]; split_ifs <;> simp_all
    · intro hi
      show (getJob (setStatus s.jobs ta RUNNING) i).status = _
      rw [getJob_setStatus]
      rw [if_neg (fun hh => hi hh.1)]

/-- C26: idle dispatch.  With an empty running slot and a candidate `ta` that
points into the job array, `make_mllf_scheduling_decision` makes `ta` the
occupant with status RUNNING, takes its first entry out of the ready queue (the
other entries keep their order; when the queue holds no job twice this is the
queue without `ta`), sets the remaining quantum to `calculate_mllf_quantum` of
`ta`, sets `first_start_time` to the current time only if it was -1, sets
`last_start_time` to the current time and leaves `idle_time` alone; no other
job record changes, and the closing block records the job_id of `ta`.  With no
candidate the slot stays empty, `idle_time` grows by exactly 1 and the quantum
becomes 0. -/
theorem idle_dispatch (s : SimulationState) (hidle : s.running_job = none) :
    (∀ ta, ta < s.jobs.length →
      ∃ s1, make_mllf_scheduling_decision s (some ta) = some s1
        ∧ s1.running_job = some ta
        ∧ (getJob s1.jobs ta).status = RUNNING
        ∧ s1.ready_queue = s.ready_queue.erase ta
        ∧ (s.ready_queue.Nodup →
            ta ∉ s1.ready_queue ∧ s1.ready_queue = s.ready_queue.filter (fun i => decide (i ≠ ta)))
        ∧ s1.current_job_quantum_remaining = calculate_mllf_quantum s (some ta)
        ∧ (getJob s1.jobs ta).first_start_time
            = (if (getJob s.jobs ta).first_start_time = -1 then s.current_time
               else (getJob s.jobs ta).first_start_time)
        ∧ (getJob s1.jobs ta).last_start_time = s.current_time
        ∧ s1.idle_time = s.idle_time
        ∧ getJob s1.jobs ta = startRecord s.current_time (getJob s.jobs ta)
        ∧ (∀ i, i ≠ ta → getJob s1.jobs i = getJob s.jobs i)
        ∧ s1.jobs.length = s.jobs.length
        ∧ s1.current_time = s.current_time
        ∧ s1.deadline_misses = s.deadline_misses
        ∧ s1.completed_jobs = s.completed_jobs
        ∧ s1.last_running_job_id = (getJob s.jobs ta).job_id
        ∧ s1.context_switches = s.context_switches
            + (if (getJob s.jobs ta).job_id ≠ s.last_running_job_id
                  ∧ (getJob s.jobs ta).job_id ≠ -1 ∧ s.last_running_job_id ≠ -1 then 1 else 0))
    ∧ make_mllf_scheduling_decision s none
        = some { s with
            idle_time := s.idle_time + 1
            current_job_quantum_remaining := 0
            last_running_job_id := -1 } := by
  constructor
  · intro ta hta
    have hrec : getJob (startTa s ta).jobs ta = startRecord s.current_time (getJob s.jobs ta) := by
      rw [getJob_startTa, if_pos ⟨rfl, hta⟩]
    have hocc : occupantId (startTa s ta) = (getJob s.jobs ta).job_id := by
      show (getJob (startTa s ta).jobs ta).job_id = _
      rw [hrec]; rfl
    refine ⟨contextSwitchCheck (startTa s ta), ?_, ?_⟩
    · rw [make_decision_eq, decisionBranches_idle_start s ta hidle]; rfl
    · rw [contextSwitchCheck_eq]
      refine ⟨rfl, ?_, rfl, ?_, startTa_quantum s ta, ?_, ?_, rfl, hrec, ?_, startTa_length s ta,
        rfl, rfl, rfl, hocc, ?_⟩
      · show (getJob (startTa s ta).jobs ta).status = RUNNING
        rw [hrec]; rfl
      · intro hnd
        show ta ∉ s.ready_queue.erase ta ∧ s.ready_queue.erase ta = _
        refine ⟨fun h => ?_, ?_⟩
        · exact (List.Nodup.mem_erase_iff hnd).mp h |>.1 rfl
        · rw [List.Nodup.erase_eq_filter hnd]
          apply List.filter_congr
          intro x _
          by_cases hx : x = ta <;> simp [hx]
      · show (getJob (startTa s ta).jobs ta).first_start_time = _
        rw [hrec]; rfl
      · show (getJob (startTa s ta).jobs ta).last_start_time = _
        rw [hrec]; rfl
      · intro i hi
        show getJob (startTa s ta).jobs i = _
        rw [getJob_startTa, if_neg (fun h => hi h.1)]
      · show (if occupantId (startTa s ta) ≠ (startTa s ta).last_running_job_id
              ∧ occupantId (startTa s ta) ≠ -1 ∧ (startTa s ta).last_running_job_id ≠ -1
            then (startTa s ta).context_switches + 1 else (startTa s ta).context_switches) = _
        rw [hocc]
        have h1 : (startTa s ta).last_running_job_id = s.last_running_job_id := rfl
        have h2 : (startTa s ta).context_switches = s.context_switches := rfl
        rw [h1, h2]
        split_ifs <;> simp
  · rw [make_decision_eq, decisionBranches_idle_none s hidle]
    show some (contextSwitchCheck _) = _
    rw [contextSwitchCheck_eq]
    simp [occupantId, hidle]

/-- Witness of C26: the two queued jobs of `tieState`; job 0 is dispatched. -/
theorem idle_dispatch_witness :
    tieState.running_job = none ∧ (0 : Nat) ∈ tieState.ready_queue
    ∧ (∃ s1, make_mllf_scheduling_decision tieState (some 0) = some s1
        ∧ s1.running_job = some 0 ∧ s1.ready_queue = [1]
        ∧ s1.current_job_quantum_remaining = calculate_mllf_quantum tieState (some 0)) := by
  refine ⟨by decide, by decide, ?_⟩
  obtain ⟨s1, h1, h2, _, h4, _, h6, _⟩ := (idle_dispatch tieState (by decide)).1 0 (by decide)
  exact ⟨s1, h1, h2, h4, h6⟩

/-- C28: continue and quantum renewal.  When the candidate is the occupant `r`
and `last_running_job_id` is the job_id of `r`, `make_mllf_scheduling_decision`
returns the state it was given (same job records, hence the same statuses and
start times, same ready queue, occupant, counters and `last_running_job_id`),
except that the remaining quantum is replaced by `calculate_mllf_quantum` of
`r` exactly when it is `≤ 0` and `remaining_aet > 0`; no context switch is
counted. -/
theorem continue_or_renew (s : SimulationState) (r : Nat) (hrun : s.running_job = some r)
    (hlast : s.last_running_job_id = (getJob s.jobs r).job_id) :
    make_mllf_scheduling_decision s (some r)
      = some { s with
          current_job_quantum_remaining :=
            if s.current_job_quantum_remaining ≤ 0 ∧ (getJob s.jobs r).remaining_aet > 0
            then calculate_mllf_quantum s (some r) else s.current_job_quantum_remaining } := by
  obtain ⟨jobs, rq, rj, now, last, q, cs, dm, cj, idle⟩ := s
  simp only at hrun hlast
  subst hrun
  rw [make_decision_eq, decisionBranches_continue _ r rfl]
  by_cases h : q ≤ 0 ∧ (getJob jobs r).remaining_aet > 0
  · simp only [h, and_self, if_true, Option.map_some', contextSwitchCheck_eq, occupantId, hlast]
    simp
  · simp only [h, if_false, Option.map_some', contextSwitchCheck_eq, occupantId, hlast]
    simp

/-- Witness of C28: in `quantumState` the occupant, job 0, is the candidate and
its quantum has run out, so the quantum is renewed. -/
theorem continue_or_renew_witness :
    quantumState.running_job = some 0
    ∧ quantumState.last_running_job_id = (getJob quantumState.jobs 0).job_id
    ∧ make_mllf_scheduling_decision quantumState (some 0)
        = some { quantumState with
            current_job_quantum_remaining := calculate_mllf_quantum quantumState (some 0) } :=
  ⟨by decide, by decide, continue_or_renew quantumState 0 (by decide) (by decide)⟩

/-- C27: preemption is re-queue followed by idle dispatch.  For a state whose
occupant `r` points into the job array and is not in the ready queue, and whose
queue has room for it, the state that `make_mllf_scheduling_decision` produces
for a candidate `ta ≠ r` is the state it produces, through its idle-dispatch
case, from the state in which `r` has been set to READY, appended at the end of
the ready queue and taken out of the running slot; re-queueing leaves every
field of `r` other than the status alone, and touches no other job. -/
theorem preemption_is_requeue_then_dispatch (s : SimulationState) (r ta : Nat)
    (hrun : s.running_job = some r) (hne : ta ≠ r) (hr : r < s.jobs.length)
    (hnq : r ∉ s.ready_queue) (hcap : s.ready_queue.length < MAX_JOBS) :
    make_mllf_scheduling_decision s (some ta)
      = make_mllf_scheduling_decision (requeueOccupant s r) (some ta)
    ∧ (requeueOccupant s r).running_job = none
    ∧ make_mllf_scheduling_decision (requeueOccupant s r) (some ta)
        = some (contextSwitchCheck (startTa (requeueOccupant s r) ta))
    ∧ getJob (requeueOccupant s r).jobs r = { getJob s.jobs r with status := READY }
    ∧ (getJob (requeueOccupant s r).jobs r).remaining_wcet = (getJob s.jobs r).remaining_wcet
    ∧ (getJob (requeueOccupant s r).jobs r).remaining_aet = (getJob s.jobs r).remaining_aet
    ∧ (∀ i, i ≠ r → getJob (requeueOccupant s r).jobs i = getJob s.jobs i)
    ∧ (requeueOccupant s r).ready_queue = s.ready_queue ++ [r] := by
  have hrec : getJob (setStatus s.jobs r READY) r = { getJob s.jobs r with status := READY } := by
    rw [getJob_setStatus, if_pos ⟨rfl, hr⟩]
  have hidle : make_mllf_scheduling_decision (requeueOccupant s r) (some ta)
      = some (contextSwitchCheck (startTa (requeueOccupant s r) ta)) := by
    rw [make_decision_eq, decisionBranches_idle_start _ ta rfl]; rfl
  refine ⟨?_, rfl, hidle, hrec, ?_, ?_, ?_, rfl⟩
  · have hadd : add_job_to_ready_queue { s with jobs := setStatus s.jobs r READY } r
        = some { s with jobs := setStatus s.jobs r READY, ready_queue := s.ready_queue ++ [r] } := by
      unfold add_job_to_ready_queue
      have h1 : ¬ (getJob (setStatus s.jobs r READY) r).status ≠ READY := by
        rw [hrec]; simp
      simp only [h1, if_false, hnq, hcap, if_true]
    rw [hidle, make_decision_eq, decisionBranches_preempt s r ta hrun hne, hadd]
    rfl
  · show (getJob (setStatus s.jobs r READY) r).remaining_wcet = _
    rw [hrec]
  · show (getJob (setStatus s.jobs r READY) r).remaining_aet = _
    rw [hrec]
  · intro i hi
    show getJob (setStatus s.jobs r READY) i = _
    rw [getJob_setStatus, if_neg (fun h => hi h.1)]

/-- Witness of C27: in `quantumState` job 0 runs and job 2 is queued. -/
theorem preemption_is_requeue_then_dispatch_witness :
    quantumState.running_job = some 0 ∧ (2 : Nat) ≠ 0 ∧ (2 : Nat) ∈ quantumState.ready_queue
    ∧ 0 < quantumState.jobs.length ∧ (0 : Nat) ∉ quantumState.ready_queue
    ∧ quantumState.ready_queue.length < MAX_JOBS
    ∧ make_mllf_scheduling_decision quantumState (some 2)
        = make_mllf_scheduling_decision (requeueOccupant quantumState 0) (some 2) :=
  ⟨by decide, by decide, by decide, by decide, by decide, by decide,
    (preemption_is_requeue_then_dispatch quantumState 0 2 (by decide) (by decide) (by decide)
      (by decide) (by decide)).1⟩

/-- C30, refuted: the occupant of `negativeWorkState` has status RUNNING,
`remaining_wcet = -1` and a remaining quantum of -1; `execute_running_job`
leaves both at -1, where `max (x - 1) 0` is 0. -/
theorem execute_running_job_keeps_negative :
    negativeWorkState.running_job = some 0
    ∧ (getJob negativeWorkState.jobs 0).status = RUNNING
    ∧ (getJob (execute_running_job negativeWorkState).jobs 0).remaining_wcet = -1
    ∧ (getJob (execute_running_job negativeWorkState).jobs 0).remaining_wcet
        ≠ max ((getJob negativeWorkState.jobs 0).remaining_wcet - 1) 0
    ∧ (execute_running_job negativeWorkState).current_job_quantum_remaining = -1
    ∧ (execute_running_job negativeWorkState).current_job_quantum_remaining
        ≠ max (negativeWorkState.current_job_quantum_remaining - 1) 0 := by
  decide

/-- C30, as the code has it: for a state whose occupant `r` has status RUNNING,
`execute_running_job` takes one off each of `remaining_aet`, `remaining_wcet`
and the remaining quantum that is positive and leaves the others as they are;
so each of the three becomes `max (x - 1) 0` when it was `≥ 0` and keeps its
value when it was negative.  No other field of the occupant, no other job and
no other state field changes.  With no occupant nothing changes. -/
theorem execute_running_job_effect (s : SimulationState) :
    (∀ r, s.running_job = some r → (getJob s.jobs r).status = RUNNING →
      getJob (execute_running_job s).jobs r = executeRecord (getJob s.jobs r)
      ∧ (0 ≤ (getJob s.jobs r).remaining_aet →
          (getJob (execute_running_job s).jobs r).remaining_aet
            = max ((getJob s.jobs r).remaining_aet - 1) 0)
      ∧ (0 ≤ (getJob s.jobs r).remaining_wcet →
          (getJob (execute_running_job s).jobs r).remaining_wcet
            = max ((getJob s.jobs r).remaining_wcet - 1) 0)
      ∧ (0 ≤ s.current_job_quantum_remaining →
          (execute_running_job s).current_job_quantum_remaining
            = max (s.current_job_quantum_remaining - 1) 0)
      ∧ ((getJob s.jobs r).remaining_aet < 0 →
          (getJob (execute_running_job s).jobs r).remaining_aet = (getJob s.jobs r).remaining_aet)
      ∧ ((getJob s.jobs r).remaining_wcet < 0 →
          (getJob (execute_running_job s).jobs r).remaining_wcet
            = (getJob s.jobs r).remaining_wcet)
      ∧ (s.current_job_quantum_remaining < 0 →
          (execute_running_job s).current_job_quantum_remaining
            = s.current_job_quantum_remaining)
      ∧ (∀ i, i ≠ r → getJob (execute_running_job s).jobs i = getJob s.jobs i)
      ∧ (execute_running_job s).jobs.length = s.jobs.length
      ∧ (execute_running_job s).ready_queue = s.ready_queue
      ∧ (execute_running_job s).running_job = s.running_job
      ∧ (execute_running_job s).current_time = s.current_time
      ∧ (execute_running_job s).last_running_job_id = s.last_running_job_id
      ∧ (execute_running_job s).context_switches = s.context_switches
      ∧ (execute_running_job s).deadline_misses = s.deadline_misses
      ∧ (execute_running_job s).completed_jobs = s.completed_jobs
      ∧ (execute_running_job s).idle_time = s.idle_time)
    ∧ (s.running_job = none → execute_running_job s = s) := by
  constructor
  · intro r hrun hst
    have hrec : getJob (execute_running_job s).jobs r = executeRecord (getJob s.jobs r) := by
      rw [getJob_execute_running_job, if_pos ⟨hrun, hst⟩]
    have hq : (execute_running_job s).current_job_quantum_remaining
        = if s.current_job_quantum_remaining > 0 then s.current_job_quantum_remaining - 1
          else s.current_job_quantum_remaining := by
      unfold execute_running_job
      simp only [hrun, hst, if_true]
    obtain ⟨f1, f2, f3, f4, f5, f6, f7, f8⟩ := execute_running_job_frame s
    refine ⟨hrec, ?_, ?_, ?_, ?_, ?_, ?_, ?_, execute_running_job_length s,
      f1, f2, f3, f4, f5, f6, f7, f8⟩
    · intro h
      rw [hrec]
      show (if (getJob s.jobs r).remaining_aet > 0 then (getJob s.jobs r).remaining_aet - 1
        else (getJob s.jobs r).remaining_aet) = _
      split_ifs with h1
      · rw [max_eq_left (by omega)]
      · rw [max_eq_right (by omega)]; omega
    · intro h
      rw [hrec]
      show (if (getJob s.jobs r).remaining_wcet > 0 then (getJob s.jobs r).remaining_wcet - 1
        else (getJob s.jobs r).remaining_wcet) = _
      split_ifs with h1
      · rw [max_eq_left (by omega)]
      · rw [max_eq_right (by omega)]; omega
    · intro h
      rw [hq]
      split_ifs with h1
      · rw [max_eq_left (by omega)]
      · rw [max_eq_right (by omega)]; omega
    · intro h
      rw [hrec]
      show (if (getJob s.jobs r).remaining_aet > 0 then (getJob s.jobs r).remaining_aet - 1
        else (getJob s.jobs r).remaining_aet) = _
      rw [if_neg (by omega)]
    · intro h
      rw [hrec]
      show (if (getJob s.jobs r).remaining_wcet > 0 then (getJob s.jobs r).remaining_wcet - 1
        else (getJob s.jobs r).remaining_wcet) = _
      rw [if_neg (by omega)]
    · intro h
      rw [hq, if_neg (by omega)]
    · intro i hi
      rw [getJob_execute_running_job, if_neg]
      rintro ⟨h, _⟩
      rw [hrun] at h
      exact hi (Option.some.inj h).symm
  · intro h
    unfold execute_running_job
    rw [h]

/-- Witness of C30: the occupant of `quantumState`, job 0, has two units of
work left; one unit of execution leaves one. -/
theorem execute_running_job_effect_witness :
    quantumState.running_job = some 0 ∧ (getJob quantumState.jobs 0).status = RUNNING
    ∧ 0 ≤ (getJob quantumState.jobs 0).remaining_aet
    ∧ (getJob (execute_running_job quantumState).jobs 0).remaining_aet
        = max ((getJob quantumState.jobs 0).remaining_aet - 1) 0 :=
  ⟨by decide, by decide, by decide,
    ((execute_running_job_effect quantumState).1 0 (by decide) (by decide)).2.1 (by decide)⟩

/-! ## Induction over the sub-step boundaries -/

/-- The boundaries of a tick are those of `tickList`. -/
theorem tickBoundaries_eq (s s1 : SimulationState) (req1 : Bool) (s5 : SimulationState)
    (ha : arrivalsLoop (List.range s.jobs.length) s false = some (s1, req1))
    (hr : rescheduleStep (completionStep s1) (rescheduleFlag s1 req1) = some s5) :
    tickBoundaries s = some (tickExecute s5, tickList s1 req1 s5) ∧ tickSchedule s = some s5 := by
  constructor
  · unfold tickBoundaries
    rw [ha]
    simp only
    have hr2 : rescheduleStep (if completionDue s1 = true then handle_completion s1 else s1)
        ((req1 || completionDue s1)
          || quantumExpired (if completionDue s1 = true then handle_completion s1 else s1))
        = some s5 := hr
    rw [hr2]
    rfl
  · unfold tickSchedule
    rw [ha]
    exact hr

theorem handle_completion_wf (s : SimulationState) (hwf : WF s) :
    WF (handle_completion s) ∧ (handle_completion s).jobs.length = s.jobs.length
    ∧ (handle_completion s).current_time = s.current_time := by
  unfold handle_completion
  rcases Option.eq_none_or_eq_some s.running_job with hr | ⟨r, hr⟩
  · rw [hr]; exact ⟨hwf, rfl, rfl⟩
  · rw [hr]
    simp only
    split_ifs
    · refine ⟨⟨hwf.1, ?_, ?_, ?_⟩, (by simp only [updJob_length]), rfl⟩
      · intro i hi
        simp only [updJob_length]
        exact hwf.2.1 i hi
      · intro r1 hr1; cases hr1
      · simp only [updJob_length]
        exact hwf.2.2.2
    · exact ⟨hwf, rfl, rfl⟩

theorem completionStep_wf (s : SimulationState) (hwf : WF s) :
    WF (completionStep s) ∧ (completionStep s).jobs.length = s.jobs.length
    ∧ (completionStep s).current_time = s.current_time := by
  unfold completionStep
  split_ifs
  · exact handle_completion_wf s hwf
  · exact ⟨hwf, rfl, rfl⟩

theorem arrival_wf (s : SimulationState) (hwf : WF s) :
    ∃ s1 req1, arrivalsLoop (List.range s.jobs.length) s false = some (s1, req1)
      ∧ WF s1 ∧ s1.jobs.length = s.jobs.length ∧ s1.current_time = s.current_time := by
  obtain ⟨jobs1, q, req1, ha, hwf1, hlen1, -, -⟩ :=
    arrivalsLoop_spec (List.range s.jobs.length) s false hwf (fun i hi => List.mem_range.mp hi)
  exact ⟨_, req1, ha, hwf1, hlen1, rfl⟩

/-- One tick on a well-formed state: no step aborts, and every boundary state
is well-formed, has the job array of the same size, and carries the time of
the tick, the last one that time plus one. -/
theorem tick_wf (s : SimulationState) (hwf : WF s) :
    ∃ s1 req1 s5, arrivalsLoop (List.range s.jobs.length) s false = some (s1, req1)
      ∧ rescheduleStep (completionStep s1) (rescheduleFlag s1 req1) = some s5
      ∧ (∀ b ∈ tickList s1 req1 s5, WF b.2 ∧ b.2.jobs.length = s.jobs.length
          ∧ (b.1 ≠ advance → b.2.current_time = s.current_time)
          ∧ (b.1 = advance → b.2.current_time = s.current_time + 1)) := by
  obtain ⟨s1, req1, ha, hwf1, hl1, ht1⟩ := arrival_wf s hwf
  obtain ⟨hwf2, hlen2, ht2⟩ := completionStep_wf s1 hwf1
  obtain ⟨s5, he5, hwf5, ht5, -⟩ := rescheduleStep_idle _ (rescheduleFlag s1 req1) hwf2
  obtain ⟨s5a, he5a, hlen5, -⟩ := rescheduleStep_switch _ (rescheduleFlag s1 req1) hwf2
  rw [he5] at he5a
  rw [← Option.some.inj he5a] at hlen5
  obtain ⟨w3, -, -, t3, -, -, -, -, -, -, l3, -⟩ := select_wf _ hwf2
  obtain ⟨e1, e2, e3, -⟩ := execute_running_job_frame s5
  have hwf6 := execute_running_job_wf s5 hwf5
  obtain ⟨c0, c1, -, -, -, -, c6, -⟩ := check_deadline_misses_frame _ hwf6
  obtain ⟨g0, g1, -, -, -, -, g6, -⟩ := tickExecute_frame s5 hwf5
  have hl2 := hlen2.trans hl1
  have hl5 := hlen5.trans hl2
  have hT2 := ht2.trans ht1
  have hT5 := ht5.trans hT2
  refine ⟨s1, req1, s5, ha, he5, ?_⟩
  intro b hb
  simp only [tickList, List.mem_cons, List.mem_singleton, List.not_mem_nil, or_false] at hb
  rcases hb with rfl | rfl | rfl | rfl | rfl | rfl | rfl
  · exact ⟨hwf1, hl1, fun _ => ht1, fun h => by simp at h⟩
  · exact ⟨hwf2, hl2, fun _ => hT2, fun h => by simp at h⟩
  · dsimp only
    split_ifs
    · exact ⟨w3, l3.trans hl2, fun _ => t3.trans hT2, fun h => by simp at h⟩
    · exact ⟨hwf5, hl5, fun _ => hT5, fun h => by simp at h⟩
  · exact ⟨hwf5, hl5, fun _ => hT5, fun h => by simp at h⟩
  · exact ⟨hwf6, (execute_running_job_length s5).trans hl5, fun _ => e3.trans hT5,
      fun h => by simp at h⟩
  · exact ⟨c0, c6.trans ((execute_running_job_length s5).trans hl5),
      fun _ => c1.trans (e3.trans hT5), fun h => by simp at h⟩
  · exact ⟨g0, g6.trans hl5, fun h => absurd rfl h, fun _ => by rw [g1, hT5]⟩

/-- Induction over the boundaries of a run: when `I` holds of the state at the
start of a tick and every tick below the horizon, started in a state with `I`,
does not abort, ends in a state with `I` and passes only boundaries with `Q`,
then the loop returns and every boundary it adds has `Q`. -/
theorem boundaryLoop_inv (H : Int) (I : SimulationState → Prop)
    (Q : SubStep × SimulationState → Prop)
    (hstep : ∀ s, I s → s.current_time < H →
      ∃ s8 l, tickBoundaries s = some (s8, l) ∧ I s8
        ∧ s8.current_time = s.current_time + 1 ∧ ∀ b ∈ l, Q b) :
    ∀ (fuel : Nat) (s : SimulationState) (acc : List (SubStep × SimulationState)),
      I s → H - s.current_time ≤ fuel → (∀ b ∈ acc, Q b) →
      ∃ bs, boundaryLoop H fuel s acc = some bs ∧ ∀ b ∈ bs, Q b := by
  intro fuel
  induction fuel with
  | zero =>
    intro s acc _ hf hacc
    have hnot : ¬ s.current_time < H := by
      simp only [Nat.cast_zero] at hf
      omega
    refine ⟨acc, ?_, hacc⟩
    unfold boundaryLoop; rw [if_neg hnot]
  | succ n ih =>
    intro s acc hI hf hacc
    by_cases hlt : s.current_time < H
    · obtain ⟨s8, l, htb, hI8, ht8, hl⟩ := hstep s hI hlt
      obtain ⟨bs, hbs, hall⟩ := ih s8 (acc ++ l) hI8 (by rw [ht8]; push_cast at hf; omega)
        (by
          intro b hb
          rcases List.mem_append.mp hb with hb | hb
          · exact hacc b hb
          · exact hl b hb)
      refine ⟨bs, ?_, hall⟩
      unfold boundaryLoop
      rw [if_pos hlt, htb]
      exact hbs
    · refine ⟨acc, ?_, hacc⟩
      unfold boundaryLoop; rw [if_neg hlt]

/-- C23: ready-queue overflow is unreachable.  In every run over a job array of
at most `MAX_JOBS` jobs, the run returns (no abort), and at every sub-step
boundary the ready queue holds at most `job_count` entries, hence at most
`MAX_JOBS`, the job array keeping its size; in such a state (the queue holds no
job twice and only jobs of the array) `add_job_to_ready_queue` never takes its
abort branch. -/
theorem ready_queue_never_overflows (H : Int) (jobs : List Job) (hcap : jobs.length ≤ MAX_JOBS) :
    (∃ r, run_mllf_simulation H jobs = some r
      ∧ r.1.ready_queue.length ≤ r.1.jobs.length
      ∧ ∀ x ∈ r.2, x.ready_queue.length ≤ x.jobs.length)
    ∧ (∃ bs, run_boundaries H jobs = some bs
      ∧ ∀ b ∈ bs, WF b.2 ∧ b.2.jobs.length = jobs.length
          ∧ b.2.ready_queue.length ≤ b.2.jobs.length ∧ b.2.ready_queue.length ≤ MAX_JOBS)
    ∧ (∀ (s : SimulationState) (job : Nat), WF s → job < s.jobs.length →
        add_job_to_ready_queue s job ≠ none) := by
  have hfuel : H - (initialState jobs).current_time ≤ (H.toNat : Int) := by
    show H - 0 ≤ (H.toNat : Int)
    have := Int.self_le_toNat H
    omega
  have hq : ∀ s : SimulationState, WF s → s.ready_queue.length ≤ s.jobs.length :=
    fun s hwf => nodup_length_le hwf.1 hwf.2.1
  refine ⟨?_, ?_, ?_⟩
  · obtain ⟨r, hr, ⟨hwf, hall⟩, -⟩ := simLoop_inv H
      (fun s tr => WF s ∧ ∀ x ∈ tr, WF x)
      (by
        rintro s tr ⟨hwf, hall⟩ _
        obtain ⟨s5, he, hwf5, ht5, -⟩ := tickSchedule_idle s hwf
        obtain ⟨g0, g1, -⟩ := tickExecute_frame s5 hwf5
        refine ⟨s5, he, ⟨g0, ?_⟩, by rw [g1, ht5]⟩
        intro x hx
        rcases List.mem_append.mp hx with hx | hx
        · exact hall x hx
        · rw [List.mem_singleton.mp hx]; exact hwf5)
      H.toNat (initialState jobs) [] ⟨initialState_wf jobs hcap, by simp⟩ hfuel
    exact ⟨r, hr, hq _ hwf, fun x hx => hq _ (hall x hx)⟩
  · have hmain := boundaryLoop_inv H (fun s => WF s ∧ s.jobs.length = jobs.length)
      (fun b => WF b.2 ∧ b.2.jobs.length = jobs.length)
      (by
        rintro s ⟨hwf, hlen⟩ _
        obtain ⟨s1, req1, s5, ha, hr, hall⟩ := tick_wf s hwf
        obtain ⟨htb, -⟩ := tickBoundaries_eq s s1 req1 s5 ha hr
        have h8 := hall (advance, tickExecute s5) (by simp [tickList])
        refine ⟨_, _, htb, ⟨h8.1, h8.2.1.trans hlen⟩, h8.2.2.2 rfl, ?_⟩
        intro b hb
        exact ⟨(hall b hb).1, (hall b hb).2.1.trans hlen⟩)
      H.toNat (initialState jobs) [(start, initialState jobs)]
      ⟨initialState_wf jobs hcap, rfl⟩ hfuel
      (by
        intro b hb
        rw [List.mem_singleton.mp hb]
        exact ⟨initialState_wf jobs hcap, rfl⟩)
    obtain ⟨bs, hbs, hall⟩ := hmain
    refine ⟨bs, hbs, fun b hb => ⟨(hall b hb).1, (hall b hb).2, hq _ (hall b hb).1, ?_⟩⟩
    exact le_trans (hq _ (hall b hb).1) (hall b hb).1.2.2.2
  · intro s job hwf hjob
    obtain ⟨q, he, -⟩ := add_job_to_ready_queue_some s job hwf hjob
    rw [he]
    exact Option.some_ne_none _

/-- Witness of C23: the three jobs of the scenario of section 8. -/
theorem ready_queue_never_overflows_witness :
    scenarioJobs.length ≤ MAX_JOBS
    ∧ ∃ bs, run_boundaries 8 scenarioJobs = some bs
      ∧ ∀ b ∈ bs, WF b.2 ∧ b.2.jobs.length = scenarioJobs.length
          ∧ b.2.ready_queue.length ≤ b.2.jobs.length ∧ b.2.ready_queue.length ≤ MAX_JOBS :=
  ⟨by decide, (ready_queue_never_overflows 8 scenarioJobs (by decide)).2.1⟩

/-! ## The selector finds a candidate whenever the processor is busy -/

/-- No sub-step writes `job_id`, `arrival_time` or `absolute_deadline`, and
`remaining_wcet` does not grow and does not fall below 0. -/
theorem JobStep_static {lbl : SubStep} {x y : SimulationState} {i : Nat}
    (h : JobStep lbl x y i) :
    (getJob y.jobs i).job_id = (getJob x.jobs i).job_id
    ∧ (getJob y.jobs i).arrival_time = (getJob x.jobs i).arrival_time
    ∧ (getJob y.jobs i).absolute_deadline = (getJob x.jobs i).absolute_deadline
    ∧ (getJob y.jobs i).remaining_wcet ≤ (getJob x.jobs i).remaining_wcet
    ∧ (0 ≤ (getJob x.jobs i).remaining_wcet → 0 ≤ (getJob y.jobs i).remaining_wcet) := by
  rcases h with h | ⟨-, -, -, h⟩ | ⟨-, -, -, -, h⟩ | ⟨-, -, h⟩ | ⟨-, -, -, h⟩
    | ⟨-, -, -, -, -, h⟩ | ⟨-, -, -, h⟩ | ⟨-, -, -, -, h⟩
  case inr.inr.inr.inr.inr.inr.inl =>
    rw [h]
    refine ⟨rfl, rfl, rfl, ?_, ?_⟩
    · show (if (getJob x.jobs i).remaining_wcet > 0 then (getJob x.jobs i).remaining_wcet - 1
        else (getJob x.jobs i).remaining_wcet) ≤ _
      split_ifs <;> omega
    · intro h0
      show 0 ≤ (if (getJob x.jobs i).remaining_wcet > 0 then (getJob x.jobs i).remaining_wcet - 1
        else (getJob x.jobs i).remaining_wcet)
      split_ifs <;> omega
  all_goals
    rw [h]
    exact ⟨rfl, rfl, rfl, le_refl _, fun h0 => h0⟩

theorem StaticInv_step {a b : SubStep × SimulationState} (hab : BoundaryStep a b)
    (ha : StaticInv a.2) : StaticInv b.2 := by
  intro i hi
  rw [hab.2] at hi
  obtain ⟨h1, h2, h3, h4⟩ := ha i hi
  obtain ⟨g1, -, g3, g4, g5⟩ := JobStep_static (hab.1 i)
  exact ⟨g1.trans h1, g5 h2, le_trans g4 h3, by rw [g3]; exact h4⟩

/-- A property that holds at the head of a chain and is carried over by the
relation of the chain holds at every element. -/
theorem chain_forall {α : Type} (R : α → α → Prop) (P : α → Prop)
    (hstep : ∀ a b, R a b → P a → P b) :
    ∀ (l : List α), List.Chain' R l → (∀ a, l.head? = some a → P a) → ∀ b ∈ l, P b := by
  intro l
  induction l with
  | nil => intro _ _ b hb; cases hb
  | cons x t ih =>
    intro hc hh b hb
    have hx : P x := hh x rfl
    rcases List.mem_cons.mp hb with hb | hb
    · rw [hb]; exact hx
    · refine ih hc.tail ?_ b hb
      intro a ha
      exact hstep x a (hc.rel_head? ha) hx

theorem generateTaskJobs_ids (H : Int) (t : Task) :
    ∀ (fuel : Nat) (k : Int) (jobs res : List Job),
      generateTaskJobs H t fuel k jobs = some res →
      (∀ i, i < jobs.length → (getJob jobs i).job_id = (i : Int)) →
      ∀ i, i < res.length → (getJob res i).job_id = (i : Int) := by
  intro fuel
  induction fuel with
  | zero => intro k jobs res h; simp [generateTaskJobs] at h
  | succ n ih =>
    intro k jobs res h hall
    unfold generateTaskJobs at h
    split_ifs at h with h1 h2 h3 h4
    · refine ih _ _ _ h ?_
      intro i hi
      rw [List.length_append, List.length_singleton] at hi
      unfold getJob
      by_cases hlt : i < jobs.length
      · rw [List.getD_append _ _ _ _ hlt]
        exact hall i hlt
      · have heq : i = jobs.length := by omega
        rw [List.getD_append_right _ _ _ _ (by omega), heq]
        simp [newJob]
    · cases h
      exact hall

theorem generateLoop_ids (H : Int) :
    ∀ (tasks : List Task) (jobs res : List Job),
      generateLoop H tasks jobs = some res →
      (∀ i, i < jobs.length → (getJob jobs i).job_id = (i : Int)) →
      ∀ i, i < res.length → (getJob res i).job_id = (i : Int) := by
  intro tasks
  induction tasks with
  | nil =>
    intro jobs res h hall
    simp only [generateLoop, Option.some.injEq] at h
    subst h
    exact hall
  | cons t rest ih =>
    intro jobs res h hall
    unfold generateLoop at h
    cases hg : generateTaskJobs H t (MAX_JOBS + 1) 0 jobs with
    | none => rw [hg] at h; cases h
    | some jobs1 =>
      rw [hg] at h
      exact ih jobs1 res h (generateTaskJobs_ids H t _ _ _ _ hg hall)

/-- A property of the generated job records that may depend on the task. -/
theorem generateLoop_forall_mem (P : Job → Prop) (H : Int) :
    ∀ (tasks : List Task) (jobs res : List Job),
      (∀ t ∈ tasks, ∀ id k a, P (newJob id t k a)) →
      generateLoop H tasks jobs = some res → (∀ j ∈ jobs, P j) → ∀ j ∈ res, P j := by
  intro tasks
  induction tasks with
  | nil =>
    intro jobs res _ h hall
    simp only [generateLoop, Option.some.injEq] at h
    subst h
    exact hall
  | cons t rest ih =>
    intro jobs res hnew h hall
    unfold generateLoop at h
    cases hg : generateTaskJobs H t (MAX_JOBS + 1) 0 jobs with
    | none => rw [hg] at h; cases h
    | some jobs1 =>
      rw [hg] at h
      exact ih jobs1 res (fun u hu => hnew u (List.mem_cons_of_mem _ hu)) h
        (generateTaskJobs_forall P H t (hnew t (List.mem_cons_self _ _)) _ _ _ _ hg hall)

/-- Reading the actual execution times writes `aet` and `remaining_aet` of
every job and nothing else. -/
theorem read_actual_execution_times_getJob :
    ∀ (jobs : List Job) (aets : List Int) (res : List Job),
      read_actual_execution_times aets jobs = some res →
      ∀ i, i < jobs.length →
        ∃ a, getJob res i = { getJob jobs i with aet := a, remaining_aet := a } := by
  intro jobs
  induction jobs with
  | nil => intro aets res _ i hi; cases hi
  | cons j0 js ih =>
    intro aets res h i hi
    cases aets with
    | nil => simp [read_actual_execution_times] at h
    | cons a rest =>
      unfold read_actual_execution_times at h
      split_ifs at h with ha
      cases hr : read_actual_execution_times rest js with
      | none => rw [hr] at h; cases h
      | some js1 =>
        rw [hr] at h
        simp only [Option.some.injEq] at h
        subst h
        cases i with
        | zero => exact ⟨a, rfl⟩
        | succ i =>
          rw [getJob_cons_succ, getJob_cons_succ]
          exact ih rest js1 hr i (by simpa using hi)

/-- The jobs handed to the simulation satisfy `StaticInv` when the worst-case
times of the tasks are non-negative `int` values. -/
theorem pipeline_static (H : Int) (tasks : List Task) (aets : List Int)
    (jobs0 jobs : List Job) (hgen : generate_jobs H tasks = some jobs0)
    (haet : read_actual_execution_times aets jobs0 = some jobs)
    (hw : ∀ t ∈ tasks, 0 ≤ t.wcet ∧ t.wcet ≤ INT_MAX) :
    StaticInv (initialState jobs) := by
  have hlen : jobs.length = jobs0.length :=
    (read_actual_execution_times_inv aets jobs0 jobs haet).1
  have hids := generateLoop_ids H tasks [] jobs0 hgen (fun i hi => by cases hi)
  have hP := generateLoop_forall_mem
    (fun j => 0 ≤ j.remaining_wcet ∧ j.remaining_wcet ≤ INT_MAX ∧ j.absolute_deadline ≤ INT_MAX) H
    tasks [] jobs0
    (by
      intro t ht id k a
      refine ⟨(hw t ht).1, (hw t ht).2, ?_⟩
      show castInt (a + t.deadline) ≤ INT_MAX
      unfold castInt INT_MAX
      omega)
    hgen (fun j hj => by cases hj)
  intro i hi
  have hi0 : i < jobs0.length := by rw [← hlen]; exact hi
  obtain ⟨a, ha⟩ := read_actual_execution_times_getJob jobs0 aets jobs haet i hi0
  have hrec : getJob (initialState jobs).jobs i
      = { getJob jobs0 i with aet := a, remaining_aet := a } := ha
  rw [hrec]
  exact ⟨hids i hi0, hP (getJob jobs0 i) (getJob_mem hi0)⟩

/-- The clock never shows a negative time. -/
theorem run_boundaries_time (H : Int) (jobs : List Job) (hcap : jobs.length ≤ MAX_JOBS) :
    ∃ bs, run_boundaries H jobs = some bs ∧ ∀ b ∈ bs, 0 ≤ b.2.current_time := by
  refine boundaryLoop_inv H (fun s => WF s ∧ 0 ≤ s.current_time)
    (fun b => 0 ≤ b.2.current_time) ?_ H.toNat (initialState jobs) [(start, initialState jobs)]
    ⟨initialState_wf jobs hcap, le_refl _⟩ ?_ ?_
  · rintro s ⟨hwf, ht⟩ _
    obtain ⟨s1, req1, s5, ha, hr, hall⟩ := tick_wf s hwf
    obtain ⟨htb, -⟩ := tickBoundaries_eq s s1 req1 s5 ha hr
    have h8 := hall (advance, tickExecute s5) (by simp [tickList])
    have ht8 := h8.2.2.2 rfl
    refine ⟨_, _, htb, ⟨h8.1, by rw [ht8]; omega⟩, ht8, ?_⟩
    intro b hb
    by_cases hl : b.1 = advance
    · rw [(hall b hb).2.2.2 hl]; omega
    · rw [(hall b hb).2.2.1 hl]; exact ht
  · show H - 0 ≤ (H.toNat : Int)
    have := Int.self_le_toNat H
    omega
  · intro b hb
    rw [List.mem_singleton.mp hb]
    exact le_refl _

/-- On a state of a run with an occupant, the selector returns a candidate. -/
theorem select_some_of_busy (s : SimulationState) (hinv : RunInv s) (hst : StaticInv s)
    (ht : 0 ≤ s.current_time) (hbusy : s.running_job ≠ none) :
    (select_mllf_task_Ta s).2 ≠ none := by
  obtain ⟨hwf, hsi, -⟩ := hinv
  rcases Option.eq_none_or_eq_some s.running_job with hr | ⟨r, hr⟩
  · exact absurd hr hbusy
  have hrlt : r < s.jobs.length := hwf.2.2.1 r hr
  have helig : ∀ i, isEligible s i → i < s.jobs.length := by
    intro i hi
    rcases hi with hi | ⟨hi, -⟩
    · exact hwf.2.1 i hi
    · exact hwf.2.2.1 i hi
  obtain ⟨m, acc, hsel, hmin, hatt, hsi1, -⟩ := select_inv s
    (fun i hi => (hsi.1 i).mpr hi)
    (by
      intro i j hi hj hij
      rw [(hst i hi).1, (hst j hj).1]
      exact_mod_cast hij)
    (fun i hi => (hst i (helig i hi)).2.2.1)
    (by rintro ⟨-, h⟩; exact hbusy h)
  rw [hsel]
  intro hnone
  obtain ⟨-, hno⟩ := hsi1 hnone
  have her : isEligible s r := Or.inr ⟨hr, (hsi.2 r).mpr hr⟩
  rcases hatt with hm | ⟨i, hi, hlax⟩
  · have h1 := hmin r her
    obtain ⟨-, h2, -, h4⟩ := hst r hrlt
    have h3 : laxityNow s r ≤ INT_MAX := by
      unfold laxityNow
      omega
    exact hno r her ⟨her, by omega⟩
  · exact hno i hi ⟨hi, hlax⟩

/-- C22: the branch "busy, no candidate" is unreachable.  In every run (jobs
from `generate_jobs` and `read_actual_execution_times`, the worst-case times of
the tasks being non-negative `int` values), at every sub-step boundary at which
the processor has an occupant, and so at every point at which step 4 calls the
selector and `make_mllf_scheduling_decision` with an occupant,
`select_mllf_task_Ta` returns a candidate; the decision is then not the
branch for an occupant without a candidate. -/
theorem busy_no_candidate_unreachable (H : Int) (tasks : List Task) (aets : List Int)
    (jobs0 jobs : List Job) (hgen : generate_jobs H tasks = some jobs0)
    (haet : read_actual_execution_times aets jobs0 = some jobs)
    (hw : ∀ t ∈ tasks, 0 ≤ t.wcet ∧ t.wcet ≤ INT_MAX) :
    ∃ r bs, RunWithBoundaries H jobs r bs
      ∧ (∀ b ∈ bs, b.2.running_job ≠ none → (select_mllf_task_Ta b.2).2 ≠ none)
      ∧ (∀ b ∈ bs, (select_mllf_task_Ta b.2).1.running_job ≠ none →
          ∃ ta, (select_mllf_task_Ta b.2).2 = some ta) := by
  obtain ⟨r, bs, hrun, hall, hchain⟩ := run_with_boundaries H tasks aets jobs0 jobs hgen haet
  have hinit := pipeline_InitialJobs H tasks aets jobs0 jobs hgen haet
  obtain ⟨bs1, hbs1, htime⟩ := run_boundaries_time H jobs hinit.1
  rw [hrun.2.1] at hbs1
  cases hbs1
  have hstat : ∀ b ∈ bs, StaticInv b.2 := by
    refine chain_forall BoundaryStep (fun b => StaticInv b.2)
      (fun a b hab ha => StaticInv_step hab ha) bs hchain ?_
    intro a ha
    rw [hrun.2.2.1] at ha
    cases ha
    exact pipeline_static H tasks aets jobs0 jobs hgen haet hw
  have hmain : ∀ b ∈ bs, b.2.running_job ≠ none → (select_mllf_task_Ta b.2).2 ≠ none :=
    fun b hb hbusy => select_some_of_busy b.2 (hall b hb) (hstat b hb) (htime b hb) hbusy
  refine ⟨r, bs, hrun, hmain, ?_⟩
  intro b hb hbusy
  rw [(select_wf b.2 (hall b hb).1).2.2.1] at hbusy
  have := hmain b hb hbusy
  cases hc : (select_mllf_task_Ta b.2).2 with
  | none => exact absurd hc this
  | some ta => exact ⟨ta, rfl⟩

/-- Witness of C22: the scenario of section 8. -/
theorem busy_no_candidate_unreachable_witness :
    generate_jobs 8 scenarioTasks = some scenarioGenerated
    ∧ read_actual_execution_times [2, 2, 2] scenarioGenerated = some scenarioJobs
    ∧ (∀ t ∈ scenarioTasks, 0 ≤ t.wcet ∧ t.wcet ≤ INT_MAX)
    ∧ ∃ r bs, RunWithBoundaries 8 scenarioJobs r bs
      ∧ (∀ b ∈ bs, b.2.running_job ≠ none → (select_mllf_task_Ta b.2).2 ≠ none) := by
  refine ⟨by decide, by decide, by decide, ?_⟩
  obtain ⟨r, bs, h1, h2, -⟩ := busy_no_candidate_unreachable 8 scenarioTasks [2, 2, 2]
    scenarioGenerated scenarioJobs (by decide) (by decide) (by decide)
  exact ⟨r, bs, h1, h2⟩

/-! ## The facts of one tick -/

/-- After the decision the occupant has work left. -/
theorem decision_OccPos (s3 s5 : SimulationState) (h3 : RunInv s3) (o3 : OccPos s3)
    (h5 : RunInv s5) (hstep : ∀ i, JobStep decision s3 s5 i) : OccPos s5 := by
  intro r hr
  have hrun : (getJob s5.jobs r).status = RUNNING := (h5.2.1.2 r).mpr hr
  rcases hstep r with h | ⟨hl, -⟩ | ⟨hl, -⟩ | ⟨hl, -⟩ | ⟨-, hrd, -, h⟩
    | ⟨-, -, -, -, -, h⟩ | ⟨hl, -⟩ | ⟨hl, -⟩
  · rw [h] at hrun ⊢
    exact o3 r ((h3.2.1.2 r).mp hrun)
  · cases hl
  · cases hl
  · cases hl
  · rw [h]
    have hlt : r < s3.jobs.length := lt_of_status_ne (by rw [hrd]; simp)
    have := (h3.2.2.2.1 r hlt).2 (Or.inr hrd)
    show 0 < (getJob s3.jobs r).remaining_aet
    omega
  · rw [h] at hrun
    cases hrun
  · cases hl
  · cases hl

/-- One tick started in a state of a run. -/
theorem tick_facts (s : SimulationState) (h : RunInv s) :
    ∃ s1 req1 s5, TickFacts s s1 req1 s5 := by
  obtain ⟨s1, req1, he1, hinv1, hst1, ht1, hl1⟩ := arrival_step s h
  obtain ⟨hinv2, hst2, ho2, ht2, hl2⟩ : RunInv (completionStep s1)
      ∧ (∀ i, JobStep completion s1 (completionStep s1) i) ∧ OccPos (completionStep s1)
      ∧ (completionStep s1).current_time = s1.current_time
      ∧ (completionStep s1).jobs.length = s1.jobs.length := completion_step s1 hinv1
  obtain ⟨s5, he5, hinv3, hst3, hinv5, hst5, hl3, hl5⟩ := reschedule_step
    (completionStep s1) (rescheduleFlag s1 req1) hinv2 ho2
  obtain ⟨hinv6, hst6⟩ := execution_step s5 hinv5
  obtain ⟨hinv7, hst7⟩ := deadline_step (execute_running_job s5) hinv6
  obtain ⟨hinv8, -⟩ := advance_step (check_deadline_misses (execute_running_job s5)) hinv7
  obtain ⟨s5a, he5a, -, ht5, -⟩ := rescheduleStep_idle (completionStep s1)
    (rescheduleFlag s1 req1) hinv2.1
  rw [he5] at he5a
  rw [← Option.some.inj he5a] at ht5
  have hT2 : (completionStep s1).current_time = s.current_time := ht2.trans ht1
  have hL2 : (completionStep s1).jobs.length = s.jobs.length := hl2.trans hl1
  have hsel : selectionState s1 req1 s5 = (select_mllf_task_Ta (completionStep s1)).1
      ∨ (selectionState s1 req1 s5 = s5 ∧ s5 = calculate_all_laxities (completionStep s1)) := by
    unfold selectionState
    by_cases hc : rescheduleTaken s1 req1
    · left; rw [if_pos hc]
    · right
      rw [if_neg hc]
      refine ⟨rfl, ?_⟩
      have hne : (completionStep s1).running_job ≠ none := fun hn => hc (Or.inr hn)
      rcases Option.eq_none_or_eq_some (completionStep s1).running_job with hr | ⟨r, hr⟩
      · exact absurd hr hne
      · have he := he5
        have hc2 : ¬ (rescheduleFlag s1 req1 = true ∨ (completionStep s1).running_job = none) := hc
        unfold rescheduleStep at he
        rw [if_neg hc2, hr] at he
        exact (Option.some.inj he).symm
  have ho3 : OccPos (selectionState s1 req1 s5) := by
    rcases hsel with hs | ⟨hs, hcalc⟩
    · rw [hs]; exact (select_step _ hinv2 ho2).2.2
    · rw [hs, hcalc]; exact (laxity_step _ hinv2).2.2 ho2
  have hT3 : (selectionState s1 req1 s5).current_time = s.current_time := by
    rcases hsel with hs | ⟨hs, -⟩
    · rw [hs, (select_wf _ hinv2.1).2.2.2.1]; exact hT2
    · rw [hs, ht5]; exact hT2
  refine ⟨s1, req1, s5, ?_⟩
  refine
    { arr := he1, res := he5, inv1 := hinv1, step1 := hst1, time1 := ht1, inv2 := hinv2,
      occ2 := ho2, step2 := hst2, time2 := hT2, inv3 := hinv3, occ3 := ho3, step3 := hst3,
      time3 := hT3, inv5 := hinv5, occ5 := decision_OccPos _ _ hinv3 ho3 hinv5 hst5,
      step5 := hst5, time5 := ht5.trans hT2, inv6 := hinv6, step6 := hst6, inv7 := hinv7,
      step7 := hst7, inv8 := hinv8,
      time8 := (tickExecute_frame s5 hinv5.1).2.1.trans (by rw [ht5, hT2]),
      len := ?_ }
  intro b hb
  simp only [tickList, List.mem_cons, List.mem_singleton, List.not_mem_nil, or_false] at hb
  have hL5 : s5.jobs.length = s.jobs.length := hl5.trans hL2
  rcases hb with rfl | rfl | rfl | rfl | rfl | rfl | rfl
  · exact hl1
  · exact hL2
  · exact hl3.trans hL2
  · exact hL5
  · exact (execute_running_job_length s5).trans hL5
  · exact ((check_deadline_misses_frame _ hinv6.1).2.2.2.2.2.2.1).trans
      ((execute_running_job_length s5).trans hL5)
  · exact ((tickExecute_frame s5 hinv5.1).2.2.2.2.2.2.1).trans hL5

/-- Induction over the boundaries of a run from initial jobs: a property `I` of
the state at the start of a tick and a property `Q` of the labelled boundaries
hold throughout when they hold at the start and every tick carries them
over. -/
theorem run_boundaries_inv (H : Int) (jobs : List Job) (hinit : InitialJobs jobs)
    (I : SimulationState → Prop) (Q : SubStep × SimulationState → Prop)
    (hI0 : I (initialState jobs)) (hQ0 : Q (start, initialState jobs))
    (htick : ∀ s s1 req1 s5, RunInv s → I s → TickFacts s s1 req1 s5 →
      I (tickExecute s5) ∧ ∀ b ∈ tickList s1 req1 s5, Q b) :
    ∃ bs, run_boundaries H jobs = some bs ∧ ∀ b ∈ bs, Q b := by
  refine boundaryLoop_inv H (fun s => RunInv s ∧ I s) Q ?_ H.toNat (initialState jobs)
    [(start, initialState jobs)] ⟨initialState_RunInv jobs hinit, hI0⟩ ?_ ?_
  · rintro s ⟨hinv, hI⟩ _
    obtain ⟨s1, req1, s5, hf⟩ := tick_facts s hinv
    obtain ⟨hI8, hQ⟩ := htick s s1 req1 s5 hinv hI hf
    exact ⟨_, _, (tickBoundaries_eq s s1 req1 s5 hf.arr hf.res).1, ⟨hf.inv8, hI8⟩, hf.time8, hQ⟩
  · show H - 0 ≤ (H.toNat : Int)
    have := Int.self_le_toNat H
    omega
  · intro b hb
    rw [List.mem_singleton.mp hb]
    exact hQ0

/-! ## Completion is at most one tick late -/

theorem DeadlineInv_arrival (s s1 : SimulationState) (h : DeadlineInv advance s)
    (hstep : ∀ i, JobStep arrival s s1 i) (ht : s1.current_time = s.current_time)
    (hl : s1.jobs.length = s.jobs.length) : DeadlineInv arrival s1 := by
  intro i hi
  rw [hl] at hi
  obtain ⟨ha, hc, hrd, hrn⟩ := h i hi
  simp only [checkSlack, lateSlack, ht] at hrd hrn ⊢
  rcases hstep i with h | ⟨-, -, hat, h⟩ | ⟨hl, -⟩ | ⟨hl, -⟩ | ⟨hl, -⟩ | ⟨hl, -⟩ | ⟨hl, -⟩ | ⟨hl, -⟩
  · rw [h]
    exact ⟨ha, hc, by simpa using hrd, by simpa using hrn⟩
  · rw [h]
    refine ⟨ha, ?_, ?_, ?_⟩
    · intro hcon; cases hcon
    · intro _
      show s.current_time + (if arrival = deadlineCheck then 1 else 0)
        ≤ (getJob s.jobs i).absolute_deadline
      rw [if_neg (by decide), ← hat]
      omega
    · intro hcon; cases hcon
  all_goals cases hl

theorem DeadlineInv_completion (s1 s2 : SimulationState) (h : DeadlineInv arrival s1)
    (hstep : ∀ i, JobStep completion s1 s2 i) (ht : s2.current_time = s1.current_time)
    (hl : s2.jobs.length = s1.jobs.length) (hsi : StatusInv s2) (ho : OccPos s2) :
    DeadlineInv completion s2 := by
  intro i hi
  rw [hl] at hi
  obtain ⟨ha, hc, hrd, hrn⟩ := h i hi
  simp only [checkSlack, lateSlack, ht] at hrd hrn ⊢
  rcases hstep i with h | ⟨hl, -⟩ | ⟨-, hrun, -, -, h⟩ | ⟨hl, -⟩ | ⟨hl, -⟩ | ⟨hl, -⟩ | ⟨hl, -⟩
    | ⟨hl, -⟩
  · have hocc : (getJob s2.jobs i).status = RUNNING → 0 < (getJob s1.jobs i).remaining_aet := by
      intro hr
      have := ho i ((hsi.2 i).mp hr)
      rw [h] at this
      exact this
    rw [h] at hocc ⊢
    refine ⟨ha, hc, by simpa using hrd, ?_⟩
    intro hr
    have h1 := (hrn hr).1 (hocc hr)
    simp at h1 ⊢
    exact ⟨fun _ => h1, h1⟩
  · cases hl
  · rw [h]
    refine ⟨ha, ?_, ?_, ?_⟩
    · intro _
      have := (hrn hrun).2
      simp at this
      exact this
    · intro hcon; cases hcon
    · intro hcon; cases hcon
  all_goals cases hl

theorem DeadlineInv_selection (s2 s3 : SimulationState) (h : DeadlineInv completion s2)
    (hstep : ∀ i, JobStep selection s2 s3 i) (ht : s3.current_time = s2.current_time)
    (hl : s3.jobs.length = s2.jobs.length) : DeadlineInv selection s3 := by
  intro i hi
  rw [hl] at hi
  obtain ⟨ha, hc, hrd, hrn⟩ := h i hi
  simp only [checkSlack, lateSlack, ht] at hrd hrn ⊢
  rcases hstep i with h | ⟨hl, -⟩ | ⟨hl, -⟩ | ⟨-, -, h⟩ | ⟨hl, -⟩ | ⟨hl, -⟩ | ⟨hl, -⟩ | ⟨hl, -⟩
  · rw [h]
    exact ⟨ha, hc, by simpa using hrd, by simpa using hrn⟩
  · cases hl
  · cases hl
  · rw [h]
    exact ⟨ha, hc, by simpa using hrd, by simpa using hrn⟩
  all_goals cases hl

theorem DeadlineInv_decision (s3 s5 : SimulationState) (h : DeadlineInv selection s3)
    (hstep : ∀ i, JobStep decision s3 s5 i) (ht : s5.current_time = s3.current_time)
    (hl : s5.jobs.length = s3.jobs.length) : DeadlineInv decision s5 := by
  intro i hi
  rw [hl] at hi
  obtain ⟨ha, hc, hrd, hrn⟩ := h i hi
  simp only [checkSlack, lateSlack, ht] at hrd hrn ⊢
  rcases hstep i with h | ⟨hl, -⟩ | ⟨hl, -⟩ | ⟨hl, -⟩ | ⟨-, hready, -, h⟩
    | ⟨-, hrun, -, -, hpos, h⟩ | ⟨hl, -⟩ | ⟨hl, -⟩
  · rw [h]
    exact ⟨ha, hc, by simpa using hrd, by simpa using hrn⟩
  · cases hl
  · cases hl
  · cases hl
  · rw [h]
    have h1 := hrd hready
    simp at h1
    refine ⟨ha, ?_, ?_, ?_⟩
    · intro hcon; cases hcon
    · intro hcon; cases hcon
    · intro _
      simp
      exact ⟨fun _ => h1, h1⟩
  · rw [h]
    have h1 := (hrn hrun).1 hpos
    simp at h1
    refine ⟨ha, ?_, ?_, ?_⟩
    · intro hcon; cases hcon
    · intro _
      simp
      exact h1
    · intro hcon; cases hcon
  all_goals cases hl

theorem DeadlineInv_execution (s5 s6 : SimulationState) (h : DeadlineInv decision s5)
    (hstep : ∀ i, JobStep execution s5 s6 i) (ht : s6.current_time = s5.current_time)
    (hl : s6.jobs.length = s5.jobs.length) : DeadlineInv execution s6 := by
  intro i hi
  rw [hl] at hi
  obtain ⟨ha, hc, hrd, hrn⟩ := h i hi
  simp only [checkSlack, lateSlack, ht] at hrd hrn ⊢
  rcases hstep i with h | ⟨hl, -⟩ | ⟨hl, -⟩ | ⟨hl, -⟩ | ⟨hl, -⟩ | ⟨hl, -⟩ | ⟨-, hrun, -, h⟩
    | ⟨hl, -⟩
  · rw [h]
    exact ⟨ha, hc, by simpa using hrd, by simpa using hrn⟩
  · cases hl
  · cases hl
  · cases hl
  · cases hl
  · cases hl
  · rw [h]
    have h1 := (hrn hrun).2
    simp at h1
    refine ⟨ha, ?_, ?_, ?_⟩
    · intro hcon
      have : (getJob s5.jobs i).status = COMPLETED := hcon
      rw [hrun] at this; cases this
    · intro hcon
      have : (getJob s5.jobs i).status = READY := hcon
      rw [hrun] at this; cases this
    · intro _
      simp
      exact ⟨fun _ => h1, h1⟩
  · cases hl

theorem DeadlineInv_deadlineCheck (s6 : SimulationState) (h : DeadlineInv execution s6)
    (hinv : RunInv s6) : DeadlineInv deadlineCheck (check_deadline_misses s6) := by
  obtain ⟨hwf, hsi, -⟩ := hinv
  obtain ⟨jobs1, rj, q, dm, he, hlen1, -, hjobs1⟩ := check_deadline_misses_spec s6 hwf
  obtain ⟨-, ftime, -, -, -, -, flen, -⟩ := check_deadline_misses_frame s6 hwf
  have hjobs : ∀ i, getJob (check_deadline_misses s6).jobs i
      = if (i ∈ s6.ready_queue ∧ deadlinePassed s6 i) ∨ runningMissed s6 i
        then { getJob s6.jobs i with status := MISSED } else getJob s6.jobs i := by
    intro i
    rw [he]
    exact hjobs1 i
  intro i hi
  rw [flen] at hi
  obtain ⟨ha, hc, hrd, hrn⟩ := h i hi
  simp only [checkSlack, lateSlack, ftime] at hrd hrn ⊢
  rw [hjobs i]
  by_cases hm : (i ∈ s6.ready_queue ∧ deadlinePassed s6 i) ∨ runningMissed s6 i
  · rw [if_pos hm]
    refine ⟨ha, ?_, ?_, ?_⟩
    · intro hcon; cases hcon
    · intro hcon; cases hcon
    · intro hcon; cases hcon
  · rw [if_neg hm]
    refine ⟨ha, hc, ?_, ?_⟩
    · intro hready
      have hq : i ∈ s6.ready_queue := (hsi.1 i).mp hready
      have hnp : ¬ deadlinePassed s6 i := fun hp => hm (Or.inl ⟨hq, hp⟩)
      unfold deadlinePassed at hnp
      simp
      omega
    · intro hrun
      have hocc : s6.running_job = some i := (hsi.2 i).mp hrun
      have hnm : ¬ (s6.current_time + 1 > (getJob s6.jobs i).absolute_deadline
          ∧ (getJob s6.jobs i).remaining_aet > 0) :=
        fun hp => hm (Or.inr ⟨hocc, hrun, hp.1, hp.2⟩)
      have h1 := (hrn hrun).2
      simp at h1 ⊢
      constructor
      · intro hpos
        by_contra hcon
        exact hnm ⟨by omega, hpos⟩
      · omega

theorem DeadlineInv_advance (s7 : SimulationState) (h : DeadlineInv deadlineCheck s7) :
    DeadlineInv advance { s7 with current_time := s7.current_time + 1 } := by
  intro i hi
  obtain ⟨ha, hc, hrd, hrn⟩ := h i hi
  simp only [checkSlack, lateSlack] at hrd hrn ⊢
  refine ⟨ha, hc, ?_, ?_⟩
  · intro hready
    have := hrd hready
    simp at this ⊢
    exact this
  · intro hrun
    have := hrn hrun
    simp at this ⊢
    exact this

/-- One tick carries the deadline invariant from its start to each of its
boundaries. -/
theorem DeadlineInv_tick (s s1 : SimulationState) (req1 : Bool) (s5 : SimulationState)
    (h : DeadlineInv advance s) (hf : TickFacts s s1 req1 s5) :
    DeadlineInv advance (tickExecute s5) ∧ ∀ b ∈ tickList s1 req1 s5, DeadlineInv b.1 b.2 := by
  have hlen := hf.len
  have l1 := hlen (arrival, s1) (by simp [tickList])
  have l2 := hlen (completion, completionStep s1) (by simp [tickList])
  have l3 : (selectionState s1 req1 s5).jobs.length = s.jobs.length :=
    hlen (selection, selectionState s1 req1 s5) (by simp [tickList, selectionState])
  have l5 := hlen (decision, s5) (by simp [tickList])
  have l6 := hlen (execution, execute_running_job s5) (by simp [tickList])
  have d1 := DeadlineInv_arrival s s1 h hf.step1 hf.time1 l1
  have d2 := DeadlineInv_completion s1 _ d1 hf.step2 (hf.time2.trans hf.time1.symm)
    (l2.trans l1.symm) hf.inv2.2.1 hf.occ2
  have d3 := DeadlineInv_selection _ _ d2 hf.step3 (hf.time3.trans hf.time2.symm)
    (l3.trans l2.symm)
  have d5 := DeadlineInv_decision _ _ d3 hf.step5 (hf.time5.trans hf.time3.symm)
    (l5.trans l3.symm)
  have d6 := DeadlineInv_execution _ _ d5 hf.step6 (execute_running_job_frame s5).2.2.1
    (l6.trans l5.symm)
  have d7 := DeadlineInv_deadlineCheck _ d6 hf.inv6
  have d8 : DeadlineInv advance (tickExecute s5) := DeadlineInv_advance _ d7
  refine ⟨d8, ?_⟩
  intro b hb
  simp only [tickList, List.mem_cons, List.mem_singleton, List.not_mem_nil, or_false] at hb
  rcases hb with rfl | rfl | rfl | rfl | rfl | rfl | rfl
  · exact d1
  · exact d2
  · exact d3
  · exact d5
  · exact d6
  · exact d7
  · exact d8

theorem generateTaskJobs_guard (P : Job → Prop) (H : Int) (t : Task)
    (hnew : ∀ id k, 0 ≤ k → 0 < t.period →
      t.arrival_time + k * t.period + t.deadline ≤ INT_MAX →
      P (newJob id t k (t.arrival_time + k * t.period))) :
    ∀ (fuel : Nat) (k : Int) (jobs res : List Job), 0 ≤ k →
      generateTaskJobs H t fuel k jobs = some res → (∀ j ∈ jobs, P j) → ∀ j ∈ res, P j := by
  intro fuel
  induction fuel with
  | zero => intro k jobs res _ h; simp [generateTaskJobs] at h
  | succ n ih =>
    intro k jobs res hk h hall
    unfold generateTaskJobs at h
    split_ifs at h with h1 h2 h3 h4
    · refine ih _ _ _ (by omega) h ?_
      intro j hj
      rcases List.mem_append.mp hj with hj | hj
      · exact hall j hj
      · rw [List.mem_singleton] at hj
        subst hj
        exact hnew _ _ hk (by omega) (by omega)
    · cases h
      exact hall

theorem generateLoop_guard (P : Job → Prop) (H : Int) :
    ∀ (tasks : List Task) (jobs res : List Job),
      (∀ t ∈ tasks, ∀ id k, 0 ≤ k → 0 < t.period →
        t.arrival_time + k * t.period + t.deadline ≤ INT_MAX →
        P (newJob id t k (t.arrival_time + k * t.period))) →
      generateLoop H tasks jobs = some res → (∀ j ∈ jobs, P j) → ∀ j ∈ res, P j := by
  intro tasks
  induction tasks with
  | nil =>
    intro jobs res _ h hall
    simp only [generateLoop, Option.some.injEq] at h
    subst h
    exact hall
  | cons t rest ih =>
    intro jobs res hnew h hall
    unfold generateLoop at h
    cases hg : generateTaskJobs H t (MAX_JOBS + 1) 0 jobs with
    | none => rw [hg] at h; cases h
    | some jobs1 =>
      rw [hg] at h
      exact ih jobs1 res (fun u hu => hnew u (List.mem_cons_of_mem _ hu)) h
        (generateTaskJobs_guard P H t (hnew t (List.mem_cons_self _ _)) _ _ _ _ (le_refl _) hg hall)

/-- No job handed to the simulation arrives after its absolute deadline, when
no task has a negative arrival time or a negative relative deadline. -/
theorem pipeline_arrival_le_deadline (H : Int) (tasks : List Task) (aets : List Int)
    (jobs0 jobs : List Job) (hgen : generate_jobs H tasks = some jobs0)
    (haet : read_actual_execution_times aets jobs0 = some jobs)
    (hvalid : ∀ t ∈ tasks, 0 ≤ t.arrival_time ∧ 0 ≤ t.deadline) :
    ∀ j ∈ jobs, j.arrival_time ≤ j.absolute_deadline := by
  have h0 := generateLoop_guard (fun j => j.arrival_time ≤ j.absolute_deadline) H tasks [] jobs0
    (by
      intro t ht id k hk hp hle
      obtain ⟨ha, hd⟩ := hvalid t ht
      have hkp : 0 ≤ k * t.period := mul_nonneg hk (le_of_lt hp)
      show castInt (t.arrival_time + k * t.period)
        ≤ castInt (t.arrival_time + k * t.period + t.deadline)
      have hI : INT_MAX = 2147483647 := rfl
      rw [castInt_of_range _ (by omega) (by omega), castInt_of_range _ (by omega) hle]
      omega)
    hgen (fun j hj => by cases hj)
  exact read_actual_execution_times_forall (fun j => j.arrival_time ≤ j.absolute_deadline)
    (fun _ _ h => h) aets jobs0 jobs haet h0

theorem initialState_DeadlineInv (jobs : List Job) (lbl : SubStep) (hinit : InitialJobs jobs)
    (harr : ∀ j ∈ jobs, j.arrival_time ≤ j.absolute_deadline) :
    DeadlineInv lbl (initialState jobs) := by
  intro i hi
  have hmem : getJob jobs i ∈ jobs := getJob_mem hi
  have hna : (getJob (initialState jobs).jobs i).status = NOT_ARRIVED := (hinit.2 _ hmem).1
  refine ⟨harr _ hmem, ?_, ?_, ?_⟩ <;> intro hcon <;> rw [hna] at hcon <;> cases hcon

/-- C25: completion is at most one tick late, and the bound is attained.  In
every run (jobs from `generate_jobs` and `read_actual_execution_times`, no task
having a negative arrival time or a negative relative deadline), at every
sub-step boundary and in the final state every job with status COMPLETED has
`finish_time ≤ absolute_deadline + 1`, and the occupant that the execution step
of a tick is about to execute is not past its absolute deadline.  For the tasks
(arrival 0, period 4, wcet 2, deadline 2) and (arrival 0, period 4, wcet 1,
deadline 2) with AET = WCET the second job is the occupant at tick 2 and is
COMPLETED with `finish_time = 3`, its absolute deadline being 2, while
`deadline_misses` is 0 at the end. -/
theorem completion_at_most_one_tick_late (H : Int) (tasks : List Task) (aets : List Int)
    (jobs0 jobs : List Job) (hgen : generate_jobs H tasks = some jobs0)
    (haet : read_actual_execution_times aets jobs0 = some jobs)
    (hvalid : ∀ t ∈ tasks, 0 ≤ t.arrival_time ∧ 0 ≤ t.deadline) :
    (∃ r bs, RunWithBoundaries H jobs r bs
      ∧ (∀ b ∈ bs, ∀ i, i < b.2.jobs.length → (getJob b.2.jobs i).status = COMPLETED →
          (getJob b.2.jobs i).finish_time ≤ (getJob b.2.jobs i).absolute_deadline + 1)
      ∧ (∀ i, i < r.1.jobs.length → (getJob r.1.jobs i).status = COMPLETED →
          (getJob r.1.jobs i).finish_time ≤ (getJob r.1.jobs i).absolute_deadline + 1)
      ∧ (∀ b ∈ bs, b.1 = decision → ∀ o, b.2.running_job = some o →
          b.2.current_time ≤ (getJob b.2.jobs o).absolute_deadline))
    ∧ (generate_jobs 4 lateTasks = some lateGenerated
      ∧ read_actual_execution_times [2, 1] lateGenerated = some lateJobs
      ∧ ∃ r, run_mllf_simulation 4 lateJobs = some r
        ∧ (∃ x, r.2[2]? = some x ∧ x.running_job = some 1)
        ∧ (getJob r.1.jobs 1).status = COMPLETED
        ∧ (getJob r.1.jobs 1).finish_time = 3
        ∧ (getJob r.1.jobs 1).absolute_deadline = 2
        ∧ r.1.deadline_misses = 0) := by
  refine ⟨?_, by decide, by decide, by decide⟩
  obtain ⟨r, bs, hrun, hall, -⟩ := run_with_boundaries H tasks aets jobs0 jobs hgen haet
  have hinit := pipeline_InitialJobs H tasks aets jobs0 jobs hgen haet
  have harr := pipeline_arrival_le_deadline H tasks aets jobs0 jobs hgen haet hvalid
  obtain ⟨bs1, hbs1, hdl⟩ := run_boundaries_inv H jobs hinit (fun s => DeadlineInv advance s)
    (fun b => DeadlineInv b.1 b.2)
    (initialState_DeadlineInv jobs advance hinit harr)
    (initialState_DeadlineInv jobs start hinit harr)
    (fun s s1 req1 s5 _ hI hf => DeadlineInv_tick s s1 req1 s5 hI hf)
  rw [hrun.2.1] at hbs1
  cases hbs1
  have hcompl : ∀ b ∈ bs, ∀ i, i < b.2.jobs.length → (getJob b.2.jobs i).status = COMPLETED →
      (getJob b.2.jobs i).finish_time ≤ (getJob b.2.jobs i).absolute_deadline + 1 :=
    fun b hb i hi hc => (hdl b hb i hi).2.1 hc
  refine ⟨r, bs, hrun, hcompl, ?_, ?_⟩
  · obtain ⟨b, hb, hbr⟩ := getLast_mem_of_map hrun.2.2.2.1
    rw [← hbr]
    exact hcompl b hb
  · intro b hb hlbl o ho
    have hwf := (hall b hb).1
    have hrn := (hdl b hb o (hwf.2.2.1 o ho)).2.2.2 (((hall b hb).2.1.2 o).mpr ho)
    have h2 := hrn.2
    rw [hlbl] at h2
    simp [checkSlack, lateSlack] at h2
    exact h2

/-- Witness of C25: the two tasks with deadline 2. -/
theorem completion_at_most_one_tick_late_witness :
    generate_jobs 4 lateTasks = some lateGenerated
    ∧ read_actual_execution_times [2, 1] lateGenerated = some lateJobs
    ∧ (∀ t ∈ lateTasks, 0 ≤ t.arrival_time ∧ 0 ≤ t.deadline)
    ∧ ∃ r bs, RunWithBoundaries 4 lateJobs r bs
      ∧ (∀ i, i < r.1.jobs.length → (getJob r.1.jobs i).status = COMPLETED →
          (getJob r.1.jobs i).finish_time ≤ (getJob r.1.jobs i).absolute_deadline + 1) := by
  refine ⟨by decide, by decide, by decide, ?_⟩
  obtain ⟨r, bs, h1, -, h3, -⟩ := (completion_at_most_one_tick_late 4 lateTasks [2, 1]
    lateGenerated lateJobs (by decide) (by decide) (by decide)).1
  exact ⟨r, bs, h1, h3⟩

/-! ## Ticks without a reschedule -/

/-- The flag that the arrival step returns is set exactly when it was set
before or one of the visited jobs arrives. -/
theorem arrivalsLoop_flag (l : List Nat) :
    ∀ (s : SimulationState) (req : Bool) (s1 : SimulationState) (req1 : Bool),
      arrivalsLoop l s req = some (s1, req1) →
      (req1 = true ↔ req = true ∨ ∃ i ∈ l, (getJob s.jobs i).status = NOT_ARRIVED
        ∧ (getJob s.jobs i).arrival_time = s.current_time) := by
  induction l with
  | nil =>
    intro s req s1 req1 h
    simp only [arrivalsLoop, Option.some.injEq, Prod.mk.injEq] at h
    rw [← h.2]
    simp
  | cons k l ih =>
    intro s req s1 req1 h
    unfold arrivalsLoop at h
    by_cases hc : (getJob s.jobs k).status = NOT_ARRIVED
        ∧ (getJob s.jobs k).arrival_time = s.current_time
    · rw [if_pos hc] at h
      cases ha : add_job_to_ready_queue { s with jobs := setStatus s.jobs k READY } k with
      | none => rw [ha] at h; cases h
      | some s2 =>
        rw [ha] at h
        have := (ih s2 true s1 req1 h).mpr (Or.inl rfl)
        constructor
        · intro _
          exact Or.inr ⟨k, List.mem_cons_self _ _, hc⟩
        · intro _
          exact this
    · rw [if_neg hc] at h
      rw [ih s req s1 req1 h]
      constructor
      · rintro (h1 | ⟨i, hi, h2⟩)
        · exact Or.inl h1
        · exact Or.inr ⟨i, List.mem_cons_of_mem _ hi, h2⟩
      · rintro (h1 | ⟨i, hi, h2⟩)
        · exact Or.inl h1
        · rcases List.mem_cons.mp hi with hik | hil
          · subst hik
            exact absurd h2 hc
          · exact Or.inr ⟨i, hil, h2⟩

/-- Without an arriving job the arrival step changes nothing. -/
theorem arrivalsLoop_none (l : List Nat) (s : SimulationState) (req : Bool)
    (h : ∀ i ∈ l, ¬ ((getJob s.jobs i).status = NOT_ARRIVED
      ∧ (getJob s.jobs i).arrival_time = s.current_time)) :
    arrivalsLoop l s req = some (s, req) := by
  induction l with
  | nil => rfl
  | cons k l ih =>
    unfold arrivalsLoop
    rw [if_neg (h k (List.mem_cons_self _ _))]
    exact ih (fun i hi => h i (List.mem_cons_of_mem _ hi))

/-- C29: ticks without a reschedule change nothing but laxity.  On a tick in
which no job arrives and the occupant has `remaining_aet > 0` and a remaining
quantum `> 0`, steps 1 to 4 are `calculate_all_laxities`: they leave the
occupant, the remaining quantum, the status of every job, the ready queue with
its order, `last_running_job_id`, the four counters and the clock as they are,
and of the job records only `calculated_laxity` changes, to the laxity of the
current time for the Ready and Running jobs (`laxityAfter`; where status and
placement agree, as they do in a run, the other jobs keep their record).
Conversely the selector and the decision run in step 4 exactly when a job has
arrived, the completion step has retired the occupant, the quantum has expired,
or the processor is empty; otherwise step 4 is the laxity refresh. -/
theorem non_reschedule_tick (s : SimulationState) :
    (∀ r, ¬ arrivalNow s → s.running_job = some r → 0 < (getJob s.jobs r).remaining_aet →
        0 < s.current_job_quantum_remaining →
        tickSchedule s = some (calculate_all_laxities s)
        ∧ (calculate_all_laxities s).running_job = s.running_job
        ∧ (calculate_all_laxities s).current_job_quantum_remaining
            = s.current_job_quantum_remaining
        ∧ (calculate_all_laxities s).ready_queue = s.ready_queue
        ∧ (calculate_all_laxities s).last_running_job_id = s.last_running_job_id
        ∧ (calculate_all_laxities s).context_switches = s.context_switches
        ∧ (calculate_all_laxities s).deadline_misses = s.deadline_misses
        ∧ (calculate_all_laxities s).completed_jobs = s.completed_jobs
        ∧ (calculate_all_laxities s).idle_time = s.idle_time
        ∧ (calculate_all_laxities s).current_time = s.current_time
        ∧ (calculate_all_laxities s).jobs.length = s.jobs.length
        ∧ (∀ i, getJob (calculate_all_laxities s).jobs i
            = setLaxity (getJob s.jobs i) (laxityAfter s i))
        ∧ (∀ i, (getJob (calculate_all_laxities s).jobs i).status = (getJob s.jobs i).status)
        ∧ (StatusInv s → ∀ i,
            (((getJob s.jobs i).status = READY ∨ (getJob s.jobs i).status = RUNNING) →
              getJob (calculate_all_laxities s).jobs i
                = setLaxity (getJob s.jobs i) (laxityNow s i))
            ∧ (¬ ((getJob s.jobs i).status = READY ∨ (getJob s.jobs i).status = RUNNING) →
              getJob (calculate_all_laxities s).jobs i = getJob s.jobs i)))
    ∧ (∀ s1 req1, arrivalsLoop (List.range s.jobs.length) s false = some (s1, req1) →
        (rescheduleTaken s1 req1 ↔
          (arrivalNow s ∨ completionDue s1 = true ∨ quantumExpired (completionStep s1) = true
            ∨ (completionStep s1).running_job = none))
        ∧ tickSchedule s
            = (if rescheduleTaken s1 req1 then
                make_mllf_scheduling_decision (select_mllf_task_Ta (completionStep s1)).1
                  (select_mllf_task_Ta (completionStep s1)).2
              else some (calculate_all_laxities (completionStep s1))))
    ∧ (WF s → ∃ s1 req1, arrivalsLoop (List.range s.jobs.length) s false = some (s1, req1)) := by
  refine ⟨?_, ?_, ?_⟩
  · intro r hna hr haet hq
    obtain ⟨f1, f2, f3, f4, f5, f6, f7, f8, f9, f10⟩ := calculate_all_laxities_frame s
    have harr : arrivalsLoop (List.range s.jobs.length) s false = some (s, false) := by
      apply arrivalsLoop_none
      intro i hi hc
      exact hna ⟨i, List.mem_range.mp hi, hc⟩
    have hdue : completionDue s = false := by
      unfold completionDue
      rw [hr]
      simp only [decide_eq_false_iff_not]
      intro hc
      omega
    have hexp : quantumExpired s = false := by
      unfold quantumExpired
      rw [hr]
      simp only [decide_eq_false_iff_not]
      intro hc
      omega
    have hsched : tickSchedule s = some (calculate_all_laxities s) := by
      unfold tickSchedule
      rw [harr]
      simp only [hdue, hexp, Bool.false_eq_true, if_false, Bool.or_self]
      unfold rescheduleStep
      rw [if_neg (by rw [hr]; simp), hr]
    refine ⟨hsched, f2, f5, f1, f4, f6, f7, f8, f9, f3, f10, getJob_calculate_all_laxities s,
      fun i => by rw [getJob_calculate_all_laxities]; rfl, ?_⟩
    intro hsi i
    rw [getJob_calculate_all_laxities]
    unfold laxityAfter
    constructor
    · rintro (hrd | hrn)
      · have hq : i ∈ s.ready_queue := (hsi.1 i).mp hrd
        have hnr : ¬ (s.running_job = some i ∧ (getJob s.jobs i).status = RUNNING) := by
          rintro ⟨-, h⟩; rw [hrd] at h; cases h
        rw [if_neg hnr, if_pos hq, if_pos hrd]
      · rw [if_pos ⟨(hsi.2 i).mp hrn, hrn⟩]
    · intro hno
      have hnr : ¬ (s.running_job = some i ∧ (getJob s.jobs i).status = RUNNING) :=
        fun h => hno (Or.inr h.2)
      have hnq : i ∉ s.ready_queue := fun h => hno (Or.inl ((hsi.1 i).mpr h))
      rw [if_neg hnr, if_neg hnq]
      rfl
  · intro s1 req1 harr
    have hflag := arrivalsLoop_flag _ s false s1 req1 harr
    have hreq : req1 = true ↔ arrivalNow s := by
      rw [hflag]
      unfold arrivalNow
      constructor
      · rintro (h | ⟨i, hi, hc⟩)
        · cases h
        · exact ⟨i, List.mem_range.mp hi, hc⟩
      · rintro ⟨i, hi, hc⟩
        exact Or.inr ⟨i, List.mem_range.mpr hi, hc⟩
    constructor
    · unfold rescheduleTaken rescheduleFlag
      rw [Bool.or_eq_true, Bool.or_eq_true, hreq]
      tauto
    · unfold tickSchedule
      rw [harr]
      show rescheduleStep (completionStep s1) (rescheduleFlag s1 req1) = _
      unfold rescheduleStep
      by_cases hc : rescheduleTaken s1 req1
      · have hc2 : rescheduleFlag s1 req1 = true ∨ (completionStep s1).running_job = none := hc
        rw [if_pos hc, if_pos hc2]
      · have hc2 : ¬ (rescheduleFlag s1 req1 = true ∨ (completionStep s1).running_job = none) := hc
        rw [if_neg hc, if_neg hc2]
        rcases Option.eq_none_or_eq_some (completionStep s1).running_job with hr | ⟨r, hr⟩
        · exact absurd (Or.inr hr) hc2
        · rw [hr]
  · intro hwf
    obtain ⟨s1, req1, ha, -⟩ := arrival_wf s hwf
    exact ⟨s1, req1, ha⟩

/-- Witness of C29: in `steadyState` no job arrives and the occupant, job 0,
has work and quantum left. -/
theorem non_reschedule_tick_witness :
    ¬ arrivalNow steadyState ∧ steadyState.running_job = some 0
    ∧ 0 < (getJob steadyState.jobs 0).remaining_aet
    ∧ 0 < steadyState.current_job_quantum_remaining
    ∧ tickSchedule steadyState = some (calculate_all_laxities steadyState) :=
  ⟨by decide, by decide, by decide, by decide,
    ((non_reschedule_tick steadyState).1 0 (by decide) (by decide) (by decide) (by decide)).1⟩

/-! ## Frames of the sub-steps -/

/-- The arrival step writes only job statuses and the ready queue. -/
theorem arrivalsLoop_frame (l : List Nat) :
    ∀ (s : SimulationState) (req : Bool) (s1 : SimulationState) (req1 : Bool),
      arrivalsLoop l s req = some (s1, req1) →
      s1.running_job = s.running_job
      ∧ s1.current_job_quantum_remaining = s.current_job_quantum_remaining
      ∧ s1.idle_time = s.idle_time ∧ s1.current_time = s.current_time := by
  induction l with
  | nil =>
    intro s req s1 req1 h
    simp only [arrivalsLoop, Option.some.injEq, Prod.mk.injEq] at h
    rw [← h.1]
    exact ⟨rfl, rfl, rfl, rfl⟩
  | cons i rest ih =>
    intro s req s1 req1 h
    unfold arrivalsLoop at h
    split_ifs at h with hc
    · cases ha : add_job_to_ready_queue { s with jobs := setStatus s.jobs i READY } i with
      | none => rw [ha] at h; cases h
      | some s2 =>
        rw [ha] at h
        obtain ⟨h1, h2, h3, h4⟩ := ih s2 true s1 req1 h
        have hs2 : s2.running_job = s.running_job
            ∧ s2.current_job_quantum_remaining = s.current_job_quantum_remaining
            ∧ s2.idle_time = s.idle_time ∧ s2.current_time = s.current_time := by
          unfold add_job_to_ready_queue at ha
          split_ifs at ha <;> cases ha <;> exact ⟨rfl, rfl, rfl, rfl⟩
        exact ⟨h1.trans hs2.1, h2.trans hs2.2.1, h3.trans hs2.2.2.1, h4.trans hs2.2.2.2⟩
    · exact ih s req s1 req1 h

/-- The completion step leaves the state alone or empties the running slot. -/
theorem completionStep_cases (s : SimulationState) :
    completionStep s = s ∨ (completionStep s).running_job = none := by
  unfold completionStep
  split_ifs with hdue
  · obtain ⟨r, hr, hc⟩ := (completionDue_iff s).mp hdue
    right
    rw [handle_completion_due s r hr hc]
  · left; rfl

theorem completionStep_sameWork (s : SimulationState) :
    sameWork s.jobs (completionStep s).jobs := by
  unfold completionStep
  split_ifs
  · exact handle_completion_sameWork s
  · exact sameWork_refl _

/-- Step 4 of a tick: either the selector and the decision run, or the state
has an occupant and only the laxities are refreshed. -/
theorem rescheduleStep_cases (s2 : SimulationState) (req : Bool) (s5 : SimulationState)
    (h : rescheduleStep s2 req = some s5) :
    ((req = true ∨ s2.running_job = none)
      ∧ make_mllf_scheduling_decision (select_mllf_task_Ta s2).1 (select_mllf_task_Ta s2).2
          = some s5)
    ∨ (¬ (req = true ∨ s2.running_job = none) ∧ s5 = calculate_all_laxities s2
        ∧ ∃ r, s2.running_job = some r) := by
  unfold rescheduleStep at h
  by_cases hc : req = true ∨ s2.running_job = none
  · rw [if_pos hc] at h
    exact Or.inl ⟨hc, h⟩
  · rw [if_neg hc] at h
    rcases Option.eq_none_or_eq_some s2.running_job with hr | ⟨r, hr⟩
    · exact absurd (Or.inr hr) hc
    · rw [hr] at h
      exact Or.inr ⟨hc, (Option.some.inj h).symm, r, hr⟩

/-- The queue loop of the deadline check leaves the running slot and the
remaining quantum alone. -/
theorem checkQueueMisses_frame (nt : Int) :
    ∀ (n : Nat) (s : SimulationState),
      (checkQueueMisses nt n s).running_job = s.running_job
      ∧ (checkQueueMisses nt n s).current_job_quantum_remaining
          = s.current_job_quantum_remaining := by
  intro n
  induction n with
  | zero => intro s; exact ⟨rfl, rfl⟩
  | succ n ih =>
    intro s
    unfold checkQueueMisses
    cases hq : s.ready_queue[n]? with
    | none => exact ih s
    | some job =>
      simp only
      split_ifs
      · exact ih _
      · exact ih s

/-- An occupant that the deadline check leaves in place was the occupant
before, and the remaining quantum is the same. -/
theorem check_deadline_misses_occupant (s : SimulationState) (r : Nat)
    (h : (check_deadline_misses s).running_job = some r) :
    s.running_job = some r
    ∧ (check_deadline_misses s).current_job_quantum_remaining
        = s.current_job_quantum_remaining := by
  have hdef : check_deadline_misses s
      = checkQueueMisses (s.current_time + 1)
          (checkRunningMiss (s.current_time + 1) s).ready_queue.length
          (checkRunningMiss (s.current_time + 1) s) := rfl
  rw [hdef] at h ⊢
  obtain ⟨f1, f2⟩ := checkQueueMisses_frame (s.current_time + 1)
    (checkRunningMiss (s.current_time + 1) s).ready_queue.length
    (checkRunningMiss (s.current_time + 1) s)
  rw [f1] at h
  rw [f2]
  rcases checkRunningMiss_cases (s.current_time + 1) s with hc | ⟨o, -, -, -, -, hc⟩
  · rw [hc] at h ⊢
    exact ⟨h, rfl⟩
  · rw [hc] at h
    cases h

/-- The remaining quantum after the execution step. -/
theorem execute_running_job_quantum (s : SimulationState) (r : Nat) (hr : s.running_job = some r)
    (hst : (getJob s.jobs r).status = RUNNING) :
    (execute_running_job s).current_job_quantum_remaining
      = if s.current_job_quantum_remaining > 0 then s.current_job_quantum_remaining - 1
        else s.current_job_quantum_remaining := by
  unfold execute_running_job
  simp only [hr, hst, if_true]

/-- The quantum of a job with work left is at least 1 and at most its
remaining actual execution time. -/
theorem calculate_mllf_quantum_bounds (s : SimulationState) (ta : Nat)
    (h : 0 < (getJob s.jobs ta).remaining_aet) :
    1 ≤ calculate_mllf_quantum s (some ta)
    ∧ calculate_mllf_quantum s (some ta) ≤ (getJob s.jobs ta).remaining_aet := by
  unfold calculate_mllf_quantum
  simp only
  rw [if_neg (by omega)]
  split_ifs <;> omega

/-- A property of the state that every change of job records by a sub-step
carries over holds at every boundary of a tick when it holds at the start. -/
theorem tick_carry (s s1 : SimulationState) (req1 : Bool) (s5 : SimulationState)
    (hf : TickFacts s s1 req1 s5) (P : SimulationState → Prop)
    (hstep : ∀ (lbl : SubStep) (x y : SimulationState), x.current_time = s.current_time →
      (∀ i, JobStep lbl x y i) → y.jobs.length = x.jobs.length → P x → P y)
    (h : P s) :
    P s1 ∧ P (completionStep s1) ∧ P (selectionState s1 req1 s5) ∧ P s5
    ∧ P (execute_running_job s5) ∧ P (check_deadline_misses (execute_running_job s5))
    ∧ P (tickExecute s5) := by
  have hlen := hf.len
  have l1 := hlen (arrival, s1) (by simp [tickList])
  have l2 := hlen (completion, completionStep s1) (by simp [tickList])
  have l3 : (selectionState s1 req1 s5).jobs.length = s.jobs.length :=
    hlen (selection, selectionState s1 req1 s5) (by simp [tickList, selectionState])
  have l5 := hlen (decision, s5) (by simp [tickList])
  have l6 := hlen (execution, execute_running_job s5) (by simp [tickList])
  have l7 := hlen (deadlineCheck, check_deadline_misses (execute_running_job s5))
    (by simp [tickList])
  have t6 : (execute_running_job s5).current_time = s.current_time :=
    (execute_running_job_frame s5).2.2.1.trans hf.time5
  have t7 : (check_deadline_misses (execute_running_job s5)).current_time = s.current_time :=
    (check_deadline_misses_frame _ hf.inv6.1).2.1.trans t6
  have p1 := hstep arrival s s1 rfl hf.step1 l1 h
  have p2 := hstep completion s1 _ hf.time1 hf.step2 (l2.trans l1.symm) p1
  have p3 := hstep selection _ _ hf.time2 hf.step3 (l3.trans l2.symm) p2
  have p5 := hstep decision _ _ hf.time3 hf.step5 (l5.trans l3.symm) p3
  have p6 := hstep execution _ _ hf.time5 hf.step6 (l6.trans l5.symm) p5
  have p7 := hstep deadlineCheck _ _ t6 hf.step7 (l7.trans l6.symm) p6
  have p8 : P (tickExecute s5) :=
    hstep advance _ (tickExecute s5) t7 (fun _ => Or.inl rfl) rfl p7
  exact ⟨p1, p2, p3, p5, p6, p7, p8⟩

/-- The static facts hold at every boundary of a tick. -/
theorem StaticInv_tick (s s1 : SimulationState) (req1 : Bool) (s5 : SimulationState)
    (hf : TickFacts s s1 req1 s5) (h : StaticInv s) :
    StaticInv s1 ∧ StaticInv (completionStep s1) ∧ StaticInv (selectionState s1 req1 s5)
    ∧ StaticInv s5 ∧ StaticInv (execute_running_job s5)
    ∧ StaticInv (check_deadline_misses (execute_running_job s5))
    ∧ StaticInv (tickExecute s5) :=
  tick_carry s s1 req1 s5 hf StaticInv
    (fun lbl x y _ hst hl hx => @StaticInv_step (lbl, x) (lbl, y) ⟨hst, hl⟩ hx) h

/-! ## The quantum of the occupant -/

theorem quantumFloor_decision : quantumFloor decision = 1 := by simp [quantumFloor]

theorem quantumFloor_advance : quantumFloor advance = 0 := by simp [quantumFloor]

theorem QuantumInv_iff (lbl : SubStep) (h : lbl ≠ decision) (s : SimulationState) :
    QuantumInv lbl s ↔ QuantumInv advance s := by
  simp [QuantumInv, quantumFloor, h]

/-- A step that keeps the occupant, the remaining quantum and the remaining
work keeps the bounds of the quantum. -/
theorem QuantumInv_transfer (x y : SimulationState) (hrun : y.running_job = x.running_job)
    (hq : y.current_job_quantum_remaining = x.current_job_quantum_remaining)
    (hw : sameWork x.jobs y.jobs) (h : QuantumInv advance x) : QuantumInv advance y := by
  intro r hr
  rw [hrun] at hr
  rw [hq, (hw r).2]
  exact h r hr

/-- After the branches of the scheduling decision the occupant has a quantum
of at least 1 and at most its remaining actual execution time. -/
theorem decisionBranches_quantum (s3 : SimulationState) (cand : Option Nat)
    (s4 : SimulationState) (hinv : RunInv s3) (ho : OccPos s3) (hq : QuantumInv advance s3)
    (hc : ∀ c, cand = some c → c ∈ s3.ready_queue ∨ s3.running_job = some c)
    (hbusy : s3.running_job ≠ none → cand ≠ none)
    (h : decisionBranches s3 cand = some s4) :
    ∀ r, s4.running_job = some r →
      1 ≤ s4.current_job_quantum_remaining
      ∧ s4.current_job_quantum_remaining ≤ (getJob s4.jobs r).remaining_aet := by
  obtain ⟨hwf, hsi, -, haet, -⟩ := hinv
  have hready : ∀ c, c ∈ s3.ready_queue → 1 ≤ (getJob s3.jobs c).remaining_aet := by
    intro c hcq
    exact (haet c (hwf.2.1 c hcq)).2 (Or.inr ((hsi.1 c).mpr hcq))
  intro r hr
  rcases Option.eq_none_or_eq_some s3.running_job with hrun | ⟨o, hrun⟩
  · cases cand with
    | none =>
      rw [decisionBranches_idle_none s3 hrun] at h
      cases h
      rw [hrun] at hr
      cases hr
    | some ta =>
      rw [decisionBranches_idle_start s3 ta hrun] at h
      cases h
      have hrt : ta = r := Option.some.inj hr
      subst hrt
      have hmem : ta ∈ s3.ready_queue := by
        rcases hc ta rfl with h1 | h1
        · exact h1
        · rw [hrun] at h1; cases h1
      have hpos := hready ta hmem
      rw [startTa_quantum, (startTa_timing s3 ta ta).2.2.2]
      exact calculate_mllf_quantum_bounds s3 ta (by omega)
  · cases cand with
    | none => exact absurd rfl (hbusy (by rw [hrun]; simp))
    | some ta =>
      by_cases htr : ta = o
      · subst htr
        have hpos := ho ta hrun
        rw [decisionBranches_continue s3 ta hrun] at h
        by_cases hexp : s3.current_job_quantum_remaining ≤ 0
            ∧ (getJob s3.jobs ta).remaining_aet > 0
        · rw [if_pos hexp] at h
          cases h
          have hrt : ta = r := by
            have : s3.running_job = some r := hr
            rw [hrun] at this
            exact Option.some.inj this
          subst hrt
          exact calculate_mllf_quantum_bounds s3 ta hpos
        · rw [if_neg hexp] at h
          cases h
          rw [hrun] at hr
          have hrt : ta = r := Option.some.inj hr
          subst hrt
          have hb := hq ta hrun
          refine ⟨?_, hb.2⟩
          by_contra hlt
          exact hexp ⟨by omega, hpos⟩
      · rw [decisionBranches_preempt s3 o ta hrun htr] at h
        cases ha : add_job_to_ready_queue { s3 with jobs := setStatus s3.jobs o READY } o with
        | none => rw [ha] at h; cases h
        | some s2 =>
          rw [ha] at h
          simp only [Option.map_some', Option.some.injEq] at h
          rw [← h] at hr ⊢
          have hrt : ta = r := Option.some.inj hr
          subst hrt
          have hj : s2.jobs = setStatus s3.jobs o READY := add_job_to_ready_queue_jobs _ _ _ ha
          have hmem : ta ∈ s3.ready_queue := by
            rcases hc ta rfl with h1 | h1
            · exact h1
            · rw [hrun] at h1; exact absurd (Option.some.inj h1).symm htr
          have hpos := hready ta hmem
          have hraet : (getJob s2.jobs ta).remaining_aet = (getJob s3.jobs ta).remaining_aet := by
            rw [hj]
            exact (sameWork_setStatus s3.jobs o READY ta).2
          rw [startTa_quantum, (startTa_timing s2 ta ta).2.2.2]
          exact calculate_mllf_quantum_bounds s2 ta (by omega)

/-- One tick carries the bounds of the quantum from its start to each of its
boundaries. -/
theorem QuantumInv_tick (s s1 : SimulationState) (req1 : Bool) (s5 : SimulationState)
    (hst : StaticInv s) (ht : 0 ≤ s.current_time) (hq : QuantumInv advance s)
    (hf : TickFacts s s1 req1 s5) :
    QuantumInv advance (tickExecute s5) ∧ ∀ b ∈ tickList s1 req1 s5, QuantumInv b.1 b.2 := by
  obtain ⟨-, hst2, -⟩ := StaticInv_tick s s1 req1 s5 hf hst
  -- arrival
  obtain ⟨a1, a2, -, -⟩ := arrivalsLoop_frame _ s false s1 req1 hf.arr
  have q1 : QuantumInv advance s1 :=
    QuantumInv_transfer s s1 a1 a2 (arrivalsLoop_sameWork _ s false s1 req1 hf.arr) hq
  -- completion
  have q2 : QuantumInv advance (completionStep s1) := by
    rcases completionStep_cases s1 with hc | hc
    · rw [hc]; exact q1
    · intro r hr
      rw [hc] at hr
      cases hr
  -- selection and decision
  obtain ⟨w3, -, r3, -, -, k3, -⟩ := select_wf (completionStep s1) hf.inv2.1
  have hsel : QuantumInv advance (select_mllf_task_Ta (completionStep s1)).1 :=
    QuantumInv_transfer _ _ r3 k3 (select_sameWork _) q2
  obtain ⟨c1, c2, -, -, c5, -⟩ := calculate_all_laxities_frame (completionStep s1)
  have hcalc : QuantumInv advance (calculate_all_laxities (completionStep s1)) :=
    QuantumInv_transfer _ _ c2 c5 (calculate_all_laxities_sameWork _) q2
  have q35 : QuantumInv advance (selectionState s1 req1 s5) ∧ QuantumInv decision s5 := by
    rcases rescheduleStep_cases _ _ _ hf.res with ⟨htaken, hmk⟩ | ⟨hnot, hs5, r, hr⟩
    · have hs3 : selectionState s1 req1 s5 = (select_mllf_task_Ta (completionStep s1)).1 := by
        unfold selectionState
        have ht2 : rescheduleTaken s1 req1 := htaken
        rw [if_pos ht2]
      refine ⟨by rw [hs3]; exact hsel, ?_⟩
      rw [make_decision_eq] at hmk
      cases hd : decisionBranches (select_mllf_task_Ta (completionStep s1)).1
          (select_mllf_task_Ta (completionStep s1)).2 with
      | none => rw [hd] at hmk; cases hmk
      | some s4 =>
        rw [hd] at hmk
        simp only [Option.map_some', Option.some.injEq] at hmk
        have hinv3 : RunInv (select_mllf_task_Ta (completionStep s1)).1 := by
          rw [← hs3]; exact hf.inv3
        have ho3 : OccPos (select_mllf_task_Ta (completionStep s1)).1 := by
          rw [← hs3]; exact hf.occ3
        have hb := decisionBranches_quantum _ _ s4 hinv3 ho3 hsel
          (select_StatusInv _ hf.inv2.2.1).2.2
          (by
            intro hbusy
            rw [r3] at hbusy
            exact select_some_of_busy _ hf.inv2 hst2 (by rw [hf.time2]; exact ht) hbusy)
          hd
        intro r hr
        rw [← hmk, contextSwitchCheck_eq] at hr ⊢
        rw [quantumFloor_decision]
        exact hb r hr
    · have hs3 : selectionState s1 req1 s5 = s5 := by
        unfold selectionState
        have hn2 : ¬ rescheduleTaken s1 req1 := hnot
        rw [if_neg hn2]
      refine ⟨by rw [hs3, hs5]; exact hcalc, ?_⟩
      rw [hs5]
      intro o ho
      have hb := hcalc o ho
      refine ⟨?_, hb.2⟩
      rw [c2] at ho
      have hpos := hf.occ2 o ho
      have hflag : rescheduleFlag s1 req1 ≠ true := fun h => hnot (Or.inl h)
      have hexp : quantumExpired (completionStep s1) ≠ true := by
        intro h
        apply hflag
        unfold rescheduleFlag
        rw [h]
        simp
      have hexp2 : ¬ ((completionStep s1).current_job_quantum_remaining ≤ 0
          ∧ (getJob (completionStep s1).jobs o).remaining_aet > 0) := by
        intro hh
        apply hexp
        unfold quantumExpired
        rw [ho]
        exact decide_eq_true hh
      have hge : 1 ≤ (completionStep s1).current_job_quantum_remaining := by
        by_contra hlt
        exact hexp2 ⟨by omega, hpos⟩
      rw [quantumFloor_decision, c5]
      exact hge
  -- execution
  have q6 : QuantumInv advance (execute_running_job s5) := by
    intro r hr
    obtain ⟨-, e2, -⟩ := execute_running_job_frame s5
    rw [e2] at hr
    have hrun : (getJob s5.jobs r).status = RUNNING := (hf.inv5.2.1.2 r).mpr hr
    have hb := q35.2 r hr
    rw [quantumFloor_decision] at hb
    have eq : (execute_running_job s5).current_job_quantum_remaining
        = s5.current_job_quantum_remaining - 1 := by
      rw [execute_running_job_quantum s5 r hr hrun, if_pos (by omega)]
    have er : (getJob (execute_running_job s5).jobs r).remaining_aet
        = (getJob s5.jobs r).remaining_aet - 1 := by
      rw [getJob_execute_running_job, if_pos ⟨hr, hrun⟩]
      show (if (getJob s5.jobs r).remaining_aet > 0 then (getJob s5.jobs r).remaining_aet - 1
        else (getJob s5.jobs r).remaining_aet) = _
      rw [if_pos (by omega)]
    rw [quantumFloor_advance, eq, er]
    constructor <;> omega
  -- deadline check
  have q7 : QuantumInv advance (check_deadline_misses (execute_running_job s5)) := by
    intro r hr
    obtain ⟨d1, d2⟩ := check_deadline_misses_occupant _ r hr
    rw [d2, (check_deadline_misses_sameWork (execute_running_job s5) r).2]
    exact q6 r d1
  have q8 : QuantumInv advance (tickExecute s5) :=
    QuantumInv_transfer _ (tickExecute s5) rfl rfl (sameWork_refl _) q7
  refine ⟨q8, ?_⟩
  intro b hb
  simp only [tickList, List.mem_cons, List.mem_singleton, List.not_mem_nil, or_false] at hb
  rcases hb with rfl | rfl | rfl | rfl | rfl | rfl | rfl
  · exact (QuantumInv_iff arrival (by decide) _).mpr q1
  · exact (QuantumInv_iff completion (by decide) _).mpr q2
  · exact (QuantumInv_iff selection (by decide) _).mpr q35.1
  · exact q35.2
  · exact (QuantumInv_iff execution (by decide) _).mpr q6
  · exact (QuantumInv_iff deadlineCheck (by decide) _).mpr q7
  · exact q8

/-- The logged states of a boundary list are its decision boundaries. -/
theorem mem_decisionStates {bs : List (SubStep × SimulationState)} {x : SimulationState}
    (h : x ∈ decisionStates bs) : (decision, x) ∈ bs := by
  unfold decisionStates at h
  obtain ⟨b, hb, hx⟩ := List.mem_map.mp h
  obtain ⟨hmem, hl⟩ := List.mem_filter.mp hb
  have hl2 : b.1 = decision := of_decide_eq_true hl
  have : b = (decision, x) := by
    rw [← hl2, ← hx]
  rw [← this]
  exact hmem

/-- C31: the quantum invariant.  In every run (jobs from `generate_jobs` and
`read_actual_execution_times`, which accepts only AETs `≥ 1`; the worst-case
times of the tasks being non-negative `int` values), at the boundary after the
decision of every tick, the state on which the execution step runs and which
step 5 logs, an occupant has a remaining quantum `q` with
`1 ≤ q ≤ remaining_aet`; at every other boundary `0 ≤ q ≤ remaining_aet`.  So
the quantum never outlives the actual work of the job, and no occupant
executes with an expired quantum. -/
theorem quantum_invariant (H : Int) (tasks : List Task) (aets : List Int)
    (jobs0 jobs : List Job) (hgen : generate_jobs H tasks = some jobs0)
    (haet : read_actual_execution_times aets jobs0 = some jobs)
    (hw : ∀ t ∈ tasks, 0 ≤ t.wcet ∧ t.wcet ≤ INT_MAX) :
    ∃ r bs, RunWithBoundaries H jobs r bs
      ∧ (∀ b ∈ bs, b.1 = decision → ∀ o, b.2.running_job = some o →
          1 ≤ b.2.current_job_quantum_remaining
          ∧ b.2.current_job_quantum_remaining ≤ (getJob b.2.jobs o).remaining_aet)
      ∧ (∀ x ∈ r.2, ∀ o, x.running_job = some o →
          1 ≤ x.current_job_quantum_remaining
          ∧ x.current_job_quantum_remaining ≤ (getJob x.jobs o).remaining_aet)
      ∧ (∀ b ∈ bs, ∀ o, b.2.running_job = some o →
          0 ≤ b.2.current_job_quantum_remaining
          ∧ b.2.current_job_quantum_remaining ≤ (getJob b.2.jobs o).remaining_aet)
      ∧ (∀ j ∈ jobs, 1 ≤ j.aet) := by
  obtain ⟨r, bs, hrun, -, -⟩ := run_with_boundaries H tasks aets jobs0 jobs hgen haet
  have hinit := pipeline_InitialJobs H tasks aets jobs0 jobs hgen haet
  have hq0 : ∀ lbl, QuantumInv lbl (initialState jobs) := by
    intro lbl o ho
    cases ho
  obtain ⟨bs1, hbs1, hall⟩ := run_boundaries_inv H jobs hinit
    (fun s => StaticInv s ∧ 0 ≤ s.current_time ∧ QuantumInv advance s)
    (fun b => QuantumInv b.1 b.2)
    ⟨pipeline_static H tasks aets jobs0 jobs hgen haet hw, le_refl _, hq0 advance⟩
    (hq0 start)
    (by
      rintro s s1 req1 s5 - ⟨hst, ht, hq⟩ hf
      obtain ⟨q8, hall⟩ := QuantumInv_tick s s1 req1 s5 hst ht hq hf
      exact ⟨⟨(StaticInv_tick s s1 req1 s5 hf hst).2.2.2.2.2.2, by rw [hf.time8]; omega, q8⟩,
        hall⟩)
  rw [hrun.2.1] at hbs1
  cases hbs1
  have hdec : ∀ b ∈ bs, b.1 = decision → ∀ o, b.2.running_job = some o →
      1 ≤ b.2.current_job_quantum_remaining
      ∧ b.2.current_job_quantum_remaining ≤ (getJob b.2.jobs o).remaining_aet := by
    intro b hb hl o ho
    have := hall b hb o ho
    rw [hl, quantumFloor_decision] at this
    exact this
  refine ⟨r, bs, hrun, hdec, ?_, ?_, ?_⟩
  · intro x hx o ho
    rw [hrun.2.2.2.2] at hx
    exact hdec (decision, x) (mem_decisionStates hx) rfl o ho
  · intro b hb o ho
    have := hall b hb o ho
    refine ⟨le_trans ?_ this.1, this.2⟩
    unfold quantumFloor
    split_ifs <;> omega
  · intro j hj
    obtain ⟨h1, h2⟩ := (read_actual_execution_times_inv aets jobs0 jobs haet).2.1 j hj
    omega

/-- Witness of C31: the scenario of section 8. -/
theorem quantum_invariant_witness :
    generate_jobs 8 scenarioTasks = some scenarioGenerated
    ∧ read_actual_execution_times [2, 2, 2] scenarioGenerated = some scenarioJobs
    ∧ (∀ t ∈ scenarioTasks, 0 ≤ t.wcet ∧ t.wcet ≤ INT_MAX)
    ∧ ∃ r bs, RunWithBoundaries 8 scenarioJobs r bs
      ∧ (∀ x ∈ r.2, ∀ o, x.running_job = some o →
          1 ≤ x.current_job_quantum_remaining
          ∧ x.current_job_quantum_remaining ≤ (getJob x.jobs o).remaining_aet) := by
  refine ⟨by decide, by decide, by decide, ?_⟩
  obtain ⟨r, bs, h1, -, h3, -⟩ := quantum_invariant 8 scenarioTasks [2, 2, 2]
    scenarioGenerated scenarioJobs (by decide) (by decide) (by decide)
  exact ⟨r, bs, h1, h3⟩

/-! ## Actual work done -/

/-- No sub-step writes `aet`. -/
theorem JobStep_keeps_aet {lbl : SubStep} {x y : SimulationState} {i : Nat}
    (h : JobStep lbl x y i) : (getJob y.jobs i).aet = (getJob x.jobs i).aet := by
  rcases h with h | ⟨-, -, -, h⟩ | ⟨-, -, -, -, h⟩ | ⟨-, -, h⟩ | ⟨-, -, -, h⟩
    | ⟨-, -, -, -, -, h⟩ | ⟨-, -, -, h⟩ | ⟨-, -, -, -, h⟩ <;> rw [h] <;> rfl

theorem rescheduleStep_sameWork (s2 : SimulationState) (req : Bool) (s5 : SimulationState)
    (h : rescheduleStep s2 req = some s5) : sameWork s2.jobs s5.jobs := by
  rcases rescheduleStep_cases s2 req s5 h with ⟨-, hmk⟩ | ⟨-, hs5, -⟩
  · exact sameWork_trans (select_sameWork s2) (make_decision_sameWork _ _ s5 hmk)
  · rw [hs5]; exact calculate_all_laxities_sameWork s2

theorem workDone_congr : ∀ (l l1 : List Job), l1.length = l.length →
    (∀ i, i < l.length →
      (getJob l1 i).aet - (getJob l1 i).remaining_aet
        = (getJob l i).aet - (getJob l i).remaining_aet) →
    workDone l1 = workDone l := by
  intro l
  induction l with
  | nil =>
    intro l1 hlen _
    rw [List.length_eq_zero.mp hlen]
  | cons a l ih =>
    intro l1 hlen h
    cases l1 with
    | nil => cases hlen
    | cons a1 l1 =>
      have h0 := h 0 (by simp)
      rw [getJob_cons_zero, getJob_cons_zero] at h0
      have ht := ih l1 (by simpa using hlen) (fun i hi => by
        have := h (i + 1) (by simpa using hi)
        rw [getJob_cons_succ, getJob_cons_succ] at this
        exact this)
      unfold workDone at ht ⊢
      simp only [List.map_cons, List.sum_cons]
      rw [ht, h0]

theorem workDone_unit : ∀ (l l1 : List Job) (o : Nat), l1.length = l.length → o < l.length →
    (∀ i, i < l.length →
      (getJob l1 i).aet - (getJob l1 i).remaining_aet
        = (getJob l i).aet - (getJob l i).remaining_aet + (if i = o then 1 else 0)) →
    workDone l1 = workDone l + 1 := by
  intro l
  induction l with
  | nil => intro l1 o _ ho; cases ho
  | cons a l ih =>
    intro l1 o hlen ho h
    cases l1 with
    | nil => cases hlen
    | cons a1 l1 =>
      have h0 := h 0 (by simp)
      rw [getJob_cons_zero, getJob_cons_zero] at h0
      have hlen1 : l1.length = l.length := by simpa using hlen
      have htail : ∀ i, i < l.length →
          (getJob l1 i).aet - (getJob l1 i).remaining_aet
            = (getJob l i).aet - (getJob l i).remaining_aet + (if i + 1 = o then 1 else 0) := by
        intro i hi
        have := h (i + 1) (by simpa using hi)
        rw [getJob_cons_succ, getJob_cons_succ] at this
        exact this
      cases o with
      | zero =>
        have ht := workDone_congr l l1 hlen1 (fun i hi => by
          have := htail i hi
          simpa using this)
        unfold workDone at ht ⊢
        simp only [List.map_cons, List.sum_cons]
        rw [ht, h0]
        simp
        ring
      | succ o =>
        have ht := ih l1 o hlen1 (by simpa using ho) (fun i hi => by
          have := htail i hi
          simpa using this)
        unfold workDone at ht ⊢
        simp only [List.map_cons, List.sum_cons]
        rw [ht, h0]
        simp
        ring

/-- One tick adds one to `idle_time` plus the actual work done: an idle tick
to the first, an occupied tick to the second. -/
theorem workDone_tick (s s1 : SimulationState) (req1 : Bool) (s5 : SimulationState)
    (hinv : RunInv s) (hf : TickFacts s s1 req1 s5) :
    (tickExecute s5).idle_time + workDone (tickExecute s5).jobs
      = s.idle_time + workDone s.jobs + 1 := by
  have haetc := tick_carry s s1 req1 s5 hf
    (fun x => ∀ i, (getJob x.jobs i).aet = (getJob s.jobs i).aet)
    (fun lbl x y _ hst _ hx i => (JobStep_keeps_aet (hst i)).trans (hx i)) (fun _ => rfl)
  obtain ⟨-, -, -, a5, a6, a7, -⟩ := haetc
  have hlen := hf.len
  have l5 := hlen (decision, s5) (by simp [tickList])
  have l6 := hlen (execution, execute_running_job s5) (by simp [tickList])
  have l7 := hlen (deadlineCheck, check_deadline_misses (execute_running_job s5))
    (by simp [tickList])
  -- steps 1 to 4
  have hw5 : sameWork s.jobs s5.jobs :=
    sameWork_trans (arrivalsLoop_sameWork _ s false s1 req1 hf.arr)
      (sameWork_trans (completionStep_sameWork s1) (rescheduleStep_sameWork _ _ s5 hf.res))
  have w5 : workDone s5.jobs = workDone s.jobs :=
    workDone_congr _ _ l5 (fun i _ => by rw [a5 i, (hw5 i).2])
  obtain ⟨s5a, he, -, -, hidle⟩ := tickSchedule_idle s hinv.1
  rw [(tickBoundaries_eq s s1 req1 s5 hf.arr hf.res).2] at he
  cases he
  -- deadline check and time advance
  have w7 : workDone (check_deadline_misses (execute_running_job s5)).jobs
      = workDone (execute_running_job s5).jobs :=
    workDone_congr _ _ (l7.trans l6.symm) (fun i _ => by
      rw [a7 i, a6 i, (check_deadline_misses_sameWork (execute_running_job s5) i).2])
  have w8 : workDone (tickExecute s5).jobs
      = workDone (check_deadline_misses (execute_running_job s5)).jobs := rfl
  have i8 : (tickExecute s5).idle_time = s5.idle_time :=
    (tickExecute_frame s5 hf.inv5.1).2.2.2.2.2.1
  rw [w8, w7, i8, hidle]
  -- execution
  rcases Option.eq_none_or_eq_some s5.running_job with hr | ⟨o, hr⟩
  · have he6 : execute_running_job s5 = s5 := by
      unfold execute_running_job
      rw [hr]
    rw [he6, w5, if_pos hr]
    ring
  · have hrun : (getJob s5.jobs o).status = RUNNING := (hf.inv5.2.1.2 o).mpr hr
    have hpos := hf.occ5 o hr
    have w6 : workDone (execute_running_job s5).jobs = workDone s5.jobs + 1 := by
      refine workDone_unit _ _ o (l6.trans l5.symm) (hf.inv5.1.2.2.1 o hr) ?_
      intro i _
      rw [getJob_execute_running_job]
      by_cases hio : i = o
      · subst hio
        rw [if_pos ⟨hr, hrun⟩, if_pos rfl]
        show (getJob s5.jobs i).aet
          - (if (getJob s5.jobs i).remaining_aet > 0 then (getJob s5.jobs i).remaining_aet - 1
              else (getJob s5.jobs i).remaining_aet) = _
        rw [if_pos (by omega)]
        ring
      · have hne : ¬ (s5.running_job = some i ∧ (getJob s5.jobs i).status = RUNNING) := by
          rintro ⟨h1, -⟩
          rw [hr] at h1
          exact hio (Option.some.inj h1).symm
        rw [if_neg hne, if_neg hio]
        ring
    rw [w6, w5, if_neg (by rw [hr]; simp)]
    ring

/-- A job marked MISSED has work left, and keeps it. -/
theorem MissedPos_step {a b : SubStep × SimulationState} (hab : BoundaryStep a b)
    (ha : ∀ i, (getJob a.2.jobs i).status = MISSED → 1 ≤ (getJob a.2.jobs i).remaining_aet) :
    ∀ i, (getJob b.2.jobs i).status = MISSED → 1 ≤ (getJob b.2.jobs i).remaining_aet := by
  intro i hm
  by_cases hx : (getJob a.2.jobs i).status = MISSED
  · have hfz := JobStep_frozen (hab.1 i) (Or.inr hx)
    rw [hfz]
    exact ha i hx
  · rcases hab.1 i with h | ⟨-, -, -, h⟩ | ⟨-, -, -, -, h⟩ | ⟨-, hst, h⟩ | ⟨-, -, -, h⟩
      | ⟨-, -, -, -, -, h⟩ | ⟨-, hst, -, h⟩ | ⟨-, -, -, hpos, h⟩
    · rw [h] at hm; exact absurd hm hx
    · rw [h] at hm; cases hm
    · rw [h] at hm; cases hm
    · rw [h] at hm; exact absurd hm hx
    · rw [h] at hm; cases hm
    · rw [h] at hm; cases hm
    · rw [h] at hm
      have : (getJob a.2.jobs i).status = MISSED := hm
      exact absurd this hx
    · rw [h]
      show 1 ≤ (getJob a.2.jobs i).remaining_aet
      omega

/-- The occupant that the execution step is about to execute has work left. -/
theorem run_decision_OccPos (H : Int) (jobs : List Job) (hinit : InitialJobs jobs) :
    ∃ bs, run_boundaries H jobs = some bs ∧ ∀ b ∈ bs, b.1 = decision → OccPos b.2 := by
  refine run_boundaries_inv H jobs hinit (fun _ => True) (fun b => b.1 = decision → OccPos b.2)
    trivial (fun hl => by cases hl) ?_
  intro s s1 req1 s5 _ _ hf
  refine ⟨trivial, ?_⟩
  intro b hb hl
  simp only [tickList, List.mem_cons, List.mem_singleton, List.not_mem_nil, or_false] at hb
  rcases hb with rfl | rfl | rfl | rfl | rfl | rfl | rfl
  · cases hl
  · cases hl
  · cases hl
  · exact hf.occ5
  · cases hl
  · cases hl
  · cases hl

/-- At the end of a run over a horizon `H ≥ 0`, `idle_time` plus the actual
work done is `H`. -/
theorem run_workDone (H : Int) (jobs : List Job) (hH : 0 ≤ H) (hinit : InitialJobs jobs)
    (haet : ∀ j ∈ jobs, j.aet = j.remaining_aet) :
    ∃ r, run_mllf_simulation H jobs = some r ∧ r.1.idle_time + workDone r.1.jobs = H := by
  have h0 : workDone jobs = 0 := by
    unfold workDone
    have : (jobs.map fun j => j.aet - j.remaining_aet) = jobs.map fun _ => (0 : Int) := by
      apply List.map_congr_left
      intro j hj
      rw [haet j hj]
      ring
    rw [this]
    simp
  obtain ⟨r, hr, ⟨-, hw, hle⟩, hnot⟩ := simLoop_inv H
    (fun s _ => RunInv s ∧ s.idle_time + workDone s.jobs = s.current_time ∧ s.current_time ≤ H)
    (by
      rintro s tr ⟨hinv, hw, -⟩ hlt
      obtain ⟨s1, req1, s5, hf⟩ := tick_facts s hinv
      refine ⟨s5, (tickBoundaries_eq s s1 req1 s5 hf.arr hf.res).2, ⟨hf.inv8, ?_, ?_⟩, hf.time8⟩
      · rw [workDone_tick s s1 req1 s5 hinv hf, hf.time8, hw]
      · rw [hf.time8]; omega)
    H.toNat (initialState jobs) []
    ⟨initialState_RunInv jobs hinit, by
      show (0 : Int) + workDone jobs = 0
      rw [h0]; rfl, hH⟩
    (by
      show H - 0 ≤ (H.toNat : Int)
      have := Int.self_le_toNat H
      omega)
  exact ⟨r, hr, by rw [hw]; omega⟩

/-- C32: queued and dispatched jobs have work left.  In every run (jobs from
`generate_jobs` and `read_actual_execution_times`, which accepts only AETs
`≥ 1`) over a horizon `H ≥ 0`: at every sub-step boundary, so at the execution
step and at the deadline-check step of every tick, every job with status READY
and every entry of the ready queue has `remaining_aet ≥ 1`; at the execution
step the occupant, if any, has `remaining_aet ≥ 1`; every job with status
MISSED has `remaining_aet ≥ 1`, so the deadline check, whose ready-queue branch
does not test `remaining_aet`, never marks a job without work left; and at
termination `idle_time` plus the sum over the jobs of `aet - remaining_aet` is
the hyperperiod. -/
theorem queued_and_dispatched_have_work (H : Int) (tasks : List Task) (aets : List Int)
    (jobs0 jobs : List Job) (hgen : generate_jobs H tasks = some jobs0)
    (haet : read_actual_execution_times aets jobs0 = some jobs) (hH : 0 ≤ H) :
    ∃ r bs, RunWithBoundaries H jobs r bs
      ∧ (∀ b ∈ bs, ∀ i, (getJob b.2.jobs i).status = READY →
          1 ≤ (getJob b.2.jobs i).remaining_aet)
      ∧ (∀ b ∈ bs, ∀ i ∈ b.2.ready_queue, 1 ≤ (getJob b.2.jobs i).remaining_aet)
      ∧ (∀ b ∈ bs, b.1 = decision → ∀ o, b.2.running_job = some o →
          1 ≤ (getJob b.2.jobs o).remaining_aet)
      ∧ (∀ b ∈ bs, ∀ i, (getJob b.2.jobs i).status = MISSED →
          1 ≤ (getJob b.2.jobs i).remaining_aet)
      ∧ r.1.idle_time + workDone r.1.jobs = H
      ∧ (∀ j ∈ jobs, 1 ≤ j.aet) := by
  obtain ⟨r, bs, hrun, hinv, hchain⟩ := run_with_boundaries H tasks aets jobs0 jobs hgen haet
  have hinit := pipeline_InitialJobs H tasks aets jobs0 jobs hgen haet
  have hjobs := (read_actual_execution_times_inv aets jobs0 jobs haet).2.1
  have hready : ∀ b ∈ bs, ∀ i, (getJob b.2.jobs i).status = READY →
      1 ≤ (getJob b.2.jobs i).remaining_aet := by
    intro b hb i hrd
    have hlt : i < b.2.jobs.length := lt_of_status_ne (by rw [hrd]; simp)
    exact ((hinv b hb).2.2.2.1 i hlt).2 (Or.inr hrd)
  obtain ⟨bs1, hbs1, hocc⟩ := run_decision_OccPos H jobs hinit
  rw [hrun.2.1] at hbs1
  cases hbs1
  obtain ⟨r1, hr1, hwork⟩ := run_workDone H jobs hH hinit (fun j hj => (hjobs j hj).2)
  rw [hrun.1] at hr1
  cases hr1
  refine ⟨r, bs, hrun, hready, ?_, ?_, ?_, hwork, fun j hj => ?_⟩
  · intro b hb i hi
    exact hready b hb i (((hinv b hb).2.1.1 i).mpr hi)
  · intro b hb hl o ho
    have := hocc b hb hl o ho
    omega
  · refine chain_forall BoundaryStep
      (fun b => ∀ i, (getJob b.2.jobs i).status = MISSED → 1 ≤ (getJob b.2.jobs i).remaining_aet)
      (fun a b hab ha => MissedPos_step hab ha) bs hchain ?_
    intro a ha i hm
    rw [hrun.2.2.1] at ha
    cases ha
    have hm2 : (getJob jobs i).status = MISSED := hm
    have hlt : i < jobs.length := lt_of_status_ne (by rw [hm2]; simp)
    have := (hinit.2 _ (getJob_mem hlt)).1
    rw [this] at hm2
    cases hm2
  · obtain ⟨h1, h2⟩ := hjobs j hj
    omega

/-- Witness of C32: the scenario of section 8. -/
theorem queued_and_dispatched_have_work_witness :
    generate_jobs 8 scenarioTasks = some scenarioGenerated
    ∧ read_actual_execution_times [2, 2, 2] scenarioGenerated = some scenarioJobs
    ∧ (0 : Int) ≤ 8
    ∧ ∃ r bs, RunWithBoundaries 8 scenarioJobs r bs
      ∧ r.1.idle_time + workDone r.1.jobs = 8 := by
  refine ⟨by decide, by decide, by decide, ?_⟩
  obtain ⟨r, bs, h1, -, -, -, -, h6, -⟩ := queued_and_dispatched_have_work 8 scenarioTasks
    [2, 2, 2] scenarioGenerated scenarioJobs (by decide) (by decide) (by decide)
  exact ⟨r, bs, h1, h6⟩

/-! ## Work conservation -/

/-- On a state of a run with a non-empty ready queue, the selector returns a
candidate. -/
theorem select_some_of_waiting (s : SimulationState) (hinv : RunInv s) (hst : StaticInv s)
    (ht : 0 ≤ s.current_time) (hq : s.ready_queue ≠ []) :
    (select_mllf_task_Ta s).2 ≠ none := by
  obtain ⟨hwf, hsi, -⟩ := hinv
  obtain ⟨w, hw⟩ := List.exists_mem_of_ne_nil _ hq
  have hwlt : w < s.jobs.length := hwf.2.1 w hw
  have helig : ∀ i, isEligible s i → i < s.jobs.length := by
    intro i hi
    rcases hi with hi | ⟨hi, -⟩
    · exact hwf.2.1 i hi
    · exact hwf.2.2.1 i hi
  obtain ⟨m, acc, hsel, hmin, hatt, hsi1, -⟩ := select_inv s
    (fun i hi => (hsi.1 i).mpr hi)
    (by
      intro i j hi hj hij
      rw [(hst i hi).1, (hst j hj).1]
      exact_mod_cast hij)
    (fun i hi => (hst i (helig i hi)).2.2.1)
    (by
      rintro ⟨h, -⟩
      exact hq (List.length_eq_zero.mp h))
  rw [hsel]
  intro hnone
  obtain ⟨-, hno⟩ := hsi1 hnone
  have her : isEligible s w := Or.inl hw
  rcases hatt with hm | ⟨i, hi, hlax⟩
  · have h1 := hmin w her
    obtain ⟨-, h2, -, h4⟩ := hst w hwlt
    have h3 : laxityNow s w ≤ INT_MAX := by
      unfold laxityNow
      omega
    exact hno w her ⟨her, by omega⟩
  · exact hno i hi ⟨hi, hlax⟩

/-- Step 4 of a tick leaves the processor idle only when the ready queue is
empty. -/
theorem rescheduleStep_idle_empty (s2 : SimulationState) (req : Bool) (s5 : SimulationState)
    (hinv : RunInv s2) (hst : StaticInv s2) (ht : 0 ≤ s2.current_time)
    (h : rescheduleStep s2 req = some s5) (hidle : s5.running_job = none) :
    s5.ready_queue = [] := by
  rcases rescheduleStep_cases s2 req s5 h with ⟨-, hmk⟩ | ⟨-, hs5, r, hr⟩
  · obtain ⟨-, q3, r3, -⟩ := select_wf s2 hinv.1
    rw [make_decision_eq] at hmk
    cases hd : decisionBranches (select_mllf_task_Ta s2).1 (select_mllf_task_Ta s2).2 with
    | none => rw [hd] at hmk; cases hmk
    | some s4 =>
      rw [hd] at hmk
      simp only [Option.map_some', Option.some.injEq] at hmk
      have hrun4 : s4.running_job = none := by
        rw [← hmk, contextSwitchCheck_eq] at hidle
        exact hidle
      have hq5 : s5.ready_queue = s4.ready_queue := by
        rw [← hmk, contextSwitchCheck_eq]
      rw [hq5]
      rcases Option.eq_none_or_eq_some (select_mllf_task_Ta s2).1.running_job with hrun | ⟨o, hrun⟩
      · cases hc : (select_mllf_task_Ta s2).2 with
        | none =>
          rw [hc, decisionBranches_idle_none _ hrun] at hd
          cases hd
          show (select_mllf_task_Ta s2).1.ready_queue = []
          rw [q3]
          by_contra hne
          exact select_some_of_waiting s2 hinv hst ht hne hc
        | some ta =>
          rw [hc, decisionBranches_idle_start _ ta hrun] at hd
          cases hd
          cases hrun4
      · cases hc : (select_mllf_task_Ta s2).2 with
        | none =>
          rw [hc, decisionBranches_busy_none _ o hrun] at hd
          cases hd
          rw [hrun] at hrun4
          cases hrun4
        | some ta =>
          rw [hc] at hd
          by_cases htr : ta = o
          · subst htr
            rw [decisionBranches_continue _ ta hrun] at hd
            have h4 : s4.running_job = some ta := by
              split_ifs at hd <;> cases hd <;> exact hrun
            rw [h4] at hrun4
            cases hrun4
          · rw [decisionBranches_preempt _ o ta hrun htr] at hd
            cases ha : add_job_to_ready_queue
                { (select_mllf_task_Ta s2).1 with
                  jobs := setStatus (select_mllf_task_Ta s2).1.jobs o READY } o with
            | none => rw [ha] at hd; cases hd
            | some s2a =>
              rw [ha] at hd
              simp only [Option.map_some', Option.some.injEq] at hd
              rw [← hd] at hrun4
              cases hrun4
  · rw [hs5, (calculate_all_laxities_frame s2).2.1, hr] at hidle
    cases hidle

/-- C33: work conservation.  In every run (jobs from `generate_jobs` and
`read_actual_execution_times`, the worst-case times of the tasks being
non-negative `int` values), at the boundary after the decision of every tick,
the state on which the execution step runs and which step 5 logs: if the
running slot is empty (the tick is an idle tick), then the ready queue is
empty and no job has status READY. -/
theorem work_conservation (H : Int) (tasks : List Task) (aets : List Int)
    (jobs0 jobs : List Job) (hgen : generate_jobs H tasks = some jobs0)
    (haet : read_actual_execution_times aets jobs0 = some jobs)
    (hw : ∀ t ∈ tasks, 0 ≤ t.wcet ∧ t.wcet ≤ INT_MAX) :
    ∃ r bs, RunWithBoundaries H jobs r bs
      ∧ (∀ b ∈ bs, b.1 = decision → b.2.running_job = none →
          b.2.ready_queue = [] ∧ ∀ i, (getJob b.2.jobs i).status ≠ READY)
      ∧ (∀ x ∈ r.2, x.running_job = none →
          x.ready_queue = [] ∧ ∀ i, (getJob x.jobs i).status ≠ READY) := by
  obtain ⟨r, bs, hrun, hinv, -⟩ := run_with_boundaries H tasks aets jobs0 jobs hgen haet
  have hinit := pipeline_InitialJobs H tasks aets jobs0 jobs hgen haet
  obtain ⟨bs1, hbs1, hall⟩ := run_boundaries_inv H jobs hinit
    (fun s => StaticInv s ∧ 0 ≤ s.current_time)
    (fun b => b.1 = decision → b.2.running_job = none → b.2.ready_queue = [])
    ⟨pipeline_static H tasks aets jobs0 jobs hgen haet hw, le_refl _⟩
    (fun hl => by cases hl)
    (by
      rintro s s1 req1 s5 - ⟨hst, ht⟩ hf
      obtain ⟨-, hst2, -, -, -, -, hst8⟩ := StaticInv_tick s s1 req1 s5 hf hst
      refine ⟨⟨hst8, by rw [hf.time8]; omega⟩, ?_⟩
      intro b hb hl hidle
      simp only [tickList, List.mem_cons, List.mem_singleton, List.not_mem_nil, or_false] at hb
      rcases hb with rfl | rfl | rfl | rfl | rfl | rfl | rfl
      · cases hl
      · cases hl
      · cases hl
      · exact rescheduleStep_idle_empty _ _ s5 hf.inv2 hst2 (by rw [hf.time2]; exact ht)
          hf.res hidle
      · cases hl
      · cases hl
      · cases hl)
  rw [hrun.2.1] at hbs1
  cases hbs1
  have hdec : ∀ b ∈ bs, b.1 = decision → b.2.running_job = none →
      b.2.ready_queue = [] ∧ ∀ i, (getJob b.2.jobs i).status ≠ READY := by
    intro b hb hl hidle
    have hq := hall b hb hl hidle
    refine ⟨hq, ?_⟩
    intro i hrd
    have := ((hinv b hb).2.1.1 i).mp hrd
    rw [hq] at this
    cases this
  refine ⟨r, bs, hrun, hdec, ?_⟩
  intro x hx hidle
  rw [hrun.2.2.2.2] at hx
  exact hdec (decision, x) (mem_decisionStates hx) rfl hidle

/-- Witness of C33: the scenario of section 8. -/
theorem work_conservation_witness :
    generate_jobs 8 scenarioTasks = some scenarioGenerated
    ∧ read_actual_execution_times [2, 2, 2] scenarioGenerated = some scenarioJobs
    ∧ (∀ t ∈ scenarioTasks, 0 ≤ t.wcet ∧ t.wcet ≤ INT_MAX)
    ∧ ∃ r bs, RunWithBoundaries 8 scenarioJobs r bs
      ∧ (∀ x ∈ r.2, x.running_job = none →
          x.ready_queue = [] ∧ ∀ i, (getJob x.jobs i).status ≠ READY) := by
  refine ⟨by decide, by decide, by decide, ?_⟩
  obtain ⟨r, bs, h1, -, h3⟩ := work_conservation 8 scenarioTasks [2, 2, 2]
    scenarioGenerated scenarioJobs (by decide) (by decide) (by decide)
  exact ⟨r, bs, h1, h3⟩

/-! ## Completion at the horizon -/

theorem HorizonInv_step (lbl : SubStep) (x y : SimulationState) (ht : 0 ≤ x.current_time)
    (hst : ∀ i, JobStep lbl x y i) (hx : HorizonInv x) : HorizonInv y := by
  intro i
  obtain ⟨h1, h2, h3⟩ := hx i
  rcases hst i with h | ⟨-, hs, -, h⟩ | ⟨-, hs, -, -, h⟩ | ⟨-, -, h⟩ | ⟨-, hs, -, h⟩
    | ⟨-, hs, -, -, -, h⟩ | ⟨-, hs, -, h⟩ | ⟨-, hs, -, hpos, h⟩
  · rw [h]; exact ⟨h1, h2, h3⟩
  · rw [h]
    refine ⟨fun _ => h1 (by rw [hs]; simp), ?_, ?_⟩
    · intro hc; cases hc
    · intro hc; cases hc
  · rw [h]
    refine ⟨fun hc => absurd rfl hc, fun _ => ht, ?_⟩
    intro hc; cases hc
  · rw [h]; exact ⟨h1, h2, h3⟩
  · rw [h]
    refine ⟨fun _ => h1 (by rw [hs]; simp), ?_, ?_⟩
    · intro hc; cases hc
    · intro hc; cases hc
  · rw [h]
    refine ⟨fun _ => h1 (by rw [hs]; simp), ?_, ?_⟩
    · intro hc; cases hc
    · intro hc; cases hc
  · rw [h]
    refine ⟨fun _ => h1 (by rw [hs]; simp), ?_, ?_⟩
    · intro hc
      have : (getJob x.jobs i).status = COMPLETED := hc
      rw [hs] at this; cases this
    · intro hc
      have : (getJob x.jobs i).status = MISSED := hc
      rw [hs] at this; cases this
  · rw [h]
    refine ⟨fun _ => h1 (by rcases hs with hs | hs <;> rw [hs] <;> simp), ?_, ?_⟩
    · intro hc; cases hc
    · intro _
      show 1 ≤ (getJob x.jobs i).remaining_aet
      omega

theorem initialState_HorizonInv (jobs : List Job) (hinit : InitialJobs jobs)
    (hfin : ∀ j ∈ jobs, j.finish_time = -1) : HorizonInv (initialState jobs) := by
  intro i
  have hrec : (getJob jobs i).status = NOT_ARRIVED ∧ (getJob jobs i).finish_time = -1 := by
    by_cases hi : i < jobs.length
    · exact ⟨(hinit.2 _ (getJob_mem hi)).1, hfin _ (getJob_mem hi)⟩
    · rw [getJob_of_ge (not_lt.mp hi)]
      exact ⟨rfl, rfl⟩
  refine ⟨fun _ => hrec.2, ?_, ?_⟩
  · intro hc
    have : (getJob jobs i).status = COMPLETED := hc
    rw [hrec.1] at this; cases this
  · intro hc
    have : (getJob jobs i).status = MISSED := hc
    rw [hrec.1] at this; cases this

theorem pipeline_finish_unset (H : Int) (tasks : List Task) (aets : List Int)
    (jobs0 jobs : List Job) (hgen : generate_jobs H tasks = some jobs0)
    (haet : read_actual_execution_times aets jobs0 = some jobs) :
    ∀ j ∈ jobs, j.finish_time = -1 :=
  read_actual_execution_times_forall (fun j => j.finish_time = -1) (fun _ _ h => h) aets jobs0
    jobs haet
    (generateLoop_forall (fun j => j.finish_time = -1) H (fun _ _ _ _ => rfl) tasks [] jobs0 hgen
      (fun j hj => by cases hj))

/-- The deadline check leaves in place an occupant without work left. -/
theorem check_deadline_misses_keeps (s : SimulationState) (o : Nat)
    (hr : s.running_job = some o) (h0 : ¬ 0 < (getJob s.jobs o).remaining_aet) :
    (check_deadline_misses s).running_job = some o := by
  have hdef : check_deadline_misses s
      = checkQueueMisses (s.current_time + 1)
          (checkRunningMiss (s.current_time + 1) s).ready_queue.length
          (checkRunningMiss (s.current_time + 1) s) := rfl
  rw [hdef, (checkQueueMisses_frame _ _ _).1]
  rcases checkRunningMiss_cases (s.current_time + 1) s with hc | ⟨r, hrr, -, -, hpos, -⟩
  · rw [hc]; exact hr
  · rw [hr] at hrr
    cases hrr
    exact absurd hpos h0

/-- The end of a tick and the state that the tick has logged: an occupant left
without work has executed its last unit in the tick, and the logged occupant
with one unit left is still the occupant, without work. -/
theorem tick_last_unit (s s1 : SimulationState) (req1 : Bool) (s5 : SimulationState)
    (hf : TickFacts s s1 req1 s5) :
    (∀ i, (tickExecute s5).running_job = some i →
        (getJob (tickExecute s5).jobs i).remaining_aet = 0 →
        s5.running_job = some i ∧ (getJob s5.jobs i).remaining_aet = 1)
    ∧ (∀ o, s5.running_job = some o → (getJob s5.jobs o).remaining_aet = 1 →
        (tickExecute s5).running_job = some o
        ∧ (getJob (tickExecute s5).jobs o).remaining_aet = 0) := by
  have hexec : ∀ o, s5.running_job = some o →
      (getJob (execute_running_job s5).jobs o).remaining_aet
        = (getJob s5.jobs o).remaining_aet - 1 := by
    intro o ho
    have hrun : (getJob s5.jobs o).status = RUNNING := (hf.inv5.2.1.2 o).mpr ho
    have hpos := hf.occ5 o ho
    rw [getJob_execute_running_job, if_pos ⟨ho, hrun⟩]
    show (if (getJob s5.jobs o).remaining_aet > 0 then (getJob s5.jobs o).remaining_aet - 1
      else (getJob s5.jobs o).remaining_aet) = _
    rw [if_pos (by omega)]
  have hsame : ∀ i, (getJob (tickExecute s5).jobs i).remaining_aet
      = (getJob (execute_running_job s5).jobs i).remaining_aet :=
    fun i => (check_deadline_misses_sameWork (execute_running_job s5) i).2
  have e2 := (execute_running_job_frame s5).2.1
  constructor
  · intro i hi h0
    have h7 : (check_deadline_misses (execute_running_job s5)).running_job = some i := hi
    have h6 := (check_deadline_misses_occupant _ i h7).1
    rw [e2] at h6
    rw [hsame, hexec i h6] at h0
    exact ⟨h6, by omega⟩
  · intro o ho h1
    have h6 : (execute_running_job s5).running_job = some o := by rw [e2]; exact ho
    have hz : (getJob (execute_running_job s5).jobs o).remaining_aet = 0 := by
      rw [hexec o ho, h1]; rfl
    refine ⟨check_deadline_misses_keeps _ o h6 (by rw [hz]; decide), ?_⟩
    rw [hsame, hz]

/-- C34: completion at the horizon.  At the termination of every run (jobs from
`generate_jobs` and `read_actual_execution_times`), every job with
`remaining_aet = 0` either has status COMPLETED with `finish_time` set (not
negative, so not -1), or is the occupant with status RUNNING and
`finish_time = -1` that executed its last unit in the final tick: the last
logged state, of time one less than the final time, has it as occupant with
`remaining_aet = 1`.  Conversely the occupant of the last logged state with one
unit left ends RUNNING with `remaining_aet = 0` and `finish_time = -1`.  At
most one job has status RUNNING, `completed_jobs` counts exactly the jobs with
status COMPLETED, so not that job, and over a horizon `H ≥ 0` the final time is
`H`.  For the single task (arrival 0, period 2, wcet 2, deadline 2) with AET 2
the run over the hyperperiod 2 ends with the job RUNNING, `remaining_aet = 0`,
`finish_time = -1` and `completed_jobs = 0`. -/
theorem completion_at_the_horizon (H : Int) (tasks : List Task) (aets : List Int)
    (jobs0 jobs : List Job) (hgen : generate_jobs H tasks = some jobs0)
    (haet : read_actual_execution_times aets jobs0 = some jobs) :
    (∃ r, run_mllf_simulation H jobs = some r
      ∧ (∀ i, (getJob r.1.jobs i).remaining_aet = 0 →
          ((getJob r.1.jobs i).status = COMPLETED ∧ 0 ≤ (getJob r.1.jobs i).finish_time
            ∧ (getJob r.1.jobs i).finish_time ≠ -1)
          ∨ ((getJob r.1.jobs i).status = RUNNING ∧ (getJob r.1.jobs i).finish_time = -1
            ∧ r.1.running_job = some i
            ∧ ∃ x, r.2.getLast? = some x ∧ x.running_job = some i
                ∧ (getJob x.jobs i).remaining_aet = 1
                ∧ x.current_time + 1 = r.1.current_time))
      ∧ (∀ x o, r.2.getLast? = some x → x.running_job = some o →
          (getJob x.jobs o).remaining_aet = 1 →
          (getJob r.1.jobs o).status = RUNNING ∧ (getJob r.1.jobs o).remaining_aet = 0
          ∧ (getJob r.1.jobs o).finish_time = -1)
      ∧ (∀ i j, (getJob r.1.jobs i).status = RUNNING → (getJob r.1.jobs j).status = RUNNING →
          i = j)
      ∧ r.1.completed_jobs = (countStatus COMPLETED r.1.jobs : Int)
      ∧ (0 ≤ H → r.1.current_time = H))
    ∧ (generate_jobs 2 [horizonTask] = some horizonGenerated
      ∧ read_actual_execution_times [2] horizonGenerated = some horizonJobs
      ∧ ∃ r, run_mllf_simulation 2 horizonJobs = some r
        ∧ (getJob r.1.jobs 0).remaining_aet = 0
        ∧ (getJob r.1.jobs 0).status = RUNNING
        ∧ (getJob r.1.jobs 0).finish_time = -1
        ∧ r.1.completed_jobs = 0) := by
  refine ⟨?_, by decide, by decide, by decide⟩
  have hinit := pipeline_InitialJobs H tasks aets jobs0 jobs hgen haet
  have hfin := pipeline_finish_unset H tasks aets jobs0 jobs hgen haet
  obtain ⟨r, hr, ⟨hinv, hhor, -, hle, hA, hB⟩, hnot⟩ := simLoop_inv H
    (fun s tr => RunInv s ∧ HorizonInv s ∧ 0 ≤ s.current_time ∧ (0 ≤ H → s.current_time ≤ H)
      ∧ (∀ i, s.running_job = some i → (getJob s.jobs i).remaining_aet = 0 →
          ∃ x, tr.getLast? = some x ∧ x.running_job = some i
            ∧ (getJob x.jobs i).remaining_aet = 1 ∧ x.current_time + 1 = s.current_time)
      ∧ (∀ x o, tr.getLast? = some x → x.running_job = some o →
          (getJob x.jobs o).remaining_aet = 1 →
          s.running_job = some o ∧ (getJob s.jobs o).remaining_aet = 0))
    (by
      rintro s tr ⟨hinv, hhor, ht, hle, -, -⟩ hlt
      obtain ⟨s1, req1, s5, hf⟩ := tick_facts s hinv
      obtain ⟨-, -, -, -, -, -, hhor8⟩ := tick_carry s s1 req1 s5 hf HorizonInv
        (fun lbl x y hx hst _ h => HorizonInv_step lbl x y (by rw [hx]; exact ht) hst h) hhor
      obtain ⟨hlastA, hlastB⟩ := tick_last_unit s s1 req1 s5 hf
      have hlast : (tr ++ [s5]).getLast? = some s5 := by simp
      refine ⟨s5, (tickBoundaries_eq s s1 req1 s5 hf.arr hf.res).2,
        ⟨hf.inv8, hhor8, by rw [hf.time8]; omega, fun _ => by rw [hf.time8]; omega, ?_, ?_⟩,
        hf.time8⟩
      · intro i hi h0
        obtain ⟨h5, h1⟩ := hlastA i hi h0
        exact ⟨s5, hlast, h5, h1, by rw [hf.time8, hf.time5]⟩
      · intro x o hx ho h1
        rw [hlast] at hx
        cases hx
        exact hlastB o ho h1)
    H.toNat (initialState jobs) []
    (by
      refine ⟨initialState_RunInv jobs hinit, initialState_HorizonInv jobs hinit hfin, le_refl _,
        fun h => h, ?_, ?_⟩
      · intro i hi
        cases hi
      · intro x o hx
        cases hx)
    (by
      show H - 0 ≤ (H.toNat : Int)
      have := Int.self_le_toNat H
      omega)
  obtain ⟨hwf, hsi, -, haetinv, hcnt⟩ := hinv
  refine ⟨r, hr, ?_, ?_, ?_, hcnt.1, fun hH => ?_⟩
  · intro i h0
    have hlt : i < r.1.jobs.length := by
      by_contra hge
      rw [getJob_of_ge (not_lt.mp hge)] at h0
      cases h0
    obtain ⟨h1, h2, h3⟩ := hhor i
    have ha := (haetinv i hlt).2
    cases hs : (getJob r.1.jobs i).status with
    | NOT_ARRIVED =>
      have := ha (Or.inl hs)
      omega
    | READY =>
      have := ha (Or.inr hs)
      omega
    | RUNNING =>
      right
      have hocc := (hsi.2 i).mp hs
      exact ⟨rfl, h1 (by rw [hs]; simp), hocc, hA i hocc h0⟩
    | COMPLETED =>
      left
      have := h2 hs
      exact ⟨rfl, this, by omega⟩
    | MISSED =>
      have := h3 hs
      omega
  · intro x o hx ho h1
    obtain ⟨hrun, hz⟩ := hB x o hx ho h1
    have hs : (getJob r.1.jobs o).status = RUNNING := (hsi.2 o).mpr hrun
    exact ⟨hs, hz, (hhor o).1 (by rw [hs]; simp)⟩
  · intro i j hi hj
    have h1 := (hsi.2 i).mp hi
    have h2 := (hsi.2 j).mp hj
    rw [h1] at h2
    exact Option.some.inj h2
  · have := hle hH
    omega

/-- Witness of C34: the single task whose work fills the hyperperiod. -/
theorem completion_at_the_horizon_witness :
    generate_jobs 2 [horizonTask] = some horizonGenerated
    ∧ read_actual_execution_times [2] horizonGenerated = some horizonJobs
    ∧ ∃ r, run_mllf_simulation 2 horizonJobs = some r
      ∧ (∀ i j, (getJob r.1.jobs i).status = RUNNING → (getJob r.1.jobs j).status = RUNNING →
          i = j)
      ∧ r.1.completed_jobs = (countStatus COMPLETED r.1.jobs : Int) := by
  refine ⟨by decide, by decide, ?_⟩
  obtain ⟨r, h1, -, -, h4, h5, -⟩ := (completion_at_the_horizon 2 [horizonTask] [2]
    horizonGenerated horizonJobs (by decide) (by decide)).1
  exact ⟨r, h1, h4, h5⟩

/-! ## The range of the laxity computation in a run -/

/-- In every run on tasks that pass the validation of `read_tasks` (arrival
time and relative deadline not negative, WCET a non-negative `int`), the state
that step 4 of a tick hands to `select_mllf_task_Ta` or to
`calculate_all_laxities`, the state after the completion step, has the laxity
computation in range: a job whose laxity is computed is not past its deadline,
so `absolute_deadline - current_time` lies in `[0, INT_MAX]` and the laxity in
`[-INT_MAX, INT_MAX]`. -/
theorem laxity_in_range_of_run (H : Int) (tasks : List Task) (aets : List Int)
    (jobs0 jobs : List Job) (hgen : generate_jobs H tasks = some jobs0)
    (haet : read_actual_execution_times aets jobs0 = some jobs)
    (hvalid : ∀ t ∈ tasks, 0 ≤ t.arrival_time ∧ 0 ≤ t.deadline)
    (hw : ∀ t ∈ tasks, 0 ≤ t.wcet ∧ t.wcet ≤ INT_MAX) :
    ∃ r bs, RunWithBoundaries H jobs r bs
      ∧ ∀ b ∈ bs, b.1 = completion → LaxityInRange b.2
        ∧ ∀ i, laxityComputed b.2 i →
            0 ≤ (getJob b.2.jobs i).absolute_deadline - b.2.current_time
            ∧ -INT_MAX ≤ laxityNow b.2 i := by
  obtain ⟨r, bs, hrun, hall, -⟩ := run_with_boundaries H tasks aets jobs0 jobs hgen haet
  have hinit := pipeline_InitialJobs H tasks aets jobs0 jobs hgen haet
  have harr := pipeline_arrival_le_deadline H tasks aets jobs0 jobs hgen haet hvalid
  obtain ⟨bs1, hbs1, hinv⟩ := run_boundaries_inv H jobs hinit
    (fun s => StaticInv s ∧ 0 ≤ s.current_time ∧ DeadlineInv advance s)
    (fun b => b.1 = completion →
      StaticInv b.2 ∧ 0 ≤ b.2.current_time ∧ DeadlineInv completion b.2)
    ⟨pipeline_static H tasks aets jobs0 jobs hgen haet hw, le_refl _,
      initialState_DeadlineInv jobs advance hinit harr⟩
    (fun h => by cases h)
    (by
      rintro s s1 req1 s5 - ⟨hst, ht, hd⟩ hf
      obtain ⟨d8, dall⟩ := DeadlineInv_tick s s1 req1 s5 hd hf
      have hs := StaticInv_tick s s1 req1 s5 hf hst
      refine ⟨⟨hs.2.2.2.2.2.2, by rw [hf.time8]; omega, d8⟩, ?_⟩
      intro b hb hl
      have hd2 := dall (completion, completionStep s1) (by simp [tickList])
      simp only [tickList, List.mem_cons, List.mem_singleton, List.not_mem_nil, or_false] at hb
      rcases hb with rfl | rfl | rfl | rfl | rfl | rfl | rfl <;>
        first
        | exact ⟨hs.2.1, by rw [hf.time2]; exact ht, hd2⟩
        | (simp at hl))
  rw [hrun.2.1] at hbs1
  cases hbs1
  refine ⟨r, bs, hrun, ?_⟩
  intro b hb hl
  obtain ⟨hst, ht, hd⟩ := hinv b hb hl
  have hwf := (hall b hb).1
  have key : ∀ i, laxityComputed b.2 i →
      i < b.2.jobs.length ∧ b.2.current_time ≤ (getJob b.2.jobs i).absolute_deadline := by
    intro i hi
    rcases hi with ⟨hq, hready⟩ | ⟨hr, hrun2⟩
    · have hlt : i < b.2.jobs.length := hwf.2.1 i hq
      have := (hd i hlt).2.2.1 hready
      simp only [checkSlack] at this
      exact ⟨hlt, by simpa using this⟩
    · have hlt : i < b.2.jobs.length := hwf.2.2.1 i hr
      have := ((hd i hlt).2.2.2 hrun2).2
      simp only [checkSlack, lateSlack] at this
      exact ⟨hlt, by simpa using this⟩
  have hI : INT_MIN = -2147483648 := rfl
  have hM : INT_MAX = 2147483647 := rfl
  refine ⟨?_, ?_⟩
  · intro i hi
    obtain ⟨hlt, hle⟩ := key i hi
    obtain ⟨-, h0, h1, h2⟩ := hst i hlt
    unfold laxityNow
    refine ⟨?_, ?_, ?_, ?_⟩ <;> omega
  · intro i hi
    obtain ⟨hlt, hle⟩ := key i hi
    obtain ⟨-, h0, h1, h2⟩ := hst i hlt
    unfold laxityNow
    refine ⟨?_, ?_⟩ <;> omega

/-! ## A run in which `D_min - L_a` leaves the range of `int` -/

/-- C2 (the code at the failing input).  The task file `0 8 6 6`,
`5 8 2147483647 2` is read without error, the hyperperiod is 8, two jobs are
generated and the AET file `6 5` is accepted.  At tick 5 of the run job 1
arrives with laxity `7 - 5 - INT_MAX = -2147483645` and preempts job 0, which
is Ready with laxity 0 and deadline 6, so `Dmin = 6` lies before the deadline 7
of job 1.  The reference quantum is `min (max (Dmin - La) 1) remaining_aet = 5`,
`Dmin - La` being 2147483651; the `int` subtraction of the program overflows
to -2147483645, the clamp makes it 1, and the state logged at tick 5 carries
the quantum 1.  The logged state differs from the state of the call only in
the quantum and the start times of job 1, which `calculate_mllf_quantum` does
not read. -/
theorem calculate_mllf_quantum_overflows_in_run :
    read_tasks hugeWcetFile = some (hugeWcetTasks, false)
    ∧ calculate_hyperperiod hugeWcetTasks = some 8
    ∧ generate_jobs 8 hugeWcetTasks = some hugeWcetGenerated
    ∧ read_actual_execution_times [6, 5] hugeWcetGenerated = some hugeWcetJobs
    ∧ ∃ r, run_mllf_simulation 8 hugeWcetJobs = some r ∧ ∃ x, r.2[5]? = some x
      ∧ x.running_job = some 1
      ∧ (getJob x.jobs 1).remaining_aet = 5
      ∧ (getJob x.jobs 1).absolute_deadline = 7
      ∧ (getJob x.jobs 1).calculated_laxity = -2147483645
      ∧ find_earliest_deadline_higher_laxity_job_deadline x (some 1) = 6
      ∧ find_earliest_deadline_higher_laxity_job_deadline x (some 1)
          - (getJob x.jobs 1).calculated_laxity = 2147483651
      ∧ quantum_reference x 1 = 5
      ∧ calculate_mllf_quantum x (some 1) = 1
      ∧ x.current_job_quantum_remaining = 1
      ∧ calculate_mllf_quantum x (some 1) ≠ quantum_reference x 1 := by
  decide

/-! ## The deadline check, as the specification words it -/

/-- The miss counter after the deadline check: one more for the occupant when
the running-job test marks it, and one more for every queue entry whose
deadline has passed. -/
theorem check_deadline_misses_counter (s : SimulationState) (hwf : WF s) :
    (check_deadline_misses s).deadline_misses
      = s.deadline_misses
        + (((match s.running_job with
              | some r => if runningMissed s r then [r] else []
              | none => [])
            ++ s.ready_queue.filter (fun x => decide (deadlinePassed s x))).length : Int) := by
  have hdef : check_deadline_misses s
      = checkQueueMisses (s.current_time + 1)
          (checkRunningMiss (s.current_time + 1) s).ready_queue.length
          (checkRunningMiss (s.current_time + 1) s) := rfl
  rcases checkRunningMiss_cases (s.current_time + 1) s with h | ⟨r, hr, hrun, hd, ha, h⟩
  · rw [h] at hdef
    obtain ⟨jobs1, he, -, -⟩ := checkQueueMisses_spec (s.current_time + 1) s.ready_queue [] s
      (by simp) (by simpa using hwf.1) hwf.2.1
    have hno : ∀ r, ¬ runningMissed s r := by
      rintro r ⟨hr, hrun, hd, ha⟩
      have : checkRunningMiss (s.current_time + 1) s ≠ s := by
        unfold checkRunningMiss
        simp only [hr, hrun, hd, ha, and_self, if_true]
        intro hcon
        have := congrArg SimulationState.running_job hcon
        simp only at this
        rw [hr] at this
        cases this
      exact this h
    have hocc : (match s.running_job with
              | some r => if runningMissed s r then [r] else []
              | none => []) = [] := by
      cases hrj : s.running_job with
      | none => rfl
      | some r => simp only [if_neg (hno r)]
    rw [hdef, he, hocc]
    simp only [List.nil_append, deadlinePassed]
  · rw [h] at hdef
    have hdl : ∀ x, (getJob (setStatus s.jobs r MISSED) x).absolute_deadline
        = (getJob s.jobs x).absolute_deadline := by
      intro x; rw [getJob_setStatus]; split_ifs with h
      · rw [h.1]
      · rfl
    obtain ⟨jobs1, he, -, -⟩ := checkQueueMisses_spec (s.current_time + 1) s.ready_queue []
      { s with jobs := setStatus s.jobs r MISSED, deadline_misses := s.deadline_misses + 1,
               running_job := none, current_job_quantum_remaining := 0 }
      (by simp) (by simpa using hwf.1)
      (by intro x hx
          show x < (setStatus s.jobs r MISSED).length
          rw [setStatus_length]; exact hwf.2.1 x hx)
    have hocc : (match s.running_job with
              | some r => if runningMissed s r then [r] else []
              | none => []) = [r] := by
      rw [hr]
      simp only [if_pos (show runningMissed s r from ⟨hr, hrun, hd, ha⟩)]
    rw [hdef, he, hocc]
    simp only [hdl, deadlinePassed, List.length_append, List.length_singleton, List.length_cons,
      List.length_nil, Nat.cast_add, Nat.cast_one]
    ring

/-- C5 (counterexample): on `finishedReadyState` every ready-queue entry has
status READY and there is no occupant; the queued job has `remaining_aet = 0`,
so the condition `missDue` does not hold for it, yet `check_deadline_misses`
marks it MISSED, counts a miss and takes it out of the queue: the queue loop
tests the deadline only. -/
theorem check_deadline_misses_marks_finished_ready_job :
    (∀ i ∈ finishedReadyState.ready_queue, (getJob finishedReadyState.jobs i).status = READY)
    ∧ finishedReadyState.running_job = none
    ∧ (getJob finishedReadyState.jobs 0).remaining_aet = 0
    ∧ markedMissed finishedReadyState 0
    ∧ ¬ missDue finishedReadyState 0
    ∧ ¬ (markedMissed finishedReadyState 0 ↔ missDue finishedReadyState 0)
    ∧ (check_deadline_misses finishedReadyState).deadline_misses
        = finishedReadyState.deadline_misses + 1
    ∧ (check_deadline_misses finishedReadyState).ready_queue = [] := by
  decide

/-- C5 (amended): on a well-formed state (valid job pointers, no entry twice
in the ready queue, the clock and the miss counter non-negative and far enough
below `INT_MAX` for `current_time + 1` and the counter not to overflow, as in
every state that a run hands to the check, `deadline_check_domain_of_run`) in
which the occupant (if any) has status RUNNING and every ready-queue entry has
status READY, a job is marked MISSED by `check_deadline_misses` if and only if
it is the Running job with `current_time + 1 > absolute_deadline` and
`remaining_aet > 0`, or a queued Ready job with
`current_time + 1 > absolute_deadline` (the queue loop does not look at
`remaining_aet`); a job so marked changes in its status only and no other job
changes; the miss counter grows by exactly the number of jobs so marked; the
marked jobs leave the ready queue, whose other entries keep their order, and
the running slot, which is emptied with the quantum set to 0 when the occupant
is marked and left alone otherwise.  Where every queued job has
`remaining_aet > 0` the marked jobs are those of `missDue`. -/
theorem check_deadline_misses_effect (s : SimulationState) (hwf : WF s)
    (hnow : 0 ≤ s.current_time ∧ s.current_time < INT_MAX)
    (hdm : 0 ≤ s.deadline_misses
      ∧ s.deadline_misses + ((s.ready_queue.length + 1 : Nat) : Int) ≤ INT_MAX)
    (hq : ∀ i ∈ s.ready_queue, (getJob s.jobs i).status = READY)
    (hr : ∀ r, s.running_job = some r → (getJob s.jobs r).status = RUNNING) :
    (castInt (s.current_time + 1) = s.current_time + 1
      ∧ castInt (check_deadline_misses s).deadline_misses
          = (check_deadline_misses s).deadline_misses)
    ∧ (∀ i, markedMissed s i ↔ (runningMissed s i ∨ (i ∈ s.ready_queue ∧ deadlinePassed s i)))
    ∧ (∀ i, getJob (check_deadline_misses s).jobs i
        = if markedMissed s i then { getJob s.jobs i with status := MISSED } else getJob s.jobs i)
    ∧ (check_deadline_misses s).deadline_misses
        = s.deadline_misses
          + (((List.range s.jobs.length).filter fun i => decide (markedMissed s i)).length : Int)
    ∧ (check_deadline_misses s).ready_queue
        = s.ready_queue.filter (fun i => decide (¬ markedMissed s i))
    ∧ (∀ r, s.running_job = some r → markedMissed s r →
        (check_deadline_misses s).running_job = none
        ∧ (check_deadline_misses s).current_job_quantum_remaining = 0)
    ∧ ((∀ r, s.running_job = some r → ¬ markedMissed s r) →
        (check_deadline_misses s).running_job = s.running_job
        ∧ (check_deadline_misses s).current_job_quantum_remaining
            = s.current_job_quantum_remaining)
    ∧ ((∀ i ∈ s.ready_queue, 0 < (getJob s.jobs i).remaining_aet) →
        ∀ i, markedMissed s i ↔ missDue s i) := by
  obtain ⟨jobs1, rj, q, dm, he, -, hrj, hjobs⟩ := check_deadline_misses_spec s hwf
  have hjobs2 : ∀ x, getJob (check_deadline_misses s).jobs x
      = if (x ∈ s.ready_queue ∧ deadlinePassed s x) ∨ runningMissed s x
        then { getJob s.jobs x with status := MISSED } else getJob s.jobs x := by
    intro x
    rw [he]
    exact hjobs x
  have hnotmissed : ∀ i, (i ∈ s.ready_queue ∧ deadlinePassed s i) ∨ runningMissed s i →
      (getJob s.jobs i).status ≠ MISSED := by
    intro i hi hcon
    rcases hi with ⟨hi, -⟩ | ⟨hi, -⟩
    · rw [hq i hi] at hcon; cases hcon
    · rw [hr i hi] at hcon; cases hcon
  have hmark : ∀ i, markedMissed s i
      ↔ (runningMissed s i ∨ (i ∈ s.ready_queue ∧ deadlinePassed s i)) := by
    intro i
    unfold markedMissed
    rw [hjobs2 i]
    by_cases hc : (i ∈ s.ready_queue ∧ deadlinePassed s i) ∨ runningMissed s i
    · rw [if_pos hc]
      exact ⟨fun _ => hc.symm, fun _ => ⟨hnotmissed i hc, rfl⟩⟩
    · rw [if_neg hc]
      constructor
      · rintro ⟨h1, h2⟩
        exact absurd h2 h1
      · intro h
        exact absurd h.symm hc
  have hfq : (check_deadline_misses s).ready_queue
      = s.ready_queue.filter (fun x => decide (¬ deadlinePassed s x)) := by rw [he]
  have hocc : ∀ r, s.running_job = some r → ¬ r ∈ s.ready_queue := by
    intro r hrr hmem
    have h1 := hr r hrr
    rw [hq r hmem] at h1
    cases h1
  have hrangeDm : castInt (check_deadline_misses s).deadline_misses
      = (check_deadline_misses s).deadline_misses := by
    have hc := check_deadline_misses_counter s hwf
    have h1 : ((match s.running_job with
              | some r => if runningMissed s r then [r] else []
              | none => []) : List Nat).length ≤ 1 := by
      cases s.running_job with
      | none => simp
      | some r => by_cases hm : runningMissed s r <;> simp [hm]
    have h2 := List.length_filter_le (fun x => decide (deadlinePassed s x)) s.ready_queue
    rw [List.length_append] at hc
    push_cast at hc hdm
    have hM : INT_MAX = 2147483647 := rfl
    apply castInt_of_range <;> omega
  have hrangeNow : castInt (s.current_time + 1) = s.current_time + 1 := by
    have hM : INT_MAX = 2147483647 := rfl
    apply castInt_of_range <;> omega
  refine ⟨⟨hrangeNow, hrangeDm⟩, hmark, ?_, ?_, ?_, ?_, ?_, ?_⟩
  · intro i
    rw [hjobs2 i]
    by_cases hc : (i ∈ s.ready_queue ∧ deadlinePassed s i) ∨ runningMissed s i
    · rw [if_pos hc, if_pos ((hmark i).mpr hc.symm)]
    · rw [if_neg hc, if_neg (fun h => hc ((hmark i).mp h).symm)]
  · rw [check_deadline_misses_counter s hwf]
    congr 2
    apply List.Perm.length_eq
    apply (List.perm_ext_iff_of_nodup ?_ ((List.nodup_range _).filter _)).mpr
    · intro a
      rw [List.mem_filter, List.mem_range, decide_eq_true_iff, hmark a, List.mem_append,
        List.mem_filter, decide_eq_true_iff]
      have hL : a ∈ (match s.running_job with
              | some r => if runningMissed s r then [r] else []
              | none => []) ↔ runningMissed s a := by
        cases hrj : s.running_job with
        | none =>
          simp only [List.not_mem_nil, false_iff]
          rintro ⟨h1, -⟩
          rw [hrj] at h1
          cases h1
        | some r =>
          by_cases hm : runningMissed s r
          · simp only [if_pos hm, List.mem_singleton]
            constructor
            · intro h; rw [h]; exact hm
            · rintro ⟨h1, -⟩
              rw [hrj] at h1
              cases h1
              rfl
          · simp only [if_neg hm, List.not_mem_nil, false_iff]
            intro h
            have h1 := h.1
            rw [hrj] at h1
            cases h1
            exact hm h
      rw [hL]
      constructor
      · intro h
        refine ⟨?_, h⟩
        rcases h with h | h
        · exact hwf.2.2.1 a h.1
        · exact hwf.2.1 a h.1
      · exact fun h => h.2
    · apply List.Nodup.append
      · cases hrj : s.running_job with
        | none => exact List.nodup_nil
        | some r =>
          by_cases hm : runningMissed s r
          · simp only [if_pos hm]
            exact List.nodup_singleton r
          · simp only [if_neg hm]
            exact List.nodup_nil
      · exact hwf.1.filter _
      · intro a h1 h2
        have ha : s.running_job = some a := by
          cases hrj : s.running_job with
          | none => rw [hrj] at h1; cases h1
          | some r =>
            rw [hrj] at h1
            by_cases hm : runningMissed s r
            · simp only [if_pos hm, List.mem_singleton] at h1
              rw [h1]
            · simp only [if_neg hm, List.not_mem_nil] at h1
        exact hocc a ha (List.mem_filter.mp h2).1
  · rw [hfq]
    apply List.filter_congr
    intro x hx
    have : markedMissed s x ↔ deadlinePassed s x := by
      rw [hmark x]
      constructor
      · rintro (h | h)
        · exact absurd hx (hocc x h.1)
        · exact h.2
      · exact fun h => Or.inr ⟨hx, h⟩
    simp only [this]
  · intro r hrr hm
    have hrm : runningMissed s r := by
      rcases (hmark r).mp hm with h | h
      · exact h
      · exact absurd h.1 (hocc r hrr)
    rcases hrj with ⟨-, hno⟩ | ⟨h1, -⟩
    · exact absurd ⟨r, hrm⟩ hno
    · have hrun : (check_deadline_misses s).running_job = none := by rw [he]; exact h1
      refine ⟨hrun, ?_⟩
      have hdef : check_deadline_misses s
          = checkQueueMisses (s.current_time + 1)
              (checkRunningMiss (s.current_time + 1) s).ready_queue.length
              (checkRunningMiss (s.current_time + 1) s) := rfl
      rw [hdef, (checkQueueMisses_frame _ _ _).2]
      unfold checkRunningMiss
      simp only [hrr, hrm.2.1, hrm.2.2.1, hrm.2.2.2, and_self, if_true]
  · intro hno
    have hnone : ¬ ∃ r, runningMissed s r := by
      rintro ⟨r, h⟩
      exact hno r h.1 ((hmark r).mpr (Or.inl h))
    have hdef : check_deadline_misses s
        = checkQueueMisses (s.current_time + 1)
            (checkRunningMiss (s.current_time + 1) s).ready_queue.length
            (checkRunningMiss (s.current_time + 1) s) := rfl
    have hsame : checkRunningMiss (s.current_time + 1) s = s := by
      rcases checkRunningMiss_cases (s.current_time + 1) s with h | ⟨r, h1, h2, h3, h4, -⟩
      · exact h
      · exact absurd ⟨r, h1, h2, h3, h4⟩ hnone
    rw [hdef, hsame]
    exact checkQueueMisses_frame _ _ _
  · intro hpos i
    rw [hmark i]
    unfold missDue runningMissed deadlinePassed
    constructor
    · rintro (⟨h1, h2, h3, h4⟩ | ⟨h1, h2⟩)
      · exact ⟨Or.inl ⟨h1, h2⟩, h3, h4⟩
      · exact ⟨Or.inr ⟨h1, hq i h1⟩, h2, hpos i h1⟩
    · rintro ⟨(⟨h1, h2⟩ | ⟨h1, h2⟩), h3, h4⟩
      · exact Or.inl ⟨h1, h2, h3, h4⟩
      · exact Or.inr ⟨h1, h3⟩

/-- Witness of C5 (amended) on `missState`: the occupant and the first queue
entry are past their deadline 1 and are marked, the second queue entry stays;
the counter grows by 2. -/
theorem check_deadline_misses_effect_witness :
    WF missState
    ∧ (0 ≤ missState.current_time ∧ missState.current_time < INT_MAX)
    ∧ (0 ≤ missState.deadline_misses
      ∧ missState.deadline_misses + ((missState.ready_queue.length + 1 : Nat) : Int) ≤ INT_MAX)
    ∧ (∀ i ∈ missState.ready_queue, (getJob missState.jobs i).status = READY)
    ∧ (∀ r, missState.running_job = some r → (getJob missState.jobs r).status = RUNNING)
    ∧ (check_deadline_misses missState).deadline_misses
        = missState.deadline_misses
          + (((List.range missState.jobs.length).filter
              fun i => decide (markedMissed missState i)).length : Int)
    ∧ (check_deadline_misses missState).deadline_misses = 2
    ∧ (check_deadline_misses missState).ready_queue = [2]
    ∧ (check_deadline_misses missState).running_job = none := by
  have hwf : WF missState := by
    refine ⟨by decide, by decide, ?_, by decide⟩
    intro r hr
    have : r = 0 := by simpa [missState] using hr.symm
    subst this
    decide
  have hrun : ∀ r, missState.running_job = some r → (getJob missState.jobs r).status = RUNNING := by
    intro r hr
    have : r = 0 := by simpa [missState] using hr.symm
    subst this
    decide
  exact ⟨hwf, by decide, by decide, by decide, hrun,
    (check_deadline_misses_effect missState hwf (by decide) (by decide) (by decide)
      hrun).2.2.2.1,
    by decide, by decide, by decide⟩

/-- In every run over a hyperperiod within `int`, the state that step 7 of a
tick hands to `check_deadline_misses`, the state after the execution step, is
well formed, has every ready-queue entry READY with work left and the occupant
RUNNING, and has its clock and its miss counter non-negative and so far below
`INT_MAX` that neither `current_time + 1` nor the counter can overflow. -/
theorem deadline_check_domain_of_run (H : Int) (tasks : List Task) (aets : List Int)
    (jobs0 jobs : List Job) (hgen : generate_jobs H tasks = some jobs0)
    (haet : read_actual_execution_times aets jobs0 = some jobs) (hH : H ≤ INT_MAX) :
    ∃ r bs, RunWithBoundaries H jobs r bs
      ∧ ∀ b ∈ bs, b.1 = execution →
          WF b.2
          ∧ (0 ≤ b.2.current_time ∧ b.2.current_time < INT_MAX)
          ∧ (0 ≤ b.2.deadline_misses
            ∧ b.2.deadline_misses + ((b.2.ready_queue.length + 1 : Nat) : Int) ≤ INT_MAX)
          ∧ (∀ i ∈ b.2.ready_queue, (getJob b.2.jobs i).status = READY)
          ∧ (∀ o, b.2.running_job = some o → (getJob b.2.jobs o).status = RUNNING)
          ∧ (∀ i ∈ b.2.ready_queue, 0 < (getJob b.2.jobs i).remaining_aet) := by
  obtain ⟨r, bs, hrun, hall, -⟩ := run_with_boundaries H tasks aets jobs0 jobs hgen haet
  have hinit := pipeline_InitialJobs H tasks aets jobs0 jobs hgen haet
  obtain ⟨bs1, hbs1, htime⟩ := boundaryLoop_inv H (fun s => RunInv s ∧ 0 ≤ s.current_time)
    (fun b => b.1 = execution → 0 ≤ b.2.current_time ∧ b.2.current_time < H)
    (by
      rintro s ⟨hinv, ht⟩ hlt
      obtain ⟨s1, req1, s5, hf⟩ := tick_facts s hinv
      refine ⟨_, _, (tickBoundaries_eq s s1 req1 s5 hf.arr hf.res).1,
        ⟨hf.inv8, by rw [hf.time8]; omega⟩, hf.time8, ?_⟩
      intro b hb hl
      simp only [tickList, List.mem_cons, List.mem_singleton, List.not_mem_nil, or_false] at hb
      have h6 : (execute_running_job s5).current_time = s.current_time := by
        rw [(execute_running_job_frame s5).2.2.1, hf.time5]
      rcases hb with rfl | rfl | rfl | rfl | rfl | rfl | rfl <;>
        first
        | exact ⟨by rw [h6]; exact ht, by rw [h6]; exact hlt⟩
        | (simp at hl))
    H.toNat (initialState jobs) [(start, initialState jobs)]
    ⟨initialState_RunInv jobs hinit, le_refl _⟩
    (by
      show H - 0 ≤ (H.toNat : Int)
      have := Int.self_le_toNat H
      omega)
    (by
      intro b hb hl
      rw [List.mem_singleton.mp hb] at hl
      cases hl)
  have hbs2 : run_boundaries H jobs = some bs1 := hbs1
  rw [hrun.2.1] at hbs2
  cases hbs2
  refine ⟨r, bs, hrun, ?_⟩
  intro b hb hl
  obtain ⟨hwf, hsi, -, haetinv, hcount⟩ := hall b hb
  obtain ⟨ht0, htH⟩ := htime b hb hl
  have hq : b.2.ready_queue.length ≤ b.2.jobs.length := nodup_length_le hwf.1 hwf.2.1
  have hm : countStatus MISSED b.2.jobs ≤ b.2.jobs.length := by
    have := countStatus_total b.2.jobs
    omega
  have hcap : b.2.jobs.length ≤ MAX_JOBS := hwf.2.2.2
  have hM : INT_MAX = 2147483647 := rfl
  have hJ : MAX_JOBS = 1000 := rfl
  have hdm := hcount.2
  refine ⟨hwf, ⟨ht0, by omega⟩, ⟨by rw [hdm]; positivity, ?_⟩, fun i hi => (hsi.1 i).mpr hi,
    fun o ho => (hsi.2 o).mpr ho, ?_⟩
  · rw [hdm]
    push_cast
    omega
  · intro i hi
    have := (haetinv i (hwf.2.1 i hi)).2 (Or.inr ((hsi.1 i).mpr hi))
    omega

/-! ## The laxity of jobs that are neither Ready nor Running -/

/-- A step that leaves a job record in a terminal status has not written its
laxity, and has found the job terminal, Ready or Running. -/
theorem JobStep_terminal_laxity {lbl : SubStep} {x y : SimulationState} {i : Nat}
    (h : JobStep lbl x y i) (ht : terminal (getJob y.jobs i)) :
    (getJob y.jobs i).calculated_laxity = (getJob x.jobs i).calculated_laxity
    ∧ (terminal (getJob x.jobs i) ∨ (getJob x.jobs i).status = READY
        ∨ (getJob x.jobs i).status = RUNNING) := by
  unfold terminal at ht ⊢
  rcases h with h | ⟨-, -, -, h⟩ | ⟨-, h1, -, -, h⟩ | ⟨-, h1, h⟩ | ⟨-, -, -, h⟩
    | ⟨-, -, -, -, -, h⟩ | ⟨-, h1, -, h⟩ | ⟨-, h1, -, -, h⟩
  · rw [h] at ht ⊢
    exact ⟨rfl, Or.inl ht⟩
  · rw [h] at ht
    rcases ht with ht | ht <;> cases ht
  · rw [h]
    exact ⟨rfl, Or.inr (Or.inr h1)⟩
  · rw [h] at ht
    simp only [setLaxity] at ht
    rcases h1 with h1 | h1 <;> rw [h1] at ht <;> rcases ht with ht | ht <;> cases ht
  · rw [h] at ht
    simp only [startRecord] at ht
    rcases ht with ht | ht <;> cases ht
  · rw [h] at ht
    rcases ht with ht | ht <;> cases ht
  · rw [h] at ht
    simp only [executeRecord] at ht
    rw [h1] at ht
    rcases ht with ht | ht <;> cases ht
  · rw [h]
    exact ⟨rfl, Or.inr h1⟩

/-- C19 (counterexample): in the scenario run, at the point where tick 2 is
logged, job 0 has status COMPLETED and its `calculated_laxity` is 2, the value
computed while it was running, not `INT_MAX`; and the run of the task
(arrival 0, period 4, wcet 4, deadline 2) with AET 4 ends with its job MISSED
and `calculated_laxity = -2`, the value computed at tick 2, where it was
running. -/
theorem terminal_job_keeps_laxity :
    (∃ r, scenarioRun = some r ∧ ∃ x, r.2[2]? = some x
      ∧ (getJob x.jobs 0).status = COMPLETED
      ∧ (getJob x.jobs 0).calculated_laxity = 2
      ∧ (getJob x.jobs 0).calculated_laxity ≠ INT_MAX)
    ∧ generate_jobs 4 [overrunTask] = some overrunGenerated
    ∧ read_actual_execution_times [4] overrunGenerated = some overrunJobs
    ∧ ∃ r, run_mllf_simulation 4 overrunJobs = some r
      ∧ (∃ x, r.2[2]? = some x ∧ (getJob x.jobs 0).status = RUNNING
          ∧ (getJob x.jobs 0).calculated_laxity = -2)
      ∧ (getJob r.1.jobs 0).status = MISSED
      ∧ (getJob r.1.jobs 0).calculated_laxity = -2
      ∧ (getJob r.1.jobs 0).calculated_laxity ≠ INT_MAX := by
  decide

/-- C19 (amended): in every run, at every sub-step boundary and so at every
logged tick, every job whose status is NOT_ARRIVED has
`calculated_laxity = INT_MAX`; and a job that is COMPLETED or MISSED at a
boundary has the `calculated_laxity` that it had at the boundary before, where
it was COMPLETED or MISSED already or else READY or RUNNING: the steps that
complete a job or mark it missed do not write the laxity and nothing writes
it afterwards, so a COMPLETED or MISSED job keeps the laxity last computed for
it while it was READY or RUNNING. -/
theorem laxity_of_inactive_jobs (H : Int) (tasks : List Task) (aets : List Int)
    (jobs0 jobs : List Job) (hgen : generate_jobs H tasks = some jobs0)
    (haet : read_actual_execution_times aets jobs0 = some jobs) :
    ∃ r bs, RunWithBoundaries H jobs r bs
      ∧ (∀ b ∈ bs, ∀ i, (getJob b.2.jobs i).status = NOT_ARRIVED →
          (getJob b.2.jobs i).calculated_laxity = INT_MAX)
      ∧ (∀ x ∈ r.2, ∀ i, (getJob x.jobs i).status = NOT_ARRIVED →
          (getJob x.jobs i).calculated_laxity = INT_MAX)
      ∧ List.Chain' (fun a b => ∀ i, terminal (getJob b.2.jobs i) →
          (getJob b.2.jobs i).calculated_laxity = (getJob a.2.jobs i).calculated_laxity
          ∧ (terminal (getJob a.2.jobs i) ∨ (getJob a.2.jobs i).status = READY
              ∨ (getJob a.2.jobs i).status = RUNNING)) bs := by
  obtain ⟨r, bs, hrun, hall, hchain⟩ := run_with_boundaries H tasks aets jobs0 jobs hgen haet
  refine ⟨r, bs, hrun, fun b hb => (hall b hb).2.2.1, ?_,
    hchain.imp (fun _ _ h i ht => JobStep_terminal_laxity (h.1 i) ht)⟩
  intro x hx
  rw [hrun.2.2.2.2] at hx
  unfold decisionStates at hx
  obtain ⟨b, hb, rfl⟩ := List.mem_map.mp hx
  exact (hall b (List.mem_filter.mp hb).1).2.2.1

/-- Witness of C19 (amended): the scenario of section 8 (three generated jobs,
AET 2 each, hyperperiod 8). -/
theorem laxity_of_inactive_jobs_witness :
    generate_jobs 8 scenarioTasks = some scenarioGenerated
    ∧ read_actual_execution_times [2, 2, 2] scenarioGenerated = some scenarioJobs
    ∧ ∃ r bs, RunWithBoundaries 8 scenarioJobs r bs
      ∧ (∀ b ∈ bs, ∀ i, (getJob b.2.jobs i).status = NOT_ARRIVED →
          (getJob b.2.jobs i).calculated_laxity = INT_MAX)
      ∧ (∀ x ∈ r.2, ∀ i, (getJob x.jobs i).status = NOT_ARRIVED →
          (getJob x.jobs i).calculated_laxity = INT_MAX)
      ∧ List.Chain' (fun a b => ∀ i, terminal (getJob b.2.jobs i) →
          (getJob b.2.jobs i).calculated_laxity = (getJob a.2.jobs i).calculated_laxity
          ∧ (terminal (getJob a.2.jobs i) ∨ (getJob a.2.jobs i).status = READY
              ∨ (getJob a.2.jobs i).status = RUNNING)) bs :=
  ⟨by decide, by decide,
    laxity_of_inactive_jobs 8 scenarioTasks [2, 2, 2] scenarioGenerated scenarioJobs
      (by decide) (by decide)⟩

end MLLF
